import Mathlib

/-!
# APCu user cache core (`apc_cache.c`): shallow embedding

Modelling conventions.

* A chain (`slots[s]`, `header->gc`) is the list of entries reached by following `next`;
  a cursor `apc_cache_entry_t **` is a position in that list.
* `zend_long`, `time_t` and `int32_t` quantities are `Int`; arithmetic on them is assumed not
  to overflow 64 bits (signed overflow is undefined in C), only the narrowing of a
  `zend_long` to the `int32_t` ttl parameter of `apc_cache_store` is explicit.
* The lock always is acquired: operations run one after the other.
* The two clocks are inputs: `t` is `apc_time()` and `now` is `time(0)`.
* Values are trees: no two places of a value share a node, so the `copied` identity map of
  the copier never answers and is left out.
-/

namespace Apcu

/-! ## Keys -/

/-- A `zend_string`: cached hash `h` and bytes `val` (`len` is the length of `val`). -/
structure zend_string where
  h : Nat
  val : List Nat
deriving DecidableEq, Repr

def ZSTR_HASH (s : zend_string) : Nat := s.h

def ZSTR_LEN (s : zend_string) : Nat := s.val.length

def ZSTR_VAL (s : zend_string) : List Nat := s.val

/-- C `memcmp` on the first `n` bytes: difference of the first pair of unequal bytes, else 0.
Callers compare the lengths first, so both blocks hold `n` bytes. -/
def memcmp : List Nat → List Nat → Nat → Int
  | _, _, 0 => 0
  | a :: as, b :: bs, n + 1 => if a = b then memcmp as bs n else (a : Int) - (b : Int)
  | _, _, _ + 1 => 0

/-- The chain match of `apc_cache.c`: hash, length and bytes of the entry key `ek` against
the hash `h` and the looked-up `key`. -/
def key_match (ek : zend_string) (h : Nat) (key : zend_string) : Bool :=
  (ZSTR_HASH ek == h) && (ZSTR_LEN ek == ZSTR_LEN key) &&
    (memcmp (ZSTR_VAL ek) (ZSTR_VAL key) (ZSTR_LEN key) == 0)

/-! ## Values -/

/-- The type tags of a `zval` that the cache looks at. -/
inductive zend_type where
  | IS_UNDEF | IS_NULL | IS_FALSE | IS_TRUE | IS_LONG | IS_DOUBLE | IS_STRING
  | IS_ARRAY | IS_OBJECT | IS_RESOURCE | IS_REFERENCE
deriving DecidableEq, Repr

mutual
/-- A `zval`. `serial ty s` is the stored form of an array or object that went through a
serializer: a string payload `s` carrying the type tag `ty` of the original. `object o` is a
caller-owned object, opaque to the cache. -/
inductive zval where
  | undef
  | null
  | false_
  | true_
  | long (n : Int)
  | double (d : Int)
  | resource (r : Nat)
  | string (s : List Nat)
  | array (ht : HashTable)
  | object (o : Nat)
  | reference (refcount : Nat) (v : zval)
  | serial (ty : zend_type) (s : List Nat)
/-- A `HashTable`: the `PACKED` flag, the metadata words the copier reads or writes, and the
`nNumUsed` buckets of `arData`. -/
inductive HashTable where
  | mk (packed : Bool) (nTableSize nTableMask nNumOfElements nNextFreeElement
      nInternalPointer : Nat) (arData : Buckets)
/-- The used buckets of `arData`, each with `h`, `key` and `val`. -/
inductive Buckets where
  | nil
  | cons (h : Nat) (key : Option (List Nat)) (val : zval) (rest : Buckets)
end

def Z_TYPE : zval → zend_type
  | .undef => .IS_UNDEF
  | .null => .IS_NULL
  | .false_ => .IS_FALSE
  | .true_ => .IS_TRUE
  | .long _ => .IS_LONG
  | .double _ => .IS_DOUBLE
  | .resource _ => .IS_RESOURCE
  | .string _ => .IS_STRING
  | .array _ => .IS_ARRAY
  | .object _ => .IS_OBJECT
  | .reference _ _ => .IS_REFERENCE
  | .serial ty _ => ty

def Buckets.length : Buckets → Nat
  | .nil => 0
  | .cons _ _ _ rest => rest.length + 1

def HashTable.packed : HashTable → Bool
  | .mk p _ _ _ _ _ _ => p

def HashTable.nTableSize : HashTable → Nat
  | .mk _ n _ _ _ _ _ => n

def HashTable.nTableMask : HashTable → Nat
  | .mk _ _ n _ _ _ _ => n

def HashTable.nNumOfElements : HashTable → Nat
  | .mk _ _ _ n _ _ _ => n

def HashTable.nNextFreeElement : HashTable → Nat
  | .mk _ _ _ _ n _ _ => n

def HashTable.nInternalPointer : HashTable → Nat
  | .mk _ _ _ _ _ n _ => n

def HashTable.arData : HashTable → Buckets
  | .mk _ _ _ _ _ _ b => b

def HashTable.nNumUsed (ht : HashTable) : Nat := ht.arData.length

/-! ## Pools, allocator, serializer -/

/-- Modelled from the spec: the Pool of §2 (`apc_pool`, not in this file), a bump allocator
carved from the SMA and destroyed as a unit. `addr` identifies the pool, `size` is what
`apc_pool_size` reports (counted in allocation requests served) and `avail` is the number of
further requests the SMA will serve before it reports out of memory. -/
structure apc_pool where
  addr : Nat
  size : Nat
  avail : Nat
deriving DecidableEq, Repr

/-- Modelled from the spec: `apc_pool_alloc`, one request to the pool; `none` is `NULL`. -/
def apc_pool_alloc (p : apc_pool) : Option apc_pool :=
  if p.avail = 0 then none else some { p with size := p.size + 1, avail := p.avail - 1 }

def apc_pool_size (p : apc_pool) : Nat := p.size

/-- Modelled from the spec: the SMA of §2 (`apc_sma_t`, not in this file). `size` is the size
of the shared region, `brk` the address the next pool gets, and `destroyed` records the pools
handed back through `apc_pool_destroy`, most recent first. What the allocator reports as
free memory is an input of the operation that asks. -/
structure apc_sma_t where
  size : Nat
  brk : Nat
  destroyed : List Nat
deriving DecidableEq, Repr

/-- Modelled from the spec: `apc_pool_destroy(pool, sma)`. -/
def apc_pool_destroy (pool : apc_pool) (sma : apc_sma_t) : apc_sma_t :=
  { sma with destroyed := pool.addr :: sma.destroyed }

/-- Modelled from the spec: `apc_pool_create(type, sma)`. The input `grant` is `none` when the
SMA cannot serve the pool and `some n` when it will serve `n` requests of the new pool. -/
def apc_pool_create (sma : apc_sma_t) (grant : Option Nat) : Option apc_pool × apc_sma_t :=
  match grant with
  | none => (none, sma)
  | some n => (some { addr := sma.brk, size := 0, avail := n }, { sma with brk := sma.brk + 1 })

/-- What a serializer call gives back: the encoded bytes (`none` when it returns 0) and
whether it left an exception pending in `EG(exception)`. -/
structure serialize_result where
  buf : Option (List Nat)
  exception : Bool

/-- An `apc_serializer_t`: the `serialize` and `unserialize` functions of a serializer. -/
structure apc_serializer_t where
  serialize : zval → serialize_result
  unserialize : List Nat → Option zval

/-! ## Entries, header, cache -/

structure apc_cache_entry_t where
  key : zend_string
  val : zval
  ttl : Int
  ref_count : Int
  nhits : Int
  ctime : Int
  mtime : Int
  dtime : Int
  atime : Int
  mem_size : Int
  pool : apc_pool

structure apc_cache_slam_key_t where
  hash : Nat
  len : Nat
  mtime : Int
  owner : Nat
deriving DecidableEq, Repr

structure apc_cache_header_t where
  nhits : Int
  nmisses : Int
  ninserts : Int
  nexpunges : Int
  nentries : Int
  mem_size : Int
  stime : Int
  state : Nat
  lastkey : apc_cache_slam_key_t
  gc : List apc_cache_entry_t

/-- An `apc_cache_t`. `slots` holds the `nslots` chains; `php` is the default serializer
`APC_SERIALIZER_NAME(php)` of the PHP runtime, used when `serializer` is `NULL`. -/
structure apc_cache_t where
  header : apc_cache_header_t
  slots : List (List apc_cache_entry_t)
  sma : apc_sma_t
  serializer : Option apc_serializer_t
  php : apc_serializer_t
  gc_ttl : Int
  ttl : Int
  smart : Int
  defend : Bool

/-- The number of slots `cache->nslots`: the length of the slot array. -/
def apc_cache_t.nslots (cache : apc_cache_t) : Nat := cache.slots.length

def APC_CACHE_ST_NONE : Nat := 0

def APC_CACHE_ST_BUSY : Nat := 1

/-- The chain `cache->slots[s]`. -/
def slot_chain (cache : apc_cache_t) (s : Nat) : List apc_cache_entry_t :=
  cache.slots.getD s []

/-- Writing the chain head `cache->slots[s]`. -/
def set_slot_chain (cache : apc_cache_t) (s : Nat) (chain : List apc_cache_entry_t) :
    apc_cache_t :=
  { cache with slots := cache.slots.set s chain }

/-! ## Expiry -/

def apc_cache_hash_slot (cache : apc_cache_t) (key : zend_string) : Nat × Nat :=
  (ZSTR_HASH key, ZSTR_HASH key % cache.nslots)

def apc_cache_entry_hard_expired (entry : apc_cache_entry_t) (t : Int) : Bool :=
  (entry.ttl != 0) && decide (entry.ctime + entry.ttl < t)

def apc_cache_entry_soft_expired (cache : apc_cache_t) (entry : apc_cache_entry_t)
    (t : Int) : Bool :=
  (entry.ttl == 0) && (cache.ttl != 0) && decide (entry.atime + cache.ttl < t)

def apc_cache_entry_expired (cache : apc_cache_t) (entry : apc_cache_entry_t) (t : Int) : Bool :=
  apc_cache_entry_hard_expired entry t || apc_cache_entry_soft_expired cache entry t

/-! ## Removal and the deferred-free list -/

def free_entry (cache : apc_cache_t) (entry : apc_cache_entry_t) : apc_cache_t :=
  { cache with sma := apc_pool_destroy entry.pool cache.sma }

/-- The header and GC-list part of `apc_cache_wlocked_remove_entry` for the entry `dead` under
the cursor; the unlink `*entry = (*entry)->next` is done by the walk that owns the cursor,
which drops `dead` from the chain it rebuilds. `now` is `time(0)`. -/
def apc_cache_wlocked_remove_entry (cache : apc_cache_t) (dead : apc_cache_entry_t)
    (now : Int) : apc_cache_t :=
  let h0 := cache.header
  let h1 := if h0.mem_size ≠ 0 then { h0 with mem_size := h0.mem_size - dead.mem_size } else h0
  let h2 := if h1.nentries ≠ 0 then { h1 with nentries := h1.nentries - 1 } else h1
  if dead.ref_count ≤ 0 then
    free_entry { cache with header := h2 } dead
  else
    { cache with header := { h2 with gc := { dead with dtime := now } :: h2.gc } }

/-- The loop of `apc_cache_wlocked_gc` over the GC list, threading the allocator. -/
def gc_walk (gc_ttl now : Int) : List apc_cache_entry_t → apc_sma_t →
    List apc_cache_entry_t × apc_sma_t
  | [], sma => ([], sma)
  | e :: rest, sma =>
    let gc_sec : Int := if gc_ttl ≠ 0 then now - e.dtime else 0
    if e.ref_count = 0 ∨ gc_sec > gc_ttl then
      gc_walk gc_ttl now rest (apc_pool_destroy e.pool sma)
    else
      ((e :: (gc_walk gc_ttl now rest sma).1), (gc_walk gc_ttl now rest sma).2)

def apc_cache_wlocked_gc (cache : apc_cache_t) (now : Int) : apc_cache_t :=
  match cache.header.gc with
  | [] => cache
  | gc =>
    { cache with
      header := { cache.header with gc := (gc_walk cache.gc_ttl now gc cache.sma).1 }
      sma := (gc_walk cache.gc_ttl now gc cache.sma).2 }

/-! ## Lookup -/

def apc_cache_busy (cache : apc_cache_t) : Bool :=
  (cache.header.state &&& APC_CACHE_ST_BUSY) != 0

/-- The loop of `apc_cache_rlocked_find_nostat` over one chain. -/
def find_nostat_walk (h : Nat) (key : zend_string) (t : Int) :
    List apc_cache_entry_t → Option apc_cache_entry_t
  | [] => none
  | e :: rest =>
    if key_match e.key h key then
      if apc_cache_entry_hard_expired e t then none else some e
    else find_nostat_walk h key t rest

def apc_cache_rlocked_find_nostat (cache : apc_cache_t) (key : zend_string) (t : Int) :
    Option apc_cache_entry_t :=
  let hs := apc_cache_hash_slot cache key
  find_nostat_walk hs.1 key t (slot_chain cache hs.2)

/-- The loop of `apc_cache_rlocked_find` over one chain. On a hit the result is the cursor:
the entries walked over, the entry found (with `nhits` and `atime` already written) and the
entries after it. -/
def find_walk (h : Nat) (key : zend_string) (t : Int) :
    List apc_cache_entry_t →
      Option (List apc_cache_entry_t × apc_cache_entry_t × List apc_cache_entry_t)
  | [] => none
  | e :: rest =>
    if key_match e.key h key then
      if apc_cache_entry_hard_expired e t then none
      else some ([], { e with nhits := e.nhits + 1, atime := t }, rest)
    else
      match find_walk h key t rest with
      | none => none
      | some (pre, x, suf) => some (e :: pre, x, suf)

/-- The result of a lookup that writes: the cache after it, and on a hit the slot, the number
of chain entries before the entry found, and the entry. -/
structure find_result where
  cache : apc_cache_t
  slot : Nat
  found : Option (List apc_cache_entry_t × apc_cache_entry_t × List apc_cache_entry_t)

def apc_cache_rlocked_find (cache : apc_cache_t) (key : zend_string) (t : Int) : find_result :=
  let hs := apc_cache_hash_slot cache key
  match find_walk hs.1 key t (slot_chain cache hs.2) with
  | some (pre, x, suf) =>
    { cache := set_slot_chain
        { cache with header := { cache.header with nhits := cache.header.nhits + 1 } }
        hs.2 (pre ++ x :: suf)
      slot := hs.2
      found := some (pre, x, suf) }
  | none =>
    { cache := { cache with header := { cache.header with nmisses := cache.header.nmisses + 1 } }
      slot := hs.2
      found := none }

/-- The function `apc_cache_rlocked_find_incref`: the cache after the lookup and the entry
handed out (`none` is `NULL`). -/
def apc_cache_rlocked_find_incref (cache : apc_cache_t) (key : zend_string) (t : Int) :
    apc_cache_t × Option apc_cache_entry_t :=
  let r := apc_cache_rlocked_find cache key t
  match r.found with
  | none => (r.cache, none)
  | some (pre, x, suf) =>
    let x1 := { x with ref_count := x.ref_count + 1 }
    (set_slot_chain r.cache r.slot (pre ++ x1 :: suf), some x1)

def apc_cache_find (cache : apc_cache_t) (key : zend_string) (t : Int) :
    apc_cache_t × Option apc_cache_entry_t :=
  if apc_cache_busy cache then (cache, none)
  else apc_cache_rlocked_find_incref cache key t

def apc_cache_exists (cache : apc_cache_t) (key : zend_string) (t : Int) : Bool :=
  if apc_cache_busy cache then false
  else (apc_cache_rlocked_find_nostat cache key t).isSome

/-- The decrement of `apc_cache_entry_release` on one list: the handle is a pointer, and the
entry it points to is the one living in the same pool. -/
def release_in (addr : Nat) (l : List apc_cache_entry_t) : List apc_cache_entry_t :=
  l.map fun e => if e.pool.addr = addr then { e with ref_count := e.ref_count - 1 } else e

/-- The function `apc_cache_entry_release`: the entry behind the handle is on a slot chain or
on the GC list. -/
def apc_cache_entry_release (cache : apc_cache_t) (entry : apc_cache_entry_t) : apc_cache_t :=
  { cache with
    slots := cache.slots.map (release_in entry.pool.addr)
    header := { cache.header with gc := release_in entry.pool.addr cache.header.gc } }

/-! ## Delete -/

/-- The loop of `apc_cache_delete` over one chain: the result, the chain after it and the
cache after the removal. -/
def delete_walk (h : Nat) (key : zend_string) (now : Int) (cache : apc_cache_t) :
    List apc_cache_entry_t → Bool × List apc_cache_entry_t × apc_cache_t
  | [] => (false, [], cache)
  | e :: rest =>
    if key_match e.key h key then
      (true, rest, apc_cache_wlocked_remove_entry cache e now)
    else
      ((delete_walk h key now cache rest).1, e :: (delete_walk h key now cache rest).2.1,
        (delete_walk h key now cache rest).2.2)

def apc_cache_delete (cache : apc_cache_t) (key : zend_string) (now : Int) :
    Bool × apc_cache_t :=
  let hs := apc_cache_hash_slot cache key
  let r := delete_walk hs.1 key now cache (slot_chain cache hs.2)
  (r.1, set_slot_chain r.2.2 hs.2 r.2.1)

/-! ## The value copier -/

inductive apc_copy_type where
  | APC_COPY_IN
  | APC_COPY_OUT
deriving DecidableEq, Repr

/-- An `apc_context_t`. `php` is the default serializer of the runtime and `exception` is
`EG(exception)`: whether a serializer left an exception pending during this copy. -/
structure apc_context_t where
  pool : apc_pool
  copy : apc_copy_type
  serializer : Option apc_serializer_t
  php : apc_serializer_t
  exception : Bool

/-- Modelled from the spec: the index mask of the shared empty table, `(uint32_t) -2`. -/
def HT_MIN_MASK : Nat := 4294967294

/-- Modelled from the spec: the invalid internal cursor, `(uint32_t) -1`. -/
def HT_INVALID_IDX : Nat := 4294967295

/-- One allocation of the copier: `APC_POOL_ALLOC` on copy-in, `emalloc` (which does not
return `NULL`) on copy-out. -/
def ctxt_alloc (ctxt : apc_context_t) : Option apc_context_t :=
  match ctxt.copy with
  | .APC_COPY_IN =>
    match apc_pool_alloc ctxt.pool with
    | none => none
    | some p => some { ctxt with pool := p }
  | .APC_COPY_OUT => some ctxt

/-- The function `my_serialize_object`: it never returns `NULL`; when the serializer or the
pool fails, `dst` stays the null value written first. -/
def my_serialize_object (src : zval) (ctxt : apc_context_t) : zval × apc_context_t :=
  let serialize := match ctxt.serializer with
    | some s => s.serialize
    | none => ctxt.php.serialize
  let r := serialize src
  let ctxt1 := { ctxt with exception := ctxt.exception || r.exception }
  match r.buf with
  | none => (.null, ctxt1)
  | some buf =>
    match apc_pool_alloc ctxt1.pool with
    | none => (.null, ctxt1)
    | some p => (.serial (Z_TYPE src) buf, { ctxt1 with pool := p })

/-- The string payload `Z_STRVAL_P(src)` of a stored array or object; a payload that is not
a string has no bytes to decode. -/
def Z_STRVAL : zval → Option (List Nat)
  | .serial _ s => some s
  | .string s => some s
  | _ => none

/-- The function `my_unserialize_object`: it never returns `NULL`; when decoding fails `dst`
is the null value. -/
def my_unserialize_object (src : zval) (ctxt : apc_context_t) : zval :=
  let unserialize := match ctxt.serializer with
    | some s => s.unserialize
    | none => ctxt.php.unserialize
  match Z_STRVAL src with
  | none => .null
  | some s =>
    match unserialize s with
    | some v => v
    | none => .null

/-- The array-or-object path of `my_copy_zval` (the `IS_OBJECT` case). -/
def copy_serialized (src : zval) (ctxt : apc_context_t) : Option zval × apc_context_t :=
  match ctxt.copy with
  | .APC_COPY_IN => (some (my_serialize_object src ctxt).1, (my_serialize_object src ctxt).2)
  | .APC_COPY_OUT => (some (my_unserialize_object src ctxt), ctxt)

/-- The key of a copied bucket: duplicated into the pool on copy-in (`NULL` when the pool is
exhausted), duplicated with `zend_string_dup` on copy-out. -/
def dup_bucket_key (key : Option (List Nat)) (ctxt : apc_context_t) :
    Option (List Nat) × apc_context_t :=
  match key with
  | none => (none, ctxt)
  | some k =>
    match ctxt_alloc ctxt with
    | none => (none, ctxt)
    | some c => (some k, c)

mutual
/-- The function `my_copy_zval`; `none` is `NULL`. -/
def my_copy_zval : zval → apc_context_t → Option zval × apc_context_t
  | .resource r, ctxt => (some (.resource r), ctxt)
  | .true_, ctxt => (some .true_, ctxt)
  | .false_, ctxt => (some .false_, ctxt)
  | .long n, ctxt => (some (.long n), ctxt)
  | .double d, ctxt => (some (.double d), ctxt)
  | .null, ctxt => (some .null, ctxt)
  | .reference _ v, ctxt =>
    -- `my_copy_reference`
    match ctxt_alloc ctxt with
    | none => (none, ctxt)
    | some c1 =>
      match my_copy_zval v c1 with
      | (none, c2) => (none, c2)
      | (some w, c2) => (some (.reference 1 w), c2)
  | .string s, ctxt =>
    match ctxt_alloc ctxt with
    | none => (none, ctxt)
    | some c1 => (some (.string s), c1)
  | .array ht, ctxt =>
    if ctxt.serializer.isNone then
      match my_copy_hashtable ht ctxt with
      | (none, c1) => (none, c1)
      | (some t, c1) => (some (.array t), c1)
    else copy_serialized (.array ht) ctxt
  | .object o, ctxt => copy_serialized (.object o) ctxt
  | .serial ty s, ctxt =>
    if ty = .IS_OBJECT then copy_serialized (.serial ty s) ctxt
    else if ty = .IS_ARRAY then
      -- with no serializer the payload would be read as a `HashTable`, which it is not
      if ctxt.serializer.isNone then (none, ctxt) else copy_serialized (.serial ty s) ctxt
    else (some (.serial ty s), ctxt)
  | .undef, ctxt => (some .undef, ctxt)
/-- The function `my_copy_hashtable`; `none` is `NULL`. -/
def my_copy_hashtable : HashTable → apc_context_t → Option HashTable × apc_context_t
  | .mk packed nTableSize nTableMask nNumOfElements nNextFreeElement _ arData, ctxt =>
    match ctxt_alloc ctxt with
    | none => (none, ctxt)
    | some c1 =>
      if arData.length = 0 then
        (some (.mk false nTableSize HT_MIN_MASK 0 0 HT_INVALID_IDX .nil), c1)
      else if packed then
        match ctxt_alloc c1 with
        | none => (none, c1)
        | some c2 =>
          let r := apc_array_dup_packed_elements arData (arData.length != nNumOfElements) c2
          (some (.mk true nTableSize nTableMask nNumOfElements nNextFreeElement
            (if nNumOfElements > 0 then first_defined r.1 else HT_INVALID_IDX) r.1), r.2)
      else
        match ctxt_alloc c1 with
        | none => (none, c1)
        | some c2 =>
          let r := apc_array_dup_elements arData (arData.length != nNumOfElements) c2
          (some (.mk false nTableSize nTableMask r.1.length nNextFreeElement
            (if r.1.length > 0 then 0 else HT_INVALID_IDX) r.1), r.2)
/-- The function `apc_array_dup_packed_elements`: every source bucket gives a target bucket;
one whose value is a hole or could not be copied is left undefined. -/
def apc_array_dup_packed_elements : Buckets → Bool → apc_context_t → Buckets × apc_context_t
  | .nil, _, ctxt => (.nil, ctxt)
  | .cons h _ v rest, with_holes, ctxt =>
    match v with
    | .undef =>
      if with_holes then
        let r := apc_array_dup_packed_elements rest with_holes ctxt
        (.cons h none .undef r.1, r.2)
      else
        let r := apc_array_dup_packed_elements rest with_holes ctxt
        (.cons h none .undef r.1, r.2)
    | .reference 1 w =>
      match my_copy_zval w ctxt with
      | (none, c1) =>
        let r := apc_array_dup_packed_elements rest with_holes c1
        (.cons h none .undef r.1, r.2)
      | (some x, c1) =>
        let r := apc_array_dup_packed_elements rest with_holes c1
        (.cons h none x r.1, r.2)
    | data =>
      match my_copy_zval data ctxt with
      | (none, c1) =>
        let r := apc_array_dup_packed_elements rest with_holes c1
        (.cons h none .undef r.1, r.2)
      | (some x, c1) =>
        let r := apc_array_dup_packed_elements rest with_holes c1
        (.cons h none x r.1, r.2)
/-- The function `apc_array_dup_elements`: a source bucket whose value is a hole or could not
be copied gives no target bucket. -/
def apc_array_dup_elements : Buckets → Bool → apc_context_t → Buckets × apc_context_t
  | .nil, _, ctxt => (.nil, ctxt)
  | .cons h key v rest, with_holes, ctxt =>
    match v with
    | .undef =>
      if with_holes then apc_array_dup_elements rest with_holes ctxt
      else
        let k := dup_bucket_key key ctxt
        let r := apc_array_dup_elements rest with_holes k.2
        (.cons h k.1 .undef r.1, r.2)
    | .reference 1 w =>
      match my_copy_zval w ctxt with
      | (none, c1) => apc_array_dup_elements rest with_holes c1
      | (some x, c1) =>
        let k := dup_bucket_key key c1
        let r := apc_array_dup_elements rest with_holes k.2
        (.cons h k.1 x r.1, r.2)
    | data =>
      match my_copy_zval data ctxt with
      | (none, c1) => apc_array_dup_elements rest with_holes c1
      | (some x, c1) =>
        let k := dup_bucket_key key c1
        let r := apc_array_dup_elements rest with_holes k.2
        (.cons h k.1 x r.1, r.2)
/-- The loop of `my_copy_hashtable` that finds the first bucket of a packed table holding a
value: the number of undefined buckets in front of it. -/
def first_defined : Buckets → Nat
  | .nil => 0
  | .cons _ _ v rest =>
    match v with
    | .undef => first_defined rest + 1
    | _ => 0
end

def apc_copy_zval (src : zval) (ctxt : apc_context_t) : Option zval × apc_context_t :=
  my_copy_zval src ctxt

/-- The function `apc_cache_store_zval`: the copy is given up when the copier returned
`NULL` or an exception is pending. -/
def apc_cache_store_zval (src : zval) (ctxt : apc_context_t) : Option zval × apc_context_t :=
  let r := apc_copy_zval src ctxt
  match r.1 with
  | none => (none, r.2)
  | some dst => if r.2.exception then (none, r.2) else (some dst, r.2)

/-- The pool field of a copy-out context, which is `NULL`. -/
def null_pool : apc_pool := { addr := 0, size := 0, avail := 0 }

/-- The function `apc_cache_entry_fetch_zval`: `none` when the copier returned `NULL`,
else the value written to `dst`. -/
def apc_cache_entry_fetch_zval (cache : apc_cache_t) (entry : apc_cache_entry_t) :
    Option zval :=
  (apc_copy_zval entry.val
    { pool := null_pool, copy := .APC_COPY_OUT, serializer := cache.serializer,
      php := cache.php, exception := false }).1

/-- The function `apc_cache_make_entry`; `none` is `NULL`. The context comes back with the
pool as the allocations left it. -/
def apc_cache_make_entry (ctxt : apc_context_t) (key : zend_string) (val : zval) (ttl : Int)
    (t : Int) : Option apc_cache_entry_t × apc_context_t :=
  match ctxt_alloc ctxt with
  | none => (none, ctxt)
  | some c1 =>
    match ctxt_alloc c1 with
    | none => (none, c1)
    | some c2 =>
      match apc_cache_store_zval val c2 with
      | (none, c3) => (none, c3)
      | (some v, c3) =>
        (some { key := key, val := v, ttl := ttl, ref_count := 0, nhits := 0, ctime := t,
                mtime := t, dtime := 0, atime := t, mem_size := 0, pool := c3.pool }, c3)

/-- The function `apc_cache_make_copy_in_context`; `grant` is what the allocator answers to
`apc_pool_create`. -/
def apc_cache_make_copy_in_context (cache : apc_cache_t) (grant : Option Nat) :
    Option apc_context_t × apc_cache_t :=
  match apc_pool_create cache.sma grant with
  | (none, sma) => (none, { cache with sma := sma })
  | (some pool, sma) =>
    (some { pool := pool, copy := .APC_COPY_IN, serializer := cache.serializer,
            php := cache.php, exception := false }, { cache with sma := sma })

def apc_cache_destroy_context (cache : apc_cache_t) (context : apc_context_t) : apc_cache_t :=
  { cache with sma := apc_pool_destroy context.pool cache.sma }

/-! ## Slam defense -/

/-- The function `apc_cache_defense`; `owner` is `getpid()` or the thread of the caller. -/
def apc_cache_defense (cache : apc_cache_t) (key : zend_string) (t : Int) (owner : Nat) :
    Bool × apc_cache_t :=
  if cache.defend then
    let last := cache.header.lastkey
    if last.hash = 0 then (false, cache)
    else if last.hash = ZSTR_HASH key ∧ last.len = ZSTR_LEN key then
      if last.mtime = t ∧ last.owner ≠ owner then (true, cache)
      else
        (false, { cache with header := { cache.header with
          lastkey := { hash := ZSTR_HASH key, len := ZSTR_LEN key, mtime := t, owner := owner } } })
    else (false, cache)
  else (false, cache)

/-! ## Store -/

/-- Where the walk of `apc_cache_wlocked_insert` stops: `ok` is false when it returned 0,
`before` are the entries walked over and kept, `after` is the chain at the cursor. -/
structure insert_cursor where
  ok : Bool
  before : List apc_cache_entry_t
  after : List apc_cache_entry_t
  cache : apc_cache_t

/-- The loop of `apc_cache_wlocked_insert` over one chain. -/
def insert_walk (h : Nat) (key : zend_string) (t now : Int) (exclusive : Bool) :
    List apc_cache_entry_t → apc_cache_t → insert_cursor
  | [], cache => { ok := true, before := [], after := [], cache := cache }
  | e :: rest, cache =>
    if key_match e.key h key then
      if exclusive && !apc_cache_entry_hard_expired e t then
        { ok := false, before := [], after := e :: rest, cache := cache }
      else
        { ok := true, before := [], after := rest,
          cache := apc_cache_wlocked_remove_entry cache e now }
    else if apc_cache_entry_expired cache e t then
      insert_walk h key t now exclusive rest (apc_cache_wlocked_remove_entry cache e now)
    else
      let r := insert_walk h key t now exclusive rest cache
      { r with before := e :: r.before }

/-- The entry as `apc_cache_wlocked_insert` leaves it in the chain: `mem_size` is set from the
size of its pool. -/
def linked_entry (new_entry : apc_cache_entry_t) : apc_cache_entry_t :=
  { new_entry with mem_size := (apc_pool_size new_entry.pool : Int) }

/-- The end of `apc_cache_wlocked_insert` after the walk stopped at `r` in slot `s`: link the
new entry at the cursor and account for it in the header. -/
def link_cache (r : insert_cursor) (s : Nat) (new_entry : apc_cache_entry_t) : apc_cache_t :=
  let n := linked_entry new_entry
  let c2 := set_slot_chain r.cache s (r.before ++ n :: r.after)
  { c2 with header := { c2.header with
    mem_size := c2.header.mem_size + n.mem_size
    nentries := c2.header.nentries + 1
    ninserts := c2.header.ninserts + 1 } }

/-- The chain of slot `s` as the walk left it when it returned 0 at `r`. -/
def unlink_cache (r : insert_cursor) (s : Nat) : apc_cache_t :=
  set_slot_chain r.cache s (r.before ++ r.after)

def apc_cache_wlocked_insert (cache : apc_cache_t) (new_entry : apc_cache_entry_t)
    (exclusive : Bool) (now : Int) : Bool × apc_cache_t :=
  let key := new_entry.key
  let t := new_entry.ctime
  let c1 := apc_cache_wlocked_gc cache now
  let hs := apc_cache_hash_slot c1 key
  let r := insert_walk hs.1 key t now exclusive (slot_chain c1 hs.2) c1
  if r.ok then (true, link_cache r hs.2 new_entry)
  else (false, unlink_cache r hs.2)

/-- The function `apc_cache_store`. Inputs beside the arguments of the C function: the clocks
`t` and `now`, the `owner` running the call and the `grant` of the allocator. -/
def apc_cache_store (cache : apc_cache_t) (key : zend_string) (val : zval) (ttl : Int)
    (exclusive : Bool) (t now : Int) (owner : Nat) (grant : Option Nat) : Bool × apc_cache_t :=
  let d := apc_cache_defense cache key t owner
  if d.1 then (false, d.2)
  else
    match apc_cache_make_copy_in_context d.2 grant with
    | (none, c1) => (false, c1)
    | (some ctxt, c1) =>
      match apc_cache_make_entry ctxt key val ttl t with
      | (none, ctxt1) => (false, apc_cache_destroy_context c1 ctxt1)
      | (some entry, ctxt1) =>
        let r := apc_cache_wlocked_insert c1 entry exclusive now
        if r.1 then (true, r.2) else (false, apc_cache_destroy_context r.2 ctxt1)

/-! ## Fetch -/

/-- The function `apc_cache_fetch`: the result, the value written to `dst` when the copier
gave one, and the cache afterwards. -/
def apc_cache_fetch (cache : apc_cache_t) (key : zend_string) (t : Int) :
    Bool × Option zval × apc_cache_t :=
  if apc_cache_busy cache then (false, none, cache)
  else
    match apc_cache_rlocked_find_incref cache key t with
    | (c1, none) => (false, none, c1)
    | (c1, some entry) =>
      let dst := apc_cache_entry_fetch_zval c1 entry
      (dst.isSome, dst, apc_cache_entry_release c1 entry)

/-! ## Update -/

/-- An updater callback `apc_cache_updater_t` with its `data` argument fixed: it is given the
value of the live entry, may rewrite it in place, and reports success. -/
abbrev apc_cache_updater_t := zval → Bool × zval

/-- The conversion of a `zend_long` to the `int32_t` (or `int`) parameter of a callee. -/
def int32_t_cast (x : Int) : Int := (x + 2147483648) % 4294967296 - 2147483648

/-- The steps of `apc_cache_update` that the trace of a call records. -/
inductive update_event where
  | lookup
  | updater_call (arg : zval)
  | store (ttl : Int) (ok : Bool)

/-- The outcome of the chain walk of `apc_cache_update` when it found a live entry for the
key: the value returned, the chain afterwards, and the value handed to the updater when the
updater ran. -/
structure update_hit where
  retval : Bool
  chain : List apc_cache_entry_t
  called : Option zval

/-- The `switch` of `apc_cache_update` on the entry found. -/
def update_entry (serializer : Option apc_serializer_t) (updater : apc_cache_updater_t)
    (t : Int) (e : apc_cache_entry_t) : Bool × apc_cache_entry_t × Option zval :=
  match Z_TYPE e.val with
  | .IS_ARRAY | .IS_OBJECT =>
    if serializer.isSome then (false, e, none)
    else ((updater e.val).1, { e with val := (updater e.val).2, mtime := t }, some e.val)
  | _ => ((updater e.val).1, { e with val := (updater e.val).2, mtime := t }, some e.val)

/-- The loop of `apc_cache_update` over one chain; `none` when it ran off the chain. -/
def update_walk (serializer : Option apc_serializer_t) (updater : apc_cache_updater_t)
    (h : Nat) (key : zend_string) (t : Int) : List apc_cache_entry_t → Option update_hit
  | [] => none
  | e :: rest =>
    if key_match e.key h key && !apc_cache_entry_hard_expired e t then
      let r := update_entry serializer updater t e
      some { retval := r.1, chain := r.2.1 :: rest, called := r.2.2 }
    else
      match update_walk serializer updater h key t rest with
      | none => none
      | some r => some { r with chain := e :: r.chain }

/-- The trace of the `switch` of a pass: the call of the updater, when it was made. -/
def updater_events (called : Option zval) : List update_event :=
  match called with
  | some v => [.updater_call v]
  | none => []

/-- What a call of `apc_cache_update` gives: the value returned, the cache afterwards and
the steps taken, in order. -/
structure update_result where
  retval : Bool
  cache : apc_cache_t
  trace : List update_event

/-- The `retry_update` loop of `apc_cache_update`: each unit of `fuel` pays for one pass from
the label; `none` when the fuel runs out before the function returns. -/
def update_loop (key : zend_string) (updater : apc_cache_updater_t) (ttl : Int) (t now : Int)
    (owner : Nat) (grant : Option Nat) :
    Nat → Bool → apc_cache_t → List update_event → Option update_result
  | 0, _, _, _ => none
  | fuel + 1, insert_if_not_found, cache, trace =>
    let hs := apc_cache_hash_slot cache key
    match update_walk cache.serializer updater hs.1 key t (slot_chain cache hs.2) with
    | some r =>
      some { retval := r.retval
             cache := set_slot_chain cache hs.2 r.chain
             trace := trace ++ .lookup :: updater_events r.called }
    | none =>
      if insert_if_not_found then
        let st := apc_cache_store cache key (.long 0) (int32_t_cast ttl) true t now owner grant
        update_loop key updater ttl t now owner grant fuel false st.2
          (trace ++ [.lookup, .store (int32_t_cast ttl) st.1])
      else
        some { retval := false, cache := cache, trace := trace ++ [.lookup] }

/-- The function `apc_cache_update`, run with `fuel` passes of its retry loop. -/
def apc_cache_update_fuel (fuel : Nat) (cache : apc_cache_t) (key : zend_string)
    (updater : apc_cache_updater_t) (insert_if_not_found : Bool) (ttl : Int) (t now : Int)
    (owner : Nat) (grant : Option Nat) : Option update_result :=
  if apc_cache_busy cache then some { retval := false, cache := cache, trace := [] }
  else update_loop key updater ttl t now owner grant fuel insert_if_not_found cache []

/-- The function `apc_cache_update`: two passes of the retry loop are all it can take (see
`update_fuel_two`), so the fall-back value is never used. -/
def apc_cache_update (cache : apc_cache_t) (key : zend_string)
    (updater : apc_cache_updater_t) (insert_if_not_found : Bool) (ttl : Int) (t now : Int)
    (owner : Nat) (grant : Option Nat) : update_result :=
  (apc_cache_update_fuel 2 cache key updater insert_if_not_found ttl t now owner grant).getD
    { retval := false, cache := cache, trace := [] }

/-! ## Expunge and clear -/

/-- The inner loop `while (*entry) apc_cache_wlocked_remove_entry(cache, entry)`. -/
def remove_all (now : Int) : List apc_cache_entry_t → apc_cache_t → apc_cache_t
  | [], cache => cache
  | e :: rest, cache => remove_all now rest (apc_cache_wlocked_remove_entry cache e now)

/-- The all-zero `apc_cache_slam_key_t` left by `memset`. -/
def lastkey_zero : apc_cache_slam_key_t := { hash := 0, len := 0, mtime := 0, owner := 0 }

def apc_cache_wlocked_real_expunge (cache : apc_cache_t) (t now : Int) : apc_cache_t :=
  let c1 := { cache with header := { cache.header with nexpunges := cache.header.nexpunges + 1 } }
  let c2 := c1.slots.foldl (fun c chain => remove_all now chain c) c1
  { c2 with
    slots := c2.slots.map fun _ => []
    header := { c2.header with
      stime := t, ninserts := 0, nentries := 0, nhits := 0, nmisses := 0
      lastkey := lastkey_zero } }

/-- The complement `~APC_CACHE_ST_BUSY` within the `unsigned short` state word. -/
def NOT_APC_CACHE_ST_BUSY : Nat := 65535 ^^^ APC_CACHE_ST_BUSY

def apc_cache_clear (cache : apc_cache_t) (t now : Int) : apc_cache_t :=
  if apc_cache_busy cache then cache
  else
    let c1 := { cache with header := { cache.header with
      state := cache.header.state ||| APC_CACHE_ST_BUSY } }
    let c2 := apc_cache_wlocked_real_expunge c1 t now
    { c2 with header := { c2.header with
      stime := t, nexpunges := 0, state := c2.header.state &&& NOT_APC_CACHE_ST_BUSY } }

/-- The junk loop of `apc_cache_default_expunge` over one chain: the chain that stays and
the cache after the removals. -/
def expunge_walk (t now : Int) : List apc_cache_entry_t → apc_cache_t →
    List apc_cache_entry_t × apc_cache_t
  | [], cache => ([], cache)
  | e :: rest, cache =>
    if apc_cache_entry_expired cache e t then
      expunge_walk t now rest (apc_cache_wlocked_remove_entry cache e now)
    else
      (e :: (expunge_walk t now rest cache).1, (expunge_walk t now rest cache).2)

/-- The loop of `apc_cache_default_expunge` over the slots `i`, `i + 1`, ... given as the
list of their chains: the chains that stay and the cache after the removals. -/
def expunge_slots (t now : Int) : List (List apc_cache_entry_t) → apc_cache_t →
    List (List apc_cache_entry_t) × apc_cache_t
  | [], cache => ([], cache)
  | chain :: rest, cache =>
    let r := expunge_walk t now chain cache
    ((r.1 :: (expunge_slots t now rest r.2).1), (expunge_slots t now rest r.2).2)

/-- The expunge processing of `apc_cache_default_expunge` on the cache `c2` left by the GC
sweep; `needed` is the outcome of the test `available < suitable`. -/
def expunge_processing (c2 : apc_cache_t) (needed : Bool) (t now : Int)
    (avail_size : Bool) : apc_cache_t :=
  if c2.ttl = 0 then
    if needed then apc_cache_wlocked_real_expunge c2 t now else c2
  else
    if needed then
      let r := expunge_slots t now c2.slots c2
      let c4 := { r.2 with slots := r.1 }
      if avail_size then
        { c4 with header := { c4.header with lastkey := lastkey_zero } }
      else apc_cache_wlocked_real_expunge c4 t now
    else c2

/-- The function `apc_cache_default_expunge`. Inputs beside `size`: the clocks, what
`get_avail_mem()` answers after the GC sweep (`available`) and what `get_avail_size(size)`
answers after the junk loop (`avail_size`). Sizes are `size_t`, 64 bits wide. -/
def apc_cache_default_expunge (cache : apc_cache_t) (size : Nat) (t now : Int)
    (available : Nat) (avail_size : Bool) : apc_cache_t :=
  if apc_cache_busy cache then cache
  else
    let c1 := { cache with header := { cache.header with
      state := cache.header.state ||| APC_CACHE_ST_BUSY } }
    let suitable : Int :=
      if cache.smart > 0 then (cache.smart * (size : Int)) % 18446744073709551616
      else ((cache.sma.size / 2 : Nat) : Int)
    let c2 := apc_cache_wlocked_gc c1 now
    let c3 := expunge_processing c2 (decide ((available : Int) < suitable)) t now avail_size
    { c3 with header := { c3.header with state := c3.header.state &&& NOT_APC_CACHE_ST_BUSY } }

/-! ## Creation -/

/-- The table `primes`, with its sentinel. -/
def primes : List Int :=
  [257, 521, 1031, 2053, 3079, 4099, 5147, 6151, 7177, 8209, 9221, 10243, 11273, 12289, 13313,
   14341, 15361, 16411, 17417, 18433, 19457, 20483, 30727, 40961, 61441, 81929, 122887, 163841,
   245771, 327689, 491527, 655373, 983063, 0]

/-- The loop of `make_prime`: `prev` is `*(k-1)`. -/
def make_prime_walk (n : Int) : List Int → Int → Int
  | [], prev => prev
  | k :: rest, prev =>
    if k = 0 then prev
    else if k > n then k
    else make_prime_walk n rest k

def make_prime (n : Int) : Int := make_prime_walk n primes 0

/-- The function `apc_cache_create`, given an allocator that serves the header and the slot
array. `stime` is `time(NULL)`. -/
def apc_cache_create (sma : apc_sma_t) (serializer : Option apc_serializer_t)
    (php : apc_serializer_t) (size_hint gc_ttl ttl smart : Int) (defend : Bool)
    (stime : Int) : apc_cache_t :=
  let nslots := make_prime (int32_t_cast (if size_hint > 0 then size_hint else 2000))
  { header :=
      { nhits := 0, nmisses := 0, ninserts := 0, nexpunges := 0, nentries := 0, mem_size := 0
        stime := stime, state := 0 ||| APC_CACHE_ST_NONE, lastkey := lastkey_zero, gc := [] }
    slots := List.replicate nslots.toNat []
    sma := sma
    serializer := serializer
    php := php
    gc_ttl := gc_ttl
    ttl := ttl
    smart := smart
    defend := defend }

/-! ## Public operations as a transition system -/

/-- A call of a public operation, with the inputs it reads from its surroundings. -/
inductive Op where
  | store (key : zend_string) (val : zval) (ttl : Int) (exclusive : Bool) (t now : Int)
      (owner : Nat) (grant : Option Nat)
  | find (key : zend_string) (t : Int)
  | fetch (key : zend_string) (t : Int)
  | exists_ (key : zend_string) (t : Int)
  | release (entry : apc_cache_entry_t)
  | update (key : zend_string) (updater : apc_cache_updater_t) (insert_if_not_found : Bool)
      (ttl : Int) (t now : Int) (owner : Nat) (grant : Option Nat)
  | delete (key : zend_string) (now : Int)
  | clear (t now : Int)
  | expunge (size : Nat) (t now : Int) (available : Nat) (avail_size : Bool)

/-- The cache after a call. -/
def step (cache : apc_cache_t) : Op → apc_cache_t
  | .store key val ttl exclusive t now owner grant =>
    (apc_cache_store cache key val ttl exclusive t now owner grant).2
  | .find key t => (apc_cache_find cache key t).1
  | .fetch key t => (apc_cache_fetch cache key t).2.2
  | .exists_ _ _ => cache
  | .release entry => apc_cache_entry_release cache entry
  | .update key updater insert_if_not_found ttl t now owner grant =>
    (apc_cache_update cache key updater insert_if_not_found ttl t now owner grant).cache
  | .delete key now => (apc_cache_delete cache key now).2
  | .clear t now => apc_cache_clear cache t now
  | .expunge size t now available avail_size =>
    apc_cache_default_expunge cache size t now available avail_size

/-- The cache after a sequence of calls. -/
def run (cache : apc_cache_t) (ops : List Op) : apc_cache_t := ops.foldl step cache

/-- A cache state that a freshly created cache reaches by a sequence of public calls. -/
def Reachable (cache : apc_cache_t) : Prop :=
  ∃ sma serializer php size_hint gc_ttl ttl smart defend stime ops,
    cache = run (apc_cache_create sma serializer php size_hint gc_ttl ttl smart defend stime) ops

/-! ## Notions used to state the properties -/

/-- The entry a hit of `find` hands out and leaves in the chain: `e` with `nhits` and
`ref_count` one larger and `atime` set to `t`. -/
def hit_entry (e : apc_cache_entry_t) (t : Int) : apc_cache_entry_t :=
  { e with nhits := e.nhits + 1, atime := t, ref_count := e.ref_count + 1 }

/-- The cache after a lookup that missed: `header.nmisses` is one larger. -/
def miss_cache (c : apc_cache_t) : apc_cache_t :=
  { c with header := { c.header with nmisses := c.header.nmisses + 1 } }

/-- The cache after a lookup that hit the entry `e` standing after `pre` and before `suf` in
the chain of slot `s`: `header.nhits` is one larger and the chain holds `hit_entry e t`. -/
def hit_cache (c : apc_cache_t) (s : Nat) (pre : List apc_cache_entry_t)
    (e : apc_cache_entry_t) (suf : List apc_cache_entry_t) (t : Int) : apc_cache_t :=
  set_slot_chain { c with header := { c.header with nhits := c.header.nhits + 1 } } s
    (pre ++ hit_entry e t :: suf)

/-- The entry `e` is the one a chain walk for `key` meets first in the chain of the key's slot:
the chain is `pre ++ e :: suf`, no entry of `pre` has the key, and `e` has it. -/
def first_match (c : apc_cache_t) (key : zend_string) (pre : List apc_cache_entry_t)
    (e : apc_cache_entry_t) (suf : List apc_cache_entry_t) : Prop :=
  slot_chain c (apc_cache_hash_slot c key).2 = pre ++ e :: suf ∧
    (∀ x ∈ pre, x.key ≠ key) ∧ e.key = key

/-- No entry of the chain of the key's slot has the key. -/
def no_match (c : apc_cache_t) (key : zend_string) : Prop :=
  ∀ x ∈ slot_chain c (apc_cache_hash_slot c key).2, x.key ≠ key

/-- The cache `c2` differs from `c` at most in what a removal writes: `header.mem_size`,
`header.nentries`, the GC list and the allocator. -/
def removal_frame (c c2 : apc_cache_t) : Prop :=
  c2.slots = c.slots ∧ c2.header.nhits = c.header.nhits ∧
  c2.header.nmisses = c.header.nmisses ∧ c2.header.ninserts = c.header.ninserts ∧
  c2.header.nexpunges = c.header.nexpunges ∧ c2.header.stime = c.header.stime ∧
  c2.header.state = c.header.state ∧ c2.header.lastkey = c.header.lastkey ∧
  c2.serializer = c.serializer ∧ c2.php = c.php ∧ c2.gc_ttl = c.gc_ttl ∧ c2.ttl = c.ttl ∧
  c2.smart = c.smart ∧ c2.defend = c.defend

/-- The arguments and surroundings of one call of `apc_cache_store` on a fixed key. -/
structure store_args where
  val : zval
  ttl : Int
  exclusive : Bool
  t : Int
  now : Int
  owner : Nat
  grant : Option Nat

/-- One call of `apc_cache_store` on `key`, as an operation. -/
def store_args.op (key : zend_string) (a : store_args) : Op :=
  .store key a.val a.ttl a.exclusive a.t a.now a.owner a.grant

/-- Running a sequence of stores of one key from the cache `acc.1`: the cache afterwards, and
the last call of the sequence that returned success (`acc.2` if none did). -/
def run_stores (key : zend_string) :
    List store_args → apc_cache_t × Option store_args → apc_cache_t × Option store_args
  | [], acc => acc
  | a :: rest, acc =>
    let r := apc_cache_store acc.1 key a.val a.ttl a.exclusive a.t a.now a.owner a.grant
    run_stores key rest (r.2, if r.1 then some a else acc.2)

/-- The cache `c2` has the slot count and the configuration of `c`. -/
def config_frame (c c2 : apc_cache_t) : Prop :=
  c2.slots.length = c.slots.length ∧ c2.serializer = c.serializer ∧ c2.php = c.php ∧
  c2.gc_ttl = c.gc_ttl ∧ c2.ttl = c.ttl ∧ c2.smart = c.smart ∧ c2.defend = c.defend

/-- The entry `e` is what the store `a` of `key` builds on a cache configured as `c`: the
key, the copy-in of the value, the ttl, the three times set to the time of the store, and
the counters at zero. -/
def stored_by (c : apc_cache_t) (key : zend_string) (a : store_args)
    (e : apc_cache_entry_t) : Prop :=
  e.key = key ∧ e.ttl = a.ttl ∧ e.ctime = a.t ∧ e.mtime = a.t ∧ e.atime = a.t ∧
  e.ref_count = 0 ∧ e.nhits = 0 ∧
  ∃ ctxt ctxt2, ctxt.copy = .APC_COPY_IN ∧ ctxt.serializer = c.serializer ∧
    ctxt.php = c.php ∧ ctxt.exception = false ∧
    apc_cache_store_zval a.val ctxt = (some e.val, ctxt2)

/-- What holds of the cache `acc.1` reached from `c` by stores of `key` of which `acc.2` is
the last that succeeded. -/
def stores_inv (c : apc_cache_t) (key : zend_string)
    (acc : apc_cache_t × Option store_args) : Prop :=
  config_frame c acc.1 ∧
  match acc.2 with
  | some a => ∃ e pre suf, first_match acc.1 key pre e suf ∧ stored_by c key a e
  | none => ∀ t2 : Int,
      apc_cache_rlocked_find_nostat acc.1 key t2 = apc_cache_rlocked_find_nostat c key t2

/-- The entry `e2` is the entry `e` at a later moment: same key, pool, ttl and creation time
(the value, the counters and the other times may have been written). -/
def same_entry (e e2 : apc_cache_entry_t) : Prop :=
  e2.key = e.key ∧ e2.pool = e.pool ∧ e2.ttl = e.ttl ∧ e2.ctime = e.ctime

/-- The list `l2` is `l` with some entries left out, each of which satisfies `p`. -/
inductive dropped (p : apc_cache_entry_t → Prop) :
    List apc_cache_entry_t → List apc_cache_entry_t → Prop where
  | nil : dropped p [] []
  | keep (x : apc_cache_entry_t) {l l2 : List apc_cache_entry_t} :
      dropped p l l2 → dropped p (x :: l) (x :: l2)
  | drop (x : apc_cache_entry_t) {l l2 : List apc_cache_entry_t} :
      p x → dropped p l l2 → dropped p (x :: l) l2

/-- The entry `e` stands in the list `l` with no entry of key `key` in front of it. -/
def stands_first (key : zend_string) (e : apc_cache_entry_t)
    (l : List apc_cache_entry_t) : Prop :=
  ∃ pre suf, l = pre ++ e :: suf ∧ ∀ x ∈ pre, x.key ≠ key

/-- The calls that can detach the entry `e` of `key` (with no ttl of its own) from its chain
in the cache `c`: an expunge, a clear, a delete of its key, a store of its key, and a store
of another key (by `store`, or by `update` asked to insert) made at a time at which `e` is
soft-expired. -/
def may_detach (c : apc_cache_t) (key : zend_string) (e : apc_cache_entry_t) : Op → Prop
  | .store k _ _ _ t _ _ _ => k = key ∨ apc_cache_entry_soft_expired c e t = true
  | .update k _ insert_if_not_found _ t _ _ _ =>
    insert_if_not_found = true ∧ k ≠ key ∧ apc_cache_entry_soft_expired c e t = true
  | .delete k _ => k = key
  | .clear _ _ => True
  | .expunge _ _ _ _ _ => True
  | .find _ _ => False
  | .fetch _ _ => False
  | .exists_ _ _ => False
  | .release _ => False

/-- The entry `e` is the one the walk of `apc_cache_update` for `key` at time `t` stops at in
the chain of the key's slot: the chain is `pre ++ e :: suf`, `e` has the key and is not
hard-expired at `t`, and no entry of `pre` is both. -/
def first_live_match (c : apc_cache_t) (key : zend_string) (t : Int)
    (pre : List apc_cache_entry_t) (e : apc_cache_entry_t)
    (suf : List apc_cache_entry_t) : Prop :=
  slot_chain c (apc_cache_hash_slot c key).2 = pre ++ e :: suf ∧
    (∀ x ∈ pre, ¬(x.key = key ∧ apc_cache_entry_hard_expired x t = false)) ∧
    e.key = key ∧ apc_cache_entry_hard_expired e t = false

/-- No entry of the chain of the key's slot has the key and is not hard-expired at `t`. -/
def no_live_match (c : apc_cache_t) (key : zend_string) (t : Int) : Prop :=
  ∀ x ∈ slot_chain c (apc_cache_hash_slot c key).2,
    ¬(x.key = key ∧ apc_cache_entry_hard_expired x t = false)

/-- The first pass of `apc_cache_update` for `key` at `t` runs off the chain. -/
def no_live_match_walk (c : apc_cache_t) (updater : apc_cache_updater_t) (key : zend_string)
    (t : Int) : Prop :=
  update_walk c.serializer updater (ZSTR_HASH key) key t
    (slot_chain c (apc_cache_hash_slot c key).2) = none

/-- The value of the entry is of array or object kind and a serializer is configured. -/
def refuses_update (c : apc_cache_t) (e : apc_cache_entry_t) : Prop :=
  (Z_TYPE e.val = .IS_ARRAY ∨ Z_TYPE e.val = .IS_OBJECT) ∧ c.serializer.isSome = true

/-- The call performs a store of `key`: a `store` of the key, or an `update` of the key that
is asked to insert when it finds nothing. -/
def stores_key (key : zend_string) : Op → Prop
  | .store k _ _ _ _ _ _ _ => k = key
  | .update k _ insert_if_not_found _ _ _ _ _ => k = key ∧ insert_if_not_found = true
  | _ => False

/-- No chain of the cache holds two entries with the same key. -/
def distinct_keys (c : apc_cache_t) : Prop :=
  ∀ i, ((slot_chain c i).map (fun e => e.key)).Nodup

/-- The threshold `suitable` of `apc_cache_default_expunge` for a request of `size` bytes:
the `size_t` product `cache->smart * size` when `smart > 0`, else half the size of the SMA. -/
def expunge_suitable (cache : apc_cache_t) (size : Nat) : Int :=
  if cache.smart > 0 then (cache.smart * (size : Int)) % 18446744073709551616
  else ((cache.sma.size / 2 : Nat) : Int)

/-- Every entry chained in the cache, slot after slot, each chain from its head. -/
def chained (c : apc_cache_t) : List apc_cache_entry_t := c.slots.flatten

/-- The entries that `apc_cache_wlocked_remove_entry` puts on the GC list when the entries of
`l` are removed one after the other at `now`: those with references out, stamped with
`dtime = now`, the last removed first. -/
def gc_added (now : Int) (l : List apc_cache_entry_t) : List apc_cache_entry_t :=
  ((l.filter fun e => decide (0 < e.ref_count)).map fun e => { e with dtime := now }).reverse

/-- The pools that `apc_cache_wlocked_remove_entry` hands back when the entries of `l` are
removed one after the other: those of the entries with no reference out, the last removed
first. -/
def freed_pools (l : List apc_cache_entry_t) : List Nat :=
  ((l.filter fun e => decide (e.ref_count ≤ 0)).map fun e => e.pool.addr).reverse

/-- None of the counters `nhits`, `nmisses`, `ninserts` and `nexpunges` of the header is
smaller in `c2` than in `c`. -/
def counters_le (c c2 : apc_cache_t) : Prop :=
  c.header.nhits ≤ c2.header.nhits ∧ c.header.nmisses ≤ c2.header.nmisses ∧
  c.header.ninserts ≤ c2.header.ninserts ∧ c.header.nexpunges ≤ c2.header.nexpunges

/-- The counters of `c2` are those a full wipe of `c` leaves: `nexpunges` one larger, and
`nhits`, `nmisses` and `ninserts` reset to 0. -/
def counters_wiped (c c2 : apc_cache_t) : Prop :=
  c2.header.nexpunges = c.header.nexpunges + 1 ∧ c2.header.nhits = 0 ∧
  c2.header.nmisses = 0 ∧ c2.header.ninserts = 0

/-- The call is a clear. -/
def Op.is_clear : Op → Bool
  | .clear _ _ => true
  | _ => false

/-- The call is an expunge. -/
def Op.is_expunge : Op → Bool
  | .expunge _ _ _ _ _ => true
  | _ => false

/-- The serializer a copy runs for the cache: the configured one, else the default of the
runtime (the choice made at the head of `my_serialize_object` and `my_unserialize_object`). -/
def cache_serializer (c : apc_cache_t) : apc_serializer_t :=
  match c.serializer with
  | some s => s
  | none => c.php

/-- The value goes through the serializer on copy-in: an object, or an array when a
serializer is configured. -/
def goes_through_serializer (c : apc_cache_t) : zval → Prop
  | .array _ => c.serializer.isSome = true
  | .object _ => True
  | _ => False

/-- The stored value is a serialized payload that copy-out decodes: of object kind, or of
array kind when a serializer is configured. -/
def stored_serialized (c : apc_cache_t) : zval → Prop
  | .serial ty _ => ty = .IS_OBJECT ∨ (ty = .IS_ARRAY ∧ c.serializer.isSome = true)
  | _ => False

mutual
/-- The value is built from null, booleans, integers, floats, strings and arrays of such
values; the buckets of a packed array carry no key. -/
def plain : zval → Bool
  | .null => true
  | .false_ => true
  | .true_ => true
  | .long _ => true
  | .double _ => true
  | .string _ => true
  | .array ht => plain_table ht
  | _ => false
/-- Every value held by the table is plain. -/
def plain_table : HashTable → Bool
  | .mk packed _ _ _ _ _ arData => plain_buckets packed arData
/-- Every value held by the buckets is plain. -/
def plain_buckets : Bool → Buckets → Bool
  | _, .nil => true
  | packed, .cons _ key v rest =>
    (!packed || key.isNone) && plain v && plain_buckets packed rest
end

mutual
/-- The values are copy-equivalent: of the same kind, with the same scalar or string
content, and for arrays the same keys and copy-equivalent elements in the same order. -/
def copy_equiv : zval → zval → Bool
  | .null, w => match w with
    | .null => true
    | _ => false
  | .false_, w => match w with
    | .false_ => true
    | _ => false
  | .true_, w => match w with
    | .true_ => true
    | _ => false
  | .long a, w => match w with
    | .long b => a == b
    | _ => false
  | .double a, w => match w with
    | .double b => a == b
    | _ => false
  | .string a, w => match w with
    | .string b => a == b
    | _ => false
  | .array a, w => match w with
    | .array b => table_equiv a b
    | _ => false
  | _, _ => false
/-- The tables hold the same keys and copy-equivalent elements in the same order. -/
def table_equiv : HashTable → HashTable → Bool
  | .mk _ _ _ _ _ _ a, .mk _ _ _ _ _ _ b => buckets_equiv a b
/-- The bucket lists hold the same keys and copy-equivalent elements in the same order. -/
def buckets_equiv : Buckets → Buckets → Bool
  | .nil, w => match w with
    | .nil => true
    | _ => false
  | .cons h k v r, w => match w with
    | .cons h2 k2 v2 r2 => h == h2 && k == k2 && copy_equiv v v2 && buckets_equiv r r2
    | .nil => false
end

mutual
/-- The number of allocations the copy of a plain value asks for, with no serializer. -/
def allocs : zval → Nat
  | .string _ => 1
  | .array ht => allocs_table ht
  | _ => 0
/-- The allocations for a table: the `HashTable`, and for a table with buckets `arData` and
what the buckets ask for. -/
def allocs_table : HashTable → Nat
  | .mk packed _ _ _ _ _ arData =>
    if arData.length = 0 then 1 else 2 + allocs_buckets packed arData
/-- The allocations for the buckets: those of each value, and one for each string key of a
table that is not packed. -/
def allocs_buckets : Bool → Buckets → Nat
  | _, .nil => 0
  | packed, .cons _ key v rest =>
    allocs v + (if packed then 0 else if key.isSome then 1 else 0) + allocs_buckets packed rest
end


/-- The context has room for `n` more allocations: it copies out, or its pool will serve
`n` more requests. -/
def room (ctxt : apc_context_t) (n : Nat) : Prop :=
  ctxt.copy = .APC_COPY_OUT ∨ n ≤ ctxt.pool.avail

/-- The context after `n` allocations that were served. -/
def used (ctxt : apc_context_t) (n : Nat) : apc_context_t :=
  match ctxt.copy with
  | .APC_COPY_IN =>
    { ctxt with pool := { ctxt.pool with size := ctxt.pool.size + n, avail := ctxt.pool.avail - n } }
  | .APC_COPY_OUT => ctxt

/-! ## Small caches used to run the definitions -/

/-- A toy serializer: arrays encode to `[97]`, objects to `[79]`, nothing else encodes. -/
def demo_serialize (v : zval) : serialize_result :=
  match v with
  | .array _ => { buf := some [97], exception := false }
  | .object _ => { buf := some [79], exception := false }
  | _ => { buf := none, exception := false }

/-- The array `{"x": 1}`. -/
def demo_array : zval :=
  .array (.mk false 8 4294967288 1 0 0 (.cons 120 (some [120]) (.long 1) .nil))

def demo_unserialize (s : List Nat) : Option zval :=
  if s = [97] then some demo_array else none

def demo_serializer : apc_serializer_t :=
  { serialize := demo_serialize, unserialize := demo_unserialize }

def demo_header : apc_cache_header_t :=
  { nhits := 0, nmisses := 0, ninserts := 0, nexpunges := 0, nentries := 0, mem_size := 0
    stime := 0, state := 0, lastkey := lastkey_zero, gc := [] }

/-- An empty cache of three slots, with no serializer, no global ttl and no slam defense. -/
def demo_cache : apc_cache_t :=
  { header := demo_header
    slots := [[], [], []]
    sma := { size := 1000, brk := 1, destroyed := [] }
    serializer := none
    php := demo_serializer
    gc_ttl := 3600
    ttl := 0
    smart := 0
    defend := false }

/-- The key `"a"`, which falls into slot 1 of a cache of three slots. -/
def key_a : zend_string := { h := 97, val := [97] }

/-- The key `"d"`, which falls into slot 1 as well. -/
def key_d : zend_string := { h := 100, val := [100] }

/-- The key `"b"`, which falls into slot 2. -/
def key_b : zend_string := { h := 98, val := [98] }

/-- An entry as `apc_cache_make_entry` builds it for an integer, already linked. -/
def demo_entry (key : zend_string) (n : Int) (ttl t : Int) (addr : Nat) : apc_cache_entry_t :=
  { key := key, val := .long n, ttl := ttl, ref_count := 0, nhits := 0, ctime := t, mtime := t
    dtime := 0, atime := t, mem_size := 2, pool := { addr := addr, size := 2, avail := 8 } }

/-- An updater in the manner of `php_inc_updater`: adds one to an integer, fails otherwise. -/
def demo_inc : apc_cache_updater_t := fun v =>
  match v with
  | .long n => (true, .long (n + 1))
  | x => (false, x)

/-- The cache reached from the empty one by storing `("d", 7)` with ttl 1 at time 0, taking
a handle on it, and storing `("a", 1)` with no ttl at time 0: slot 1 holds the entry of
`"d"` (one reference out) in front of the entry of `"a"`. -/
def demo_conflict_cache : apc_cache_t :=
  (apc_cache_store
    (apc_cache_find
      (apc_cache_store demo_cache key_d (.long 7) 1 false 0 0 1 (some 10)).2 key_d 0).1
    key_a (.long 1) 0 false 0 0 1 (some 10)).2

/-- The empty three-slot cache with the toy serializer configured. -/
def demo_serial_cache : apc_cache_t := { demo_cache with serializer := some demo_serializer }

/-- The empty three-slot cache with a global ttl of 10 seconds. -/
def demo_ttl_cache : apc_cache_t := { demo_cache with ttl := 10 }

/-- The key `"k"` with a hash that falls into slot 0 of a cache of 257 slots. -/
def key_k : zend_string := { h := 514, val := [107] }

/-- The cache created with size hint 1 (257 slots) after a store of `("k", 1)` at time 0. -/
def demo_created_cache : apc_cache_t :=
  run (apc_cache_create { size := 1000, brk := 1, destroyed := [] } none demo_serializer
    1 3600 0 0 false 0) [.store key_k (.long 1) 0 false 0 0 1 (some 10)]

/-- The cache created with size hint 1 (257 slots) and slam defense enabled. -/
def demo_defended_cache : apc_cache_t :=
  apc_cache_create { size := 1000, brk := 1, destroyed := [] } none demo_serializer
    1 3600 0 0 true 0

/-- The cache created with size hint 1 (257 slots) and `smart = 2^40`. -/
def demo_smart_cache : apc_cache_t :=
  apc_cache_create { size := 1000, brk := 1, destroyed := [] } none demo_serializer
    1 3600 0 1099511627776 false 0

/-- A serializer whose `serialize` returns 0 on every value, with no exception raised. -/
def demo_failing_serializer : apc_serializer_t :=
  { serialize := fun _ => { buf := none, exception := false }, unserialize := fun _ => none }

/-- The empty three-slot cache configured with the serializer that cannot encode. -/
def demo_failing_cache : apc_cache_t :=
  { demo_cache with serializer := some demo_failing_serializer }

/-- A serializer that encodes like the toy serializer and whose `unserialize` returns 0 on
every payload. -/
def demo_undecodable_serializer : apc_serializer_t :=
  { serialize := demo_serialize, unserialize := fun _ => none }

/-- The empty three-slot cache configured with the serializer that cannot decode. -/
def demo_undecodable_cache : apc_cache_t :=
  { demo_cache with serializer := some demo_undecodable_serializer }

/-! ## The value copier on a heap of shared nodes

The values above are trees. Here a value is a type tag and a pointer into a memory of
reference-counted nodes, so that two `zval`s can point to one node and a node can be reached
from itself; the copier is the same code, now with its table `ctxt->copied`. -/

namespace Heap

/-- The type tags of the `zval`s that carry a pointer. `IS_PTR` is the tag of the `zval`
that `ZVAL_PTR` builds. -/
inductive tag where
  | IS_STRING | IS_ARRAY | IS_OBJECT | IS_RESOURCE | IS_REFERENCE | IS_PTR
deriving DecidableEq, Repr

/-- A `zval`: a scalar, or a pointer with its type tag and the `IS_TYPE_REFCOUNTED` flag of
its type info. -/
inductive zval where
  | undef
  | null
  | false_
  | true_
  | long (n : Int)
  | double (d : Int)
  | pointer (ty : tag) (refcounted : Bool) (p : Nat)
deriving DecidableEq, Repr

/-- A bucket of `arData`: `h`, the pointer `key` (`none` is `NULL`) and `val`. -/
structure Bucket where
  h : Nat
  key : Option Nat
  val : zval
deriving DecidableEq, Repr

/-- What a pointer points to: a `zend_string`, a `zend_reference`, or a `HashTable` with its
flag `PACKED`, its metadata words and the `nNumUsed` buckets of `arData`. -/
inductive node where
  | string (refcount : Nat) (interned : Bool) (val : List Nat)
  | reference (refcount : Nat) (val : zval)
  | array (refcount : Nat) (packed : Bool) (nTableSize nTableMask nNumOfElements
      nNextFreeElement nInternalPointer : Nat) (arData : List Bucket)
deriving DecidableEq, Repr

/-- The memory: the nodes by address, and the address the next allocation returns. -/
structure memory where
  next : Nat
  cells : List (Nat × node)
deriving DecidableEq, Repr

def memory.read (m : memory) (p : Nat) : Option node := m.cells.lookup p

def memory.write (m : memory) (p : Nat) (n : node) : memory :=
  { m with cells := m.cells.map fun c => if c.1 = p then (p, n) else c }

/-- A successful allocation: the new address holds `n`. -/
def memory.alloc (m : memory) (n : node) : Nat × memory :=
  (m.next, { next := m.next + 1, cells := m.cells ++ [(m.next, n)] })

/-- The macros `GC_ADDREF` and `Z_ADDREF`: the reference count of the node at `p`, one up. -/
def GC_ADDREF (m : memory) (p : Nat) : memory :=
  match m.read p with
  | some (.string rc i v) => m.write p (.string (rc + 1) i v)
  | some (.reference rc v) => m.write p (.reference (rc + 1) v)
  | some (.array rc pk a b c d e bs) => m.write p (.array (rc + 1) pk a b c d e bs)
  | none => m

def Z_REFCOUNTED : zval → Bool
  | .pointer _ rc _ => rc
  | _ => false

/-- The macros `Z_COUNTED` and `Z_PTR`: the pointer word of the `zval`. -/
def Z_COUNTED : zval → Nat
  | .pointer _ _ p => p
  | _ => 0

/-- The macro `ZVAL_PTR`. -/
def ZVAL_PTR (p : Nat) : zval := .pointer .IS_PTR false p

/-- A serializer on heap values. -/
structure serializer_t where
  serialize : memory → zval → serialize_result
  unserialize : List Nat → memory → Option (zval × memory)

/-- An `apc_context_t` with its table `copied`: the entries of the table (key and `zval`),
and `copied.nTableSize`, which is 0 while the table is not initialised. -/
structure context where
  pool : apc_pool
  copy : apc_copy_type
  serializer : Option serializer_t
  php : serializer_t
  exception : Bool
  copied : List (Nat × zval)
  copied_nTableSize : Nat

/-- The function `zend_hash_index_find` on `ctxt->copied`. -/
def copied_find (ctxt : context) (k : Nat) : Option zval := ctxt.copied.lookup k

/-- The function `zend_hash_index_update` on `ctxt->copied`: the entry of key `k` is `v`. -/
def copied_update (ctxt : context) (k : Nat) (v : zval) : context :=
  if (ctxt.copied.lookup k).isSome then
    { ctxt with copied := ctxt.copied.map fun c => if c.1 = k then (k, v) else c }
  else { ctxt with copied := ctxt.copied ++ [(k, v)] }

/-- One allocation of the copier: `APC_POOL_ALLOC` on copy-in (`none` is `NULL`), `emalloc`
on copy-out. -/
def ctxt_alloc (ctxt : context) : Option context :=
  match ctxt.copy with
  | .APC_COPY_IN =>
    match apc_pool_alloc ctxt.pool with
    | none => none
    | some p => some { ctxt with pool := p }
  | .APC_COPY_OUT => some ctxt

/-- What a copier function gives: `none` when the run is not defined (a pointer to no node,
or `fuel` used up), else what the function returns (`none` is `NULL`) with the memory and the
context afterwards. -/
abbrev result (α : Type) := Option (Option α × memory × context)

/-- The function `my_serialize_object`. -/
def my_serialize_object (src : zval) (ty : tag) (m : memory) (ctxt : context) :
    zval × memory × context :=
  let serialize := match ctxt.serializer with
    | some s => s.serialize
    | none => ctxt.php.serialize
  let r := serialize m src
  let ctxt1 := { ctxt with exception := ctxt.exception || r.exception }
  match r.buf with
  | none => (.null, m, ctxt1)
  | some buf =>
    match apc_pool_alloc ctxt1.pool with
    | none => (.null, m, ctxt1)
    | some p =>
      let a := m.alloc (.string 1 false buf)
      (.pointer ty true a.1, a.2, { ctxt1 with pool := p })

/-- The function `my_unserialize_object`. -/
def my_unserialize_object (src : zval) (m : memory) (ctxt : context) : zval × memory :=
  let unserialize := match ctxt.serializer with
    | some s => s.unserialize
    | none => ctxt.php.unserialize
  match m.read (Z_COUNTED src) with
  | some (.string _ _ s) =>
    match unserialize s m with
    | some (v, m1) => (v, m1)
    | none => (.null, m)
  | _ => (.null, m)

/-- The array-or-object path of `my_copy_zval` (the `IS_OBJECT` case). -/
def copy_serialized (src : zval) (ty : tag) (m : memory) (ctxt : context) :
    zval × memory × context :=
  match ctxt.copy with
  | .APC_COPY_IN => my_serialize_object src ty m ctxt
  | .APC_COPY_OUT => ((my_unserialize_object src m ctxt).1, (my_unserialize_object src m ctxt).2, ctxt)

/-- The string case of `my_copy_zval`: `APC_POOL_STRING_DUP` into the pool on copy-in,
`zend_string_dup` on copy-out, which hands back an interned string as it is. -/
def copy_string (p : Nat) (m : memory) (ctxt : context) : result zval :=
  match m.read p with
  | some (.string _ interned s) =>
    match ctxt.copy with
    | .APC_COPY_IN =>
      match apc_pool_alloc ctxt.pool with
      | none => some (none, m, ctxt)
      | some pl =>
        let a := m.alloc (.string 1 false s)
        some (some (.pointer .IS_STRING true a.1), a.2, { ctxt with pool := pl })
    | .APC_COPY_OUT =>
      if interned then some (some (.pointer .IS_STRING false p), m, ctxt)
      else
        let a := m.alloc (.string 1 false s)
        some (some (.pointer .IS_STRING true a.1), a.2, ctxt)
  | _ => none

/-- The key of a copied bucket of a hash: `APC_POOL_STRING_DUP` on copy-in, whose `NULL` is
not looked at, `zend_string_dup` on copy-out. -/
def dup_bucket_key (key : Option Nat) (m : memory) (ctxt : context) :
    Option (Option Nat × memory × context) :=
  match key with
  | none => some (none, m, ctxt)
  | some k =>
    match copy_string k m ctxt with
    | none => none
    | some (none, m1, c1) => some (none, m1, c1)
    | some (some v, m1, c1) => some (some (Z_COUNTED v), m1, c1)

/-- The test of `apc_array_dup_element` that takes a reference with one holder for its
value, unless the value is the array `source` itself. -/
def unwrap_single (data : zval) (source : Nat) (m : memory) : zval :=
  match data with
  | .pointer .IS_REFERENCE _ r =>
    match m.read r with
    | some (.reference 1 v) =>
      match v with
      | .pointer .IS_ARRAY _ a => if a ≠ source then v else data
      | _ => v
    | _ => data
  | _ => data

/-- The index of the first bucket of a packed table that holds a value. -/
def first_defined : List Bucket → Nat
  | [] => 0
  | b :: rest => if b.val = .undef then first_defined rest + 1 else 0

mutual
/-- The function `my_copy_zval`. Each call of a copier function takes one unit of `fuel`. -/
def my_copy_zval : Nat → zval → memory → context → result zval
  | 0, _, _, _ => none
  | fuel + 1, src, m, ctxt =>
    match (if Z_REFCOUNTED src && decide (ctxt.copied.length ≠ 0)
        then copied_find ctxt (Z_COUNTED src) else none) with
    | some rc =>
      -- `ZVAL_COPY(dst, rc)`
      some (some rc, if Z_REFCOUNTED rc then GC_ADDREF m (Z_COUNTED rc) else m, ctxt)
    | none =>
      let done : Option (Option zval × memory × context) :=
        match src with
        | .pointer .IS_REFERENCE rcf p =>
          match my_copy_reference fuel p m ctxt with
          | none => none
          | some (none, m1, c1) => some (none, m1, c1)
          | some (some q, m1, c1) => some (some (.pointer .IS_REFERENCE rcf q), m1, c1)
        | .pointer .IS_STRING _ p => copy_string p m ctxt
        | .pointer .IS_ARRAY _ p =>
          if ctxt.serializer.isNone then
            match my_copy_hashtable fuel p m ctxt with
            | none => none
            | some (none, m1, c1) => some (none, m1, c1)
            | some (some ht, m1, c1) => some (some (.pointer .IS_ARRAY true ht), m1, c1)
          else
            let r := copy_serialized src .IS_ARRAY m ctxt
            some (some r.1, r.2.1, r.2.2)
        | .pointer .IS_OBJECT _ _ =>
          let r := copy_serialized src .IS_OBJECT m ctxt
          some (some r.1, r.2.1, r.2.2)
        | other => some (some other, m, ctxt)
      match done with
      | none => none
      | some (none, m1, c1) => some (none, m1, c1)
      | some (some dst, m1, c1) =>
        if Z_REFCOUNTED dst && decide (c1.copied_nTableSize ≠ 0) then
          some (some dst, m1, copied_update c1 (Z_COUNTED src) dst)
        else some (some dst, m1, c1)
termination_by structural fuel _ _ _ => fuel
/-- The function `my_copy_reference`: the address of the copy. -/
def my_copy_reference : Nat → Nat → memory → context → result Nat
  | 0, _, _, _ => none
  | fuel + 1, src, m, ctxt =>
    match (if ctxt.copied_nTableSize ≠ 0 then copied_find ctxt src else none) with
    | some rc => some (some (Z_COUNTED rc), GC_ADDREF m (Z_COUNTED rc), ctxt)
    | none =>
      match m.read src with
      | some (.reference _ val) =>
        match ctxt_alloc ctxt with
        | none => some (none, m, ctxt)
        | some c1 =>
          let a := m.alloc (.reference 1 .undef)
          match my_copy_zval fuel val a.2 c1 with
          | none => none
          | some (none, m2, c2) => some (none, m2, c2)
          | some (some v, m2, c2) =>
            let m3 := m2.write a.1 (.reference
              (match m2.read a.1 with
                | some (.reference rc _) => rc
                | _ => 1) v)
            if c2.copied_nTableSize ≠ 0 then
              some (some a.1, m3, copied_update c2 src (ZVAL_PTR a.1))
            else some (some a.1, m3, c2)
      | _ => none
termination_by structural fuel _ _ _ => fuel
/-- The function `my_copy_hashtable`: the address of the copy. -/
def my_copy_hashtable : Nat → Nat → memory → context → result Nat
  | 0, _, _, _ => none
  | fuel + 1, source, m, ctxt =>
    match m.read source with
    | some (.array _ packed nTableSize nTableMask nNumOfElements nNextFreeElement _ arData) =>
      match ctxt_alloc ctxt with
      | none => some (none, m, ctxt)
      | some c1 =>
        let a := m.alloc (.array 1 false nTableSize 0 0 0 0 [])
        -- `zend_hash_index_update_ptr(&ctxt->copied, source, target)`
        let c2 := copied_update c1 source (ZVAL_PTR a.1)
        if arData.length = 0 then
          some (some a.1,
            a.2.write a.1 (.array 1 false nTableSize HT_MIN_MASK 0 0 HT_INVALID_IDX []), c2)
        else
          match ctxt_alloc c2 with
          | none => some (none, a.2, c2)
          | some c3 =>
            if packed then
              match apc_array_dup_packed_elements fuel source arData
                  (arData.length != nNumOfElements) a.2 c3 with
              | none => none
              | some (bs, m4, c4) =>
                some (some a.1,
                  m4.write a.1 (.array
                    (match m4.read a.1 with
                      | some (.array rc _ _ _ _ _ _ _) => rc
                      | _ => 1)
                    true nTableSize nTableMask nNumOfElements nNextFreeElement
                    (if nNumOfElements > 0 then first_defined bs else HT_INVALID_IDX) bs), c4)
            else
              match apc_array_dup_elements fuel source arData
                  (arData.length != nNumOfElements) a.2 c3 with
              | none => none
              | some (bs, m4, c4) =>
                some (some a.1,
                  m4.write a.1 (.array
                    (match m4.read a.1 with
                      | some (.array rc _ _ _ _ _ _ _) => rc
                      | _ => 1)
                    false nTableSize nTableMask bs.length nNextFreeElement
                    (if bs.length > 0 then 0 else HT_INVALID_IDX) bs), c4)
    | _ => none
termination_by structural fuel _ _ _ => fuel
/-- The function `apc_array_dup_packed_elements` from the bucket at the cursor on: every
source bucket gives a target bucket; one whose value is a hole or could not be copied holds
no value. -/
def apc_array_dup_packed_elements : Nat → Nat → List Bucket → Bool → memory → context →
    Option (List Bucket × memory × context)
  | 0, _, _, _, _, _ => none
  | _ + 1, _, [], _, m, ctxt => some ([], m, ctxt)
  | fuel + 1, source, p :: rest, with_holes, m, ctxt =>
    if with_holes && decide (p.val = .undef) then
      match apc_array_dup_packed_elements fuel source rest with_holes m ctxt with
      | none => none
      | some (bs, m2, c2) => some ({ h := p.h, key := none, val := .undef } :: bs, m2, c2)
    else
      match my_copy_zval fuel (unwrap_single p.val source m) m ctxt with
      | none => none
      | some (none, m1, c1) =>
        match apc_array_dup_packed_elements fuel source rest with_holes m1 c1 with
        | none => none
        | some (bs, m2, c2) => some ({ h := p.h, key := none, val := .undef } :: bs, m2, c2)
      | some (some v, m1, c1) =>
        match apc_array_dup_packed_elements fuel source rest with_holes m1 c1 with
        | none => none
        | some (bs, m2, c2) => some ({ h := p.h, key := none, val := v } :: bs, m2, c2)
termination_by structural fuel _ _ _ _ _ => fuel
/-- The function `apc_array_dup_elements` from the bucket at the cursor on: a source bucket
whose value is a hole or could not be copied gives no target bucket. -/
def apc_array_dup_elements : Nat → Nat → List Bucket → Bool → memory → context →
    Option (List Bucket × memory × context)
  | 0, _, _, _, _, _ => none
  | _ + 1, _, [], _, m, ctxt => some ([], m, ctxt)
  | fuel + 1, source, p :: rest, with_holes, m, ctxt =>
    if with_holes && decide (p.val = .undef) then
      apc_array_dup_elements fuel source rest with_holes m ctxt
    else
      match my_copy_zval fuel (unwrap_single p.val source m) m ctxt with
      | none => none
      | some (none, m1, c1) => apc_array_dup_elements fuel source rest with_holes m1 c1
      | some (some v, m1, c1) =>
        match dup_bucket_key p.key m1 c1 with
        | none => none
        | some (k, m2, c2) =>
          match apc_array_dup_elements fuel source rest with_holes m2 c2 with
          | none => none
          | some (bs, m3, c3) => some ({ h := p.h, key := k, val := v } :: bs, m3, c3)
termination_by structural fuel _ _ _ _ _ => fuel
end

/-- Whether the `zval` is of type `IS_ARRAY`. -/
def is_array : zval → Bool
  | .pointer .IS_ARRAY _ _ => true
  | _ => false

/-- The function `apc_cache_store_zval`: for an array the table `copied` is initialised
before the copy (`zend_hash_init` with 16 slots) and destroyed after it. -/
def apc_cache_store_zval (fuel : Nat) (src : zval) (m : memory) (ctxt : context) :
    result zval :=
  let c0 := if is_array src then { ctxt with copied := [], copied_nTableSize := 16 } else ctxt
  match my_copy_zval fuel src m c0 with
  | none => none
  | some (dst, m1, c1) =>
    let c2 := if is_array src then { c1 with copied := [], copied_nTableSize := 0 } else c1
    match dst with
    | none => some (none, m1, c2)
    | some d => if c2.exception then some (none, m1, c2) else some (some d, m1, c2)

/-- The function `apc_cache_entry_fetch_zval` on the value `val` of an entry: `none` when
the run is not defined, else the value written to `dst` (`none` when the copier returned
`NULL`) and the memory afterwards. -/
def apc_cache_entry_fetch_zval (fuel : Nat) (serializer : Option serializer_t)
    (php : serializer_t) (val : zval) (m : memory) : Option (Option zval × memory) :=
  let ctxt : context :=
    { pool := null_pool, copy := .APC_COPY_OUT, serializer := serializer, php := php
      exception := false, copied := []
      copied_nTableSize := if is_array val then 16 else 0 }
  match my_copy_zval fuel val m ctxt with
  | none => none
  | some (dst, m1, _) => some (dst, m1)

end Heap

/-- The array `{"x": "s"}`. -/
def demo_string_array : zval :=
  .array (.mk false 8 4294967288 1 0 0 (.cons 120 (some [120]) (.string [115]) .nil))

/-- The entry that the store of `{"x": "s"}` under `"a"` at second 100 links when its pool
serves four requests: the value is an array with no bucket. -/
def demo_truncated_entry : apc_cache_entry_t :=
  { key := key_a, val := .array (.mk false 8 4294967288 0 0 HT_INVALID_IDX .nil), ttl := 0
    ref_count := 0, nhits := 0, ctime := 100, mtime := 100, dtime := 0, atime := 100
    mem_size := 4, pool := { addr := 1, size := 4, avail := 0 } }

namespace Heap

/-- A serializer on heap values that encodes and decodes nothing. -/
def demo_php : serializer_t :=
  { serialize := fun _ _ => { buf := none, exception := false }, unserialize := fun _ _ => none }

/-- The memory of `$a = []; $a[0] = &$a;` with `$a` handed to a function by value: the table
at address 1 holds one bucket, a reference to the `zend_reference` at address 2, whose value
is the array at address 1. -/
def demo_cyclic_memory : memory :=
  { next := 3
    cells :=
      [(1, .array 2 true 8 4294967294 1 1 0
            [{ h := 0, key := none, val := .pointer .IS_REFERENCE true 2 }]),
       (2, .reference 2 (.pointer .IS_ARRAY true 1))] }

/-- The memory of `$x = [1]; $b = [$x, $x];`: both buckets of the table at address 1 point to
the table at address 2. -/
def demo_shared_memory : memory :=
  { next := 3
    cells :=
      [(1, .array 1 true 8 4294967294 2 2 0
            [{ h := 0, key := none, val := .pointer .IS_ARRAY true 2 },
             { h := 1, key := none, val := .pointer .IS_ARRAY true 2 }]),
       (2, .array 2 true 8 4294967294 1 1 0 [{ h := 0, key := none, val := .long 1 }])] }

/-- A copy-in context with no serializer configured and a pool that serves 20 requests. -/
def demo_copy_in : context :=
  { pool := { addr := 1, size := 0, avail := 20 }, copy := .APC_COPY_IN, serializer := none
    php := demo_php, exception := false, copied := [], copied_nTableSize := 0 }

/-- The memory after the copy-in of the cyclic array of `demo_cyclic_memory`. -/
def demo_cyclic_stored : memory :=
  { next := 5
    cells :=
      [(1, .array 2 true 8 4294967294 1 1 0
            [{ h := 0, key := none, val := .pointer .IS_REFERENCE true 2 }]),
       (2, .reference 2 (.pointer .IS_ARRAY true 1)),
       (3, .array 1 true 8 4294967294 1 1 0
            [{ h := 0, key := none, val := .pointer .IS_REFERENCE true 4 }]),
       (4, .reference 1 (.pointer .IS_PTR false 3))] }

end Heap

/-! ## Notions used to state the later properties -/

/-- The primes of the table of `make_prime`: the array `primes` without its sentinel. -/
def prime_table : List Int := primes.filter fun k => k != 0

/-- The number `N` is the smallest entry of the prime table strictly greater than `h`. -/
def smallest_above (h N : Int) : Prop :=
  N ∈ prime_table ∧ h < N ∧ ∀ p ∈ prime_table, h < p → N ≤ p

/-- The number `N` is the smallest entry of the prime table with `N ≥ h`. -/
def smallest_at_least (h N : Int) : Prop :=
  N ∈ prime_table ∧ h ≤ N ∧ ∀ p ∈ prime_table, h ≤ p → N ≤ p

/-- A sound allocator for "create": size 1000, next pool at address 1, nothing handed back. -/
def demo_sma : apc_sma_t := { size := 1000, brk := 1, destroyed := [] }

/-- The slot count of the cache that `apc_cache_create` builds for the size hint `h`. -/
def created_nslots (h : Int) : Nat :=
  (apc_cache_create demo_sma none demo_serializer h 3600 0 0 false 0).nslots

/-- The test of the sweep `apc_cache_wlocked_gc` on an entry of the GC list, in closed form:
no reference is out, or `gc_ttl` is not zero and the entry has been on the list for more than
`gc_ttl` seconds. -/
def gc_frees (gc_ttl now : Int) (e : apc_cache_entry_t) : Bool :=
  decide (e.ref_count = 0 ∨ (gc_ttl ≠ 0 ∧ now - e.dtime > gc_ttl))

/-- The test of the sweep with the timeout worded as "`gc_ttl > 0` and
`now - dtime > gc_ttl`". -/
def gc_frees_positive (gc_ttl now : Int) (e : apc_cache_entry_t) : Bool :=
  decide (e.ref_count = 0 ∨ (gc_ttl > 0 ∧ now - e.dtime > gc_ttl))

/-- The three-slot cache with `gc_ttl = -1` whose GC list holds the entry of `"a"` with one
reference out, put there at second 100. -/
def demo_negative_gc_cache : apc_cache_t :=
  { demo_cache with
    gc_ttl := -1
    header := { demo_header with
      gc := [{ demo_entry key_a 1 0 0 7 with ref_count := 1, dtime := 100 }] } }

/-- The three-slot cache whose slot 1 holds the entry of `"d"` (ttl 1, made at second 0) in
front of the entry of `"a"` (no ttl, made at second 0). -/
def demo_two_cache : apc_cache_t :=
  set_slot_chain demo_cache 1 [demo_entry key_d 7 1 0 1, demo_entry key_a 1 0 0 2]

/-- Every entry chained in slot `s` has a key whose hash, reduced modulo the slot count,
is `s`. -/
def chain_consistent (c : apc_cache_t) : Prop :=
  ∀ s, ∀ e ∈ slot_chain c s, (apc_cache_hash_slot c e.key).2 = s

/-- The entries chained in the cache that have the key and are not hard-expired at `t`. -/
def live_entries (c : apc_cache_t) (key : zend_string) (t : Int) : List apc_cache_entry_t :=
  (chained c).filter fun e => decide (e.key = key) && !apc_cache_entry_hard_expired e t

/-- For every key and time at most one chained entry has the key and is not hard-expired. -/
def live_unique (c : apc_cache_t) : Prop :=
  ∀ key t, (live_entries c key t).length ≤ 1

/-- The sum of `mem_size` over the entries of a list. -/
def mem_sum (l : List apc_cache_entry_t) : Int := (l.map fun e => e.mem_size).sum

/-- The header accounts for the memory of the chained entries: `header.mem_size` is the sum
of `mem_size` over the entries reachable from the slot chains. -/
def accounted (c : apc_cache_t) : Prop := c.header.mem_size = mem_sum (chained c)

/-- No chained entry has a negative `mem_size`. -/
def sizes_nonneg (c : apc_cache_t) : Prop := ∀ e ∈ chained c, 0 ≤ e.mem_size

/-- The identities of the entries the cache holds, an entry being identified by the address
of its pool: those of the chained entries, slot after slot, then those of the GC list. -/
def entry_addrs (c : apc_cache_t) : List Nat :=
  (chained c ++ c.header.gc).map fun e => e.pool.addr

/-- No entry occurs twice among the slot chains and the GC list; in particular no entry of
the GC list is chained. -/
def separated (c : apc_cache_t) : Prop := (entry_addrs c).Nodup

/-- Every entry the cache holds lives in a pool created below the address `a`. -/
def allocated_below (a : Nat) (c : apc_cache_t) : Prop := ∀ x ∈ entry_addrs c, x < a

/-- The entry `e2` is the entry `e` rewritten in place: same pool and same `mem_size`. -/
def same_cell (e e2 : apc_cache_entry_t) : Prop :=
  e2.pool = e.pool ∧ e2.mem_size = e.mem_size

/-- The cache `c2` holds the entries of `c`, each in its place on its chain or on the GC
list and possibly rewritten in place, and counts the same memory and the same number of
entries. -/
def rewritten_in_place (c c2 : apc_cache_t) : Prop :=
  c2.slots.length = c.slots.length ∧
  (∀ i, List.Forall₂ same_cell (slot_chain c i) (slot_chain c2 i)) ∧
  List.Forall₂ same_cell c.header.gc c2.header.gc ∧
  c2.header.mem_size = c.header.mem_size ∧ c2.header.nentries = c.header.nentries

/-- The cache `demo_two_cache` with a header that counts its two entries and their 4 units
of memory. -/
def demo_accounted_cache : apc_cache_t :=
  { demo_two_cache with header := { demo_header with mem_size := 4, nentries := 2 } }

/-- The entry `e`, standing between `pre` and `suf` in the chain of the slot of `key`, is the
only entry of that chain with the key, and it is hard-expired at `t`. -/
def only_expired_match (c : apc_cache_t) (key : zend_string) (t : Int)
    (pre : List apc_cache_entry_t) (e : apc_cache_entry_t)
    (suf : List apc_cache_entry_t) : Prop :=
  first_match c key pre e suf ∧ (∀ x ∈ suf, x.key ≠ key) ∧
    apc_cache_entry_hard_expired e t = true

/-- The cache `c` with the chain of the slot of `key` reduced to `pre ++ suf`: the same
cache with the entry that stood between `pre` and `suf` absent. -/
def without_match (c : apc_cache_t) (key : zend_string)
    (pre suf : List apc_cache_entry_t) : apc_cache_t :=
  set_slot_chain c (apc_cache_hash_slot c key).2 (pre ++ suf)

/-- The entry that `apc_cache_store` has built when it reaches the insert: `none` when the
slam defense refused the store, the allocator granted no pool, or `apc_cache_make_entry`
returned `NULL`. -/
def store_builds (c : apc_cache_t) (key : zend_string) (val : zval) (ttl t : Int)
    (owner : Nat) (grant : Option Nat) : Option apc_cache_entry_t :=
  if (apc_cache_defense c key t owner).1 then none
  else
    match apc_cache_make_copy_in_context (apc_cache_defense c key t owner).2 grant with
    | (none, _) => none
    | (some ctxt, _) => (apc_cache_make_entry ctxt key val ttl t).1

/-- The three-slot cache after a store of `("a", 1)` with a ttl of 5 seconds at second 0:
slot 1 holds the entry, which is hard-expired from second 6 on. -/
def demo_expired_cache : apc_cache_t :=
  (apc_cache_store demo_cache key_a (.long 1) 5 false 0 0 1 (some 10)).2

/-- The header counts the chained entries: `header.nentries` is the number of entries
reachable from the slot chains. -/
def counted (c : apc_cache_t) : Prop := c.header.nentries = ((chained c).length : Int)

/-- No entry of the GC list has a reference count of 0: a sweep would free none for that
reason. -/
def gc_swept (c : apc_cache_t) : Prop := ∀ g ∈ c.header.gc, g.ref_count ≠ 0

/-- The call that took the cache from `c` to `c2` swept the GC list: no entry that was on
the GC list of `c` with `ref_count = 0` is on the GC list of `c2`. -/
def gc_swept_from (c c2 : apc_cache_t) : Prop :=
  ∀ g ∈ c.header.gc, g.ref_count = 0 → g ∉ c2.header.gc

/-- The three-slot cache after a store of `("a", 1)` at second 0, a `find` of `"a"` that
takes a handle, a delete of `"a"` at second 5 and the release of the handle: the GC list
holds the entry of `"a"` with `ref_count = 0`. -/
def demo_released_cache : apc_cache_t :=
  run demo_cache
    [.store key_a (.long 1) 0 false 0 0 1 (some 10), .find key_a 0, .delete key_a 5,
     .release (demo_entry key_a 1 0 0 1)]

/-- A family of cache properties, indexed by a bound on the pool addresses handed out so far,
that every elementary step of the public operations preserves: growing the bound, rewriting
entries in place, the GC sweep, taking entries off one chain or off all chains with
`apc_cache_wlocked_remove_entry`, the full wipe, and linking an entry built in the pool at
the bound. -/
structure closed_family (I : Nat → apc_cache_t → Prop) : Prop where
  mono : ∀ a b c, a ≤ b → I a c → I b c
  rewrite : ∀ a c c2, rewritten_in_place c c2 → I a c → I a c2
  sweep : ∀ a c now, I a c → I a (apc_cache_wlocked_gc c now)
  remove : ∀ a c s ch L now, s < c.slots.length → (slot_chain c s).Perm (ch ++ L) →
    I a c → I a (set_slot_chain (remove_all now L c) s ch)
  remove_filtered : ∀ a c (p : apc_cache_entry_t → Bool) now, I a c →
    I a { remove_all now ((chained c).filter p) c with
          slots := c.slots.map fun ch => ch.filter fun e => !p e }
  wipe : ∀ a c t now, I a c → I a (apc_cache_wlocked_real_expunge c t now)
  link : ∀ a r s n, s < r.cache.slots.length → n.pool.addr = a →
    I a (unlink_cache r s) → I (a + 1) (link_cache r s n)

/-! # Properties -/

/-! ## Basic facts: keys and slots -/

theorem memcmp_eq_zero_iff : ∀ (a b : List Nat), a.length = b.length →
    (memcmp a b b.length = 0 ↔ a = b)
  | [], [], _ => by simp [memcmp]
  | [], _ :: _, h => by simp at h
  | _ :: _, [], h => by simp at h
  | x :: a, y :: b, h => by
    have hl : a.length = b.length := by simpa using h
    have ih := memcmp_eq_zero_iff a b hl
    by_cases hxy : x = y
    · subst hxy
      simp [memcmp, ih]
    · have hne : (x : Int) - (y : Int) ≠ 0 := by omega
      simp [memcmp, hxy, hne]

theorem key_match_iff (ek : zend_string) (h : Nat) (key : zend_string) :
    key_match ek h key = true ↔ ek.h = h ∧ ek.val = key.val := by
  unfold key_match ZSTR_HASH ZSTR_LEN ZSTR_VAL
  constructor
  · intro hm
    simp only [Bool.and_eq_true, beq_iff_eq] at hm
    obtain ⟨⟨h1, h2⟩, h3⟩ := hm
    exact ⟨h1, (memcmp_eq_zero_iff _ _ h2).1 h3⟩
  · rintro ⟨h1, h2⟩
    simp only [Bool.and_eq_true, beq_iff_eq]
    refine ⟨⟨h1, by rw [h2]⟩, ?_⟩
    exact (memcmp_eq_zero_iff _ _ (by rw [h2])).2 h2

/-- A chain entry matches the looked-up key exactly when the two keys are equal. -/
theorem key_match_self_iff (ek key : zend_string) :
    key_match ek (ZSTR_HASH key) key = true ↔ ek = key := by
  rw [key_match_iff]
  unfold ZSTR_HASH
  constructor
  · rintro ⟨h1, h2⟩
    cases ek; cases key; simp_all
  · rintro rfl
    exact ⟨rfl, rfl⟩

theorem slot_chain_set_same (c : apc_cache_t) (s : Nat) (ch : List apc_cache_entry_t)
    (hs : s < c.slots.length) : slot_chain (set_slot_chain c s ch) s = ch := by
  simp [slot_chain, set_slot_chain, List.getD_eq_getElem?_getD, hs]

theorem slot_chain_set_other (c : apc_cache_t) (s s2 : Nat) (ch : List apc_cache_entry_t)
    (hne : s ≠ s2) : slot_chain (set_slot_chain c s ch) s2 = slot_chain c s2 := by
  simp [slot_chain, set_slot_chain, List.getD_eq_getElem?_getD, List.getElem?_set, hne]

theorem set_slot_chain_self (c : apc_cache_t) (s : Nat) :
    set_slot_chain c s (slot_chain c s) = c := by
  unfold set_slot_chain slot_chain
  have : c.slots.set s (c.slots.getD s []) = c.slots := by
    apply List.ext_getElem?
    intro i
    by_cases his : s = i
    · subst his
      by_cases hs : s < c.slots.length
      · simp [List.getD_eq_getElem?_getD, hs]
      · simp [List.getElem?_set, hs]
        simpa using hs
    · simp [List.getElem?_set, his]
  rw [this]

theorem slot_lt (c : apc_cache_t) (key : zend_string) (h : 0 < c.nslots) :
    (apc_cache_hash_slot c key).2 < c.slots.length := by
  unfold apc_cache_hash_slot
  exact Nat.mod_lt _ h

theorem slot_chain_nil_of_ge (c : apc_cache_t) (s : Nat) (h : c.slots.length ≤ s) :
    slot_chain c s = [] := by
  simp [slot_chain, List.getD_eq_getElem?_getD, List.getElem?_eq_none h]

/-! ## Chain walks -/

/-- A chain either has no entry matching the key, or splits at the first one. -/
theorem chain_split (p : apc_cache_entry_t → Bool) :
    ∀ chain : List apc_cache_entry_t,
      (∀ x ∈ chain, p x = false) ∨
      ∃ pre e suf, chain = pre ++ e :: suf ∧ (∀ x ∈ pre, p x = false) ∧ p e = true
  | [] => Or.inl (by simp)
  | a :: rest => by
    by_cases ha : p a = true
    · exact Or.inr ⟨[], a, rest, rfl, by simp, ha⟩
    · have ha2 : p a = false := by simpa using ha
      rcases chain_split p rest with h | ⟨pre, e, suf, h1, h2, h3⟩
      · left
        intro x hx
        rcases List.mem_cons.1 hx with rfl | hx
        · exact ha2
        · exact h x hx
      · right
        refine ⟨a :: pre, e, suf, by simp [h1], ?_, h3⟩
        intro x hx
        rcases List.mem_cons.1 hx with rfl | hx
        · exact ha2
        · exact h2 x hx

theorem find_nostat_walk_none (h : Nat) (key : zend_string) (t : Int) :
    ∀ chain : List apc_cache_entry_t, (∀ x ∈ chain, key_match x.key h key = false) →
      find_nostat_walk h key t chain = none
  | [], _ => rfl
  | a :: rest, hno => by
    have ha := hno a (by simp)
    simp only [find_nostat_walk, ha]
    exact find_nostat_walk_none h key t rest (fun x hx => hno x (by simp [hx]))

theorem find_nostat_walk_split (h : Nat) (key : zend_string) (t : Int) (e : apc_cache_entry_t)
    (suf : List apc_cache_entry_t) (he : key_match e.key h key = true) :
    ∀ pre : List apc_cache_entry_t, (∀ x ∈ pre, key_match x.key h key = false) →
      find_nostat_walk h key t (pre ++ e :: suf) =
        if apc_cache_entry_hard_expired e t then none else some e
  | [], _ => by simp [find_nostat_walk, he]
  | a :: pre, hno => by
    have ha := hno a (by simp)
    simp only [List.cons_append, find_nostat_walk, ha]
    exact find_nostat_walk_split h key t e suf he pre (fun x hx => hno x (by simp [hx]))

theorem find_walk_none (h : Nat) (key : zend_string) (t : Int) :
    ∀ chain : List apc_cache_entry_t, (∀ x ∈ chain, key_match x.key h key = false) →
      find_walk h key t chain = none
  | [], _ => rfl
  | a :: rest, hno => by
    have ha := hno a (by simp)
    simp only [find_walk, ha]
    rw [find_walk_none h key t rest (fun x hx => hno x (by simp [hx]))]
    simp

theorem find_walk_split (h : Nat) (key : zend_string) (t : Int) (e : apc_cache_entry_t)
    (suf : List apc_cache_entry_t) (he : key_match e.key h key = true) :
    ∀ pre : List apc_cache_entry_t, (∀ x ∈ pre, key_match x.key h key = false) →
      find_walk h key t (pre ++ e :: suf) =
        if apc_cache_entry_hard_expired e t then none
        else some (pre, { e with nhits := e.nhits + 1, atime := t }, suf)
  | [], _ => by simp [find_walk, he]
  | a :: pre, hno => by
    have ha := hno a (by simp)
    have ih := find_walk_split h key t e suf he pre (fun x hx => hno x (by simp [hx]))
    simp only [List.cons_append, find_walk, ha, List.append_eq, ih]
    by_cases hx : apc_cache_entry_hard_expired e t = true <;> simp [hx]

theorem delete_walk_none (h : Nat) (key : zend_string) (now : Int) (c : apc_cache_t) :
    ∀ chain : List apc_cache_entry_t, (∀ x ∈ chain, key_match x.key h key = false) →
      delete_walk h key now c chain = (false, chain, c)
  | [], _ => rfl
  | a :: rest, hno => by
    have ha := hno a (by simp)
    simp only [delete_walk, ha]
    rw [delete_walk_none h key now c rest (fun x hx => hno x (by simp [hx]))]
    simp

theorem delete_walk_split (h : Nat) (key : zend_string) (now : Int) (c : apc_cache_t)
    (e : apc_cache_entry_t) (suf : List apc_cache_entry_t)
    (he : key_match e.key h key = true) :
    ∀ pre : List apc_cache_entry_t, (∀ x ∈ pre, key_match x.key h key = false) →
      delete_walk h key now c (pre ++ e :: suf) =
        (true, pre ++ suf, apc_cache_wlocked_remove_entry c e now)
  | [], _ => by simp [delete_walk, he]
  | a :: pre, hno => by
    have ha := hno a (by simp)
    have ih := delete_walk_split h key now c e suf he pre (fun x hx => hno x (by simp [hx]))
    simp only [List.cons_append, delete_walk, ha, List.append_eq, ih]
    simp

/-! ## Fields that removal and the GC sweep leave alone -/

@[simp]
theorem remove_entry_slots (c : apc_cache_t) (e : apc_cache_entry_t) (now : Int) :
    (apc_cache_wlocked_remove_entry c e now).slots = c.slots := by
  unfold apc_cache_wlocked_remove_entry free_entry
  split <;> rfl

@[simp]
theorem gc_slots (c : apc_cache_t) (now : Int) :
    (apc_cache_wlocked_gc c now).slots = c.slots := by
  unfold apc_cache_wlocked_gc
  split <;> rfl

@[simp]
theorem remove_entry_slot_chain (c : apc_cache_t) (e : apc_cache_entry_t) (now : Int)
    (s : Nat) : slot_chain (apc_cache_wlocked_remove_entry c e now) s = slot_chain c s := by
  simp [slot_chain]

theorem key_match_false_iff (ek key : zend_string) :
    key_match ek (ZSTR_HASH key) key = false ↔ ek ≠ key := by
  rw [Ne, ← key_match_self_iff, Bool.not_eq_true]

theorem slot_lt_of_chain_ne_nil (c : apc_cache_t) (s : Nat) (h : slot_chain c s ≠ []) :
    s < c.slots.length := by
  by_contra hge
  exact h (slot_chain_nil_of_ge c s (by omega))

theorem apc_cache_delete_miss (c : apc_cache_t) (key : zend_string) (now : Int)
    (hno : ∀ x ∈ slot_chain c (apc_cache_hash_slot c key).2, x.key ≠ key) :
    apc_cache_delete c key now = (false, c) := by
  unfold apc_cache_delete
  have h1 : (apc_cache_hash_slot c key).1 = ZSTR_HASH key := rfl
  simp only [h1]
  rw [delete_walk_none _ _ _ _ _ (fun x hx => (key_match_false_iff _ _).2 (hno x hx))]
  simp [set_slot_chain_self]

theorem apc_cache_delete_hit (c : apc_cache_t) (key : zend_string) (now : Int)
    (pre suf : List apc_cache_entry_t) (e : apc_cache_entry_t)
    (hc : slot_chain c (apc_cache_hash_slot c key).2 = pre ++ e :: suf)
    (hpre : ∀ x ∈ pre, x.key ≠ key) (he : e.key = key) :
    apc_cache_delete c key now =
      (true, set_slot_chain (apc_cache_wlocked_remove_entry c e now)
        (apc_cache_hash_slot c key).2 (pre ++ suf)) := by
  unfold apc_cache_delete
  have h1 : (apc_cache_hash_slot c key).1 = ZSTR_HASH key := rfl
  simp only [h1, hc]
  rw [delete_walk_split _ _ _ _ _ _ ((key_match_self_iff _ _).2 he) _
    (fun x hx => (key_match_false_iff _ _).2 (hpre x hx))]

theorem delete_true_split (c : apc_cache_t) (key : zend_string) (now : Int)
    (hd : (apc_cache_delete c key now).1 = true) :
    ∃ pre e suf, slot_chain c (apc_cache_hash_slot c key).2 = pre ++ e :: suf ∧
      (∀ x ∈ pre, x.key ≠ key) ∧ e.key = key ∧
      slot_chain (apc_cache_delete c key now).2 (apc_cache_hash_slot c key).2 = pre ++ suf := by
  rcases chain_split (fun x => key_match x.key (ZSTR_HASH key) key)
      (slot_chain c (apc_cache_hash_slot c key).2) with hno | ⟨pre, e, suf, hc, hpre, he⟩
  · have hno2 : ∀ x ∈ slot_chain c (apc_cache_hash_slot c key).2, x.key ≠ key :=
      fun x hx => (key_match_false_iff _ _).1 (hno x hx)
    rw [apc_cache_delete_miss c key now hno2] at hd
    simp at hd
  · have hpre2 : ∀ x ∈ pre, x.key ≠ key := fun x hx => (key_match_false_iff _ _).1 (hpre x hx)
    have he2 : e.key = key := (key_match_self_iff _ _).1 he
    have hlt : (apc_cache_hash_slot c key).2 < c.slots.length :=
      slot_lt_of_chain_ne_nil c _ (by rw [hc]; simp)
    rw [apc_cache_delete_hit c key now pre suf e hc hpre2 he2]
    exact ⟨pre, e, suf, hc, hpre2, he2, slot_chain_set_same _ _ _ (by simpa using hlt)⟩

/-- C6: `apc_cache_delete` returns true exactly when the chain of the key's slot holds an
entry with that key; it then detaches the first such entry through `remove_entry`, keeps the
other entries of the chain in order and leaves every other chain alone; when it returns
false the cache is unchanged. -/
theorem C6_delete (c : apc_cache_t) (key : zend_string) (now : Int) :
    ((apc_cache_delete c key now).1 = true ↔
      ∃ e ∈ slot_chain c (apc_cache_hash_slot c key).2, e.key = key) ∧
    ((apc_cache_delete c key now).1 = true →
      ∃ pre e suf, slot_chain c (apc_cache_hash_slot c key).2 = pre ++ e :: suf ∧
        (∀ x ∈ pre, x.key ≠ key) ∧ e.key = key ∧
        (apc_cache_delete c key now).2 =
          set_slot_chain (apc_cache_wlocked_remove_entry c e now)
            (apc_cache_hash_slot c key).2 (pre ++ suf) ∧
        slot_chain (apc_cache_delete c key now).2 (apc_cache_hash_slot c key).2 = pre ++ suf ∧
        ∀ s2, s2 ≠ (apc_cache_hash_slot c key).2 →
          slot_chain (apc_cache_delete c key now).2 s2 = slot_chain c s2) ∧
    ((apc_cache_delete c key now).1 = false → (apc_cache_delete c key now).2 = c) := by
  rcases chain_split (fun x => key_match x.key (ZSTR_HASH key) key)
      (slot_chain c (apc_cache_hash_slot c key).2) with hno | ⟨pre, e, suf, hc, hpre, he⟩
  · have hno2 : ∀ x ∈ slot_chain c (apc_cache_hash_slot c key).2, x.key ≠ key :=
      fun x hx => (key_match_false_iff _ _).1 (hno x hx)
    rw [apc_cache_delete_miss c key now hno2]
    refine ⟨?_, ?_, ?_⟩
    · constructor
      · intro h; simp at h
      · rintro ⟨e, he, hk⟩
        exact absurd hk (hno2 e he)
    · intro h; simp at h
    · intro _; rfl
  · have hpre2 : ∀ x ∈ pre, x.key ≠ key := fun x hx => (key_match_false_iff _ _).1 (hpre x hx)
    have he2 : e.key = key := (key_match_self_iff _ _).1 he
    have hlt : (apc_cache_hash_slot c key).2 < c.slots.length :=
      slot_lt_of_chain_ne_nil c _ (by rw [hc]; simp)
    rw [apc_cache_delete_hit c key now pre suf e hc hpre2 he2]
    refine ⟨?_, ?_, ?_⟩
    · constructor
      · intro _
        exact ⟨e, by rw [hc]; simp, he2⟩
      · intro _; rfl
    · intro _
      refine ⟨pre, e, suf, hc, hpre2, he2, rfl, ?_, ?_⟩
      · exact slot_chain_set_same _ _ _ (by simpa using hlt)
      · intro s2 hs2
        rw [slot_chain_set_other _ _ _ _ (Ne.symm hs2)]
        simp
    · intro h; simp at h

/-- C6 run on a chain holding `"a"` then `"d"`: deleting `"d"` returns true and leaves
`"a"`; deleting `"b"`, which is not there, returns false and changes nothing. -/
theorem C6_delete_witness :
    (apc_cache_delete (set_slot_chain demo_cache 1
        [demo_entry key_a 1 0 0 1, demo_entry key_d 2 0 0 2]) key_d 5).1 = true ∧
    (slot_chain (apc_cache_delete (set_slot_chain demo_cache 1
        [demo_entry key_a 1 0 0 1, demo_entry key_d 2 0 0 2]) key_d 5).2 1).map
          (fun e => e.key) = [key_a] ∧
    (apc_cache_delete (set_slot_chain demo_cache 1
        [demo_entry key_a 1 0 0 1, demo_entry key_d 2 0 0 2]) key_b 5).2 =
      set_slot_chain demo_cache 1 [demo_entry key_a 1 0 0 1, demo_entry key_d 2 0 0 2] :=
  ⟨by decide, by decide,
    (C6_delete (set_slot_chain demo_cache 1
      [demo_entry key_a 1 0 0 1, demo_entry key_d 2 0 0 2]) key_b 5).2.2 (by decide)⟩

theorem set_slot_chain_twice (c : apc_cache_t) (s : Nat) (a b : List apc_cache_entry_t) :
    set_slot_chain (set_slot_chain c s a) s b = set_slot_chain c s b := by
  simp [set_slot_chain, List.set_set]

theorem find_nostat_hit (c : apc_cache_t) (key : zend_string) (t : Int)
    (pre suf : List apc_cache_entry_t) (e : apc_cache_entry_t)
    (hc : slot_chain c (apc_cache_hash_slot c key).2 = pre ++ e :: suf)
    (hpre : ∀ x ∈ pre, x.key ≠ key) (he : e.key = key) :
    apc_cache_rlocked_find_nostat c key t =
      if apc_cache_entry_hard_expired e t then none else some e := by
  unfold apc_cache_rlocked_find_nostat
  have h1 : (apc_cache_hash_slot c key).1 = ZSTR_HASH key := rfl
  simp only [h1, hc]
  exact find_nostat_walk_split _ _ _ _ _ ((key_match_self_iff _ _).2 he) _
    (fun x hx => (key_match_false_iff _ _).2 (hpre x hx))

theorem find_nostat_miss (c : apc_cache_t) (key : zend_string) (t : Int)
    (hno : ∀ x ∈ slot_chain c (apc_cache_hash_slot c key).2, x.key ≠ key) :
    apc_cache_rlocked_find_nostat c key t = none := by
  unfold apc_cache_rlocked_find_nostat
  have h1 : (apc_cache_hash_slot c key).1 = ZSTR_HASH key := rfl
  simp only [h1]
  exact find_nostat_walk_none _ _ _ _ (fun x hx => (key_match_false_iff _ _).2 (hno x hx))

theorem find_incref_hit (c : apc_cache_t) (key : zend_string) (t : Int)
    (pre suf : List apc_cache_entry_t) (e : apc_cache_entry_t)
    (hc : slot_chain c (apc_cache_hash_slot c key).2 = pre ++ e :: suf)
    (hpre : ∀ x ∈ pre, x.key ≠ key) (he : e.key = key)
    (hl : apc_cache_entry_hard_expired e t = false) :
    apc_cache_rlocked_find_incref c key t =
      (set_slot_chain { c with header := { c.header with nhits := c.header.nhits + 1 } }
          (apc_cache_hash_slot c key).2 (pre ++ hit_entry e t :: suf),
        some (hit_entry e t)) := by
  unfold apc_cache_rlocked_find_incref apc_cache_rlocked_find
  have h1 : (apc_cache_hash_slot c key).1 = ZSTR_HASH key := rfl
  simp only [h1, hc]
  rw [find_walk_split _ _ _ _ _ ((key_match_self_iff _ _).2 he) _
    (fun x hx => (key_match_false_iff _ _).2 (hpre x hx))]
  simp only [hl, Bool.false_eq_true, if_false]
  simp only [set_slot_chain_twice]
  rfl

theorem find_incref_miss (c : apc_cache_t) (key : zend_string) (t : Int)
    (hm : (∀ x ∈ slot_chain c (apc_cache_hash_slot c key).2, x.key ≠ key) ∨
      ∃ pre e suf, slot_chain c (apc_cache_hash_slot c key).2 = pre ++ e :: suf ∧
        (∀ x ∈ pre, x.key ≠ key) ∧ e.key = key ∧ apc_cache_entry_hard_expired e t = true) :
    apc_cache_rlocked_find_incref c key t =
      ({ c with header := { c.header with nmisses := c.header.nmisses + 1 } }, none) := by
  unfold apc_cache_rlocked_find_incref apc_cache_rlocked_find
  have h1 : (apc_cache_hash_slot c key).1 = ZSTR_HASH key := rfl
  simp only [h1]
  rcases hm with hno | ⟨pre, e, suf, hc, hpre, he, hx⟩
  · rw [find_walk_none _ _ _ _ (fun x hx => (key_match_false_iff _ _).2 (hno x hx))]
  · rw [hc, find_walk_split _ _ _ _ _ ((key_match_self_iff _ _).2 he) _
      (fun x hx => (key_match_false_iff _ _).2 (hpre x hx))]
    simp [hx]

theorem find_not_busy (c : apc_cache_t) (key : zend_string) (t : Int)
    (hb : apc_cache_busy c = false) :
    apc_cache_find c key t = apc_cache_rlocked_find_incref c key t := by
  simp [apc_cache_find, hb]

theorem fetch_hit (c : apc_cache_t) (key : zend_string) (t : Int)
    (pre suf : List apc_cache_entry_t) (e : apc_cache_entry_t)
    (hc : slot_chain c (apc_cache_hash_slot c key).2 = pre ++ e :: suf)
    (hpre : ∀ x ∈ pre, x.key ≠ key) (he : e.key = key)
    (hl : apc_cache_entry_hard_expired e t = false) (hb : apc_cache_busy c = false) :
    apc_cache_fetch c key t =
      ((apc_cache_entry_fetch_zval c e).isSome, apc_cache_entry_fetch_zval c e,
        apc_cache_entry_release (hit_cache c (apc_cache_hash_slot c key).2 pre e suf t)
          (hit_entry e t)) := by
  unfold apc_cache_fetch
  simp only [hb, Bool.false_eq_true, if_false]
  rw [find_incref_hit c key t pre suf e hc hpre he hl]
  rfl

theorem fetch_miss (c : apc_cache_t) (key : zend_string) (t : Int)
    (hm : (∀ x ∈ slot_chain c (apc_cache_hash_slot c key).2, x.key ≠ key) ∨
      ∃ pre e suf, slot_chain c (apc_cache_hash_slot c key).2 = pre ++ e :: suf ∧
        (∀ x ∈ pre, x.key ≠ key) ∧ e.key = key ∧ apc_cache_entry_hard_expired e t = true)
    (hb : apc_cache_busy c = false) :
    apc_cache_fetch c key t = (false, none, miss_cache c) := by
  unfold apc_cache_fetch
  simp only [hb, Bool.false_eq_true, if_false]
  rw [find_incref_miss c key t hm]
  rfl

/-- C7: a `find` that hits the entry `e` (the first entry of the chain with the key, not
hard-expired at `t`) hands out `e` with `nhits` and `ref_count` one larger and `atime = t`,
leaves that entry in place of `e`, makes `header.nhits` one larger and changes nothing else;
a `find` that misses (no entry has the key, or the first one that has it is hard-expired at
`t`) returns `NULL`, makes `header.nmisses` one larger and changes nothing else. The same
holds for `apc_cache_find` on a cache that is not busy. After a store of `("a", 1, ttl 0)` a
fetch 100 seconds later returns 1 and leaves `header.nhits = 1` and the entry with
`nhits = 1`. -/
theorem C7_find_frame (c : apc_cache_t) (key : zend_string) (t : Int) :
    (∀ pre e suf, first_match c key pre e suf → apc_cache_entry_hard_expired e t = false →
      apc_cache_rlocked_find_incref c key t =
        (hit_cache c (apc_cache_hash_slot c key).2 pre e suf t, some (hit_entry e t)) ∧
      (apc_cache_busy c = false →
        apc_cache_find c key t =
          (hit_cache c (apc_cache_hash_slot c key).2 pre e suf t, some (hit_entry e t)))) ∧
    ((no_match c key ∨
        ∃ pre e suf, first_match c key pre e suf ∧ apc_cache_entry_hard_expired e t = true) →
      apc_cache_rlocked_find_incref c key t = (miss_cache c, none) ∧
      (apc_cache_busy c = false → apc_cache_find c key t = (miss_cache c, none))) ∧
    ((apc_cache_fetch
        (apc_cache_store demo_cache key_a (.long 1) 0 false 100 100 1 (some 10)).2
        key_a 200).1 = true ∧
     (apc_cache_fetch
        (apc_cache_store demo_cache key_a (.long 1) 0 false 100 100 1 (some 10)).2
        key_a 200).2.1 = some (.long 1) ∧
     (apc_cache_fetch
        (apc_cache_store demo_cache key_a (.long 1) 0 false 100 100 1 (some 10)).2
        key_a 200).2.2.header.nhits = 1 ∧
     (slot_chain (apc_cache_fetch
        (apc_cache_store demo_cache key_a (.long 1) 0 false 100 100 1 (some 10)).2
        key_a 200).2.2 1).map (fun e => e.nhits) = [1]) := by
  refine ⟨?_, ?_, ⟨rfl, rfl, rfl, rfl⟩⟩
  · rintro pre e suf ⟨hc, hpre, he⟩ hl
    have h := find_incref_hit c key t pre suf e hc hpre he hl
    refine ⟨h, fun hb => ?_⟩
    rw [find_not_busy c key t hb, h]
    rfl
  · intro hm
    have hm2 : (∀ x ∈ slot_chain c (apc_cache_hash_slot c key).2, x.key ≠ key) ∨
        ∃ pre e suf, slot_chain c (apc_cache_hash_slot c key).2 = pre ++ e :: suf ∧
          (∀ x ∈ pre, x.key ≠ key) ∧ e.key = key ∧ apc_cache_entry_hard_expired e t = true := by
      rcases hm with h | ⟨pre, e, suf, ⟨h1, h2, h3⟩, h4⟩
      · exact Or.inl h
      · exact Or.inr ⟨pre, e, suf, h1, h2, h3, h4⟩
    have h := find_incref_miss c key t hm2
    refine ⟨h, fun hb => ?_⟩
    rw [find_not_busy c key t hb, h]
    rfl

/-- The hit case of C7 run on the cache that holds `("a", 1)` stored at 100, looked up at
200. -/
theorem C7_find_frame_witness :
    apc_cache_rlocked_find_incref
        (set_slot_chain demo_cache 1 [demo_entry key_a 1 0 100 1]) key_a 200 =
      (hit_cache (set_slot_chain demo_cache 1 [demo_entry key_a 1 0 100 1]) 1 []
          (demo_entry key_a 1 0 100 1) [] 200,
        some (hit_entry (demo_entry key_a 1 0 100 1) 200)) :=
  ((C7_find_frame (set_slot_chain demo_cache 1 [demo_entry key_a 1 0 100 1]) key_a 200).1 []
    (demo_entry key_a 1 0 100 1) [] ⟨rfl, by simp, rfl⟩ rfl).1

theorem hard_expired_iff (e : apc_cache_entry_t) (t : Int) :
    apc_cache_entry_hard_expired e t = true ↔ e.ttl ≠ 0 ∧ e.ctime + e.ttl < t := by
  simp [apc_cache_entry_hard_expired]

theorem hard_expired_false_iff (e : apc_cache_entry_t) (t : Int) :
    apc_cache_entry_hard_expired e t = false ↔ e.ttl = 0 ∨ t ≤ e.ctime + e.ttl := by
  rw [← Bool.not_eq_true, hard_expired_iff]
  constructor
  · intro h
    by_cases h0 : e.ttl = 0
    · exact Or.inl h0
    · right
      by_contra hlt
      exact h ⟨h0, by omega⟩
  · rintro (h | h) ⟨h1, h2⟩
    · exact h1 h
    · omega

theorem exists_not_busy (c : apc_cache_t) (key : zend_string) (t : Int)
    (hb : apc_cache_busy c = false) :
    apc_cache_exists c key t = (apc_cache_rlocked_find_nostat c key t).isSome := by
  simp [apc_cache_exists, hb]

/-- C2: an entry `e` with `ttl > 0` that is the chain entry for its key is hard-expired at
`t` exactly when `ctime + ttl < t`; on a cache that is not busy, `find_nostat`, `exists`,
`find` and `fetch` reach it at every `t ≤ ctime + ttl` and report a miss (counted in
`header.nmisses` by `find` and `fetch`) at every `t ≥ ctime + ttl + 1`; an entry with
`ttl = 0` is never hard-expired. Stored at 100 with ttl 2, a fetch at 101 returns the value
and a fetch at 103 misses and leaves `header.nmisses = 1`. -/
theorem C2_hard_expiry (c : apc_cache_t) (key : zend_string) (t : Int)
    (pre suf : List apc_cache_entry_t) (e : apc_cache_entry_t)
    (hfirst : first_match c key pre e suf) (httl : 0 < e.ttl)
    (hb : apc_cache_busy c = false) :
    (apc_cache_entry_hard_expired e t = true ↔ e.ttl ≠ 0 ∧ e.ctime + e.ttl < t) ∧
    (t ≤ e.ctime + e.ttl →
      apc_cache_rlocked_find_nostat c key t = some e ∧
      apc_cache_exists c key t = true ∧
      apc_cache_find c key t =
        (hit_cache c (apc_cache_hash_slot c key).2 pre e suf t, some (hit_entry e t)) ∧
      apc_cache_fetch c key t =
        ((apc_cache_entry_fetch_zval c e).isSome, apc_cache_entry_fetch_zval c e,
          apc_cache_entry_release (hit_cache c (apc_cache_hash_slot c key).2 pre e suf t)
            (hit_entry e t))) ∧
    (e.ctime + e.ttl + 1 ≤ t →
      apc_cache_rlocked_find_nostat c key t = none ∧
      apc_cache_exists c key t = false ∧
      apc_cache_find c key t = (miss_cache c, none) ∧
      apc_cache_fetch c key t = (false, none, miss_cache c)) ∧
    (∀ (e0 : apc_cache_entry_t) (t0 : Int), e0.ttl = 0 →
      apc_cache_entry_hard_expired e0 t0 = false) ∧
    ((apc_cache_fetch
        (apc_cache_store demo_cache key_a (.long 1) 2 false 100 100 1 (some 10)).2
        key_a 101).2.1 = some (.long 1) ∧
     (apc_cache_fetch
        (apc_cache_store demo_cache key_a (.long 1) 2 false 100 100 1 (some 10)).2
        key_a 101).1 = true ∧
     (apc_cache_fetch (apc_cache_fetch
        (apc_cache_store demo_cache key_a (.long 1) 2 false 100 100 1 (some 10)).2
        key_a 101).2.2 key_a 103).1 = false ∧
     (apc_cache_fetch (apc_cache_fetch
        (apc_cache_store demo_cache key_a (.long 1) 2 false 100 100 1 (some 10)).2
        key_a 101).2.2 key_a 103).2.2.header.nmisses = 1) := by
  obtain ⟨hc, hpre, he⟩ := hfirst
  refine ⟨hard_expired_iff e t, ?_, ?_, ?_, ⟨rfl, rfl, rfl, rfl⟩⟩
  · intro ht
    have hl : apc_cache_entry_hard_expired e t = false :=
      (hard_expired_false_iff e t).2 (Or.inr ht)
    have hn : apc_cache_rlocked_find_nostat c key t = some e := by
      rw [find_nostat_hit c key t pre suf e hc hpre he, hl]; rfl
    refine ⟨hn, ?_, ?_, ?_⟩
    · rw [exists_not_busy c key t hb, hn]; rfl
    · rw [find_not_busy c key t hb, find_incref_hit c key t pre suf e hc hpre he hl]; rfl
    · exact fetch_hit c key t pre suf e hc hpre he hl hb
  · intro ht
    have hx : apc_cache_entry_hard_expired e t = true :=
      (hard_expired_iff e t).2 ⟨by omega, by omega⟩
    have hn : apc_cache_rlocked_find_nostat c key t = none := by
      rw [find_nostat_hit c key t pre suf e hc hpre he, hx]; rfl
    have hm : (∀ x ∈ slot_chain c (apc_cache_hash_slot c key).2, x.key ≠ key) ∨
        ∃ pre e suf, slot_chain c (apc_cache_hash_slot c key).2 = pre ++ e :: suf ∧
          (∀ x ∈ pre, x.key ≠ key) ∧ e.key = key ∧ apc_cache_entry_hard_expired e t = true :=
      Or.inr ⟨pre, e, suf, hc, hpre, he, hx⟩
    refine ⟨hn, ?_, ?_, ?_⟩
    · rw [exists_not_busy c key t hb, hn]; rfl
    · rw [find_not_busy c key t hb, find_incref_miss c key t hm]; rfl
    · exact fetch_miss c key t hm hb
  · intro e0 t0 h0
    exact (hard_expired_false_iff e0 t0).2 (Or.inl h0)

/-- C2 run on the cache holding `("a", 1)` stored at 100 with ttl 2, looked up at 102. -/
theorem C2_hard_expiry_witness :
    apc_cache_rlocked_find_nostat
        (set_slot_chain demo_cache 1 [demo_entry key_a 1 2 100 1]) key_a 102 =
      some (demo_entry key_a 1 2 100 1) :=
  ((C2_hard_expiry (set_slot_chain demo_cache 1 [demo_entry key_a 1 2 100 1]) key_a 102 []
    [] (demo_entry key_a 1 2 100 1) ⟨rfl, by simp, rfl⟩ (by decide) rfl).2.1 (by decide)).1

/-! ## The insert walk -/

@[simp]
theorem remove_entry_ttl (c : apc_cache_t) (e : apc_cache_entry_t) (now : Int) :
    (apc_cache_wlocked_remove_entry c e now).ttl = c.ttl := by
  unfold apc_cache_wlocked_remove_entry free_entry
  split <;> rfl

@[simp]
theorem remove_entry_expired (c : apc_cache_t) (d e : apc_cache_entry_t) (now t : Int) :
    apc_cache_entry_expired (apc_cache_wlocked_remove_entry c d now) e t =
      apc_cache_entry_expired c e t := by
  simp [apc_cache_entry_expired, apc_cache_entry_soft_expired]

theorem insert_walk_slots (h : Nat) (key : zend_string) (t now : Int) (exclusive : Bool) :
    ∀ (chain : List apc_cache_entry_t) (c : apc_cache_t),
      (insert_walk h key t now exclusive chain c).cache.slots = c.slots
  | [], c => rfl
  | e :: rest, c => by
    unfold insert_walk
    split
    · split
      · rfl
      · simp
    · split
      · rw [insert_walk_slots h key t now exclusive rest]; simp
      · exact insert_walk_slots h key t now exclusive rest c

theorem insert_walk_before (h : Nat) (key : zend_string) (t now : Int) (exclusive : Bool) :
    ∀ (chain : List apc_cache_entry_t) (c : apc_cache_t),
      ∀ x ∈ (insert_walk h key t now exclusive chain c).before, key_match x.key h key = false
  | [], c => by simp [insert_walk]
  | e :: rest, c => by
    unfold insert_walk
    split
    · split <;> simp
    · rename_i hne
      split
      · exact insert_walk_before h key t now exclusive rest _
      · intro x hx
        simp only [List.mem_cons] at hx
        rcases hx with rfl | hx
        · simpa using hne
        · exact insert_walk_before h key t now exclusive rest c x hx

theorem insert_walk_ok_of_nonexclusive (h : Nat) (key : zend_string) (t now : Int) :
    ∀ (chain : List apc_cache_entry_t) (c : apc_cache_t),
      (insert_walk h key t now false chain c).ok = true
  | [], c => rfl
  | e :: rest, c => by
    unfold insert_walk
    split
    · simp
    · split
      · exact insert_walk_ok_of_nonexclusive h key t now rest _
      · exact insert_walk_ok_of_nonexclusive h key t now rest c

/-! ## Building the entry -/

theorem ctxt_alloc_fields (ctxt c1 : apc_context_t) (h : ctxt_alloc ctxt = some c1) :
    c1.copy = ctxt.copy ∧ c1.serializer = ctxt.serializer ∧ c1.php = ctxt.php ∧
      c1.exception = ctxt.exception ∧ c1.pool.addr = ctxt.pool.addr := by
  unfold ctxt_alloc at h
  split at h
  · split at h
    · simp at h
    · rename_i p hp
      simp only [Option.some.injEq] at h
      subst h
      unfold apc_pool_alloc at hp
      split at hp
      · simp at hp
      · simp only [Option.some.injEq] at hp
        subst hp
        simp
  · simp only [Option.some.injEq] at h
    subst h
    simp

/-- What `apc_cache_make_entry` builds when it succeeds. -/
theorem make_entry_some (ctxt : apc_context_t) (key : zend_string) (val : zval) (ttl t : Int)
    (e : apc_cache_entry_t) (c3 : apc_context_t)
    (h : apc_cache_make_entry ctxt key val ttl t = (some e, c3)) :
    e.key = key ∧ e.ttl = ttl ∧ e.ctime = t ∧ e.mtime = t ∧ e.atime = t ∧ e.ref_count = 0 ∧
      e.nhits = 0 ∧ e.dtime = 0 ∧ e.pool = c3.pool ∧
      ∃ c2, c2.copy = ctxt.copy ∧ c2.serializer = ctxt.serializer ∧ c2.php = ctxt.php ∧
        c2.exception = ctxt.exception ∧ apc_cache_store_zval val c2 = (some e.val, c3) := by
  unfold apc_cache_make_entry at h
  split at h
  · simp at h
  · rename_i c1 h1
    split at h
    · simp at h
    · rename_i c2 h2
      split at h
      · simp at h
      · rename_i v c3b hv
        simp only [Prod.mk.injEq, Option.some.injEq] at h
        obtain ⟨h, hc⟩ := h
        subst h
        subst hc
        have f1 := ctxt_alloc_fields _ _ h1
        have f2 := ctxt_alloc_fields _ _ h2
        refine ⟨rfl, rfl, rfl, rfl, rfl, rfl, rfl, rfl, rfl, c2, ?_, ?_, ?_, ?_, hv⟩
        · rw [f2.1, f1.1]
        · rw [f2.2.1, f1.2.1]
        · rw [f2.2.2.1, f1.2.2.1]
        · rw [f2.2.2.2.1, f1.2.2.2.1]

/-! ## Slam defense and the copy-in context leave the table alone -/

theorem defense_cache (c : apc_cache_t) (key : zend_string) (t : Int) (owner : Nat) :
    ∃ lk, (apc_cache_defense c key t owner).2 =
      { c with header := { c.header with lastkey := lk } } := by
  unfold apc_cache_defense
  dsimp only
  split
  · split
    · exact ⟨c.header.lastkey, rfl⟩
    · split
      · split
        · exact ⟨c.header.lastkey, rfl⟩
        · exact ⟨_, rfl⟩
      · exact ⟨c.header.lastkey, rfl⟩
  · exact ⟨c.header.lastkey, rfl⟩

theorem defense_slam_cache (c : apc_cache_t) (key : zend_string) (t : Int) (owner : Nat)
    (h : (apc_cache_defense c key t owner).1 = true) :
    (apc_cache_defense c key t owner).2 = c := by
  unfold apc_cache_defense at h ⊢
  dsimp only at h ⊢
  split
  · split
    · rfl
    · split
      · split
        · rfl
        · rename_i h1 h2 h3 h4
          simp only [h1, h2, h3, h4, if_true, if_false] at h
          split at h <;> simp at h
      · rfl
  · rfl

theorem make_context_some (c : apc_cache_t) (grant : Option Nat) (ctxt : apc_context_t)
    (c1 : apc_cache_t) (h : apc_cache_make_copy_in_context c grant = (some ctxt, c1)) :
    ctxt.copy = .APC_COPY_IN ∧ ctxt.serializer = c.serializer ∧ ctxt.php = c.php ∧
      ctxt.exception = false ∧ ctxt.pool.addr = c.sma.brk ∧
      c1 = { c with sma := { c.sma with brk := c.sma.brk + 1 } } := by
  unfold apc_cache_make_copy_in_context apc_pool_create at h
  cases grant with
  | none => simp at h
  | some n =>
    simp only [Prod.mk.injEq, Option.some.injEq] at h
    obtain ⟨h1, h2⟩ := h
    subst h1; subst h2
    exact ⟨rfl, rfl, rfl, rfl, rfl, rfl⟩

theorem make_context_none (c : apc_cache_t) (grant : Option Nat) (c1 : apc_cache_t)
    (h : apc_cache_make_copy_in_context c grant = (none, c1)) : c1 = c := by
  unfold apc_cache_make_copy_in_context apc_pool_create at h
  cases grant with
  | none =>
    simp only [Prod.mk.injEq, true_and] at h
    exact h.symm
  | some n => simp at h

/-! ## A successful insert -/

/-- The walk that `apc_cache_wlocked_insert` makes for the entry `n`. -/
theorem wlocked_insert_eq (c : apc_cache_t) (n : apc_cache_entry_t) (exclusive : Bool)
    (now : Int) :
    apc_cache_wlocked_insert c n exclusive now =
      if (insert_walk (ZSTR_HASH n.key) n.key n.ctime now exclusive
          (slot_chain c (apc_cache_hash_slot c n.key).2) (apc_cache_wlocked_gc c now)).ok then
        (true, link_cache (insert_walk (ZSTR_HASH n.key) n.key n.ctime now exclusive
          (slot_chain c (apc_cache_hash_slot c n.key).2) (apc_cache_wlocked_gc c now))
          (apc_cache_hash_slot c n.key).2 n)
      else
        (false, unlink_cache (insert_walk (ZSTR_HASH n.key) n.key n.ctime now exclusive
          (slot_chain c (apc_cache_hash_slot c n.key).2) (apc_cache_wlocked_gc c now))
          (apc_cache_hash_slot c n.key).2) := by
  have hslot : apc_cache_hash_slot (apc_cache_wlocked_gc c now) n.key =
      apc_cache_hash_slot c n.key := by
    simp [apc_cache_hash_slot, apc_cache_t.nslots]
  have hchain : ∀ s, slot_chain (apc_cache_wlocked_gc c now) s = slot_chain c s := by
    intro s; simp [slot_chain]
  unfold apc_cache_wlocked_insert
  dsimp only
  rw [hslot, hchain]
  rfl

theorem link_cache_chain (r : insert_cursor) (s : Nat) (n : apc_cache_entry_t)
    (hs : s < r.cache.slots.length) :
    slot_chain (link_cache r s n) s = r.before ++ linked_entry n :: r.after := by
  unfold link_cache
  exact slot_chain_set_same _ _ _ hs

theorem link_cache_length (r : insert_cursor) (s : Nat) (n : apc_cache_entry_t) :
    (link_cache r s n).slots.length = r.cache.slots.length := by
  simp [link_cache, set_slot_chain]

/-- A successful `apc_cache_wlocked_insert` leaves the linked entry as the first entry of the
chain with its key. -/
theorem wlocked_insert_ok (c : apc_cache_t) (n : apc_cache_entry_t) (exclusive : Bool)
    (now : Int) (hn : 0 < c.nslots)
    (hok : (apc_cache_wlocked_insert c n exclusive now).1 = true) :
    ∃ pre suf,
      slot_chain (apc_cache_wlocked_insert c n exclusive now).2 (apc_cache_hash_slot c n.key).2 =
        pre ++ linked_entry n :: suf ∧
      (∀ x ∈ pre, x.key ≠ n.key) ∧
      (apc_cache_wlocked_insert c n exclusive now).2.slots.length = c.slots.length := by
  have hlt : (apc_cache_hash_slot c n.key).2 < c.slots.length := slot_lt c n.key hn
  rw [wlocked_insert_eq] at hok ⊢
  split at hok
  · rename_i hr
    rw [if_pos hr]
    refine ⟨_, _, link_cache_chain _ _ _ ?_, ?_, ?_⟩
    · rw [insert_walk_slots]; simpa using hlt
    · intro x hx
      exact (key_match_false_iff _ _).1 (insert_walk_before _ _ _ _ _ _ _ x hx)
    · rw [link_cache_length, insert_walk_slots]; simp
  · simp at hok

@[simp]
theorem destroy_context_slots (c : apc_cache_t) (ctxt : apc_context_t) :
    (apc_cache_destroy_context c ctxt).slots = c.slots := rfl

@[simp]
theorem destroy_context_slot_chain (c : apc_cache_t) (ctxt : apc_context_t) (s : Nat) :
    slot_chain (apc_cache_destroy_context c ctxt) s = slot_chain c s := rfl

/-- The ways `apc_cache_store` ends: it gives up before the table is touched (slam, no pool,
no entry), or it builds an entry `n` and its result is that of `apc_cache_wlocked_insert` on
a cache `c1` that differs from `c` in `lastkey` and the allocator only. -/
theorem store_cases (c : apc_cache_t) (key : zend_string) (val : zval) (ttl : Int)
    (exclusive : Bool) (t now : Int) (owner : Nat) (grant : Option Nat) :
    (∃ lk sma2, apc_cache_store c key val ttl exclusive t now owner grant =
        (false, { c with header := { c.header with lastkey := lk }, sma := sma2 })) ∨
    (∃ lk n ctxt c3 c1,
      c1 = { c with header := { c.header with lastkey := lk }
                    sma := { c.sma with brk := c.sma.brk + 1 } } ∧
      apc_cache_make_entry ctxt key val ttl t = (some n, c3) ∧
      ctxt.copy = .APC_COPY_IN ∧ ctxt.serializer = c.serializer ∧ ctxt.php = c.php ∧
      ctxt.exception = false ∧ ctxt.pool.addr = c.sma.brk ∧
      apc_cache_store c key val ttl exclusive t now owner grant =
        if (apc_cache_wlocked_insert c1 n exclusive now).1 then
          (true, (apc_cache_wlocked_insert c1 n exclusive now).2)
        else
          (false, apc_cache_destroy_context
            (apc_cache_wlocked_insert c1 n exclusive now).2 c3)) := by
  obtain ⟨lk, hd⟩ := defense_cache c key t owner
  unfold apc_cache_store
  dsimp only
  split
  · rename_i hslam
    left
    rw [defense_slam_cache c key t owner hslam]
    exact ⟨c.header.lastkey, c.sma, rfl⟩
  · rw [hd]
    split
    · rename_i c1 hctx
      left
      have := make_context_none _ _ _ hctx
      subst this
      exact ⟨lk, c.sma, rfl⟩
    · rename_i ctxt c1 hctx
      obtain ⟨h1, h2, h3, h4, h5, h6⟩ := make_context_some _ _ _ _ hctx
      subst h6
      split
      · rename_i ctxt1 hme
        left
        exact ⟨lk, _, rfl⟩
      · rename_i n ctxt1 hme
        right
        exact ⟨lk, n, ctxt, ctxt1, _, rfl, hme, h1, h2, h3, h4, h5, rfl⟩

/-- The cache `c1` on which `apc_cache_store` runs the insert agrees with `c` on everything
but `lastkey` and the allocator. -/
theorem store_prepared (c c1 : apc_cache_t) (lk : apc_cache_slam_key_t)
    (h : c1 = { c with header := { c.header with lastkey := lk }
                       sma := { c.sma with brk := c.sma.brk + 1 } }) :
    c1.slots = c.slots ∧ c1.header.gc = c.header.gc ∧ c1.gc_ttl = c.gc_ttl ∧ c1.ttl = c.ttl ∧
    c1.header.nhits = c.header.nhits ∧ c1.header.nmisses = c.header.nmisses ∧
    c1.header.ninserts = c.header.ninserts ∧ c1.header.nentries = c.header.nentries ∧
    c1.header.mem_size = c.header.mem_size ∧ c1.header.state = c.header.state ∧
    c1.header.nexpunges = c.header.nexpunges ∧ c1.serializer = c.serializer ∧
    c1.php = c.php ∧ c1.smart = c.smart ∧ c1.defend = c.defend ∧
    c1.header.stime = c.header.stime := by
  subst h
  exact ⟨rfl, rfl, rfl, rfl, rfl, rfl, rfl, rfl, rfl, rfl, rfl, rfl, rfl, rfl, rfl, rfl⟩

theorem hash_slot_congr (c c2 : apc_cache_t) (key : zend_string)
    (h : c2.slots.length = c.slots.length) :
    apc_cache_hash_slot c2 key = apc_cache_hash_slot c key := by
  simp [apc_cache_hash_slot, apc_cache_t.nslots, h]

/-- A store that returns success leaves the entry it built as the first entry of the chain
with the key. -/
theorem store_ok_first_match (c : apc_cache_t) (key : zend_string) (val : zval) (ttl : Int)
    (exclusive : Bool) (t now : Int) (owner : Nat) (grant : Option Nat) (hn : 0 < c.nslots)
    (hs : (apc_cache_store c key val ttl exclusive t now owner grant).1 = true) :
    ∃ e pre suf,
      first_match (apc_cache_store c key val ttl exclusive t now owner grant).2 key pre e suf ∧
      e.key = key ∧ e.ttl = ttl ∧ e.ctime = t ∧ e.mtime = t ∧ e.atime = t ∧
      e.ref_count = 0 ∧ e.nhits = 0 ∧
      (∃ ctxt ctxt2, ctxt.copy = .APC_COPY_IN ∧ ctxt.serializer = c.serializer ∧
        ctxt.php = c.php ∧ ctxt.exception = false ∧
        apc_cache_store_zval val ctxt = (some e.val, ctxt2)) ∧
      (apc_cache_store c key val ttl exclusive t now owner grant).2.slots.length =
        c.slots.length := by
  rcases store_cases c key val ttl exclusive t now owner grant with
    ⟨lk, sma2, h⟩ | ⟨lk, n, ctxt, c3, c1, hc1, hme, h1, h2, h3, h4, _, h⟩
  · rw [h] at hs; simp at hs
  · have hsl := (store_prepared c c1 lk hc1).1
    have hn1 : 0 < c1.nslots := by unfold apc_cache_t.nslots at hn ⊢; rw [hsl]; exact hn
    rw [h] at hs ⊢
    split at hs
    · rename_i hok
      rw [if_pos hok]
      obtain ⟨f1, f2, f3, f4, f5, f6, f7, _, _, c2, g1, g2, g3, g4, g5⟩ :=
        make_entry_some _ _ _ _ _ _ _ hme
      obtain ⟨pre, suf, hc, hpre, hlen⟩ := wlocked_insert_ok c1 n exclusive now hn1 hok
      have hlen2 : (apc_cache_wlocked_insert c1 n exclusive now).2.slots.length =
          c.slots.length := by rw [hlen, hsl]
      refine ⟨linked_entry n, pre, suf, ⟨?_, ?_, f1⟩, f1, f2, f3, f4, f5, f6, f7,
        ⟨c2, c3, ?_, ?_, ?_, ?_, g5⟩, hlen2⟩
      · rw [hash_slot_congr c _ key hlen2]
        rw [f1, hash_slot_congr c c1 key (by rw [hsl])] at hc
        exact hc
      · rw [← f1]; exact hpre
      · rw [g1, h1]
      · rw [g2, h2]
      · rw [g3, h3]
      · rw [g4, h4]
    · simp at hs

/-- C1: when a non-exclusive store of `(key, val, ttl)` at time `t` returns success, the
entry it built (key, copy-in of `val`, `ctime = mtime = atime = t`, `ref_count = 0`,
`nhits = 0`, the given `ttl`) is what `find_nostat` returns for the key at every time `t2`
with `ttl = 0` or `t2 ≤ t + ttl`; on a cache that is not busy `exists` is then true, and
`find` and `fetch` hit that entry. -/
theorem C1_store_then_find (c : apc_cache_t) (key : zend_string) (val : zval) (ttl : Int)
    (t now : Int) (owner : Nat) (grant : Option Nat) (hn : 0 < c.nslots)
    (hs : (apc_cache_store c key val ttl false t now owner grant).1 = true) :
    ∃ e pre suf,
      first_match (apc_cache_store c key val ttl false t now owner grant).2 key pre e suf ∧
      e.key = key ∧ e.ttl = ttl ∧ e.ctime = t ∧ e.mtime = t ∧ e.atime = t ∧
      e.ref_count = 0 ∧ e.nhits = 0 ∧
      (∃ ctxt ctxt2, ctxt.copy = .APC_COPY_IN ∧ ctxt.serializer = c.serializer ∧
        ctxt.php = c.php ∧ ctxt.exception = false ∧
        apc_cache_store_zval val ctxt = (some e.val, ctxt2)) ∧
      ∀ t2 : Int, (ttl = 0 ∨ t2 ≤ t + ttl) →
        apc_cache_rlocked_find_nostat
          (apc_cache_store c key val ttl false t now owner grant).2 key t2 = some e ∧
        (apc_cache_busy (apc_cache_store c key val ttl false t now owner grant).2 = false →
          apc_cache_exists
            (apc_cache_store c key val ttl false t now owner grant).2 key t2 = true ∧
          apc_cache_find (apc_cache_store c key val ttl false t now owner grant).2 key t2 =
            (hit_cache (apc_cache_store c key val ttl false t now owner grant).2
              (apc_cache_hash_slot c key).2 pre e suf t2, some (hit_entry e t2)) ∧
          apc_cache_fetch (apc_cache_store c key val ttl false t now owner grant).2 key t2 =
            ((apc_cache_entry_fetch_zval
                (apc_cache_store c key val ttl false t now owner grant).2 e).isSome,
              apc_cache_entry_fetch_zval
                (apc_cache_store c key val ttl false t now owner grant).2 e,
              apc_cache_entry_release
                (hit_cache (apc_cache_store c key val ttl false t now owner grant).2
                  (apc_cache_hash_slot c key).2 pre e suf t2) (hit_entry e t2))) := by
  obtain ⟨e, pre, suf, hfm, f1, f2, f3, f4, f5, f6, f7, hcopy, hlen⟩ :=
    store_ok_first_match c key val ttl false t now owner grant hn hs
  refine ⟨e, pre, suf, hfm, f1, f2, f3, f4, f5, f6, f7, hcopy, ?_⟩
  intro t2 ht2
  obtain ⟨hc, hpre, he⟩ := hfm
  have hl : apc_cache_entry_hard_expired e t2 = false := by
    rw [hard_expired_false_iff, f2, f3]; exact ht2
  have hslot := hash_slot_congr c _ key hlen
  have hnf : apc_cache_rlocked_find_nostat
      (apc_cache_store c key val ttl false t now owner grant).2 key t2 = some e := by
    rw [find_nostat_hit _ key t2 pre suf e hc hpre he, hl]; rfl
  refine ⟨hnf, fun hb => ⟨?_, ?_, ?_⟩⟩
  · rw [exists_not_busy _ key t2 hb, hnf]; rfl
  · rw [find_not_busy _ key t2 hb, find_incref_hit _ key t2 pre suf e hc hpre he hl, hslot]
    rfl
  · rw [fetch_hit _ key t2 pre suf e hc hpre he hl hb, hslot]

/-- C1 run on the empty three-slot cache: `("a", 1, ttl 5)` stored at 100 is found at 105. -/
theorem C1_store_then_find_witness :
    ∃ e pre suf,
      first_match (apc_cache_store demo_cache key_a (.long 1) 5 false 100 100 1 (some 10)).2
        key_a pre e suf ∧
      e.ttl = 5 ∧ e.ctime = 100 ∧
      apc_cache_rlocked_find_nostat
        (apc_cache_store demo_cache key_a (.long 1) 5 false 100 100 1 (some 10)).2 key_a 105 =
          some e := by
  obtain ⟨e, pre, suf, h1, _, h2, h3, _, _, _, _, _, h4⟩ :=
    C1_store_then_find demo_cache key_a (.long 1) 5 100 100 1 (some 10) (by decide) rfl
  exact ⟨e, pre, suf, h1, h2, h3, (h4 105 (Or.inr (by decide))).1⟩

/-! ## What removals leave alone -/

theorem removal_frame_refl (c : apc_cache_t) : removal_frame c c :=
  ⟨rfl, rfl, rfl, rfl, rfl, rfl, rfl, rfl, rfl, rfl, rfl, rfl, rfl, rfl⟩

theorem removal_frame_trans {a b c : apc_cache_t} (h1 : removal_frame a b)
    (h2 : removal_frame b c) : removal_frame a c := by
  obtain ⟨a1, a2, a3, a4, a5, a6, a7, a8, a9, a10, a11, a12, a13, a14⟩ := h1
  obtain ⟨b1, b2, b3, b4, b5, b6, b7, b8, b9, b10, b11, b12, b13, b14⟩ := h2
  exact ⟨b1.trans a1, b2.trans a2, b3.trans a3, b4.trans a4, b5.trans a5, b6.trans a6,
    b7.trans a7, b8.trans a8, b9.trans a9, b10.trans a10, b11.trans a11, b12.trans a12,
    b13.trans a13, b14.trans a14⟩

theorem remove_entry_frame (c : apc_cache_t) (e : apc_cache_entry_t) (now : Int) :
    removal_frame c (apc_cache_wlocked_remove_entry c e now) := by
  unfold apc_cache_wlocked_remove_entry free_entry removal_frame
  dsimp only
  split <;> split <;> split <;> simp

theorem gc_frame (c : apc_cache_t) (now : Int) :
    removal_frame c (apc_cache_wlocked_gc c now) := by
  unfold apc_cache_wlocked_gc removal_frame
  split <;> simp

theorem remove_all_frame (now : Int) :
    ∀ (l : List apc_cache_entry_t) (c : apc_cache_t), removal_frame c (remove_all now l c)
  | [], c => removal_frame_refl c
  | e :: rest, c =>
    removal_frame_trans (remove_entry_frame c e now) (remove_all_frame now rest _)

theorem insert_walk_conflict (h : Nat) (key : zend_string) (t now : Int)
    (e : apc_cache_entry_t) (suf : List apc_cache_entry_t)
    (he : key_match e.key h key = true) (hl : apc_cache_entry_hard_expired e t = false) :
    ∀ (pre : List apc_cache_entry_t) (c : apc_cache_t),
      (∀ x ∈ pre, key_match x.key h key = false) →
      insert_walk h key t now true (pre ++ e :: suf) c =
        { ok := false
          before := pre.filter (fun x => !apc_cache_entry_expired c x t)
          after := e :: suf
          cache := remove_all now (pre.filter (fun x => apc_cache_entry_expired c x t)) c }
  | [], c, _ => by
    simp [insert_walk, he, hl, remove_all]
  | a :: pre, c, hno => by
    have ha := hno a (by simp)
    have ih := fun c2 => insert_walk_conflict h key t now e suf he hl pre c2
      (fun x hx => hno x (by simp [hx]))
    by_cases hx : apc_cache_entry_expired c a t = true
    · simp only [List.cons_append, insert_walk, ha, hx, if_true, Bool.false_eq_true, if_false,
        List.append_eq]
      rw [ih]
      simp [hx, remove_all]
    · have hx2 : apc_cache_entry_expired c a t = false := by simpa using hx
      simp only [List.cons_append, insert_walk, ha, hx2, Bool.false_eq_true, if_false,
        List.append_eq]
      rw [ih]
      simp [hx2]

theorem expired_congr (c c2 : apc_cache_t) (e : apc_cache_entry_t) (t : Int)
    (h : c2.ttl = c.ttl) : apc_cache_entry_expired c2 e t = apc_cache_entry_expired c e t := by
  simp [apc_cache_entry_expired, apc_cache_entry_soft_expired, h]

theorem slot_chain_congr (c c2 : apc_cache_t) (s : Nat) (h : c2.slots = c.slots) :
    slot_chain c2 s = slot_chain c s := by
  simp [slot_chain, h]

/-- What `apc_cache_wlocked_insert` does when an exclusive insert meets a live entry: it
returns 0 after the GC sweep and the removal of the expired entries in front of the match. -/
theorem wlocked_insert_conflict (c : apc_cache_t) (n : apc_cache_entry_t) (now : Int)
    (pre suf : List apc_cache_entry_t) (e : apc_cache_entry_t)
    (hfm : first_match c n.key pre e suf)
    (hl : apc_cache_entry_hard_expired e n.ctime = false) :
    apc_cache_wlocked_insert c n true now =
      (false, set_slot_chain
        (remove_all now (pre.filter (fun x => apc_cache_entry_expired c x n.ctime))
          (apc_cache_wlocked_gc c now))
        (apc_cache_hash_slot c n.key).2
        (pre.filter (fun x => !apc_cache_entry_expired c x n.ctime) ++ e :: suf)) := by
  obtain ⟨hc, hpre, he⟩ := hfm
  rw [wlocked_insert_eq, hc,
    insert_walk_conflict _ _ _ _ _ _ ((key_match_self_iff _ _).2 he) hl pre _
      (fun x hx => (key_match_false_iff _ _).2 (hpre x hx))]
  have hexp : ∀ x, apc_cache_entry_expired (apc_cache_wlocked_gc c now) x n.ctime =
      apc_cache_entry_expired c x n.ctime :=
    fun x => expired_congr c _ x _ (gc_frame c now).2.2.2.2.2.2.2.2.2.2.2.1
  simp only [hexp]
  rfl

theorem insert_walk_ok_of_nomatch (h : Nat) (key : zend_string) (t now : Int)
    (exclusive : Bool) :
    ∀ (chain : List apc_cache_entry_t) (c : apc_cache_t),
      (∀ x ∈ chain, key_match x.key h key = false) →
      (insert_walk h key t now exclusive chain c).ok = true
  | [], _, _ => rfl
  | a :: rest, c, hno => by
    have ha := hno a (by simp)
    have ih := fun c2 => insert_walk_ok_of_nomatch h key t now exclusive rest c2
      (fun x hx => hno x (by simp [hx]))
    unfold insert_walk
    simp only [ha, Bool.false_eq_true, if_false]
    split
    · exact ih _
    · exact ih _

theorem insert_walk_ok_of_match (h : Nat) (key : zend_string) (t now : Int)
    (exclusive : Bool) (e : apc_cache_entry_t) (suf : List apc_cache_entry_t)
    (he : key_match e.key h key = true)
    (hx : (exclusive && !apc_cache_entry_hard_expired e t) = false) :
    ∀ (pre : List apc_cache_entry_t) (c : apc_cache_t),
      (∀ x ∈ pre, key_match x.key h key = false) →
      (insert_walk h key t now exclusive (pre ++ e :: suf) c).ok = true
  | [], c, _ => by
    simp [insert_walk, he, hx]
  | a :: pre, c, hno => by
    have ha := hno a (by simp)
    have ih := fun c2 => insert_walk_ok_of_match h key t now exclusive e suf he hx pre c2
      (fun x hx => hno x (by simp [hx]))
    simp only [List.cons_append, insert_walk, ha, Bool.false_eq_true, if_false, List.append_eq]
    split
    · exact ih _
    · exact ih _

/-- A store that returns false leaves the first entry with the key in its place, with the
entries after it. -/
theorem store_fail_first_match (c : apc_cache_t) (key : zend_string) (val : zval) (ttl : Int)
    (exclusive : Bool) (t now : Int) (owner : Nat) (grant : Option Nat)
    (pre suf : List apc_cache_entry_t) (e : apc_cache_entry_t)
    (hfm : first_match c key pre e suf)
    (hs : (apc_cache_store c key val ttl exclusive t now owner grant).1 = false) :
    ∃ pre2, first_match (apc_cache_store c key val ttl exclusive t now owner grant).2 key
      pre2 e suf := by
  have hlt : (apc_cache_hash_slot c key).2 < c.slots.length :=
    slot_lt_of_chain_ne_nil c _ (by rw [hfm.1]; simp)
  rcases store_cases c key val ttl exclusive t now owner grant with
    ⟨lk, sma2, h⟩ | ⟨lk, n, ctxt, c3, c1, hc1, hme, _, _, _, _, _, h⟩
  · rw [h]
    exact ⟨pre, hfm⟩
  · obtain ⟨p1, _, _, p4, _⟩ := store_prepared c c1 lk hc1
    clear hc1
    obtain ⟨f1, _, f3, _⟩ := make_entry_some _ _ _ _ _ _ _ hme
    have hslot : apc_cache_hash_slot c1 key = apc_cache_hash_slot c key :=
      hash_slot_congr c c1 key (by rw [p1])
    have hfm1 : first_match c1 n.key pre e suf := by
      rw [f1]
      refine ⟨?_, hfm.2.1, hfm.2.2⟩
      rw [hslot, slot_chain_congr c c1 _ p1]
      exact hfm.1
    by_cases hx : (exclusive && !apc_cache_entry_hard_expired e t) = true
    · simp only [Bool.and_eq_true, Bool.not_eq_true', ] at hx
      obtain ⟨hex, hl⟩ := hx
      subst hex
      have hl1 : apc_cache_entry_hard_expired e n.ctime = false := by rw [f3]; exact hl
      have hins := wlocked_insert_conflict c1 n now pre suf e hfm1 hl1
      rw [f1, hslot] at hins
      rw [hins] at h
      simp only [Bool.false_eq_true, if_false] at h
      rw [h]
      obtain ⟨g1, _⟩ := removal_frame_trans (gc_frame c1 now)
        (remove_all_frame now (pre.filter (fun x => apc_cache_entry_expired c1 x n.ctime)) _)
      refine ⟨pre.filter (fun x => !apc_cache_entry_expired c1 x n.ctime), ?_, ?_, hfm.2.2⟩
      · have hlen : (apc_cache_destroy_context (set_slot_chain
            (remove_all now (pre.filter (fun x => apc_cache_entry_expired c1 x n.ctime))
              (apc_cache_wlocked_gc c1 now)) (apc_cache_hash_slot c key).2
            (pre.filter (fun x => !apc_cache_entry_expired c1 x n.ctime) ++ e :: suf))
            c3).slots.length = c.slots.length := by
          simp [set_slot_chain, g1, p1]
        rw [hash_slot_congr c _ key hlen, destroy_context_slot_chain,
          slot_chain_set_same _ _ _ (by rw [g1, p1]; exact hlt)]
      · intro x hx
        exact hfm.2.1 x (List.mem_of_mem_filter hx)
    · have hx2 : (exclusive && !apc_cache_entry_hard_expired e n.ctime) = false := by
        rw [f3]; simpa using hx
      have hok : (apc_cache_wlocked_insert c1 n exclusive now).1 = true := by
        rw [wlocked_insert_eq, hfm1.1,
          insert_walk_ok_of_match _ _ _ _ _ _ _ ((key_match_self_iff _ _).2 hfm1.2.2) hx2 pre _
            (fun x hx => (key_match_false_iff _ _).2 (hfm1.2.1 x hx))]
        rfl
      rw [h, if_pos hok] at hs
      simp at hs

/-- A store that returns false does not change what a lookup of the key answers. -/
theorem store_fail_find_nostat (c : apc_cache_t) (key : zend_string) (val : zval) (ttl : Int)
    (exclusive : Bool) (t now : Int) (owner : Nat) (grant : Option Nat)
    (hs : (apc_cache_store c key val ttl exclusive t now owner grant).1 = false) (t2 : Int) :
    apc_cache_rlocked_find_nostat
        (apc_cache_store c key val ttl exclusive t now owner grant).2 key t2 =
      apc_cache_rlocked_find_nostat c key t2 := by
  rcases chain_split (fun x => key_match x.key (ZSTR_HASH key) key)
      (slot_chain c (apc_cache_hash_slot c key).2) with hno | ⟨pre, e, suf, hc, hpre, he⟩
  · rcases store_cases c key val ttl exclusive t now owner grant with
      ⟨lk, sma2, h⟩ | ⟨lk, n, ctxt, c3, c1, hc1, hme, _, _, _, _, _, h⟩
    · rw [h]; rfl
    · obtain ⟨p1, _⟩ := store_prepared c c1 lk hc1
      obtain ⟨f1, _⟩ := make_entry_some _ _ _ _ _ _ _ hme
      have hok : (apc_cache_wlocked_insert c1 n exclusive now).1 = true := by
        rw [wlocked_insert_eq, f1, hash_slot_congr c c1 key (by rw [p1]),
          slot_chain_congr c c1 _ p1,
          insert_walk_ok_of_nomatch _ _ _ _ _ _ _ hno]
        rfl
      rw [h, if_pos hok] at hs
      simp at hs
  · have hfm : first_match c key pre e suf :=
      ⟨hc, fun x hx => (key_match_false_iff _ _).1 (hpre x hx), (key_match_self_iff _ _).1 he⟩
    obtain ⟨pre2, hfm2⟩ := store_fail_first_match c key val ttl exclusive t now owner grant
      pre suf e hfm hs
    rw [find_nostat_hit _ key t2 pre2 suf e hfm2.1 hfm2.2.1 hfm2.2.2,
      find_nostat_hit _ key t2 pre suf e hfm.1 hfm.2.1 hfm.2.2]

theorem config_frame_refl (c : apc_cache_t) : config_frame c c :=
  ⟨rfl, rfl, rfl, rfl, rfl, rfl, rfl⟩

theorem config_frame_trans {a b c : apc_cache_t} (h1 : config_frame a b)
    (h2 : config_frame b c) : config_frame a c := by
  obtain ⟨a1, a2, a3, a4, a5, a6, a7⟩ := h1
  obtain ⟨b1, b2, b3, b4, b5, b6, b7⟩ := h2
  exact ⟨b1.trans a1, b2.trans a2, b3.trans a3, b4.trans a4, b5.trans a5, b6.trans a6,
    b7.trans a7⟩

theorem config_of_removal {c c2 : apc_cache_t} (h : removal_frame c c2) : config_frame c c2 := by
  obtain ⟨a1, _, _, _, _, _, _, _, a9, a10, a11, a12, a13, a14⟩ := h
  exact ⟨by rw [a1], a9, a10, a11, a12, a13, a14⟩

theorem insert_walk_frame (h : Nat) (key : zend_string) (t now : Int) (exclusive : Bool) :
    ∀ (chain : List apc_cache_entry_t) (c : apc_cache_t),
      removal_frame c (insert_walk h key t now exclusive chain c).cache
  | [], c => removal_frame_refl c
  | e :: rest, c => by
    unfold insert_walk
    split
    · split
      · exact removal_frame_refl c
      · exact remove_entry_frame c e now
    · split
      · exact removal_frame_trans (remove_entry_frame c e now)
          (insert_walk_frame h key t now exclusive rest _)
      · exact insert_walk_frame h key t now exclusive rest c

theorem wlocked_insert_config (c : apc_cache_t) (n : apc_cache_entry_t) (exclusive : Bool)
    (now : Int) : config_frame c (apc_cache_wlocked_insert c n exclusive now).2 := by
  have hfr := config_of_removal (removal_frame_trans (gc_frame c now)
    (insert_walk_frame (ZSTR_HASH n.key) n.key n.ctime now exclusive
      (slot_chain c (apc_cache_hash_slot c n.key).2) (apc_cache_wlocked_gc c now)))
  obtain ⟨a1, a2, a3, a4, a5, a6, a7⟩ := hfr
  rw [wlocked_insert_eq]
  split
  · exact ⟨by rw [link_cache_length]; exact a1, a2, a3, a4, a5, a6, a7⟩
  · exact ⟨by simp [unlink_cache, set_slot_chain]; exact a1, a2, a3, a4, a5, a6, a7⟩

theorem store_config (c : apc_cache_t) (key : zend_string) (val : zval) (ttl : Int)
    (exclusive : Bool) (t now : Int) (owner : Nat) (grant : Option Nat) :
    config_frame c (apc_cache_store c key val ttl exclusive t now owner grant).2 := by
  rcases store_cases c key val ttl exclusive t now owner grant with
    ⟨lk, sma2, h⟩ | ⟨lk, n, ctxt, c3, c1, hc1, hme, _, _, _, _, _, h⟩
  · rw [h]
    exact ⟨rfl, rfl, rfl, rfl, rfl, rfl, rfl⟩
  · obtain ⟨p1, _, p3, p4, _, _, _, _, _, _, _, p12, p13, p14, p15, _⟩ :=
      store_prepared c c1 lk hc1
    have h1 : config_frame c c1 := ⟨by rw [p1], p12, p13, p3, p4, p14, p15⟩
    have h2 := config_frame_trans h1 (wlocked_insert_config c1 n exclusive now)
    rw [h]
    split
    · exact h2
    · exact h2

theorem store_slots_length (c : apc_cache_t) (key : zend_string) (val : zval) (ttl : Int)
    (exclusive : Bool) (t now : Int) (owner : Nat) (grant : Option Nat) :
    (apc_cache_store c key val ttl exclusive t now owner grant).2.slots.length =
      c.slots.length :=
  (store_config c key val ttl exclusive t now owner grant).1

theorem run_stores_inv (c : apc_cache_t) (key : zend_string) (hn : 0 < c.nslots) :
    ∀ (l : List store_args) (acc : apc_cache_t × Option store_args),
      stores_inv c key acc → stores_inv c key (run_stores key l acc)
  | [], acc, h => h
  | a :: rest, acc, h => by
    unfold run_stores
    apply run_stores_inv c key hn rest
    obtain ⟨hcf, hinv⟩ := h
    have hcf2 := config_frame_trans hcf
      (store_config acc.1 key a.val a.ttl a.exclusive a.t a.now a.owner a.grant)
    refine ⟨hcf2, ?_⟩
    have hn1 : 0 < acc.1.nslots := by
      unfold apc_cache_t.nslots at hn ⊢; rw [hcf.1]; exact hn
    by_cases hs : (apc_cache_store acc.1 key a.val a.ttl a.exclusive a.t a.now a.owner
        a.grant).1 = true
    · simp only [hs, if_true]
      obtain ⟨e, pre, suf, hfm, f1, f2, f3, f4, f5, f6, f7, ⟨ctxt, ctxt2, g1, g2, g3, g4, g5⟩, _⟩ :=
        store_ok_first_match acc.1 key a.val a.ttl a.exclusive a.t a.now a.owner a.grant hn1 hs
      exact ⟨e, pre, suf, hfm, f1, f2, f3, f4, f5, f6, f7, ctxt, ctxt2, g1,
        by rw [g2, hcf.2.1], by rw [g3, hcf.2.2.1], g4, g5⟩
    · have hs2 : (apc_cache_store acc.1 key a.val a.ttl a.exclusive a.t a.now a.owner
          a.grant).1 = false := by simpa using hs
      simp only [hs2, Bool.false_eq_true, if_false]
      cases hacc : acc.2 with
      | none =>
        rw [hacc] at hinv
        intro t2
        rw [store_fail_find_nostat acc.1 key a.val a.ttl a.exclusive a.t a.now a.owner a.grant
          hs2 t2]
        exact hinv t2
      | some b =>
        rw [hacc] at hinv
        obtain ⟨e, pre, suf, hfm, hst⟩ := hinv
        obtain ⟨pre2, hfm2⟩ := store_fail_first_match acc.1 key a.val a.ttl a.exclusive a.t
          a.now a.owner a.grant pre suf e hfm hs2
        exact ⟨e, pre2, suf, hfm2, hst⟩

theorem run_stores_run (key : zend_string) :
    ∀ (l : List store_args) (acc : apc_cache_t × Option store_args),
      (run_stores key l acc).1 = run acc.1 (l.map (store_args.op key))
  | [], _ => rfl
  | a :: rest, acc => by
    unfold run_stores
    rw [run_stores_run key rest]
    rfl

theorem run_stores_mem (key : zend_string) :
    ∀ (l : List store_args) (acc : apc_cache_t × Option store_args) (a : store_args),
      (run_stores key l acc).2 = some a → a ∈ l ∨ acc.2 = some a
  | [], _, _, h => Or.inr h
  | b :: rest, acc, a, h => by
    unfold run_stores at h
    rcases run_stores_mem key rest _ a h with h1 | h1
    · exact Or.inl (by simp [h1])
    · dsimp only at h1
      split at h1
      · simp only [Option.some.injEq] at h1
        exact Or.inl (by simp [h1])
      · exact Or.inr h1

/-- C4 as stated fails: after a non-exclusive store of `("a", 1)` with ttl 1 at time 0 and an
exclusive store of `("a", 2)` at time 5, which succeeds because the first entry is
hard-expired by then, a lookup at time 5 gives 2, the value of the exclusive store, and
not 1, the value of the final non-exclusive store. -/
theorem C4_counterexample :
    (apc_cache_store demo_cache key_a (.long 1) 1 false 0 0 1 (some 10)).1 = true ∧
    (apc_cache_store (apc_cache_store demo_cache key_a (.long 1) 1 false 0 0 1 (some 10)).2
      key_a (.long 2) 0 true 5 5 1 (some 10)).1 = true ∧
    (apc_cache_rlocked_find_nostat
      (apc_cache_store (apc_cache_store demo_cache key_a (.long 1) 1 false 0 0 1 (some 10)).2
        key_a (.long 2) 0 true 5 5 1 (some 10)).2 key_a 5).map (fun e => e.val) =
      some (.long 2) ∧
    (apc_cache_fetch
      (apc_cache_store (apc_cache_store demo_cache key_a (.long 1) 1 false 0 0 1 (some 10)).2
        key_a (.long 2) 0 true 5 5 1 (some 10)).2 key_a 5).2.1 = some (.long 2) :=
  ⟨rfl, rfl, rfl, rfl⟩

/-- C4, amended: after any sequence of stores of one key (exclusive or not, any ttl, any
times) on a cache with at least one slot, the entry a lookup of the key reaches is the one
built by the last store of the sequence that returned success, exclusive or not, and by no
other store: `find_nostat` answers that entry at every time at which it is not hard-expired
and nothing otherwise. When no store of the sequence returned success, lookups of the key
answer as they did before the sequence. -/
theorem C4_last_successful_store (c : apc_cache_t) (key : zend_string)
    (l : List store_args) (hn : 0 < c.nslots) :
    (run_stores key l (c, none)).1 = run c (l.map (store_args.op key)) ∧
    (∀ a, (run_stores key l (c, none)).2 = some a →
      a ∈ l ∧ ∃ e pre suf,
        first_match (run_stores key l (c, none)).1 key pre e suf ∧ stored_by c key a e ∧
        ∀ t2 : Int, apc_cache_rlocked_find_nostat (run_stores key l (c, none)).1 key t2 =
          if apc_cache_entry_hard_expired e t2 then none else some e) ∧
    ((run_stores key l (c, none)).2 = none →
      ∀ t2 : Int, apc_cache_rlocked_find_nostat (run_stores key l (c, none)).1 key t2 =
        apc_cache_rlocked_find_nostat c key t2) := by
  have hinv := run_stores_inv c key hn l (c, none) ⟨config_frame_refl c, fun _ => rfl⟩
  refine ⟨run_stores_run key l (c, none), ?_, ?_⟩
  · intro a ha
    obtain ⟨_, h2⟩ := hinv
    rw [ha] at h2
    obtain ⟨e, pre, suf, hfm, hst⟩ := h2
    refine ⟨?_, e, pre, suf, hfm, hst, fun t2 => ?_⟩
    · rcases run_stores_mem key l (c, none) a ha with h | h
      · exact h
      · simp at h
    · exact find_nostat_hit _ key t2 pre suf e hfm.1 hfm.2.1 hfm.2.2
  · intro hnone
    obtain ⟨_, h2⟩ := hinv
    rw [hnone] at h2
    exact h2

/-- C4 (amended) run on the two stores of the counterexample: the exclusive store is the
last that succeeded. -/
theorem C4_last_successful_store_witness :
    (run_stores key_a
      [{ val := .long 1, ttl := 1, exclusive := false, t := 0, now := 0, owner := 1,
         grant := some 10 },
       { val := .long 2, ttl := 0, exclusive := true, t := 5, now := 5, owner := 1,
         grant := some 10 }] (demo_cache, none)).1 =
    run demo_cache
      ([{ val := .long 1, ttl := 1, exclusive := false, t := 0, now := 0, owner := 1,
          grant := some 10 },
        { val := .long 2, ttl := 0, exclusive := true, t := 5, now := 5, owner := 1,
          grant := some 10 }].map (store_args.op key_a)) :=
  (C4_last_successful_store demo_cache key_a _ (by decide)).1

/-! ## Lists: entries that stay, entries that are rewritten in place -/

theorem same_entry_refl (e : apc_cache_entry_t) : same_entry e e := ⟨rfl, rfl, rfl, rfl⟩

theorem same_entry_trans {a b c : apc_cache_entry_t} (h1 : same_entry a b)
    (h2 : same_entry b c) : same_entry a c :=
  ⟨h2.1.trans h1.1, h2.2.1.trans h1.2.1, h2.2.2.1.trans h1.2.2.1, h2.2.2.2.trans h1.2.2.2⟩

theorem stands_first_cons (key : zend_string) (e x : apc_cache_entry_t)
    (l : List apc_cache_entry_t) (hx : x.key ≠ key) (h : stands_first key e l) :
    stands_first key e (x :: l) := by
  obtain ⟨pre, suf, hl, hpre⟩ := h
  refine ⟨x :: pre, suf, by simp [hl], ?_⟩
  intro y hy
  rcases List.mem_cons.1 hy with rfl | hy
  · exact hx
  · exact hpre y hy

theorem stands_first_head (key : zend_string) (e : apc_cache_entry_t)
    (l : List apc_cache_entry_t) : stands_first key e (e :: l) :=
  ⟨[], l, rfl, by simp⟩

theorem stands_first_append_left (key : zend_string) (e : apc_cache_entry_t)
    (l1 l2 : List apc_cache_entry_t) (h1 : ∀ x ∈ l1, x.key ≠ key) (h : stands_first key e l2) :
    stands_first key e (l1 ++ l2) := by
  induction l1 with
  | nil => simpa using h
  | cons a l1 ih =>
    exact stands_first_cons key e a _ (h1 a (by simp)) (ih (fun x hx => h1 x (by simp [hx])))

theorem stands_first_append_right (key : zend_string) (e : apc_cache_entry_t)
    (l1 l2 : List apc_cache_entry_t) (h : stands_first key e l1) :
    stands_first key e (l1 ++ l2) := by
  obtain ⟨pre, suf, hl, hpre⟩ := h
  exact ⟨pre, suf ++ l2, by simp [hl], hpre⟩

/-- Putting an entry of another key anywhere in the list keeps `e` standing first. -/
theorem stands_first_insert (key : zend_string) (e n : apc_cache_entry_t)
    (l1 l2 : List apc_cache_entry_t) (hn : n.key ≠ key) (h : stands_first key e (l1 ++ l2)) :
    stands_first key e (l1 ++ n :: l2) := by
  obtain ⟨pre, suf, hl, hpre⟩ := h
  rcases List.append_eq_append_iff.1 hl with ⟨a, h1, h2⟩ | ⟨b, h1, h2⟩
  · -- pre = l1 ++ a, l2 = a ++ e :: suf
    refine ⟨l1 ++ n :: a, suf, by simp [h2], ?_⟩
    intro x hx
    simp only [List.mem_append, List.mem_cons] at hx
    rcases hx with hx | rfl | hx
    · exact hpre x (by simp [h1, hx])
    · exact hn
    · exact hpre x (by simp [h1, hx])
  · -- l1 = pre ++ b, e :: suf = b ++ l2
    cases b with
    | nil =>
      simp only [List.nil_append] at h2
      simp only [List.append_nil] at h1
      refine ⟨pre ++ [n], suf, by simp [h1, ← h2], ?_⟩
      intro x hx
      simp only [List.mem_append, List.mem_singleton] at hx
      rcases hx with hx | rfl
      · exact hpre x hx
      · exact hn
    | cons b0 b =>
      simp only [List.cons_append, List.cons.injEq] at h2
      obtain ⟨rfl, h3⟩ := h2
      exact ⟨pre, b ++ n :: l2, by simp [h1], hpre⟩

theorem dropped_sublist {p : apc_cache_entry_t → Prop} {l l2 : List apc_cache_entry_t}
    (h : dropped p l l2) : l2.Sublist l := by
  induction h with
  | nil => exact List.Sublist.slnil
  | keep x _ ih => exact ih.cons₂ x
  | drop x _ _ ih => exact ih.cons x

theorem dropped_refl (p : apc_cache_entry_t → Prop) :
    ∀ l : List apc_cache_entry_t, dropped p l l
  | [] => dropped.nil
  | x :: l => dropped.keep x (dropped_refl p l)

theorem dropped_mono {p q : apc_cache_entry_t → Prop} (hpq : ∀ x, p x → q x)
    {l l2 : List apc_cache_entry_t} (h : dropped p l l2) : dropped q l l2 := by
  induction h with
  | nil => exact dropped.nil
  | keep x _ ih => exact dropped.keep x ih
  | drop x hx _ ih => exact dropped.drop x (hpq x hx) ih

/-- An entry that is not to be dropped keeps standing first when others are dropped. -/
theorem stands_first_dropped {p : apc_cache_entry_t → Prop} (key : zend_string)
    (e : apc_cache_entry_t) {l l2 : List apc_cache_entry_t} (h : dropped p l l2)
    (hne : ¬p e) (hs : stands_first key e l) : stands_first key e l2 := by
  induction h with
  | nil =>
    obtain ⟨pre, suf, hl, _⟩ := hs
    simp at hl
  | keep x _ ih =>
    obtain ⟨pre, suf, hl, hpre⟩ := hs
    cases pre with
    | nil =>
      simp only [List.nil_append, List.cons.injEq] at hl
      rw [hl.1]
      exact stands_first_head key e _
    | cons a pre =>
      simp only [List.cons_append, List.cons.injEq] at hl
      rw [hl.1]
      exact stands_first_cons key e a _ (hpre a (by simp))
        (ih ⟨pre, suf, hl.2, fun y hy => hpre y (by simp [hy])⟩)
  | drop x hx _ ih =>
    obtain ⟨pre, suf, hl, hpre⟩ := hs
    cases pre with
    | nil =>
      simp only [List.nil_append, List.cons.injEq] at hl
      rw [hl.1] at hx
      exact absurd hx hne
    | cons a pre =>
      simp only [List.cons_append, List.cons.injEq] at hl
      exact ih ⟨pre, suf, hl.2, fun y hy => hpre y (by simp [hy])⟩

/-- Entries rewritten in place keep the entry standing first, as its later self. -/
theorem stands_first_rewritten (key : zend_string) (e : apc_cache_entry_t)
    {l l2 : List apc_cache_entry_t} (h : List.Forall₂ same_entry l l2)
    (hs : stands_first key e l) :
    ∃ e2, same_entry e e2 ∧ stands_first key e2 l2 := by
  induction h with
  | nil =>
    obtain ⟨pre, suf, hl, _⟩ := hs
    simp at hl
  | @cons a b l l2 hab _ ih =>
    obtain ⟨pre, suf, hl, hpre⟩ := hs
    cases pre with
    | nil =>
      simp only [List.nil_append, List.cons.injEq] at hl
      rw [hl.1] at hab
      exact ⟨b, hab, stands_first_head key b _⟩
    | cons a0 pre =>
      simp only [List.cons_append, List.cons.injEq] at hl
      obtain ⟨e2, h1, h2⟩ := ih ⟨pre, suf, hl.2, fun y hy => hpre y (by simp [hy])⟩
      refine ⟨e2, h1, stands_first_cons key e2 b _ ?_ h2⟩
      rw [hab.1, hl.1]
      exact hpre a0 (by simp)

theorem forall₂_same_refl : ∀ l : List apc_cache_entry_t, List.Forall₂ same_entry l l
  | [] => List.Forall₂.nil
  | x :: l => List.Forall₂.cons (same_entry_refl x) (forall₂_same_refl l)

theorem forall₂_same_keys {l l2 : List apc_cache_entry_t} (h : List.Forall₂ same_entry l l2) :
    l2.map (fun e => e.key) = l.map (fun e => e.key) := by
  induction h with
  | nil => rfl
  | cons hab _ ih => simp [hab.1, ih]

theorem forall₂_same_trans {a b c : List apc_cache_entry_t}
    (h1 : List.Forall₂ same_entry a b) (h2 : List.Forall₂ same_entry b c) :
    List.Forall₂ same_entry a c := by
  induction h1 generalizing c with
  | nil => cases h2; exact List.Forall₂.nil
  | cons hab _ ih =>
    cases h2 with
    | cons hbc h2 => exact List.Forall₂.cons (same_entry_trans hab hbc) (ih h2)

theorem forall₂_same_middle (pre suf : List apc_cache_entry_t) (x y : apc_cache_entry_t)
    (h : same_entry x y) : List.Forall₂ same_entry (pre ++ x :: suf) (pre ++ y :: suf) := by
  induction pre with
  | nil => exact List.Forall₂.cons h (forall₂_same_refl suf)
  | cons a pre ih => exact List.Forall₂.cons (same_entry_refl a) ih

/-! ## What each walk does to its chain -/

theorem insert_walk_dropped (k2 : zend_string) (t now : Int) (exclusive : Bool)
    (c0 : apc_cache_t) :
    ∀ (chain : List apc_cache_entry_t) (c : apc_cache_t), c.ttl = c0.ttl →
      dropped (fun x => x.key = k2 ∨ apc_cache_entry_expired c0 x t = true) chain
        ((insert_walk (ZSTR_HASH k2) k2 t now exclusive chain c).before ++
          (insert_walk (ZSTR_HASH k2) k2 t now exclusive chain c).after)
  | [], _, _ => dropped.nil
  | a :: rest, c, hc => by
    unfold insert_walk
    split
    · rename_i hm
      split
      · exact dropped_refl _ _
      · exact dropped.drop a (Or.inl ((key_match_self_iff _ _).1 hm)) (dropped_refl _ _)
    · split
      · rename_i hx
        rw [expired_congr c0 c a t hc] at hx
        exact dropped.drop a (Or.inr hx)
          (insert_walk_dropped k2 t now exclusive c0 rest _ (by simp [hc]))
      · exact dropped.keep a (insert_walk_dropped k2 t now exclusive c0 rest c hc)

theorem insert_walk_after_nokey (k2 : zend_string) (t now : Int) (exclusive : Bool) :
    ∀ (chain : List apc_cache_entry_t) (c : apc_cache_t),
      (insert_walk (ZSTR_HASH k2) k2 t now exclusive chain c).ok = true →
      (chain.map (fun e => e.key)).Nodup →
      ∀ x ∈ (insert_walk (ZSTR_HASH k2) k2 t now exclusive chain c).after, x.key ≠ k2
  | [], _, _, _ => by simp [insert_walk]
  | a :: rest, c, hok, hnd => by
    simp only [List.map_cons, List.nodup_cons] at hnd
    unfold insert_walk at hok ⊢
    split
    · rename_i hm
      have ha : a.key = k2 := (key_match_self_iff _ _).1 hm
      rw [if_pos hm] at hok
      split
      · rename_i hx
        rw [if_pos hx] at hok
        simp at hok
      · intro x hx hk
        apply hnd.1
        rw [ha, ← hk]
        exact List.mem_map_of_mem _ hx
    · rename_i hm
      rw [if_neg hm] at hok
      split
      · rename_i hx
        rw [if_pos hx] at hok
        exact insert_walk_after_nokey k2 t now exclusive rest _ hok hnd.2
      · rename_i hx
        rw [if_neg hx] at hok
        exact insert_walk_after_nokey k2 t now exclusive rest c hok hnd.2

theorem delete_walk_dropped (k2 : zend_string) (now : Int) (c : apc_cache_t) :
    ∀ chain : List apc_cache_entry_t,
      dropped (fun x => x.key = k2) chain (delete_walk (ZSTR_HASH k2) k2 now c chain).2.1
  | [] => dropped.nil
  | a :: rest => by
    unfold delete_walk
    split
    · rename_i hm
      exact dropped.drop a ((key_match_self_iff _ _).1 hm) (dropped_refl _ _)
    · exact dropped.keep a (delete_walk_dropped k2 now c rest)

theorem expunge_walk_dropped (t now : Int) :
    ∀ (chain : List apc_cache_entry_t) (c : apc_cache_t),
      dropped (fun _ => True) chain (expunge_walk t now chain c).1
  | [], _ => dropped.nil
  | a :: rest, c => by
    unfold expunge_walk
    split
    · exact dropped.drop a trivial (expunge_walk_dropped t now rest _)
    · exact dropped.keep a (expunge_walk_dropped t now rest c)

theorem update_entry_same (serializer : Option apc_serializer_t)
    (updater : apc_cache_updater_t) (t : Int) (e : apc_cache_entry_t) :
    same_entry e (update_entry serializer updater t e).2.1 := by
  unfold update_entry
  split
  · split
    · exact same_entry_refl e
    · exact ⟨rfl, rfl, rfl, rfl⟩
  · split
    · exact same_entry_refl e
    · exact ⟨rfl, rfl, rfl, rfl⟩
  · exact ⟨rfl, rfl, rfl, rfl⟩

theorem update_walk_rewritten (serializer : Option apc_serializer_t)
    (updater : apc_cache_updater_t) (h : Nat) (key : zend_string) (t : Int) :
    ∀ (chain : List apc_cache_entry_t) (r : update_hit),
      update_walk serializer updater h key t chain = some r →
      List.Forall₂ same_entry chain r.chain
  | [], r, hr => by simp [update_walk] at hr
  | a :: rest, r, hr => by
    unfold update_walk at hr
    split at hr
    · simp only [Option.some.injEq] at hr
      subst hr
      exact List.Forall₂.cons (update_entry_same serializer updater t a) (forall₂_same_refl rest)
    · split at hr
      · simp at hr
      · rename_i r2 hr2
        simp only [Option.some.injEq] at hr
        subst hr
        exact List.Forall₂.cons (same_entry_refl a)
          (update_walk_rewritten serializer updater h key t rest r2 hr2)

theorem find_walk_some (h : Nat) (key : zend_string) (t : Int) :
    ∀ (chain p s : List apc_cache_entry_t) (x : apc_cache_entry_t),
      find_walk h key t chain = some (p, x, s) →
      ∃ x0, chain = p ++ x0 :: s ∧ x = { x0 with nhits := x0.nhits + 1, atime := t }
  | [], _, _, _, hr => by simp [find_walk] at hr
  | a :: rest, p, s, x, hr => by
    unfold find_walk at hr
    split at hr
    · split at hr
      · simp at hr
      · simp only [Option.some.injEq, Prod.mk.injEq] at hr
        obtain ⟨h1, h2, h3⟩ := hr
        subst h1; subst h3
        exact ⟨a, rfl, h2.symm⟩
    · split at hr
      · simp at hr
      · rename_i p2 x2 s2 hr2
        simp only [Option.some.injEq, Prod.mk.injEq] at hr
        obtain ⟨h1, h2, h3⟩ := hr
        subst h1; subst h2; subst h3
        obtain ⟨x0, h4, h5⟩ := find_walk_some h key t rest p2 s2 x2 hr2
        exact ⟨x0, by simp [h4], h5⟩

theorem release_in_rewritten (addr : Nat) :
    ∀ l : List apc_cache_entry_t, List.Forall₂ same_entry l (release_in addr l)
  | [] => List.Forall₂.nil
  | a :: l => by
    unfold release_in
    simp only [List.map_cons]
    refine List.Forall₂.cons ?_ (release_in_rewritten addr l)
    split
    · exact ⟨rfl, rfl, rfl, rfl⟩
    · exact same_entry_refl a

/-! ## What each operation does to the chains -/

theorem slot_chain_set (c : apc_cache_t) (s i : Nat) (ch : List apc_cache_entry_t) :
    slot_chain (set_slot_chain c s ch) i =
      if i = s ∧ s < c.slots.length then ch else slot_chain c i := by
  by_cases his : i = s
  · subst his
    by_cases hlt : i < c.slots.length
    · rw [slot_chain_set_same c i ch hlt]; simp [hlt]
    · simp only [hlt, and_false, if_false]
      rw [slot_chain_nil_of_ge c i (by omega)]
      exact slot_chain_nil_of_ge _ i (by simp [set_slot_chain]; omega)
  · rw [slot_chain_set_other c s i ch (Ne.symm his)]
    simp [his]

/-- A relation between chains that holds of a chain and itself holds slot by slot between a
cache and the cache with one chain replaced by a related one. -/
theorem slot_rel_set (R : List apc_cache_entry_t → List apc_cache_entry_t → Prop)
    (hrefl : ∀ l, R l l) (c c2 : apc_cache_t) (s : Nat) (ch : List apc_cache_entry_t)
    (hsl : c2.slots = c.slots) (h : R (slot_chain c s) ch) (i : Nat) :
    R (slot_chain c i) (slot_chain (set_slot_chain c2 s ch) i) := by
  rw [slot_chain_set]
  split
  · rename_i hi
    rw [hi.1]; exact h
  · rw [slot_chain_congr c c2 i hsl]; exact hrefl _

theorem store_chains (c : apc_cache_t) (k2 : zend_string) (val : zval) (ttl : Int)
    (exclusive : Bool) (t now : Int) (owner : Nat) (grant : Option Nat) (i : Nat) :
    ∃ l1 l2,
      dropped (fun x => x.key = k2 ∨ apc_cache_entry_expired c x t = true)
        (slot_chain c i) (l1 ++ l2) ∧
      (slot_chain (apc_cache_store c k2 val ttl exclusive t now owner grant).2 i = l1 ++ l2 ∨
        ∃ n, n.key = k2 ∧
          slot_chain (apc_cache_store c k2 val ttl exclusive t now owner grant).2 i =
            l1 ++ n :: l2 ∧
          (((slot_chain c i).map (fun e => e.key)).Nodup → ∀ x ∈ l1 ++ l2, x.key ≠ k2)) := by
  have hrefl : ∀ l : List apc_cache_entry_t, ∃ l1 l2,
      dropped (fun x => x.key = k2 ∨ apc_cache_entry_expired c x t = true) l (l1 ++ l2) ∧
      (l = l1 ++ l2 ∨ ∃ n, n.key = k2 ∧ l = l1 ++ n :: l2 ∧
        ((l.map (fun e => e.key)).Nodup → ∀ x ∈ l1 ++ l2, x.key ≠ k2)) :=
    fun l => ⟨l, [], by simpa using dropped_refl _ l, Or.inl (by simp)⟩
  rcases store_cases c k2 val ttl exclusive t now owner grant with
    ⟨lk, sma2, h⟩ | ⟨lk, n, ctxt, c3, c1, hc1, hme, _, _, _, _, _, h⟩
  · rw [h]
    exact hrefl _
  · obtain ⟨p1, _, _, p4, _⟩ := store_prepared c c1 lk hc1
    clear hc1
    obtain ⟨f1, _, f3, _⟩ := make_entry_some _ _ _ _ _ _ _ hme
    have hslot : apc_cache_hash_slot c1 k2 = apc_cache_hash_slot c k2 :=
      hash_slot_congr c c1 k2 (by rw [p1])
    have hwalk := wlocked_insert_eq c1 n exclusive now
    rw [f1, f3, hslot, slot_chain_congr c c1 _ p1] at hwalk
    have hdrop := insert_walk_dropped k2 t now exclusive c
      (slot_chain c (apc_cache_hash_slot c k2).2) (apc_cache_wlocked_gc c1 now)
      (by rw [(gc_frame c1 now).2.2.2.2.2.2.2.2.2.2.2.1, p4])
    have hwsl : (insert_walk (ZSTR_HASH k2) k2 t now exclusive
        (slot_chain c (apc_cache_hash_slot c k2).2) (apc_cache_wlocked_gc c1 now)).cache.slots =
        c.slots := by rw [insert_walk_slots, gc_slots, p1]
    rw [h, hwalk]
    by_cases hok : (insert_walk (ZSTR_HASH k2) k2 t now exclusive
        (slot_chain c (apc_cache_hash_slot c k2).2) (apc_cache_wlocked_gc c1 now)).ok = true
    · simp only [hok, if_true]
      show ∃ l1 l2, _ ∧ (slot_chain (set_slot_chain _ _ _) i = _ ∨
        ∃ n, _ ∧ slot_chain (set_slot_chain _ _ _) i = _ ∧ _)
      exact slot_rel_set (fun l l' => ∃ l1 l2,
          dropped (fun x => x.key = k2 ∨ apc_cache_entry_expired c x t = true) l (l1 ++ l2) ∧
          (l' = l1 ++ l2 ∨ ∃ n, n.key = k2 ∧ l' = l1 ++ n :: l2 ∧
            ((l.map (fun e => e.key)).Nodup → ∀ x ∈ l1 ++ l2, x.key ≠ k2)))
        hrefl c _ _ _ hwsl
        ⟨_, _, hdrop, Or.inr ⟨linked_entry n, f1, rfl, fun hnd x hx => by
          rcases List.mem_append.1 hx with hx | hx
          · exact (key_match_false_iff _ _).1 (insert_walk_before _ _ _ _ _ _ _ x hx)
          · exact insert_walk_after_nokey k2 t now exclusive _ _ hok hnd x hx⟩⟩ i
    · simp only [hok, Bool.false_eq_true, if_false]
      rw [destroy_context_slot_chain]
      exact slot_rel_set (fun l l' => ∃ l1 l2,
          dropped (fun x => x.key = k2 ∨ apc_cache_entry_expired c x t = true) l (l1 ++ l2) ∧
          (l' = l1 ++ l2 ∨ ∃ n, n.key = k2 ∧ l' = l1 ++ n :: l2 ∧
            ((l.map (fun e => e.key)).Nodup → ∀ x ∈ l1 ++ l2, x.key ≠ k2)))
        hrefl c _ _ _ hwsl ⟨_, _, hdrop, Or.inl rfl⟩ i

theorem delete_chains (c : apc_cache_t) (k2 : zend_string) (now : Int) (i : Nat) :
    dropped (fun x => x.key = k2) (slot_chain c i)
      (slot_chain (apc_cache_delete c k2 now).2 i) := by
  unfold apc_cache_delete
  dsimp only
  have hsl : (delete_walk (apc_cache_hash_slot c k2).1 k2 now c
      (slot_chain c (apc_cache_hash_slot c k2).2)).2.2.slots = c.slots := by
    rcases chain_split (fun x => key_match x.key (ZSTR_HASH k2) k2)
      (slot_chain c (apc_cache_hash_slot c k2).2) with hno | ⟨pre, e, suf, hc, hpre, he⟩
    · have h1 : (apc_cache_hash_slot c k2).1 = ZSTR_HASH k2 := rfl
      rw [h1, delete_walk_none _ _ _ _ _ hno]
    · have h1 : (apc_cache_hash_slot c k2).1 = ZSTR_HASH k2 := rfl
      rw [h1, hc, delete_walk_split _ _ _ _ _ _ he _ hpre]
      simp
  exact slot_rel_set (dropped (fun x => x.key = k2)) (dropped_refl _) c _ _ _ hsl
    (delete_walk_dropped k2 now c _) i

theorem delete_config (c : apc_cache_t) (k2 : zend_string) (now : Int) :
    config_frame c (apc_cache_delete c k2 now).2 := by
  rcases chain_split (fun x => key_match x.key (ZSTR_HASH k2) k2)
    (slot_chain c (apc_cache_hash_slot c k2).2) with hno | ⟨pre, e, suf, hc, hpre, he⟩
  · rw [apc_cache_delete_miss c k2 now (fun x hx => (key_match_false_iff _ _).1 (hno x hx))]
    exact config_frame_refl c
  · rw [apc_cache_delete_hit c k2 now pre suf e hc
      (fun x hx => (key_match_false_iff _ _).1 (hpre x hx)) ((key_match_self_iff _ _).1 he)]
    obtain ⟨a1, a2, a3, a4, a5, a6, a7⟩ := config_of_removal (remove_entry_frame c e now)
    exact ⟨by simp [set_slot_chain], a2, a3, a4, a5, a6, a7⟩

/-! ## Lookups, release and update rewrite entries in place -/

theorem find_incref_chains (c : apc_cache_t) (k2 : zend_string) (t : Int) (i : Nat) :
    List.Forall₂ same_entry (slot_chain c i)
      (slot_chain (apc_cache_rlocked_find_incref c k2 t).1 i) := by
  unfold apc_cache_rlocked_find_incref apc_cache_rlocked_find
  dsimp only
  cases hw : find_walk (apc_cache_hash_slot c k2).1 k2 t
      (slot_chain c (apc_cache_hash_slot c k2).2) with
  | none => exact forall₂_same_refl _
  | some r =>
    obtain ⟨p, x, s⟩ := r
    obtain ⟨x0, h1, h2⟩ := find_walk_some _ _ _ _ _ _ _ hw
    dsimp only
    rw [set_slot_chain_twice]
    apply slot_rel_set (List.Forall₂ same_entry) forall₂_same_refl c _ _ _ rfl
    rw [h1]
    apply forall₂_same_middle
    rw [h2]
    exact ⟨rfl, rfl, rfl, rfl⟩

theorem find_incref_config (c : apc_cache_t) (k2 : zend_string) (t : Int) :
    config_frame c (apc_cache_rlocked_find_incref c k2 t).1 := by
  unfold apc_cache_rlocked_find_incref apc_cache_rlocked_find
  dsimp only
  cases hw : find_walk (apc_cache_hash_slot c k2).1 k2 t
      (slot_chain c (apc_cache_hash_slot c k2).2) with
  | none => exact config_frame_refl c
  | some r =>
    obtain ⟨p, x, s⟩ := r
    exact ⟨by simp [set_slot_chain], rfl, rfl, rfl, rfl, rfl, rfl⟩

theorem find_chains (c : apc_cache_t) (k2 : zend_string) (t : Int) (i : Nat) :
    List.Forall₂ same_entry (slot_chain c i) (slot_chain (apc_cache_find c k2 t).1 i) := by
  unfold apc_cache_find
  split
  · exact forall₂_same_refl _
  · exact find_incref_chains c k2 t i

theorem find_config (c : apc_cache_t) (k2 : zend_string) (t : Int) :
    config_frame c (apc_cache_find c k2 t).1 := by
  unfold apc_cache_find
  split
  · exact config_frame_refl c
  · exact find_incref_config c k2 t

theorem slot_chain_release (c : apc_cache_t) (x : apc_cache_entry_t) (i : Nat) :
    slot_chain (apc_cache_entry_release c x) i = release_in x.pool.addr (slot_chain c i) := by
  unfold slot_chain apc_cache_entry_release
  simp only [List.getD_eq_getElem?_getD, List.getElem?_map]
  cases c.slots[i]? <;> simp [release_in]

theorem release_chains (c : apc_cache_t) (x : apc_cache_entry_t) (i : Nat) :
    List.Forall₂ same_entry (slot_chain c i) (slot_chain (apc_cache_entry_release c x) i) := by
  rw [slot_chain_release]
  exact release_in_rewritten _ _

theorem release_config (c : apc_cache_t) (x : apc_cache_entry_t) :
    config_frame c (apc_cache_entry_release c x) :=
  ⟨by simp [apc_cache_entry_release], rfl, rfl, rfl, rfl, rfl, rfl⟩

theorem fetch_chains (c : apc_cache_t) (k2 : zend_string) (t : Int) (i : Nat) :
    List.Forall₂ same_entry (slot_chain c i) (slot_chain (apc_cache_fetch c k2 t).2.2 i) := by
  unfold apc_cache_fetch
  split
  · exact forall₂_same_refl _
  · split
    · rename_i c1 h
      have := find_incref_chains c k2 t i
      rw [h] at this
      exact this
    · rename_i c1 x h
      have := find_incref_chains c k2 t i
      rw [h] at this
      exact forall₂_same_trans this (release_chains c1 x i)

theorem fetch_config (c : apc_cache_t) (k2 : zend_string) (t : Int) :
    config_frame c (apc_cache_fetch c k2 t).2.2 := by
  unfold apc_cache_fetch
  split
  · exact config_frame_refl c
  · split
    · rename_i c1 h
      have := find_incref_config c k2 t
      rw [h] at this
      exact this
    · rename_i c1 x h
      have := find_incref_config c k2 t
      rw [h] at this
      exact config_frame_trans this (release_config c1 x)

/-! ## The shape of `apc_cache_update` -/

/-- The trace entries of a pass that found an entry. -/
theorem update_loop_found (key : zend_string) (updater : apc_cache_updater_t) (ttl t now : Int)
    (owner : Nat) (grant : Option Nat) (fuel : Nat) (ins : Bool) (c : apc_cache_t)
    (tr : List update_event) (r : update_hit)
    (h : update_walk c.serializer updater (ZSTR_HASH key) key t
      (slot_chain c (apc_cache_hash_slot c key).2) = some r) :
    update_loop key updater ttl t now owner grant (fuel + 1) ins c tr =
      some { retval := r.retval
             cache := set_slot_chain c (apc_cache_hash_slot c key).2 r.chain
             trace := tr ++ .lookup :: updater_events r.called } := by
  unfold update_loop
  have h1 : (apc_cache_hash_slot c key).1 = ZSTR_HASH key := rfl
  simp only [h1, h]

theorem update_loop_missed (key : zend_string) (updater : apc_cache_updater_t)
    (ttl t now : Int) (owner : Nat) (grant : Option Nat) (fuel : Nat) (ins : Bool)
    (c : apc_cache_t) (tr : List update_event)
    (h : update_walk c.serializer updater (ZSTR_HASH key) key t
      (slot_chain c (apc_cache_hash_slot c key).2) = none) :
    update_loop key updater ttl t now owner grant (fuel + 1) ins c tr =
      if ins then
        update_loop key updater ttl t now owner grant fuel false
          (apc_cache_store c key (.long 0) (int32_t_cast ttl) true t now owner grant).2
          (tr ++ [.lookup, .store (int32_t_cast ttl)
            (apc_cache_store c key (.long 0) (int32_t_cast ttl) true t now owner grant).1])
      else some { retval := false, cache := c, trace := tr ++ [.lookup] } := by
  rw [update_loop]
  have h1 : (apc_cache_hash_slot c key).1 = ZSTR_HASH key := rfl
  simp only [h1, h]

theorem update_not_busy_found (c : apc_cache_t) (key : zend_string)
    (updater : apc_cache_updater_t) (ins : Bool) (ttl t now : Int) (owner : Nat)
    (grant : Option Nat) (r : update_hit) (hb : apc_cache_busy c = false)
    (h : update_walk c.serializer updater (ZSTR_HASH key) key t
      (slot_chain c (apc_cache_hash_slot c key).2) = some r) (fuel : Nat) :
    apc_cache_update_fuel (fuel + 1) c key updater ins ttl t now owner grant =
      some { retval := r.retval
             cache := set_slot_chain c (apc_cache_hash_slot c key).2 r.chain
             trace := .lookup :: updater_events r.called } := by
  unfold apc_cache_update_fuel
  simp only [hb, Bool.false_eq_true, if_false]
  rw [update_loop_found key updater ttl t now owner grant fuel ins c [] r h]
  rfl

theorem update_not_busy_missed (c : apc_cache_t) (key : zend_string)
    (updater : apc_cache_updater_t) (ttl t now : Int) (owner : Nat)
    (grant : Option Nat) (hb : apc_cache_busy c = false)
    (h : update_walk c.serializer updater (ZSTR_HASH key) key t
      (slot_chain c (apc_cache_hash_slot c key).2) = none) (fuel : Nat) :
    apc_cache_update_fuel (fuel + 1) c key updater false ttl t now owner grant =
      some { retval := false, cache := c, trace := [.lookup] } := by
  unfold apc_cache_update_fuel
  simp only [hb, Bool.false_eq_true, if_false]
  rw [update_loop_missed key updater ttl t now owner grant fuel false c [] h]
  rfl

/-- The second pass of `apc_cache_update`, on the cache `c2` left by the store. -/
theorem update_not_busy_insert (c : apc_cache_t) (key : zend_string)
    (updater : apc_cache_updater_t) (ttl t now : Int) (owner : Nat)
    (grant : Option Nat) (hb : apc_cache_busy c = false)
    (h : update_walk c.serializer updater (ZSTR_HASH key) key t
      (slot_chain c (apc_cache_hash_slot c key).2) = none) (fuel : Nat) :
    apc_cache_update_fuel (fuel + 2) c key updater true ttl t now owner grant =
      match update_walk
          (apc_cache_store c key (.long 0) (int32_t_cast ttl) true t now owner grant).2.serializer
          updater (ZSTR_HASH key) key t
          (slot_chain (apc_cache_store c key (.long 0) (int32_t_cast ttl) true t now owner
            grant).2
            (apc_cache_hash_slot (apc_cache_store c key (.long 0) (int32_t_cast ttl) true t
              now owner grant).2 key).2) with
      | some r =>
        some { retval := r.retval
               cache := set_slot_chain
                 (apc_cache_store c key (.long 0) (int32_t_cast ttl) true t now owner grant).2
                 (apc_cache_hash_slot (apc_cache_store c key (.long 0) (int32_t_cast ttl) true
                   t now owner grant).2 key).2 r.chain
               trace := [.lookup, .store (int32_t_cast ttl)
                 (apc_cache_store c key (.long 0) (int32_t_cast ttl) true t now owner grant).1,
                 .lookup] ++ updater_events r.called }
      | none =>
        some { retval := false
               cache := (apc_cache_store c key (.long 0) (int32_t_cast ttl) true t now owner
                 grant).2
               trace := [.lookup, .store (int32_t_cast ttl)
                 (apc_cache_store c key (.long 0) (int32_t_cast ttl) true t now owner grant).1,
                 .lookup] } := by
  unfold apc_cache_update_fuel
  simp only [hb, Bool.false_eq_true, if_false]
  rw [update_loop_missed key updater ttl t now owner grant (fuel + 1) true c [] h]
  simp only [if_true]
  cases h2 : update_walk
      (apc_cache_store c key (.long 0) (int32_t_cast ttl) true t now owner grant).2.serializer
      updater (ZSTR_HASH key) key t
      (slot_chain (apc_cache_store c key (.long 0) (int32_t_cast ttl) true t now owner grant).2
        (apc_cache_hash_slot (apc_cache_store c key (.long 0) (int32_t_cast ttl) true t
          now owner grant).2 key).2) with
  | none =>
    rw [update_loop_missed key updater ttl t now owner grant fuel false _ _ h2]
    simp
  | some r =>
    rw [update_loop_found key updater ttl t now owner grant fuel false _ _ r h2]
    simp

/-- Two passes are all the retry loop of `apc_cache_update` takes: with two units of fuel or
more it returns, and what it returns does not depend on the fuel. -/
theorem update_fuel_two (c : apc_cache_t) (key : zend_string)
    (updater : apc_cache_updater_t) (ins : Bool) (ttl t now : Int) (owner : Nat)
    (grant : Option Nat) (fuel : Nat) :
    apc_cache_update_fuel (fuel + 2) c key updater ins ttl t now owner grant =
      some (apc_cache_update c key updater ins ttl t now owner grant) := by
  have key_fact : ∀ f : Nat,
      apc_cache_update_fuel (f + 2) c key updater ins ttl t now owner grant =
        apc_cache_update_fuel 2 c key updater ins ttl t now owner grant := by
    intro f
    by_cases hb : apc_cache_busy c = true
    · simp [apc_cache_update_fuel, hb]
    · have hb2 : apc_cache_busy c = false := by simpa using hb
      cases h : update_walk c.serializer updater (ZSTR_HASH key) key t
          (slot_chain c (apc_cache_hash_slot c key).2) with
      | some r =>
        rw [update_not_busy_found c key updater ins ttl t now owner grant r hb2 h (f + 1),
          update_not_busy_found c key updater ins ttl t now owner grant r hb2 h 1]
      | none =>
        cases ins with
        | false =>
          rw [update_not_busy_missed c key updater ttl t now owner grant hb2 h (f + 1),
            update_not_busy_missed c key updater ttl t now owner grant hb2 h 1]
        | true =>
          rw [update_not_busy_insert c key updater ttl t now owner grant hb2 h f,
            update_not_busy_insert c key updater ttl t now owner grant hb2 h 0]
  rw [key_fact fuel]
  unfold apc_cache_update
  cases h : apc_cache_update_fuel 2 c key updater ins ttl t now owner grant with
  | some r => rfl
  | none =>
    exfalso
    by_cases hb : apc_cache_busy c = true
    · simp [apc_cache_update_fuel, hb] at h
    · have hb2 : apc_cache_busy c = false := by simpa using hb
      cases hw : update_walk c.serializer updater (ZSTR_HASH key) key t
          (slot_chain c (apc_cache_hash_slot c key).2) with
      | some r =>
        rw [update_not_busy_found c key updater ins ttl t now owner grant r hb2 hw 1] at h
        simp at h
      | none =>
        cases ins with
        | false =>
          rw [update_not_busy_missed c key updater ttl t now owner grant hb2 hw 1] at h
          simp at h
        | true =>
          rw [update_not_busy_insert c key updater ttl t now owner grant hb2 hw 0] at h
          split at h <;> simp at h

/-! ## The walk of `apc_cache_update` -/

theorem update_walk_none_of (serializer : Option apc_serializer_t)
    (updater : apc_cache_updater_t) (key : zend_string) (t : Int) :
    ∀ chain : List apc_cache_entry_t,
      (∀ x ∈ chain, ¬(x.key = key ∧ apc_cache_entry_hard_expired x t = false)) →
      update_walk serializer updater (ZSTR_HASH key) key t chain = none
  | [], _ => rfl
  | a :: rest, hno => by
    have ha := hno a (by simp)
    have hc : (key_match a.key (ZSTR_HASH key) key && !apc_cache_entry_hard_expired a t) =
        false := by
      by_contra hcon
      simp only [Bool.not_eq_false, Bool.and_eq_true, Bool.not_eq_true'] at hcon
      exact ha ⟨(key_match_self_iff _ _).1 hcon.1, hcon.2⟩
    unfold update_walk
    simp only [hc, Bool.false_eq_true, if_false]
    rw [update_walk_none_of serializer updater key t rest (fun x hx => hno x (by simp [hx]))]

theorem update_walk_split (serializer : Option apc_serializer_t)
    (updater : apc_cache_updater_t) (key : zend_string) (t : Int) (e : apc_cache_entry_t)
    (suf : List apc_cache_entry_t) (he : e.key = key)
    (hl : apc_cache_entry_hard_expired e t = false) :
    ∀ pre : List apc_cache_entry_t,
      (∀ x ∈ pre, ¬(x.key = key ∧ apc_cache_entry_hard_expired x t = false)) →
      update_walk serializer updater (ZSTR_HASH key) key t (pre ++ e :: suf) =
        some { retval := (update_entry serializer updater t e).1
               chain := pre ++ (update_entry serializer updater t e).2.1 :: suf
               called := (update_entry serializer updater t e).2.2 }
  | [], _ => by
    have hm : key_match e.key (ZSTR_HASH key) key = true := (key_match_self_iff _ _).2 he
    simp [update_walk, hm, hl]
  | a :: pre, hno => by
    have ha := hno a (by simp)
    have hc : (key_match a.key (ZSTR_HASH key) key && !apc_cache_entry_hard_expired a t) =
        false := by
      by_contra hcon
      simp only [Bool.not_eq_false, Bool.and_eq_true, Bool.not_eq_true'] at hcon
      exact ha ⟨(key_match_self_iff _ _).1 hcon.1, hcon.2⟩
    have ih := update_walk_split serializer updater key t e suf he hl pre
      (fun x hx => hno x (by simp [hx]))
    simp only [List.cons_append, update_walk, hc, Bool.false_eq_true, if_false, List.append_eq,
      ih]

theorem update_entry_refuses (c : apc_cache_t) (updater : apc_cache_updater_t) (t : Int)
    (e : apc_cache_entry_t) (h : refuses_update c e) :
    update_entry c.serializer updater t e = (false, e, none) := by
  obtain ⟨h1, h2⟩ := h
  unfold update_entry
  rcases h1 with h1 | h1 <;> simp [h1, h2]

theorem update_entry_runs (c : apc_cache_t) (updater : apc_cache_updater_t) (t : Int)
    (e : apc_cache_entry_t) (h : ¬refuses_update c e) :
    update_entry c.serializer updater t e =
      ((updater e.val).1, { e with val := (updater e.val).2, mtime := t }, some e.val) := by
  unfold refuses_update at h
  unfold update_entry
  split
  · rename_i h1
    have : ¬c.serializer.isSome = true := fun h2 => h ⟨Or.inl h1, h2⟩
    simp [this]
  · rename_i h1
    have : ¬c.serializer.isSome = true := fun h2 => h ⟨Or.inr h1, h2⟩
    simp [this]
  · rfl

theorem update_eq (c : apc_cache_t) (key : zend_string)
    (updater : apc_cache_updater_t) (ins : Bool) (ttl t now : Int) (owner : Nat)
    (grant : Option Nat) :
    some (apc_cache_update c key updater ins ttl t now owner grant) =
      apc_cache_update_fuel 2 c key updater ins ttl t now owner grant :=
  (update_fuel_two c key updater ins ttl t now owner grant 0).symm

/-- C9: on a cache that is not busy, with `e` the entry the update walk stops at (key match,
not hard-expired at `t`): if the value of `e` is an array or an object and a serializer is
configured, `apc_cache_update` returns false without calling the updater and leaves the
cache as it was; otherwise it calls the updater once, on the value of `e`, writes the value
the updater leaves and `mtime = t` whatever the updater reported, and returns what the
updater reported. With the toy serializer configured, an update of a stored `{"x": 1}`
returns false and the value is fetched unchanged. -/
theorem C9_update (c : apc_cache_t) (key : zend_string) (updater : apc_cache_updater_t)
    (ins : Bool) (ttl t now : Int) (owner : Nat) (grant : Option Nat)
    (pre suf : List apc_cache_entry_t) (e : apc_cache_entry_t)
    (hb : apc_cache_busy c = false) (hlm : first_live_match c key t pre e suf) :
    (refuses_update c e →
      apc_cache_update c key updater ins ttl t now owner grant =
        { retval := false, cache := c, trace := [.lookup] }) ∧
    (¬refuses_update c e →
      apc_cache_update c key updater ins ttl t now owner grant =
        { retval := (updater e.val).1
          cache := set_slot_chain c (apc_cache_hash_slot c key).2
            (pre ++ { e with val := (updater e.val).2, mtime := t } :: suf)
          trace := [.lookup, .updater_call e.val] }) ∧
    ((apc_cache_update
        (apc_cache_store demo_serial_cache key_a demo_array 0 false 100 100 1 (some 10)).2
        key_a demo_inc false 0 200 200 1 none).retval = false ∧
     (apc_cache_fetch
        (apc_cache_store demo_serial_cache key_a demo_array 0 false 100 100 1 (some 10)).2
        key_a 200).2.1 = some demo_array ∧
     (apc_cache_fetch (apc_cache_update
        (apc_cache_store demo_serial_cache key_a demo_array 0 false 100 100 1 (some 10)).2
        key_a demo_inc false 0 200 200 1 none).cache key_a 200).2.1 = some demo_array) := by
  obtain ⟨hc, hpre, he, hl⟩ := hlm
  have hw := update_walk_split c.serializer updater key t e suf he hl pre hpre
  rw [← hc] at hw
  have hu := update_not_busy_found c key updater ins ttl t now owner grant _ hb hw 1
  refine ⟨?_, ?_, ⟨rfl, rfl, rfl⟩⟩
  · intro hr
    have := update_eq c key updater ins ttl t now owner grant
    rw [hu, update_entry_refuses c updater t e hr] at this
    simp only [Option.some.injEq] at this
    rw [this]
    have hself : set_slot_chain c (apc_cache_hash_slot c key).2 (pre ++ e :: suf) = c := by
      rw [← hc, set_slot_chain_self]
    show update_result.mk false
      (set_slot_chain c (apc_cache_hash_slot c key).2 (pre ++ e :: suf)) _ = _
    rw [hself]
    rfl
  · intro hr
    have := update_eq c key updater ins ttl t now owner grant
    rw [hu, update_entry_runs c updater t e hr] at this
    simp only [Option.some.injEq] at this
    rw [this]
    rfl

/-- C9 run on the cache holding `("a", 1)`: the updater that adds one is called on 1 and the
update returns true. -/
theorem C9_update_witness :
    apc_cache_update (set_slot_chain demo_cache 1 [demo_entry key_a 1 0 100 1]) key_a demo_inc
        false 0 200 200 1 none =
      { retval := true
        cache := set_slot_chain (set_slot_chain demo_cache 1 [demo_entry key_a 1 0 100 1]) 1
          [{ demo_entry key_a 1 0 100 1 with val := .long 2, mtime := 200 }]
        trace := [.lookup, .updater_call (.long 1)] } :=
  (C9_update (set_slot_chain demo_cache 1 [demo_entry key_a 1 0 100 1]) key_a demo_inc
    false 0 200 200 1 none [] [] (demo_entry key_a 1 0 100 1) rfl
    ⟨rfl, by simp, rfl, rfl⟩).2.1 (by simp [refuses_update, demo_cache, set_slot_chain])

theorem store_zval_long (n : Int) (ctxt ctxt2 : apc_context_t) (v : zval)
    (h : apc_cache_store_zval (.long n) ctxt = (some v, ctxt2)) : v = .long n := by
  unfold apc_cache_store_zval apc_copy_zval at h
  simp only [my_copy_zval] at h
  split at h
  · simp at h
  · simp only [Prod.mk.injEq, Option.some.injEq] at h
    exact h.1.symm

theorem int32_t_cast_id (x : Int) (h0 : 0 ≤ x) (h1 : x < 2147483648) : int32_t_cast x = x := by
  unfold int32_t_cast
  omega

theorem no_live_of_no_match (pre : List apc_cache_entry_t) (key : zend_string) (t : Int)
    (h : ∀ x ∈ pre, x.key ≠ key) :
    ∀ x ∈ pre, ¬(x.key = key ∧ apc_cache_entry_hard_expired x t = false) :=
  fun x hx hc => h x hx hc.1

/-- C10 as stated fails: an update asked to insert with ttl `-1` on the empty cache at time
100 stores the integer 0 under that ttl; the store succeeds, but the entry is hard-expired
from its first instant (`ctime + ttl = 99 < 100`), the retry does not find it, the updater is
never called and the update returns false, although the updater would have reported
success. The same happens with ttl `2147483648`, which reaches the `int32_t` parameter of
`apc_cache_store` as `-2147483648`. -/
theorem C10_counterexample :
    (apc_cache_update demo_cache key_a demo_inc true (-1) 100 100 1 (some 10)).retval =
      false ∧
    (apc_cache_update demo_cache key_a demo_inc true (-1) 100 100 1 (some 10)).trace =
      [.lookup, .store (-1) true, .lookup] ∧
    (demo_inc (.long 0)).1 = true ∧
    (slot_chain (apc_cache_update demo_cache key_a demo_inc true (-1) 100 100 1
      (some 10)).cache 1).map (fun e => (e.key, e.ttl, e.ctime)) = [(key_a, -1, 100)] ∧
    (apc_cache_update demo_cache key_a demo_inc true 2147483648 100 100 1 (some 10)).retval =
      false ∧
    (apc_cache_update demo_cache key_a demo_inc true 2147483648 100 100 1 (some 10)).trace =
      [.lookup, .store (-2147483648) true, .lookup] ∧
    (slot_chain (apc_cache_update demo_cache key_a demo_inc true 2147483648 100 100 1
      (some 10)).cache 1).map (fun e => (e.key, e.ttl, e.ctime)) =
      [(key_a, -2147483648, 100)] :=
  ⟨rfl, rfl, rfl, rfl, rfl, rfl, rfl⟩

/-- C10, amended: on a cache that is not busy, with at least one slot and no live entry for
the key at `t`: an update that may not insert returns false and changes nothing; an update
that may insert makes one exclusive store of the integer 0 under the key, with the given
ttl narrowed to 32 bits, then one more lookup pass and no further store, so it returns
within two passes; for a ttl with `0 ≤ ttl < 2^31` the store is made with that ttl, and when
it succeeds the updater is called once, on the new entry holding 0, and the update returns
what the updater reported; when the retry still finds no live entry it returns false. -/
theorem C10_update_insert (c : apc_cache_t) (key : zend_string)
    (updater : apc_cache_updater_t) (ttl t now : Int) (owner : Nat) (grant : Option Nat)
    (hb : apc_cache_busy c = false) (hn : 0 < c.nslots) (hno : no_live_match c key t) :
    apc_cache_update c key updater false ttl t now owner grant =
      { retval := false, cache := c, trace := [.lookup] } ∧
    ((apc_cache_update c key updater true ttl t now owner grant).trace =
        [.lookup, .store (int32_t_cast ttl)
          (apc_cache_store c key (.long 0) (int32_t_cast ttl) true t now owner grant).1,
          .lookup] ∨
      ∃ v, (apc_cache_update c key updater true ttl t now owner grant).trace =
        [.lookup, .store (int32_t_cast ttl)
          (apc_cache_store c key (.long 0) (int32_t_cast ttl) true t now owner grant).1,
          .lookup, .updater_call v]) ∧
    (∀ fuel : Nat, apc_cache_update_fuel (fuel + 2) c key updater true ttl t now owner grant =
      some (apc_cache_update c key updater true ttl t now owner grant)) ∧
    (0 ≤ ttl → ttl < 2147483648 →
      (apc_cache_store c key (.long 0) (int32_t_cast ttl) true t now owner grant).1 = true →
      int32_t_cast ttl = ttl ∧
      ∃ pre e suf,
        first_match (apc_cache_store c key (.long 0) (int32_t_cast ttl) true t now owner
          grant).2 key pre e suf ∧
        e.val = .long 0 ∧ e.ttl = ttl ∧ e.ctime = t ∧
        apc_cache_update c key updater true ttl t now owner grant =
          { retval := (updater (.long 0)).1
            cache := set_slot_chain
              (apc_cache_store c key (.long 0) (int32_t_cast ttl) true t now owner grant).2
              (apc_cache_hash_slot c key).2
              (pre ++ { e with val := (updater (.long 0)).2, mtime := t } :: suf)
            trace := [.lookup, .store ttl true, .lookup, .updater_call (.long 0)] }) ∧
    (no_live_match
        (apc_cache_store c key (.long 0) (int32_t_cast ttl) true t now owner grant).2 key t →
      apc_cache_update c key updater true ttl t now owner grant =
        { retval := false
          cache := (apc_cache_store c key (.long 0) (int32_t_cast ttl) true t now owner grant).2
          trace := [.lookup, .store (int32_t_cast ttl)
            (apc_cache_store c key (.long 0) (int32_t_cast ttl) true t now owner grant).1,
            .lookup] }) := by
  have hw := update_walk_none_of c.serializer updater key t _ hno
  have hins := update_not_busy_insert c key updater ttl t now owner grant hb hw 0
  have heq := update_eq c key updater true ttl t now owner grant
  rw [show (2 : Nat) = 0 + 2 from rfl, hins] at heq
  refine ⟨?_, ?_, fun fuel => update_fuel_two c key updater true ttl t now owner grant fuel,
    ?_, ?_⟩
  · have h1 := update_eq c key updater false ttl t now owner grant
    rw [update_not_busy_missed c key updater ttl t now owner grant hb hw 1] at h1
    simpa using h1
  · split at heq
    · rename_i r hr
      simp only [Option.some.injEq] at heq
      rw [heq]
      cases hcall : r.called with
      | none => left; simp [updater_events]
      | some v => right; exact ⟨v, by simp [updater_events]⟩
    · simp only [Option.some.injEq] at heq
      rw [heq]
      left; rfl
  · intro h0 h1 hs
    have hcast := int32_t_cast_id ttl h0 h1
    refine ⟨hcast, ?_⟩
    obtain ⟨e, pre, suf, hfm, f1, f2, f3, _, _, _, _, ⟨ctxt, ctxt2, _, _, _, _, g5⟩, hlen⟩ :=
      store_ok_first_match c key (.long 0) (int32_t_cast ttl) true t now owner grant hn hs
    have hval : e.val = .long 0 := store_zval_long 0 ctxt ctxt2 e.val g5
    have hl : apc_cache_entry_hard_expired e t = false := by
      rw [hard_expired_false_iff, f2, f3, hcast]
      right; omega
    have hw2 := update_walk_split
      (apc_cache_store c key (.long 0) (int32_t_cast ttl) true t now owner grant).2.serializer
      updater key t e suf f1 hl pre (no_live_of_no_match pre key t hfm.2.1)
    rw [← hfm.1] at hw2
    rw [hw2] at heq
    simp only [Option.some.injEq] at heq
    refine ⟨pre, e, suf, hfm, hval, by rw [f2, hcast], f3, ?_⟩
    rw [heq, hash_slot_congr c _ key hlen]
    have hue : update_entry
        (apc_cache_store c key (.long 0) (int32_t_cast ttl) true t now owner grant).2.serializer
        updater t e =
        ((updater (.long 0)).1, { e with val := (updater (.long 0)).2, mtime := t },
          some (.long 0)) := by
      unfold update_entry
      rw [hval]
      rfl
    rw [hue, hs, hcast]
    rfl
  · intro hno2
    have hw2 := update_walk_none_of
      (apc_cache_store c key (.long 0) (int32_t_cast ttl) true t now owner grant).2.serializer
      updater key t _ hno2
    rw [hw2] at heq
    simpa using heq

/-- C10 (amended) run on the empty cache with ttl 5: the store succeeds, the updater that adds
one is called on 0 and the update returns true. -/
theorem C10_update_insert_witness :
    (apc_cache_update demo_cache key_a demo_inc true 5 100 100 1 (some 10)).trace =
        [.lookup, .store (int32_t_cast 5)
          (apc_cache_store demo_cache key_a (.long 0) (int32_t_cast 5) true 100 100 1
            (some 10)).1, .lookup] ∨
      ∃ v, (apc_cache_update demo_cache key_a demo_inc true 5 100 100 1 (some 10)).trace =
        [.lookup, .store (int32_t_cast 5)
          (apc_cache_store demo_cache key_a (.long 0) (int32_t_cast 5) true 100 100 1
            (some 10)).1, .lookup, .updater_call v] :=
  (C10_update_insert demo_cache key_a demo_inc 5 100 100 1 (some 10) rfl (by decide)
    (by simp [no_live_match, demo_cache, slot_chain, apc_cache_hash_slot, apc_cache_t.nslots,
      key_a, ZSTR_HASH])).2.1

/-- The cache after `apc_cache_update` is the cache `cm` with entries rewritten in place,
where `cm` is the cache before the call or, when the first pass found no live entry and the
call may insert, the cache after the exclusive store of 0. -/
theorem update_cache_cases (c : apc_cache_t) (key : zend_string)
    (updater : apc_cache_updater_t) (ins : Bool) (ttl t now : Int) (owner : Nat)
    (grant : Option Nat) :
    ∃ cm, (cm = c ∨
        (ins = true ∧ no_live_match_walk c updater key t ∧
          cm = (apc_cache_store c key (.long 0) (int32_t_cast ttl) true t now owner grant).2)) ∧
      config_frame cm (apc_cache_update c key updater ins ttl t now owner grant).cache ∧
      ∀ i, List.Forall₂ same_entry (slot_chain cm i)
        (slot_chain (apc_cache_update c key updater ins ttl t now owner grant).cache i) := by
  have heq := update_eq c key updater ins ttl t now owner grant
  by_cases hb : apc_cache_busy c = true
  · simp only [apc_cache_update_fuel, hb, if_true, Option.some.injEq] at heq
    rw [heq]
    exact ⟨c, Or.inl rfl, config_frame_refl c, fun i => forall₂_same_refl _⟩
  · have hb2 : apc_cache_busy c = false := by simpa using hb
    cases hw : update_walk c.serializer updater (ZSTR_HASH key) key t
        (slot_chain c (apc_cache_hash_slot c key).2) with
    | some r =>
      rw [update_not_busy_found c key updater ins ttl t now owner grant r hb2 hw 1] at heq
      simp only [Option.some.injEq] at heq
      rw [heq]
      refine ⟨c, Or.inl rfl, ⟨by simp [set_slot_chain], rfl, rfl, rfl, rfl, rfl, rfl⟩, ?_⟩
      exact slot_rel_set (List.Forall₂ same_entry) forall₂_same_refl c c _ _ rfl
        (update_walk_rewritten _ _ _ _ _ _ r hw)
    | none =>
      cases ins with
      | false =>
        rw [update_not_busy_missed c key updater ttl t now owner grant hb2 hw 1] at heq
        simp only [Option.some.injEq] at heq
        rw [heq]
        exact ⟨c, Or.inl rfl, config_frame_refl c, fun i => forall₂_same_refl _⟩
      | true =>
        rw [show (2 : Nat) = 0 + 2 from rfl,
          update_not_busy_insert c key updater ttl t now owner grant hb2 hw 0] at heq
        refine ⟨(apc_cache_store c key (.long 0) (int32_t_cast ttl) true t now owner grant).2,
          Or.inr ⟨rfl, hw, rfl⟩, ?_⟩
        split at heq
        · rename_i r hr
          simp only [Option.some.injEq] at heq
          rw [heq]
          refine ⟨⟨by simp [set_slot_chain], rfl, rfl, rfl, rfl, rfl, rfl⟩, ?_⟩
          exact slot_rel_set (List.Forall₂ same_entry) forall₂_same_refl _ _ _ _ rfl
            (update_walk_rewritten _ _ _ _ _ _ r hr)
        · simp only [Option.some.injEq] at heq
          rw [heq]
          exact ⟨config_frame_refl _, fun i => forall₂_same_refl _⟩

/-! ## Expunge and clear only take entries away -/

theorem dropped_all : ∀ l : List apc_cache_entry_t, dropped (fun _ => True) l []
  | [] => dropped.nil
  | x :: l => dropped.drop x trivial (dropped_all l)

theorem slot_chain_cleared (c : apc_cache_t) (i : Nat) (sl : List (List apc_cache_entry_t))
    (h : c.slots = sl.map fun _ => []) : slot_chain c i = [] := by
  unfold slot_chain
  rw [h, List.getD_eq_getElem?_getD, List.getElem?_map]
  cases sl[i]? <;> rfl

theorem foldl_remove_all_frame (now : Int) :
    ∀ (sl : List (List apc_cache_entry_t)) (c : apc_cache_t),
      removal_frame c (sl.foldl (fun c chain => remove_all now chain c) c)
  | [], c => removal_frame_refl c
  | ch :: sl, c => by
    simp only [List.foldl_cons]
    exact removal_frame_trans (remove_all_frame now ch c) (foldl_remove_all_frame now sl _)

theorem real_expunge_chains (c : apc_cache_t) (t now : Int) (i : Nat) :
    slot_chain (apc_cache_wlocked_real_expunge c t now) i = [] := by
  unfold apc_cache_wlocked_real_expunge
  exact slot_chain_cleared _ i _ rfl

theorem real_expunge_config (c : apc_cache_t) (t now : Int) :
    config_frame c (apc_cache_wlocked_real_expunge c t now) := by
  unfold apc_cache_wlocked_real_expunge
  dsimp only
  obtain ⟨a1, a2, a3, a4, a5, a6, a7⟩ := config_of_removal
    (foldl_remove_all_frame now c.slots
      { c with header := { c.header with nexpunges := c.header.nexpunges + 1 } })
  exact ⟨by rw [List.length_map]; exact a1, a2, a3, a4, a5, a6, a7⟩

theorem clear_chains (c : apc_cache_t) (t now : Int) (i : Nat) :
    dropped (fun _ => True) (slot_chain c i) (slot_chain (apc_cache_clear c t now) i) := by
  unfold apc_cache_clear
  split
  · exact dropped_refl _ _
  · have : slot_chain (apc_cache_wlocked_real_expunge
        { c with header := { c.header with state := c.header.state ||| APC_CACHE_ST_BUSY } }
        t now) i = [] := real_expunge_chains _ t now i
    show dropped _ _ (slot_chain (apc_cache_wlocked_real_expunge _ t now) i)
    rw [this]
    exact dropped_all _

theorem clear_config (c : apc_cache_t) (t now : Int) :
    config_frame c (apc_cache_clear c t now) := by
  unfold apc_cache_clear
  split
  · exact config_frame_refl c
  · exact real_expunge_config
      { c with header := { c.header with state := c.header.state ||| APC_CACHE_ST_BUSY } } t now

theorem expunge_walk_frame (t now : Int) :
    ∀ (chain : List apc_cache_entry_t) (c : apc_cache_t),
      removal_frame c (expunge_walk t now chain c).2
  | [], c => removal_frame_refl c
  | a :: rest, c => by
    unfold expunge_walk
    split
    · exact removal_frame_trans (remove_entry_frame c a now) (expunge_walk_frame t now rest _)
    · exact expunge_walk_frame t now rest c

theorem expunge_slots_frame (t now : Int) :
    ∀ (sl : List (List apc_cache_entry_t)) (c : apc_cache_t),
      removal_frame c (expunge_slots t now sl c).2
  | [], c => removal_frame_refl c
  | ch :: sl, c => by
    unfold expunge_slots
    exact removal_frame_trans (expunge_walk_frame t now ch c) (expunge_slots_frame t now sl _)

theorem expunge_slots_dropped (t now : Int) :
    ∀ (sl : List (List apc_cache_entry_t)) (c : apc_cache_t),
      List.Forall₂ (dropped (fun _ => True)) sl (expunge_slots t now sl c).1
  | [], _ => List.Forall₂.nil
  | ch :: sl, c => by
    unfold expunge_slots
    exact List.Forall₂.cons (expunge_walk_dropped t now ch c) (expunge_slots_dropped t now sl _)

theorem forall₂_getD {R : List apc_cache_entry_t → List apc_cache_entry_t → Prop}
    (hnil : R [] []) :
    ∀ {l l2 : List (List apc_cache_entry_t)}, List.Forall₂ R l l2 → ∀ i : Nat,
      R (l.getD i []) (l2.getD i [])
  | [], [], _, i => by simpa using hnil
  | a :: l, b :: l2, h, i => by
    cases h with
    | cons hab h =>
      cases i with
      | zero => simpa using hab
      | succ i =>
        simpa using forall₂_getD hnil h i

theorem expunge_processing_chains (c2 : apc_cache_t) (needed : Bool) (t now : Int)
    (avail_size : Bool) (i : Nat) :
    dropped (fun _ => True) (slot_chain c2 i)
      (slot_chain (expunge_processing c2 needed t now avail_size) i) := by
  unfold expunge_processing
  split
  · split
    · rw [real_expunge_chains]; exact dropped_all _
    · exact dropped_refl _ _
  · split
    · have hd := forall₂_getD (R := dropped (fun _ => True)) dropped.nil
        (expunge_slots_dropped t now c2.slots c2) i
      dsimp only
      split
      · exact hd
      · rw [real_expunge_chains]; exact dropped_all _
    · exact dropped_refl _ _

theorem expunge_processing_config (c2 : apc_cache_t) (needed : Bool) (t now : Int)
    (avail_size : Bool) : config_frame c2 (expunge_processing c2 needed t now avail_size) := by
  unfold expunge_processing
  split
  · split
    · exact real_expunge_config c2 t now
    · exact config_frame_refl c2
  · split
    · obtain ⟨_, a2, a3, a4, a5, a6, a7⟩ :=
        config_of_removal (expunge_slots_frame t now c2.slots c2)
      have hlen := (expunge_slots_dropped t now c2.slots c2).length_eq
      have h4 : config_frame c2
          { (expunge_slots t now c2.slots c2).2 with
            slots := (expunge_slots t now c2.slots c2).1 } :=
        ⟨hlen.symm, a2, a3, a4, a5, a6, a7⟩
      dsimp only
      split
      · exact h4
      · exact config_frame_trans h4 (real_expunge_config _ t now)
    · exact config_frame_refl c2

theorem expunge_chains (c : apc_cache_t) (size : Nat) (t now : Int) (available : Nat)
    (avail_size : Bool) (i : Nat) :
    dropped (fun _ => True) (slot_chain c i)
      (slot_chain (apc_cache_default_expunge c size t now available avail_size) i) := by
  unfold apc_cache_default_expunge
  split
  · exact dropped_refl _ _
  · have h := expunge_processing_chains (apc_cache_wlocked_gc
      { c with header := { c.header with state := c.header.state ||| APC_CACHE_ST_BUSY } } now)
      (decide ((available : Int) < (if c.smart > 0 then
        (c.smart * (size : Int)) % 18446744073709551616
        else ((c.sma.size / 2 : Nat) : Int)))) t now avail_size i
    have hgc : slot_chain (apc_cache_wlocked_gc
        { c with header := { c.header with state := c.header.state ||| APC_CACHE_ST_BUSY } }
        now) i = slot_chain c i := by simp [slot_chain]
    rw [hgc] at h
    exact h

theorem expunge_config (c : apc_cache_t) (size : Nat) (t now : Int) (available : Nat)
    (avail_size : Bool) :
    config_frame c (apc_cache_default_expunge c size t now available avail_size) := by
  unfold apc_cache_default_expunge
  split
  · exact config_frame_refl c
  · have h := expunge_processing_config (apc_cache_wlocked_gc
      { c with header := { c.header with state := c.header.state ||| APC_CACHE_ST_BUSY } } now)
      (decide ((available : Int) < (if c.smart > 0 then
        (c.smart * (size : Int)) % 18446744073709551616
        else ((c.sma.size / 2 : Nat) : Int)))) t now avail_size
    have hgc : config_frame
        { c with header := { c.header with state := c.header.state ||| APC_CACHE_ST_BUSY } }
        (apc_cache_wlocked_gc
        { c with header := { c.header with state := c.header.state ||| APC_CACHE_ST_BUSY } }
        now) :=
      config_of_removal (gc_frame
        { c with header := { c.header with state := c.header.state ||| APC_CACHE_ST_BUSY } } now)
    exact config_frame_trans hgc h

/-! ## No chain holds a key twice -/

theorem nodup_keys_of_dropped {p : apc_cache_entry_t → Prop} {l l2 : List apc_cache_entry_t}
    (h : dropped p l l2) (hn : (l.map (fun e => e.key)).Nodup) :
    (l2.map (fun e => e.key)).Nodup :=
  hn.sublist ((dropped_sublist h).map _)

theorem nodup_keys_insert (l1 l2 : List apc_cache_entry_t) (n : apc_cache_entry_t)
    (hn : ((l1 ++ l2).map (fun e => e.key)).Nodup) (hk : ∀ x ∈ l1 ++ l2, x.key ≠ n.key) :
    ((l1 ++ n :: l2).map (fun e => e.key)).Nodup := by
  have hperm : (l1 ++ n :: l2).Perm (n :: (l1 ++ l2)) := List.perm_middle
  rw [(hperm.map _).nodup_iff]
  simp only [List.map_cons, List.nodup_cons]
  refine ⟨?_, hn⟩
  intro hmem
  obtain ⟨x, hx, hxk⟩ := List.mem_map.1 hmem
  exact hk x hx hxk

theorem store_distinct (c : apc_cache_t) (k2 : zend_string) (val : zval) (ttl : Int)
    (exclusive : Bool) (t now : Int) (owner : Nat) (grant : Option Nat)
    (h : distinct_keys c) :
    distinct_keys (apc_cache_store c k2 val ttl exclusive t now owner grant).2 := by
  intro i
  obtain ⟨l1, l2, hd, hcase⟩ := store_chains c k2 val ttl exclusive t now owner grant i
  have hn := nodup_keys_of_dropped hd (h i)
  rcases hcase with h1 | ⟨n, hk, h1, hno⟩
  · rw [h1]; exact hn
  · rw [h1]
    exact nodup_keys_insert l1 l2 n hn (fun x hx => by rw [hk]; exact hno (h i) x hx)

theorem distinct_of_rewritten (c c2 : apc_cache_t)
    (h : ∀ i, List.Forall₂ same_entry (slot_chain c i) (slot_chain c2 i))
    (hd : distinct_keys c) : distinct_keys c2 := by
  intro i
  rw [forall₂_same_keys (h i)]
  exact hd i

theorem distinct_of_dropped (c c2 : apc_cache_t) {p : apc_cache_entry_t → Prop}
    (h : ∀ i, dropped p (slot_chain c i) (slot_chain c2 i))
    (hd : distinct_keys c) : distinct_keys c2 :=
  fun i => nodup_keys_of_dropped (h i) (hd i)

theorem step_distinct (c : apc_cache_t) (op : Op) (h : distinct_keys c) :
    distinct_keys (step c op) := by
  cases op with
  | store key val ttl exclusive t now owner grant =>
    exact store_distinct c key val ttl exclusive t now owner grant h
  | find key t => exact distinct_of_rewritten c _ (find_chains c key t) h
  | fetch key t => exact distinct_of_rewritten c _ (fetch_chains c key t) h
  | exists_ key t => exact h
  | release entry => exact distinct_of_rewritten c _ (release_chains c entry) h
  | update key updater ins ttl t now owner grant =>
    obtain ⟨cm, hcm, _, hrw⟩ := update_cache_cases c key updater ins ttl t now owner grant
    apply distinct_of_rewritten cm _ hrw
    rcases hcm with rfl | ⟨_, _, rfl⟩
    · exact h
    · exact store_distinct c key _ _ true t now owner grant h
  | delete key now => exact distinct_of_dropped c _ (delete_chains c key now) h
  | clear t now => exact distinct_of_dropped c _ (clear_chains c t now) h
  | expunge size t now available avail_size =>
    exact distinct_of_dropped c _ (expunge_chains c size t now available avail_size) h

theorem run_distinct : ∀ (ops : List Op) (c : apc_cache_t), distinct_keys c →
    distinct_keys (run c ops)
  | [], _, h => h
  | op :: ops, c, h => by
    unfold run
    simp only [List.foldl_cons]
    exact run_distinct ops (step c op) (step_distinct c op h)

theorem create_distinct (sma : apc_sma_t) (serializer : Option apc_serializer_t)
    (php : apc_serializer_t) (size_hint gc_ttl ttl smart : Int) (defend : Bool) (stime : Int) :
    distinct_keys (apc_cache_create sma serializer php size_hint gc_ttl ttl smart defend
      stime) := by
  intro i
  have hrep : ∀ n : Nat, (List.replicate n ([] : List apc_cache_entry_t)).getD i [] = [] := by
    intro n
    rw [List.getD_eq_getElem?_getD, List.getElem?_replicate]
    split <;> rfl
  have : slot_chain (apc_cache_create sma serializer php size_hint gc_ttl ttl smart defend
      stime) i = [] := by
    unfold slot_chain apc_cache_create
    exact hrep _
  rw [this]
  exact List.nodup_nil

/-- In every reachable cache no chain holds two entries with the same key. -/
theorem reachable_distinct (c : apc_cache_t) (h : Reachable c) : distinct_keys c := by
  obtain ⟨sma, serializer, php, size_hint, gc_ttl, ttl, smart, defend, stime, ops, rfl⟩ := h
  exact run_distinct ops _ (create_distinct sma serializer php size_hint gc_ttl ttl smart
    defend stime)

/-! ## A key that is absent stays absent until it is stored -/

theorem mem_of_dropped {p : apc_cache_entry_t → Prop} {l l2 : List apc_cache_entry_t}
    (h : dropped p l l2) {x : apc_cache_entry_t} (hx : x ∈ l2) : x ∈ l :=
  (dropped_sublist h).subset hx

theorem forall₂_same_no_key {l l2 : List apc_cache_entry_t}
    (h : List.Forall₂ same_entry l l2) (key : zend_string) (hno : ∀ x ∈ l, x.key ≠ key) :
    ∀ x ∈ l2, x.key ≠ key := by
  intro x hx hk
  have hmem : key ∈ l2.map (fun e => e.key) := List.mem_map.2 ⟨x, hx, hk⟩
  rw [forall₂_same_keys h] at hmem
  obtain ⟨y, hy, hyk⟩ := List.mem_map.1 hmem
  exact hno y hy hyk

theorem no_match_of_rewritten (c c2 : apc_cache_t) (key : zend_string)
    (hcf : config_frame c c2)
    (h : ∀ i, List.Forall₂ same_entry (slot_chain c i) (slot_chain c2 i))
    (hno : no_match c key) : no_match c2 key := by
  unfold no_match at hno ⊢
  rw [hash_slot_congr c c2 key hcf.1]
  exact forall₂_same_no_key (h _) key hno

theorem no_match_of_dropped (c c2 : apc_cache_t) (key : zend_string)
    {p : apc_cache_entry_t → Prop} (hcf : config_frame c c2)
    (h : ∀ i, dropped p (slot_chain c i) (slot_chain c2 i))
    (hno : no_match c key) : no_match c2 key := by
  unfold no_match at hno ⊢
  rw [hash_slot_congr c c2 key hcf.1]
  exact fun x hx => hno x (mem_of_dropped (h _) hx)

theorem store_no_match (c : apc_cache_t) (key k2 : zend_string) (val : zval) (ttl : Int)
    (exclusive : Bool) (t now : Int) (owner : Nat) (grant : Option Nat) (hk : k2 ≠ key)
    (hno : no_match c key) :
    no_match (apc_cache_store c k2 val ttl exclusive t now owner grant).2 key := by
  unfold no_match at hno ⊢
  rw [hash_slot_congr c _ key (store_config c k2 val ttl exclusive t now owner grant).1]
  obtain ⟨l1, l2, hd, hcase⟩ := store_chains c k2 val ttl exclusive t now owner grant
    (apc_cache_hash_slot c key).2
  rcases hcase with h1 | ⟨n, hn, h1, _⟩
  · rw [h1]
    exact fun x hx => hno x (mem_of_dropped hd hx)
  · rw [h1]
    intro x hx
    simp only [List.mem_append, List.mem_cons] at hx
    rcases hx with hx | rfl | hx
    · exact hno x (mem_of_dropped hd (by simp [hx]))
    · rw [hn]; exact hk
    · exact hno x (mem_of_dropped hd (by simp [hx]))

theorem step_config (c : apc_cache_t) (op : Op) : config_frame c (step c op) := by
  cases op with
  | store key val ttl exclusive t now owner grant =>
    exact store_config c key val ttl exclusive t now owner grant
  | find key t => exact find_config c key t
  | fetch key t => exact fetch_config c key t
  | exists_ key t => exact config_frame_refl c
  | release entry => exact release_config c entry
  | update key updater ins ttl t now owner grant =>
    obtain ⟨cm, hcm, hcf, _⟩ := update_cache_cases c key updater ins ttl t now owner grant
    rcases hcm with rfl | ⟨_, _, rfl⟩
    · exact hcf
    · exact config_frame_trans (store_config c key _ _ true t now owner grant) hcf
  | delete key now => exact delete_config c key now
  | clear t now => exact clear_config c t now
  | expunge size t now available avail_size =>
    exact expunge_config c size t now available avail_size

theorem step_no_match (c : apc_cache_t) (key : zend_string) (op : Op)
    (hop : ¬stores_key key op) (hno : no_match c key) : no_match (step c op) key := by
  cases op with
  | store k2 val ttl exclusive t now owner grant =>
    exact store_no_match c key k2 val ttl exclusive t now owner grant
      (fun h => hop h) hno
  | find k2 t => exact no_match_of_rewritten c _ key (find_config c k2 t) (find_chains c k2 t) hno
  | fetch k2 t =>
    exact no_match_of_rewritten c _ key (fetch_config c k2 t) (fetch_chains c k2 t) hno
  | exists_ k2 t => exact hno
  | release entry =>
    exact no_match_of_rewritten c _ key (release_config c entry) (release_chains c entry) hno
  | update k2 updater ins ttl t now owner grant =>
    obtain ⟨cm, hcm, hcf, hrw⟩ := update_cache_cases c k2 updater ins ttl t now owner grant
    apply no_match_of_rewritten cm _ key hcf hrw
    rcases hcm with rfl | ⟨hins, _, rfl⟩
    · exact hno
    · exact store_no_match c key k2 _ _ true t now owner grant
        (fun h => hop ⟨h, hins⟩) hno
  | delete k2 now =>
    exact no_match_of_dropped c _ key (delete_config c k2 now) (delete_chains c k2 now) hno
  | clear t now =>
    exact no_match_of_dropped c _ key (clear_config c t now) (clear_chains c t now) hno
  | expunge size t now available avail_size =>
    exact no_match_of_dropped c _ key (expunge_config c size t now available avail_size)
      (expunge_chains c size t now available avail_size) hno

theorem run_no_match (key : zend_string) : ∀ (ops : List Op) (c : apc_cache_t),
    (∀ op ∈ ops, ¬stores_key key op) → no_match c key → no_match (run c ops) key
  | [], _, _, h => h
  | op :: ops, c, hops, h => by
    unfold run
    simp only [List.foldl_cons]
    exact run_no_match key ops (step c op) (fun o ho => hops o (by simp [ho]))
      (step_no_match c key op (hops op (by simp)) h)

theorem exists_of_no_match (c : apc_cache_t) (key : zend_string) (t : Int)
    (h : no_match c key) : apc_cache_exists c key t = false := by
  unfold apc_cache_exists
  split
  · rfl
  · rw [find_nostat_miss c key t h]; rfl

/-- C5: in every cache reachable from a freshly created one by public calls, when
`apc_cache_delete` of a key returns true, `apc_cache_exists` of the key is false at every
time in the cache it leaves, and stays false after any further calls none of which stores the
key (a `store` of the key, or an `update` of the key asked to insert). -/
theorem C5_delete_then_absent (c : apc_cache_t) (hr : Reachable c) (key : zend_string)
    (now : Int) (hd : (apc_cache_delete c key now).1 = true) :
    (∀ t : Int, apc_cache_exists (apc_cache_delete c key now).2 key t = false) ∧
    ∀ ops : List Op, (∀ op ∈ ops, ¬stores_key key op) →
      ∀ t : Int, apc_cache_exists (run (apc_cache_delete c key now).2 ops) key t = false := by
  have hdist := reachable_distinct c hr
  obtain ⟨pre, e, suf, hc, hpre, he, hc2⟩ := delete_true_split c key now hd
  have hno : no_match (apc_cache_delete c key now).2 key := by
    unfold no_match
    rw [hash_slot_congr c _ key (delete_config c key now).1, hc2]
    have hnd := hdist (apc_cache_hash_slot c key).2
    rw [hc] at hnd
    simp only [List.map_append, List.map_cons] at hnd
    have hperm : (pre.map (fun e => e.key) ++ e.key :: suf.map (fun e => e.key)).Perm
        (e.key :: (pre.map (fun e => e.key) ++ suf.map (fun e => e.key))) := List.perm_middle
    rw [hperm.nodup_iff, List.nodup_cons] at hnd
    intro x hx hk
    apply hnd.1
    rw [he, ← hk, ← List.map_append]
    exact List.mem_map_of_mem _ hx
  refine ⟨fun t => exists_of_no_match _ key t hno, fun ops hops t => ?_⟩
  exact exists_of_no_match _ key t (run_no_match key ops _ hops hno)

theorem demo_created_reachable : Reachable demo_created_cache :=
  ⟨_, _, _, _, _, _, _, _, _, _, rfl⟩

set_option maxRecDepth 20000 in
/-- C5 run on the cache created with 257 slots holding `"k"`: after the delete, and after a
further `find` and a store of another key, `exists` of `"k"` is false. -/
theorem C5_delete_then_absent_witness :
    apc_cache_exists
      (run (apc_cache_delete demo_created_cache key_k 5).2
        [.find key_k 6, .store key_a (.long 3) 0 false 6 6 1 (some 10)]) key_k 7 = false :=
  (C5_delete_then_absent demo_created_cache demo_created_reachable key_k 5 (by rfl)).2
    [.find key_k 6, .store key_a (.long 3) 0 false 6 6 1 (some 10)]
    (by
      intro op hop
      simp only [List.mem_cons, List.mem_singleton, List.not_mem_nil, or_false] at hop
      rcases hop with rfl | rfl
      · exact fun h => h
      · exact fun h => absurd (show key_a = key_k from h) (by decide)) 7

/-! ## An entry with no ttl of its own stays until something detaches it -/

theorem first_match_of_stands (c : apc_cache_t) (key : zend_string) (e : apc_cache_entry_t)
    (he : e.key = key)
    (h : stands_first key e (slot_chain c (apc_cache_hash_slot c key).2)) :
    ∃ pre suf, first_match c key pre e suf := by
  obtain ⟨pre, suf, h1, h2⟩ := h
  exact ⟨pre, suf, h1, h2, he⟩

theorem stands_of_first_match (c : apc_cache_t) (key : zend_string)
    (pre suf : List apc_cache_entry_t) (e : apc_cache_entry_t)
    (h : first_match c key pre e suf) :
    stands_first key e (slot_chain c (apc_cache_hash_slot c key).2) :=
  ⟨pre, suf, h.1, h.2.1⟩

theorem held_store (c : apc_cache_t) (key k2 : zend_string) (val : zval) (ttl : Int)
    (exclusive : Bool) (t now : Int) (owner : Nat) (grant : Option Nat)
    (pre suf : List apc_cache_entry_t) (e : apc_cache_entry_t)
    (hfm : first_match c key pre e suf) (httl : e.ttl = 0) (hk : k2 ≠ key)
    (hsoft : apc_cache_entry_soft_expired c e t = false) :
    ∃ pre2 suf2,
      first_match (apc_cache_store c k2 val ttl exclusive t now owner grant).2 key
        pre2 e suf2 := by
  apply first_match_of_stands _ key e hfm.2.2
  rw [hash_slot_congr c _ key (store_config c k2 val ttl exclusive t now owner grant).1]
  obtain ⟨l1, l2, hd, hcase⟩ := store_chains c k2 val ttl exclusive t now owner grant
    (apc_cache_hash_slot c key).2
  have hne : ¬(e.key = k2 ∨ apc_cache_entry_expired c e t = true) := by
    rintro (h | h)
    · exact hk (by rw [← h, hfm.2.2])
    · have hh : apc_cache_entry_hard_expired e t = false :=
        (hard_expired_false_iff e t).2 (Or.inl httl)
      simp [apc_cache_entry_expired, hh, hsoft] at h
  have hst := stands_first_dropped key e hd hne (stands_of_first_match c key pre suf e hfm)
  rcases hcase with h1 | ⟨n, hn, h1, _⟩
  · rw [h1]; exact hst
  · rw [h1]
    exact stands_first_insert key e n l1 l2 (by rw [hn]; exact hk) hst

theorem held_dropped (c c2 : apc_cache_t) (key : zend_string)
    {p : apc_cache_entry_t → Prop} (pre suf : List apc_cache_entry_t)
    (e : apc_cache_entry_t) (hcf : config_frame c c2)
    (h : ∀ i, dropped p (slot_chain c i) (slot_chain c2 i)) (hne : ¬p e)
    (hfm : first_match c key pre e suf) :
    ∃ pre2 suf2, first_match c2 key pre2 e suf2 := by
  apply first_match_of_stands _ key e hfm.2.2
  rw [hash_slot_congr c c2 key hcf.1]
  exact stands_first_dropped key e (h _) hne (stands_of_first_match c key pre suf e hfm)

theorem held_rewritten (c c2 : apc_cache_t) (key : zend_string)
    (pre suf : List apc_cache_entry_t) (e : apc_cache_entry_t) (hcf : config_frame c c2)
    (h : ∀ i, List.Forall₂ same_entry (slot_chain c i) (slot_chain c2 i))
    (hfm : first_match c key pre e suf) :
    ∃ pre2 e2 suf2, first_match c2 key pre2 e2 suf2 ∧ same_entry e e2 := by
  obtain ⟨e2, hs, hst⟩ := stands_first_rewritten key e (h (apc_cache_hash_slot c key).2)
    (stands_of_first_match c key pre suf e hfm)
  rw [← hash_slot_congr c c2 key hcf.1] at hst
  obtain ⟨pre2, suf2, hfm2⟩ := first_match_of_stands c2 key e2 (by rw [hs.1, hfm.2.2]) hst
  exact ⟨pre2, e2, suf2, hfm2, hs⟩

theorem held_step (c : apc_cache_t) (key : zend_string) (pre suf : List apc_cache_entry_t)
    (e : apc_cache_entry_t) (hfm : first_match c key pre e suf) (httl : e.ttl = 0) (op : Op)
    (hop : ¬may_detach c key e op) :
    ∃ pre2 e2 suf2, first_match (step c op) key pre2 e2 suf2 ∧ same_entry e e2 := by
  cases op with
  | store k2 val ttl exclusive t now owner grant =>
    have hk : k2 ≠ key := fun h => hop (Or.inl h)
    have hsoft : apc_cache_entry_soft_expired c e t = false := by
      by_contra h
      exact hop (Or.inr (by simpa using h))
    obtain ⟨pre2, suf2, h⟩ := held_store c key k2 val ttl exclusive t now owner grant pre suf e
      hfm httl hk hsoft
    exact ⟨pre2, e, suf2, h, same_entry_refl e⟩
  | find k2 t => exact held_rewritten c _ key pre suf e (find_config c k2 t) (find_chains c k2 t) hfm
  | fetch k2 t =>
    exact held_rewritten c _ key pre suf e (fetch_config c k2 t) (fetch_chains c k2 t) hfm
  | exists_ k2 t => exact ⟨pre, e, suf, hfm, same_entry_refl e⟩
  | release entry =>
    exact held_rewritten c _ key pre suf e (release_config c entry) (release_chains c entry) hfm
  | update k2 updater ins ttl t now owner grant =>
    obtain ⟨cm, hcm, hcf, hrw⟩ := update_cache_cases c k2 updater ins ttl t now owner grant
    rcases hcm with rfl | ⟨hins, hwalk, rfl⟩
    · exact held_rewritten _ _ key pre suf e hcf hrw hfm
    · have hk : k2 ≠ key := by
        intro h
        subst h
        have hl : apc_cache_entry_hard_expired e t = false :=
          (hard_expired_false_iff e t).2 (Or.inl httl)
        have := update_walk_split c.serializer updater k2 t e suf hfm.2.2 hl pre
          (no_live_of_no_match pre k2 t hfm.2.1)
        rw [← hfm.1] at this
        unfold no_live_match_walk at hwalk
        rw [hwalk] at this
        simp at this
      have hsoft : apc_cache_entry_soft_expired c e t = false := by
        by_contra h
        exact hop ⟨hins, hk, by simpa using h⟩
      obtain ⟨pre2, suf2, h⟩ := held_store c key k2 (.long 0) (int32_t_cast ttl) true t now
        owner grant pre suf e hfm httl hk hsoft
      exact held_rewritten _ _ key pre2 suf2 e hcf hrw h
  | delete k2 now =>
    have hk : ¬e.key = k2 := fun h => hop (by rw [← h, hfm.2.2]; rfl)
    obtain ⟨pre2, suf2, h⟩ := held_dropped c _ key pre suf e (delete_config c k2 now)
      (delete_chains c k2 now) hk hfm
    exact ⟨pre2, e, suf2, h, same_entry_refl e⟩
  | clear t now => exact absurd trivial hop
  | expunge size t now available avail_size => exact absurd trivial hop

/-- C8 as stated fails: in a cache with a global ttl of 10, the entry of `"a"` stored with no
ttl at time 0 is soft-expired at time 100 and still answered by `exists`; a store of the
other key `"d"`, which falls into the same slot, made at time 100 detaches it on its way
down the chain, and `exists` of `"a"` is false afterwards although nothing was expunged. -/
theorem C8_counterexample :
    (apc_cache_store demo_ttl_cache key_a (.long 1) 0 false 0 0 1 (some 10)).2.ttl = 10 ∧
    (slot_chain (apc_cache_store demo_ttl_cache key_a (.long 1) 0 false 0 0 1 (some 10)).2
      1).map (fun e => (e.key, e.ttl, apc_cache_entry_soft_expired
        (apc_cache_store demo_ttl_cache key_a (.long 1) 0 false 0 0 1 (some 10)).2 e 100)) =
      [(key_a, 0, true)] ∧
    apc_cache_exists (apc_cache_store demo_ttl_cache key_a (.long 1) 0 false 0 0 1
      (some 10)).2 key_a 100 = true ∧
    (apc_cache_store (apc_cache_store demo_ttl_cache key_a (.long 1) 0 false 0 0 1
      (some 10)).2 key_d (.long 2) 0 false 100 100 1 (some 10)).1 = true ∧
    apc_cache_exists (apc_cache_store (apc_cache_store demo_ttl_cache key_a (.long 1) 0 false
      0 0 1 (some 10)).2 key_d (.long 2) 0 false 100 100 1 (some 10)).2 key_a 100 = false ∧
    (slot_chain (apc_cache_store (apc_cache_store demo_ttl_cache key_a (.long 1) 0 false
      0 0 1 (some 10)).2 key_d (.long 2) 0 false 100 100 1 (some 10)).2 1).map
        (fun e => e.key) = [key_d] := by
  decide

/-- C8, amended: an entry `e` with no ttl of its own that is the chain entry for its key is
answered by `find_nostat` at every time, soft-expired or not, and on a cache that is not busy
by `exists`, `find` and `fetch` as well; it stays the chain entry for its key (with its key,
pool, ttl and creation time) across every call other than an expunge, a clear, a store or
delete of its own key, and a store of another key (by `store`, or by an `update` asked to
insert) made at a time at which `e` is soft-expired: such a store drops the soft-expired
entries it walks over. -/
theorem C8_soft_expired_visible (c : apc_cache_t) (key : zend_string)
    (pre suf : List apc_cache_entry_t) (e : apc_cache_entry_t)
    (hfm : first_match c key pre e suf) (httl : e.ttl = 0) :
    (∀ t : Int,
      apc_cache_rlocked_find_nostat c key t = some e ∧
      (apc_cache_busy c = false →
        apc_cache_exists c key t = true ∧
        apc_cache_find c key t =
          (hit_cache c (apc_cache_hash_slot c key).2 pre e suf t, some (hit_entry e t)) ∧
        apc_cache_fetch c key t =
          ((apc_cache_entry_fetch_zval c e).isSome, apc_cache_entry_fetch_zval c e,
            apc_cache_entry_release (hit_cache c (apc_cache_hash_slot c key).2 pre e suf t)
              (hit_entry e t)))) ∧
    (∀ op : Op, ¬may_detach c key e op →
      ∃ pre2 e2 suf2, first_match (step c op) key pre2 e2 suf2 ∧ same_entry e e2 ∧
        ∀ t : Int, apc_cache_rlocked_find_nostat (step c op) key t = some e2) := by
  have hlive : ∀ (x : apc_cache_entry_t) (t : Int), x.ttl = 0 →
      apc_cache_entry_hard_expired x t = false :=
    fun x t h => (hard_expired_false_iff x t).2 (Or.inl h)
  refine ⟨fun t => ?_, fun op hop => ?_⟩
  · obtain ⟨hc, hpre, he⟩ := hfm
    have hl := hlive e t httl
    have hn : apc_cache_rlocked_find_nostat c key t = some e := by
      rw [find_nostat_hit c key t pre suf e hc hpre he, hl]; rfl
    refine ⟨hn, fun hb => ⟨?_, ?_, ?_⟩⟩
    · rw [exists_not_busy c key t hb, hn]; rfl
    · rw [find_not_busy c key t hb, find_incref_hit c key t pre suf e hc hpre he hl]; rfl
    · exact fetch_hit c key t pre suf e hc hpre he hl hb
  · obtain ⟨pre2, e2, suf2, hfm2, hs⟩ := held_step c key pre suf e hfm httl op hop
    refine ⟨pre2, e2, suf2, hfm2, hs, fun t => ?_⟩
    rw [find_nostat_hit _ key t pre2 suf2 e2 hfm2.1 hfm2.2.1 hfm2.2.2,
      hlive e2 t (by rw [hs.2.2.1, httl])]
    rfl

/-- C8 (amended) run on the cache of the counterexample at time 5, at which the entry of
`"a"` is not soft-expired: the store of `"d"` leaves it in its chain. -/
theorem C8_soft_expired_visible_witness :
    ∃ pre2 e2 suf2,
      first_match (step (set_slot_chain demo_ttl_cache 1 [demo_entry key_a 1 0 0 1])
        (.store key_d (.long 2) 0 false 5 5 1 (some 10))) key_a pre2 e2 suf2 ∧
      same_entry (demo_entry key_a 1 0 0 1) e2 ∧
      ∀ t : Int, apc_cache_rlocked_find_nostat
        (step (set_slot_chain demo_ttl_cache 1 [demo_entry key_a 1 0 0 1])
          (.store key_d (.long 2) 0 false 5 5 1 (some 10))) key_a t = some e2 :=
  (C8_soft_expired_visible (set_slot_chain demo_ttl_cache 1 [demo_entry key_a 1 0 0 1]) key_a
    [] [] (demo_entry key_a 1 0 0 1) ⟨rfl, by simp, rfl⟩ rfl).2
    (.store key_d (.long 2) 0 false 5 5 1 (some 10))
    (by
      intro h
      rcases h with h | h
      · exact absurd h (by decide)
      · exact absurd h (by decide))

/-! ## What a run of removals leaves on the GC list and hands back to the allocator -/

theorem remove_all_append (now : Int) :
    ∀ (l l2 : List apc_cache_entry_t) (c : apc_cache_t),
      remove_all now (l ++ l2) c = remove_all now l2 (remove_all now l c)
  | [], _, _ => rfl
  | e :: rest, l2, c => by
    simp only [List.cons_append, remove_all]
    exact remove_all_append now rest l2 _

theorem foldl_remove_all (now : Int) :
    ∀ (sl : List (List apc_cache_entry_t)) (c : apc_cache_t),
      sl.foldl (fun c chain => remove_all now chain c) c = remove_all now sl.flatten c
  | [], _ => rfl
  | ch :: sl, c => by
    simp only [List.foldl_cons, List.flatten_cons, remove_all_append]
    exact foldl_remove_all now sl _

theorem remove_entry_gc (c : apc_cache_t) (e : apc_cache_entry_t) (now : Int) :
    (apc_cache_wlocked_remove_entry c e now).header.gc = gc_added now [e] ++ c.header.gc := by
  unfold apc_cache_wlocked_remove_entry free_entry gc_added
  dsimp only
  by_cases h : e.ref_count ≤ 0
  · have h2 : ¬(0 < e.ref_count) := by omega
    simp only [h, if_true, List.filter_cons, h2, decide_False]
    split <;> split <;> simp
  · have h2 : 0 < e.ref_count := by omega
    simp only [h, if_false, List.filter_cons, h2, decide_True]
    split <;> split <;> simp

theorem remove_entry_sma (c : apc_cache_t) (e : apc_cache_entry_t) (now : Int) :
    (apc_cache_wlocked_remove_entry c e now).sma =
      { c.sma with destroyed := freed_pools [e] ++ c.sma.destroyed } := by
  unfold apc_cache_wlocked_remove_entry free_entry freed_pools apc_pool_destroy
  dsimp only
  by_cases h : e.ref_count ≤ 0
  · simp [h]
  · simp [h]

theorem gc_added_cons (now : Int) (e : apc_cache_entry_t) (l : List apc_cache_entry_t) :
    gc_added now (e :: l) = gc_added now l ++ gc_added now [e] := by
  unfold gc_added
  by_cases h : 0 < e.ref_count <;> simp [List.filter_cons, h]

theorem freed_pools_cons (e : apc_cache_entry_t) (l : List apc_cache_entry_t) :
    freed_pools (e :: l) = freed_pools l ++ freed_pools [e] := by
  unfold freed_pools
  by_cases h : e.ref_count ≤ 0 <;> simp [List.filter_cons, h]

theorem remove_all_gc (now : Int) :
    ∀ (l : List apc_cache_entry_t) (c : apc_cache_t),
      (remove_all now l c).header.gc = gc_added now l ++ c.header.gc
  | [], _ => rfl
  | e :: rest, c => by
    rw [remove_all, remove_all_gc now rest, remove_entry_gc, gc_added_cons now e rest,
      List.append_assoc]

theorem remove_all_sma (now : Int) :
    ∀ (l : List apc_cache_entry_t) (c : apc_cache_t),
      (remove_all now l c).sma = { c.sma with destroyed := freed_pools l ++ c.sma.destroyed }
  | [], _ => rfl
  | e :: rest, c => by
    rw [remove_all, remove_all_sma now rest, remove_entry_sma, freed_pools_cons e rest]
    simp

theorem mem_chained (c : apc_cache_t) (e : apc_cache_entry_t) :
    e ∈ chained c ↔ ∃ i, e ∈ slot_chain c i := by
  unfold chained slot_chain
  rw [List.mem_flatten]
  constructor
  · rintro ⟨l, hl, he⟩
    obtain ⟨n, hn, rfl⟩ := List.mem_iff_getElem.1 hl
    refine ⟨n, ?_⟩
    rw [List.getD_eq_getElem?_getD, List.getElem?_eq_getElem hn]
    exact he
  · rintro ⟨i, hi⟩
    rw [List.getD_eq_getElem?_getD] at hi
    by_cases h : i < c.slots.length
    · rw [List.getElem?_eq_getElem h] at hi
      exact ⟨_, List.getElem_mem h, hi⟩
    · rw [List.getElem?_eq_none (by omega)] at hi
      simp at hi

theorem mem_gc_added (now : Int) (l : List apc_cache_entry_t) (x : apc_cache_entry_t) :
    x ∈ gc_added now l ↔ ∃ e ∈ l, 0 < e.ref_count ∧ x = { e with dtime := now } := by
  unfold gc_added
  simp only [List.mem_reverse, List.mem_map, List.mem_filter, decide_eq_true_eq]
  constructor
  · rintro ⟨e, ⟨he, hr⟩, rfl⟩
    exact ⟨e, he, hr, rfl⟩
  · rintro ⟨e, he, hr, rfl⟩
    exact ⟨e, ⟨he, hr⟩, rfl⟩

theorem mem_freed_pools (l : List apc_cache_entry_t) (a : Nat) :
    a ∈ freed_pools l ↔ ∃ e ∈ l, e.ref_count ≤ 0 ∧ a = e.pool.addr := by
  unfold freed_pools
  simp only [List.mem_reverse, List.mem_map, List.mem_filter, decide_eq_true_eq]
  constructor
  · rintro ⟨e, ⟨he, hr⟩, rfl⟩
    exact ⟨e, he, hr, rfl⟩
  · rintro ⟨e, he, hr, rfl⟩
    exact ⟨e, ⟨he, hr⟩, rfl⟩

/-! ## The full wipe -/

/-- What `apc_cache_wlocked_real_expunge` leaves: no chained entry, the counters at zero,
`nexpunges` one larger, `lastkey` zeroed, the entries with references on the GC list and the
pools of the others handed back. -/
theorem real_expunge_fields (c : apc_cache_t) (t now : Int) :
    (apc_cache_wlocked_real_expunge c t now).slots = c.slots.map (fun _ => []) ∧
    (apc_cache_wlocked_real_expunge c t now).header.nhits = 0 ∧
    (apc_cache_wlocked_real_expunge c t now).header.nmisses = 0 ∧
    (apc_cache_wlocked_real_expunge c t now).header.ninserts = 0 ∧
    (apc_cache_wlocked_real_expunge c t now).header.nentries = 0 ∧
    (apc_cache_wlocked_real_expunge c t now).header.nexpunges = c.header.nexpunges + 1 ∧
    (apc_cache_wlocked_real_expunge c t now).header.lastkey = lastkey_zero ∧
    (apc_cache_wlocked_real_expunge c t now).header.stime = t ∧
    (apc_cache_wlocked_real_expunge c t now).header.state = c.header.state ∧
    (apc_cache_wlocked_real_expunge c t now).header.gc =
      gc_added now (chained c) ++ c.header.gc ∧
    (apc_cache_wlocked_real_expunge c t now).sma =
      { c.sma with destroyed := freed_pools (chained c) ++ c.sma.destroyed } := by
  have hfr := foldl_remove_all_frame now c.slots
    { c with header := { c.header with nexpunges := c.header.nexpunges + 1 } }
  obtain ⟨a1, a2, a3, a4, a5, a6, a7, a8, _⟩ := hfr
  have hfold := foldl_remove_all now c.slots
    { c with header := { c.header with nexpunges := c.header.nexpunges + 1 } }
  unfold apc_cache_wlocked_real_expunge
  dsimp only
  refine ⟨by rw [a1], rfl, rfl, rfl, rfl, a5, rfl, rfl, a7, ?_, ?_⟩
  · rw [hfold, remove_all_gc]; rfl
  · rw [hfold, remove_all_sma]; rfl

theorem busy_clear_state (s : Nat) : (s &&& NOT_APC_CACHE_ST_BUSY) &&& APC_CACHE_ST_BUSY = 0 := by
  rw [Nat.and_assoc]
  have : NOT_APC_CACHE_ST_BUSY &&& APC_CACHE_ST_BUSY = 0 := by decide
  rw [this, Nat.and_zero]

theorem busy_false_of_cleared (c : apc_cache_t) (s : Nat)
    (h : c.header.state = s &&& NOT_APC_CACHE_ST_BUSY) : apc_cache_busy c = false := by
  unfold apc_cache_busy
  rw [h, busy_clear_state]
  rfl

/-! ## Expunge on a cache that is not busy -/

theorem gc_header (c : apc_cache_t) (now : Int) :
    (apc_cache_wlocked_gc c now).header.nentries = c.header.nentries ∧
    (apc_cache_wlocked_gc c now).header.mem_size = c.header.mem_size := by
  unfold apc_cache_wlocked_gc
  split <;> exact ⟨rfl, rfl⟩

/-- The function `apc_cache_default_expunge` on a cache that is not busy: BUSY is set, the
GC list is swept, the expunge processing runs on the outcome of `available < suitable`, and
BUSY is cleared. -/
theorem expunge_not_busy (c : apc_cache_t) (size : Nat) (t now : Int) (available : Nat)
    (avail_size : Bool) (hb : apc_cache_busy c = false) :
    apc_cache_default_expunge c size t now available avail_size =
      { expunge_processing
          (apc_cache_wlocked_gc { c with header := { c.header with
            state := c.header.state ||| APC_CACHE_ST_BUSY } } now)
          (decide ((available : Int) < expunge_suitable c size)) t now avail_size with
        header := { (expunge_processing
          (apc_cache_wlocked_gc { c with header := { c.header with
            state := c.header.state ||| APC_CACHE_ST_BUSY } } now)
          (decide ((available : Int) < expunge_suitable c size)) t now avail_size).header with
          state := (expunge_processing
            (apc_cache_wlocked_gc { c with header := { c.header with
              state := c.header.state ||| APC_CACHE_ST_BUSY } } now)
            (decide ((available : Int) < expunge_suitable c size)) t now
              avail_size).header.state &&& NOT_APC_CACHE_ST_BUSY } } := by
  unfold apc_cache_default_expunge
  rw [if_neg (by rw [hb]; simp)]
  rfl

/-- The cache on which the expunge processing runs agrees with the cache before the call on
the chains, the counters and the configuration. -/
theorem expunge_swept (c : apc_cache_t) (now : Int) :
    removal_frame { c with header := { c.header with
        state := c.header.state ||| APC_CACHE_ST_BUSY } }
      (apc_cache_wlocked_gc { c with header := { c.header with
        state := c.header.state ||| APC_CACHE_ST_BUSY } } now) ∧
    (apc_cache_wlocked_gc { c with header := { c.header with
        state := c.header.state ||| APC_CACHE_ST_BUSY } } now).header.nentries =
      c.header.nentries ∧
    (apc_cache_wlocked_gc { c with header := { c.header with
        state := c.header.state ||| APC_CACHE_ST_BUSY } } now).header.mem_size =
      c.header.mem_size :=
  ⟨gc_frame _ now, (gc_header _ now).1, (gc_header _ now).2⟩

theorem expunge_busy_after (c : apc_cache_t) (size : Nat) (t now : Int) (available : Nat)
    (avail_size : Bool) (hb : apc_cache_busy c = false) :
    apc_cache_busy (apc_cache_default_expunge c size t now available avail_size) = false := by
  rw [expunge_not_busy c size t now available avail_size hb]
  exact busy_false_of_cleared _ _ rfl

theorem chained_congr (c c2 : apc_cache_t) (h : c2.slots = c.slots) : chained c2 = chained c := by
  unfold chained
  rw [h]

set_option maxRecDepth 20000 in
/-- C11, as the claim states it, fails: in the cache created with `smart = 2^40` that holds
one entry, an expunge for `2^30` bytes with 100 bytes reported free wipes nothing, although
100 is below `smart * size = 2^70`: the `size_t` product is 0. -/
theorem C11_counterexample :
    (run demo_smart_cache [.store key_k (.long 1) 0 false 0 0 1 (some 10)]).ttl = 0 ∧
    apc_cache_busy
      (run demo_smart_cache [.store key_k (.long 1) 0 false 0 0 1 (some 10)]) = false ∧
    (run demo_smart_cache [.store key_k (.long 1) 0 false 0 0 1 (some 10)]).smart =
      1099511627776 ∧
    ((100 : Nat) : Int) < 1099511627776 * ((1073741824 : Nat) : Int) ∧
    expunge_suitable
      (run demo_smart_cache [.store key_k (.long 1) 0 false 0 0 1 (some 10)]) 1073741824 = 0 ∧
    (run demo_smart_cache
      [.store key_k (.long 1) 0 false 0 0 1 (some 10)]).header.nentries = 1 ∧
    (apc_cache_default_expunge
      (run demo_smart_cache [.store key_k (.long 1) 0 false 0 0 1 (some 10)])
      1073741824 5 5 100 false).header.nentries = 1 ∧
    (apc_cache_default_expunge
      (run demo_smart_cache [.store key_k (.long 1) 0 false 0 0 1 (some 10)])
      1073741824 5 5 100 false).header.nexpunges = 0 ∧
    slot_chain (apc_cache_default_expunge
      (run demo_smart_cache [.store key_k (.long 1) 0 false 0 0 1 (some 10)])
      1073741824 5 5 100 false) 0 = [demo_entry key_k 1 0 0 1] := by
  refine ⟨rfl, rfl, rfl, by decide, rfl, rfl, rfl, rfl, rfl⟩

/-- C11, amended: on a cache with no global ttl that is not busy,
`apc_cache_default_expunge` compares what the allocator reports free with `suitable`, which
is the `size_t` product `smart * size` when `smart > 0`, that is `smart * size` modulo 2^64
(`smart * size` itself when that is below 2^64), and half the size of the SMA otherwise. When
the free memory
is not below `suitable`, the slot chains, the counters and `lastkey` stay as they were. When
it is below, the cache is wiped: every chain is empty, `nentries`, `nhits`, `nmisses` and
`ninserts` are 0, `nexpunges` is one larger, `lastkey` is all zero and every entry that was
chained with `ref_count > 0` is on the GC list, stamped with `dtime`. Either way the cache is
not busy afterwards. With the SMA more than half full (400 of 1000 bytes free) and two
entries without ttl, `expunge(1)` leaves `nexpunges = 1`, `nentries = 0` and `lastkey`
zeroed. -/
theorem C11_expunge_no_ttl (c : apc_cache_t) (size : Nat) (t now : Int) (available : Nat)
    (avail_size : Bool) (httl : c.ttl = 0) (hb : apc_cache_busy c = false) :
    (0 < c.smart →
      expunge_suitable c size = (c.smart * (size : Int)) % 18446744073709551616 ∧
      (c.smart * (size : Int) < 18446744073709551616 →
        expunge_suitable c size = c.smart * (size : Int))) ∧
    (c.smart ≤ 0 → expunge_suitable c size = ((c.sma.size / 2 : Nat) : Int)) ∧
    (expunge_suitable c size ≤ (available : Int) →
      (apc_cache_default_expunge c size t now available avail_size).slots = c.slots ∧
      (apc_cache_default_expunge c size t now available avail_size).header.nhits =
        c.header.nhits ∧
      (apc_cache_default_expunge c size t now available avail_size).header.nmisses =
        c.header.nmisses ∧
      (apc_cache_default_expunge c size t now available avail_size).header.ninserts =
        c.header.ninserts ∧
      (apc_cache_default_expunge c size t now available avail_size).header.nexpunges =
        c.header.nexpunges ∧
      (apc_cache_default_expunge c size t now available avail_size).header.nentries =
        c.header.nentries ∧
      (apc_cache_default_expunge c size t now available avail_size).header.mem_size =
        c.header.mem_size ∧
      (apc_cache_default_expunge c size t now available avail_size).header.lastkey =
        c.header.lastkey) ∧
    ((available : Int) < expunge_suitable c size →
      (∀ i, slot_chain (apc_cache_default_expunge c size t now available avail_size) i = []) ∧
      (apc_cache_default_expunge c size t now available avail_size).slots.length =
        c.slots.length ∧
      (apc_cache_default_expunge c size t now available avail_size).header.nentries = 0 ∧
      (apc_cache_default_expunge c size t now available avail_size).header.nexpunges =
        c.header.nexpunges + 1 ∧
      (apc_cache_default_expunge c size t now available avail_size).header.lastkey =
        lastkey_zero ∧
      (apc_cache_default_expunge c size t now available avail_size).header.nhits = 0 ∧
      (apc_cache_default_expunge c size t now available avail_size).header.nmisses = 0 ∧
      (apc_cache_default_expunge c size t now available avail_size).header.ninserts = 0 ∧
      ∀ i, ∀ e ∈ slot_chain c i, 0 < e.ref_count →
        { e with dtime := now } ∈
          (apc_cache_default_expunge c size t now available avail_size).header.gc) ∧
    apc_cache_busy (apc_cache_default_expunge c size t now available avail_size) = false ∧
    ((apc_cache_default_expunge
        (run demo_cache [.store key_a (.long 1) 0 false 0 0 1 (some 10),
          .store key_b (.long 2) 0 false 0 0 1 (some 10)]) 1 5 5 400 false).header.nexpunges
        = 1 ∧
     (run demo_cache [.store key_a (.long 1) 0 false 0 0 1 (some 10),
          .store key_b (.long 2) 0 false 0 0 1 (some 10)]).header.nentries = 2 ∧
     (apc_cache_default_expunge
        (run demo_cache [.store key_a (.long 1) 0 false 0 0 1 (some 10),
          .store key_b (.long 2) 0 false 0 0 1 (some 10)]) 1 5 5 400 false).header.nentries
        = 0 ∧
     (apc_cache_default_expunge
        (run demo_cache [.store key_a (.long 1) 0 false 0 0 1 (some 10),
          .store key_b (.long 2) 0 false 0 0 1 (some 10)]) 1 5 5 400 false).header.lastkey
        = lastkey_zero ∧
     (apc_cache_default_expunge
        (run demo_cache [.store key_a (.long 1) 0 false 0 0 1 (some 10),
          .store key_b (.long 2) 0 false 0 0 1 (some 10)]) 1 5 5 400 false).slots
        = [[], [], []]) := by
  obtain ⟨hfr, hne, hms⟩ := expunge_swept c now
  obtain ⟨a1, a2, a3, a4, a5, _, _, a8, _, _, _, a12, _⟩ := hfr
  have hr := expunge_not_busy c size t now available avail_size hb
  have httl2 : (apc_cache_wlocked_gc { c with header := { c.header with
      state := c.header.state ||| APC_CACHE_ST_BUSY } } now).ttl = 0 := by rw [a12]; exact httl
  refine ⟨?_, ?_, ?_, ?_, expunge_busy_after c size t now available avail_size hb,
    rfl, rfl, rfl, rfl, rfl⟩
  · intro h0
    unfold expunge_suitable
    rw [if_pos h0]
    exact ⟨rfl, fun h1 =>
      Int.emod_eq_of_lt (Int.mul_nonneg (le_of_lt h0) (Int.ofNat_nonneg _)) h1⟩
  · intro h0
    unfold expunge_suitable
    rw [if_neg (by omega)]
  · intro hle
    have hproc : expunge_processing
        (apc_cache_wlocked_gc { c with header := { c.header with
          state := c.header.state ||| APC_CACHE_ST_BUSY } } now)
        (decide ((available : Int) < expunge_suitable c size)) t now avail_size =
        apc_cache_wlocked_gc { c with header := { c.header with
          state := c.header.state ||| APC_CACHE_ST_BUSY } } now := by
      unfold expunge_processing
      rw [if_pos httl2, decide_eq_false (by omega)]
      rfl
    rw [hr, hproc]
    exact ⟨a1, a2, a3, a4, a5, hne, hms, a8⟩
  · intro hlt
    have hproc : expunge_processing
        (apc_cache_wlocked_gc { c with header := { c.header with
          state := c.header.state ||| APC_CACHE_ST_BUSY } } now)
        (decide ((available : Int) < expunge_suitable c size)) t now avail_size =
        apc_cache_wlocked_real_expunge (apc_cache_wlocked_gc { c with header := { c.header with
          state := c.header.state ||| APC_CACHE_ST_BUSY } } now) t now := by
      unfold expunge_processing
      rw [if_pos httl2, decide_eq_true hlt]
      rfl
    obtain ⟨b1, b2, b3, b4, b5, b6, b7, _, _, b10, _⟩ := real_expunge_fields
      (apc_cache_wlocked_gc { c with header := { c.header with
          state := c.header.state ||| APC_CACHE_ST_BUSY } } now) t now
    rw [hr, hproc]
    refine ⟨fun i => ?_, ?_, b5, by rw [b6, a5], b7, b2, b3, b4, ?_⟩
    · exact real_expunge_chains _ t now i
    · show (apc_cache_wlocked_real_expunge _ t now).slots.length = _
      rw [b1, List.length_map, a1]
    · intro i e he hrc
      show _ ∈ (apc_cache_wlocked_real_expunge _ t now).header.gc
      rw [b10, chained_congr _ _ a1]
      apply List.mem_append_left
      rw [mem_gc_added]
      exact ⟨e, (mem_chained c e).2 ⟨i, he⟩, hrc, rfl⟩

/-- C11 (amended) run on the empty three-slot cache after a store of `"a"`, with 400 of the 1000 bytes
reported free: the chains are empty and `nexpunges` is 1. -/
theorem C11_expunge_no_ttl_witness :
    (∀ i, slot_chain (apc_cache_default_expunge
      (run demo_cache [.store key_a (.long 1) 0 false 0 0 1 (some 10)]) 1 5 5 400 false) i
        = []) ∧
    (apc_cache_default_expunge
      (run demo_cache [.store key_a (.long 1) 0 false 0 0 1 (some 10)]) 1 5 5 400
        false).header.nexpunges = 0 + 1 :=
  ⟨((C11_expunge_no_ttl (run demo_cache [.store key_a (.long 1) 0 false 0 0 1 (some 10)])
      1 5 5 400 false rfl rfl).2.2.2.1 (by decide)).1,
   ((C11_expunge_no_ttl (run demo_cache [.store key_a (.long 1) 0 false 0 0 1 (some 10)])
      1 5 5 400 false rfl rfl).2.2.2.1 (by decide)).2.2.2.1⟩

/-! ## The junk loop of expunge -/

theorem remove_all_ttl (now : Int) (l : List apc_cache_entry_t) (c : apc_cache_t) :
    (remove_all now l c).ttl = c.ttl :=
  (remove_all_frame now l c).2.2.2.2.2.2.2.2.2.2.2.1

theorem expunge_walk_eq (c0 : apc_cache_t) (t now : Int) :
    ∀ (chain : List apc_cache_entry_t) (c : apc_cache_t), c.ttl = c0.ttl →
      expunge_walk t now chain c =
        (chain.filter (fun e => !apc_cache_entry_expired c0 e t),
          remove_all now (chain.filter (fun e => apc_cache_entry_expired c0 e t)) c)
  | [], _, _ => rfl
  | e :: rest, c, h => by
    unfold expunge_walk
    rw [expired_congr c0 c e t h]
    by_cases he : apc_cache_entry_expired c0 e t = true
    · rw [if_pos he, expunge_walk_eq c0 t now rest _ (by rw [remove_entry_ttl]; exact h)]
      simp [List.filter_cons, he, remove_all]
    · rw [if_neg he, expunge_walk_eq c0 t now rest c h]
      simp [List.filter_cons, he]

theorem expunge_slots_eq (c0 : apc_cache_t) (t now : Int) :
    ∀ (sl : List (List apc_cache_entry_t)) (c : apc_cache_t), c.ttl = c0.ttl →
      expunge_slots t now sl c =
        (sl.map (fun chain => chain.filter (fun e => !apc_cache_entry_expired c0 e t)),
          remove_all now (sl.flatten.filter (fun e => apc_cache_entry_expired c0 e t)) c)
  | [], _, _ => rfl
  | chain :: sl, c, h => by
    unfold expunge_slots
    dsimp only
    rw [expunge_walk_eq c0 t now chain c h]
    dsimp only
    rw [expunge_slots_eq c0 t now sl _ (by rw [remove_all_ttl]; exact h)]
    simp only [List.map_cons, List.flatten_cons, List.filter_append, remove_all_append]

theorem slot_chain_filtered (c r : apc_cache_t) (p : apc_cache_entry_t → Bool)
    (h : r.slots = c.slots.map (fun chain => chain.filter p)) (i : Nat) :
    slot_chain r i = (slot_chain c i).filter p := by
  unfold slot_chain
  rw [h]
  exact List.getD_map c.slots [] (fun chain => chain.filter p)

/-- C12: on a cache with a global ttl that is not busy, when the allocator reports less free
memory than `suitable`, `apc_cache_default_expunge` at time `t` first takes out of every
chain the entries that are hard-expired or soft-expired at `t`, keeping the others in their
order. When the allocator then has room for `size`, that is all beside the zeroing of
`lastkey`: `nhits`, `nmisses`, `ninserts` and `nexpunges` keep their values, and the entries
taken out with `ref_count > 0` are on the GC list. Otherwise the full wipe follows: every
chain is empty, `nexpunges` is one larger and the other counters are 0. -/
theorem C12_expunge_ttl (c : apc_cache_t) (size : Nat) (t now : Int) (available : Nat)
    (avail_size : Bool) (httl : c.ttl ≠ 0) (hb : apc_cache_busy c = false)
    (hlt : (available : Int) < expunge_suitable c size) :
    (avail_size = true →
      (apc_cache_default_expunge c size t now available avail_size).slots =
        c.slots.map (fun chain => chain.filter (fun e => !apc_cache_entry_expired c e t)) ∧
      (∀ i, slot_chain (apc_cache_default_expunge c size t now available avail_size) i =
        (slot_chain c i).filter (fun e => !apc_cache_entry_expired c e t)) ∧
      (apc_cache_default_expunge c size t now available avail_size).header.lastkey =
        lastkey_zero ∧
      (apc_cache_default_expunge c size t now available avail_size).header.nhits =
        c.header.nhits ∧
      (apc_cache_default_expunge c size t now available avail_size).header.nmisses =
        c.header.nmisses ∧
      (apc_cache_default_expunge c size t now available avail_size).header.ninserts =
        c.header.ninserts ∧
      (apc_cache_default_expunge c size t now available avail_size).header.nexpunges =
        c.header.nexpunges ∧
      ∀ i, ∀ e ∈ slot_chain c i, apc_cache_entry_expired c e t = true → 0 < e.ref_count →
        { e with dtime := now } ∈
          (apc_cache_default_expunge c size t now available avail_size).header.gc) ∧
    (avail_size = false →
      (∀ i, slot_chain (apc_cache_default_expunge c size t now available avail_size) i = []) ∧
      (apc_cache_default_expunge c size t now available avail_size).slots.length =
        c.slots.length ∧
      (apc_cache_default_expunge c size t now available avail_size).header.nexpunges =
        c.header.nexpunges + 1 ∧
      (apc_cache_default_expunge c size t now available avail_size).header.nentries = 0 ∧
      (apc_cache_default_expunge c size t now available avail_size).header.nhits = 0 ∧
      (apc_cache_default_expunge c size t now available avail_size).header.nmisses = 0 ∧
      (apc_cache_default_expunge c size t now available avail_size).header.ninserts = 0 ∧
      (apc_cache_default_expunge c size t now available avail_size).header.lastkey =
        lastkey_zero) ∧
    apc_cache_busy (apc_cache_default_expunge c size t now available avail_size) = false := by
  obtain ⟨hfr, _, _⟩ := expunge_swept c now
  obtain ⟨a1, a2, a3, a4, a5, _, _, a8, _, _, _, a12, _⟩ := hfr
  have hr := expunge_not_busy c size t now available avail_size hb
  have httl2 : ¬(apc_cache_wlocked_gc { c with header := { c.header with
      state := c.header.state ||| APC_CACHE_ST_BUSY } } now).ttl = 0 := by rw [a12]; exact httl
  have hsl := expunge_slots_eq c t now
    (apc_cache_wlocked_gc { c with header := { c.header with
      state := c.header.state ||| APC_CACHE_ST_BUSY } } now).slots
    (apc_cache_wlocked_gc { c with header := { c.header with
      state := c.header.state ||| APC_CACHE_ST_BUSY } } now) a12
  rw [a1] at hsl
  have hjfr := remove_all_frame now
    ((c.slots.flatten).filter (fun e => apc_cache_entry_expired c e t))
    (apc_cache_wlocked_gc { c with header := { c.header with
      state := c.header.state ||| APC_CACHE_ST_BUSY } } now)
  obtain ⟨_, j2, j3, j4, j5, _⟩ := hjfr
  refine ⟨?_, ?_, expunge_busy_after c size t now available avail_size hb⟩
  · intro hav
    have hproc : expunge_processing
        (apc_cache_wlocked_gc { c with header := { c.header with
          state := c.header.state ||| APC_CACHE_ST_BUSY } } now)
        (decide ((available : Int) < expunge_suitable c size)) t now avail_size =
        { (remove_all now ((c.slots.flatten).filter (fun e => apc_cache_entry_expired c e t))
            (apc_cache_wlocked_gc { c with header := { c.header with
              state := c.header.state ||| APC_CACHE_ST_BUSY } } now)) with
          slots := c.slots.map
            (fun chain => chain.filter (fun e => !apc_cache_entry_expired c e t))
          header := { (remove_all now
            ((c.slots.flatten).filter (fun e => apc_cache_entry_expired c e t))
            (apc_cache_wlocked_gc { c with header := { c.header with
              state := c.header.state ||| APC_CACHE_ST_BUSY } } now)).header with
            lastkey := lastkey_zero } } := by
      unfold expunge_processing
      rw [if_neg httl2, decide_eq_true hlt, a1, hav]
      simp only [if_true, hsl]
    rw [hr, hproc]
    refine ⟨rfl, fun i => slot_chain_filtered c _ _ rfl i, rfl, ?_, ?_, ?_, ?_, ?_⟩
    · exact j2.trans a2
    · exact j3.trans a3
    · exact j4.trans a4
    · exact j5.trans a5
    · intro i e he hex hrc
      show _ ∈ (remove_all now _ _).header.gc
      rw [remove_all_gc]
      apply List.mem_append_left
      rw [mem_gc_added]
      refine ⟨e, ?_, hrc, rfl⟩
      rw [List.mem_filter]
      exact ⟨(mem_chained c e).2 ⟨i, he⟩, hex⟩
  · intro hav
    have hproc : expunge_processing
        (apc_cache_wlocked_gc { c with header := { c.header with
          state := c.header.state ||| APC_CACHE_ST_BUSY } } now)
        (decide ((available : Int) < expunge_suitable c size)) t now avail_size =
        apc_cache_wlocked_real_expunge
          { (remove_all now ((c.slots.flatten).filter (fun e => apc_cache_entry_expired c e t))
              (apc_cache_wlocked_gc { c with header := { c.header with
                state := c.header.state ||| APC_CACHE_ST_BUSY } } now)) with
            slots := c.slots.map
              (fun chain => chain.filter (fun e => !apc_cache_entry_expired c e t)) }
          t now := by
      unfold expunge_processing
      rw [if_neg httl2, decide_eq_true hlt, a1, hav]
      simp only [if_true, hsl]
      rfl
    obtain ⟨b1, b2, b3, b4, b5, b6, b7, _⟩ := real_expunge_fields
      { (remove_all now ((c.slots.flatten).filter (fun e => apc_cache_entry_expired c e t))
          (apc_cache_wlocked_gc { c with header := { c.header with
            state := c.header.state ||| APC_CACHE_ST_BUSY } } now)) with
        slots := c.slots.map
          (fun chain => chain.filter (fun e => !apc_cache_entry_expired c e t)) } t now
    rw [hr, hproc]
    refine ⟨fun i => real_expunge_chains _ t now i, ?_, ?_, b5, b2, b3, b4, b7⟩
    · show (apc_cache_wlocked_real_expunge _ t now).slots.length = _
      rw [b1, List.length_map, List.length_map]
    · show (apc_cache_wlocked_real_expunge _ t now).header.nexpunges = _
      rw [b6]
      show (remove_all now _ _).header.nexpunges + 1 = _
      rw [j5, a5]

/-- C12 run on the three-slot cache with a global ttl of 10 whose slot 1 holds `"a"`, last
accessed at 0, in front of `"d"`, last accessed at 95: the expunge at 100 with room reported
afterwards keeps exactly the entries of slot 1 that are not expired at 100. -/
theorem C12_expunge_ttl_witness :
    slot_chain (apc_cache_default_expunge
      (set_slot_chain demo_ttl_cache 1 [demo_entry key_a 1 0 0 1, demo_entry key_d 2 0 95 2])
      1 100 100 400 true) 1 =
    (slot_chain
      (set_slot_chain demo_ttl_cache 1 [demo_entry key_a 1 0 0 1, demo_entry key_d 2 0 95 2])
      1).filter (fun e => !apc_cache_entry_expired
        (set_slot_chain demo_ttl_cache 1 [demo_entry key_a 1 0 0 1, demo_entry key_d 2 0 95 2])
        e 100) :=
  ((C12_expunge_ttl
    (set_slot_chain demo_ttl_cache 1 [demo_entry key_a 1 0 0 1, demo_entry key_d 2 0 95 2])
    1 100 100 400 true (by decide) rfl (by decide)).1 rfl).2.1 1

/-- C13: on a cache that is not busy `apc_cache_clear` wipes everything and resets the
counters: every chain is empty, `nhits`, `nmisses`, `ninserts`, `nentries` and `nexpunges`
are 0, `lastkey` is all zero and the cache is not busy afterwards; every entry that was
chained with `ref_count > 0` is put in front of the GC list with `dtime` set, the entries
already on the GC list stay behind them, and the pools of the chained entries with
`ref_count ≤ 0` are handed back to the allocator. On a busy cache it changes nothing. -/
theorem C13_clear (c : apc_cache_t) (t now : Int) :
    (apc_cache_busy c = false →
      (∀ i, slot_chain (apc_cache_clear c t now) i = []) ∧
      (apc_cache_clear c t now).slots.length = c.slots.length ∧
      (apc_cache_clear c t now).header.nhits = 0 ∧
      (apc_cache_clear c t now).header.nmisses = 0 ∧
      (apc_cache_clear c t now).header.ninserts = 0 ∧
      (apc_cache_clear c t now).header.nentries = 0 ∧
      (apc_cache_clear c t now).header.nexpunges = 0 ∧
      (apc_cache_clear c t now).header.lastkey = lastkey_zero ∧
      apc_cache_busy (apc_cache_clear c t now) = false ∧
      (apc_cache_clear c t now).header.gc = gc_added now (chained c) ++ c.header.gc ∧
      (∀ x, x ∈ gc_added now (chained c) ↔
        ∃ i, ∃ e ∈ slot_chain c i, 0 < e.ref_count ∧ x = { e with dtime := now }) ∧
      (apc_cache_clear c t now).sma.destroyed =
        freed_pools (chained c) ++ c.sma.destroyed ∧
      (∀ a, a ∈ freed_pools (chained c) ↔
        ∃ i, ∃ e ∈ slot_chain c i, e.ref_count ≤ 0 ∧ a = e.pool.addr)) ∧
    (apc_cache_busy c = true → apc_cache_clear c t now = c) := by
  constructor
  · intro hb
    have hr : apc_cache_clear c t now =
        { apc_cache_wlocked_real_expunge { c with header := { c.header with
            state := c.header.state ||| APC_CACHE_ST_BUSY } } t now with
          header := { (apc_cache_wlocked_real_expunge { c with header := { c.header with
            state := c.header.state ||| APC_CACHE_ST_BUSY } } t now).header with
            stime := t, nexpunges := 0
            state := (apc_cache_wlocked_real_expunge { c with header := { c.header with
              state := c.header.state ||| APC_CACHE_ST_BUSY } } t now).header.state &&&
                NOT_APC_CACHE_ST_BUSY } } := by
      unfold apc_cache_clear
      rw [if_neg (by rw [hb]; simp)]
    obtain ⟨b1, b2, b3, b4, b5, _, b7, _, _, b10, b11⟩ := real_expunge_fields
      { c with header := { c.header with state := c.header.state ||| APC_CACHE_ST_BUSY } } t now
    rw [hr]
    refine ⟨fun i => real_expunge_chains _ t now i, ?_, b2, b3, b4, b5, rfl, b7,
      busy_false_of_cleared _ _ rfl, b10, ?_, ?_, ?_⟩
    · show (apc_cache_wlocked_real_expunge _ t now).slots.length = _
      rw [b1, List.length_map]
    · intro x
      rw [mem_gc_added]
      constructor
      · rintro ⟨e, he, hrc, rfl⟩
        obtain ⟨i, hi⟩ := (mem_chained c e).1 he
        exact ⟨i, e, hi, hrc, rfl⟩
      · rintro ⟨i, e, hi, hrc, rfl⟩
        exact ⟨e, (mem_chained c e).2 ⟨i, hi⟩, hrc, rfl⟩
    · show (apc_cache_wlocked_real_expunge _ t now).sma.destroyed = _
      rw [b11]
      rfl
    · intro a
      rw [mem_freed_pools]
      constructor
      · rintro ⟨e, he, hrc, rfl⟩
        obtain ⟨i, hi⟩ := (mem_chained c e).1 he
        exact ⟨i, e, hi, hrc, rfl⟩
      · rintro ⟨i, e, hi, hrc, rfl⟩
        exact ⟨e, (mem_chained c e).2 ⟨i, hi⟩, hrc, rfl⟩
  · intro hb
    unfold apc_cache_clear
    rw [if_pos hb]

/-- C13 run on the cache holding the entry of `"d"` with one reference out in front of the
entry of `"a"`: after the clear the GC list holds the entry of `"d"` and the pool of the
entry of `"a"` is handed back. -/
theorem C13_clear_witness :
    (apc_cache_clear demo_conflict_cache 50 50).header.gc.map (fun e => (e.key, e.dtime)) =
      [(key_d, 50)] ∧
    (apc_cache_clear demo_conflict_cache 50 50).sma.destroyed = [2] ∧
    (apc_cache_clear demo_conflict_cache 50 50).header.nentries = 0 :=
  ⟨by rw [((C13_clear demo_conflict_cache 50 50).1 rfl).2.2.2.2.2.2.2.2.2.1]; decide,
   by rw [((C13_clear demo_conflict_cache 50 50).1 rfl).2.2.2.2.2.2.2.2.2.2.2.1]; decide,
   ((C13_clear demo_conflict_cache 50 50).1 rfl).2.2.2.2.2.1⟩

/-! ## The header counters across the public calls -/

theorem counters_le_refl (c : apc_cache_t) : counters_le c c :=
  ⟨le_refl _, le_refl _, le_refl _, le_refl _⟩

theorem counters_le_trans {a b c : apc_cache_t} (h1 : counters_le a b)
    (h2 : counters_le b c) : counters_le a c :=
  ⟨le_trans h1.1 h2.1, le_trans h1.2.1 h2.2.1, le_trans h1.2.2.1 h2.2.2.1,
    le_trans h1.2.2.2 h2.2.2.2⟩

theorem counters_le_of_header {c c2 : apc_cache_t} (h1 : c2.header.nhits = c.header.nhits)
    (h2 : c2.header.nmisses = c.header.nmisses) (h3 : c2.header.ninserts = c.header.ninserts)
    (h4 : c2.header.nexpunges = c.header.nexpunges) : counters_le c c2 :=
  ⟨by rw [h1], by rw [h2], by rw [h3], by rw [h4]⟩

theorem counters_le_of_removal {c c2 : apc_cache_t} (h : removal_frame c c2) :
    counters_le c c2 :=
  counters_le_of_header h.2.1 h.2.2.1 h.2.2.2.1 h.2.2.2.2.1

theorem wlocked_insert_counters (c : apc_cache_t) (n : apc_cache_entry_t) (exclusive : Bool)
    (now : Int) : counters_le c (apc_cache_wlocked_insert c n exclusive now).2 := by
  have hfr := removal_frame_trans (gc_frame c now)
    (insert_walk_frame (ZSTR_HASH n.key) n.key n.ctime now exclusive
      (slot_chain c (apc_cache_hash_slot c n.key).2) (apc_cache_wlocked_gc c now))
  obtain ⟨_, a2, a3, a4, a5, _⟩ := hfr
  rw [wlocked_insert_eq]
  split
  · refine ⟨?_, ?_, ?_, ?_⟩
    · show c.header.nhits ≤ (insert_walk _ _ _ _ _ _ _).cache.header.nhits
      rw [a2]
    · show c.header.nmisses ≤ (insert_walk _ _ _ _ _ _ _).cache.header.nmisses
      rw [a3]
    · show c.header.ninserts ≤ (insert_walk _ _ _ _ _ _ _).cache.header.ninserts + 1
      rw [a4]; omega
    · show c.header.nexpunges ≤ (insert_walk _ _ _ _ _ _ _).cache.header.nexpunges
      rw [a5]
  · exact counters_le_of_header a2 a3 a4 a5

theorem store_counters (c : apc_cache_t) (key : zend_string) (val : zval) (ttl : Int)
    (exclusive : Bool) (t now : Int) (owner : Nat) (grant : Option Nat) :
    counters_le c (apc_cache_store c key val ttl exclusive t now owner grant).2 := by
  rcases store_cases c key val ttl exclusive t now owner grant with
    ⟨lk, sma2, h⟩ | ⟨lk, n, ctxt, c3, c1, hc1, _, _, _, _, _, _, h⟩
  · rw [h]
    exact counters_le_of_header rfl rfl rfl rfl
  · obtain ⟨_, _, _, _, p5, p6, p7, _, _, _, p11, _⟩ := store_prepared c c1 lk hc1
    have h1 : counters_le c c1 := counters_le_of_header p5 p6 p7 p11
    have h2 := counters_le_trans h1 (wlocked_insert_counters c1 n exclusive now)
    rw [h]
    split
    · exact h2
    · exact h2

theorem find_incref_counters (c : apc_cache_t) (key : zend_string) (t : Int) :
    counters_le c (apc_cache_rlocked_find_incref c key t).1 := by
  unfold apc_cache_rlocked_find_incref apc_cache_rlocked_find
  dsimp only
  split
  · rename_i h
    split at h
    · simp at h
    · exact ⟨le_refl _, by show c.header.nmisses ≤ c.header.nmisses + 1; omega, le_refl _,
        le_refl _⟩
  · rename_i pre x suf h
    split at h
    · exact ⟨by show c.header.nhits ≤ c.header.nhits + 1; omega, le_refl _, le_refl _,
        le_refl _⟩
    · simp at h

theorem find_counters (c : apc_cache_t) (key : zend_string) (t : Int) :
    counters_le c (apc_cache_find c key t).1 := by
  unfold apc_cache_find
  split
  · exact counters_le_refl c
  · exact find_incref_counters c key t

theorem fetch_counters (c : apc_cache_t) (key : zend_string) (t : Int) :
    counters_le c (apc_cache_fetch c key t).2.2 := by
  unfold apc_cache_fetch
  split
  · exact counters_le_refl c
  · have h := find_incref_counters c key t
    split
    · rename_i c1 hf
      rw [hf] at h
      exact h
    · rename_i c1 entry hf
      rw [hf] at h
      exact h

theorem delete_counters (c : apc_cache_t) (key : zend_string) (now : Int) :
    counters_le c (apc_cache_delete c key now).2 := by
  rcases chain_split (fun x => key_match x.key (ZSTR_HASH key) key)
      (slot_chain c (apc_cache_hash_slot c key).2) with hno | ⟨pre, e, suf, hc, hpre, he⟩
  · rw [apc_cache_delete_miss c key now (fun x hx => (key_match_false_iff _ _).1 (hno x hx))]
    exact counters_le_refl c
  · rw [apc_cache_delete_hit c key now pre suf e hc
      (fun x hx => (key_match_false_iff _ _).1 (hpre x hx)) ((key_match_self_iff _ _).1 he)]
    have h := counters_le_of_removal (remove_entry_frame c e now)
    exact h

/-- The header after `apc_cache_update` is the header of the cache before the call or, when
the call went through its insert branch, the header after the exclusive store of 0. -/
theorem update_header (c : apc_cache_t) (key : zend_string)
    (updater : apc_cache_updater_t) (ins : Bool) (ttl t now : Int) (owner : Nat)
    (grant : Option Nat) :
    (apc_cache_update c key updater ins ttl t now owner grant).cache.header = c.header ∨
    (apc_cache_update c key updater ins ttl t now owner grant).cache.header =
      (apc_cache_store c key (.long 0) (int32_t_cast ttl) true t now owner grant).2.header := by
  have heq := update_eq c key updater ins ttl t now owner grant
  by_cases hb : apc_cache_busy c = true
  · simp only [apc_cache_update_fuel, hb, if_true, Option.some.injEq] at heq
    rw [heq]
    exact Or.inl rfl
  · have hb2 : apc_cache_busy c = false := by simpa using hb
    cases hw : update_walk c.serializer updater (ZSTR_HASH key) key t
        (slot_chain c (apc_cache_hash_slot c key).2) with
    | some r =>
      rw [update_not_busy_found c key updater ins ttl t now owner grant r hb2 hw 1] at heq
      simp only [Option.some.injEq] at heq
      rw [heq]
      exact Or.inl rfl
    | none =>
      cases ins with
      | false =>
        rw [update_not_busy_missed c key updater ttl t now owner grant hb2 hw 1] at heq
        simp only [Option.some.injEq] at heq
        rw [heq]
        exact Or.inl rfl
      | true =>
        rw [show (2 : Nat) = 0 + 2 from rfl,
          update_not_busy_insert c key updater ttl t now owner grant hb2 hw 0] at heq
        right
        split at heq
        · simp only [Option.some.injEq] at heq
          rw [heq]
          rfl
        · simp only [Option.some.injEq] at heq
          rw [heq]

theorem update_counters (c : apc_cache_t) (key : zend_string)
    (updater : apc_cache_updater_t) (ins : Bool) (ttl t now : Int) (owner : Nat)
    (grant : Option Nat) :
    counters_le c (apc_cache_update c key updater ins ttl t now owner grant).cache := by
  rcases update_header c key updater ins ttl t now owner grant with h | h
  · unfold counters_le
    rw [h]
    exact counters_le_refl c
  · unfold counters_le
    rw [h]
    exact store_counters c key (.long 0) (int32_t_cast ttl) true t now owner grant

/-- The counters after the expunge processing: kept, or those of a full wipe. -/
theorem expunge_processing_counters (c2 : apc_cache_t) (needed : Bool) (t now : Int)
    (avail_size : Bool) :
    counters_le c2 (expunge_processing c2 needed t now avail_size) ∨
    counters_wiped c2 (expunge_processing c2 needed t now avail_size) := by
  have hw : ∀ c3 : apc_cache_t, c3.header.nexpunges = c2.header.nexpunges →
      counters_wiped c2 (apc_cache_wlocked_real_expunge c3 t now) := by
    intro c3 h3
    obtain ⟨_, b2, b3, b4, _, b6, _⟩ := real_expunge_fields c3 t now
    exact ⟨by rw [b6, h3], b2, b3, b4⟩
  unfold expunge_processing
  split
  · split
    · exact Or.inr (hw c2 rfl)
    · exact Or.inl (counters_le_refl c2)
  · split
    · have hfr := expunge_slots_frame t now c2.slots c2
      dsimp only
      split
      · left
        obtain ⟨_, a2, a3, a4, a5, _⟩ := hfr
        exact counters_le_of_header a2 a3 a4 a5
      · right
        exact hw _ hfr.2.2.2.2.1
    · exact Or.inl (counters_le_refl c2)

theorem expunge_counters (c : apc_cache_t) (size : Nat) (t now : Int) (available : Nat)
    (avail_size : Bool) :
    counters_le c (apc_cache_default_expunge c size t now available avail_size) ∨
    counters_wiped c (apc_cache_default_expunge c size t now available avail_size) := by
  by_cases hb : apc_cache_busy c = true
  · unfold apc_cache_default_expunge
    rw [if_pos hb]
    exact Or.inl (counters_le_refl c)
  · have hb2 : apc_cache_busy c = false := by simpa using hb
    rw [expunge_not_busy c size t now available avail_size hb2]
    obtain ⟨hfr, _, _⟩ := expunge_swept c now
    obtain ⟨_, a2, a3, a4, a5, _⟩ := hfr
    rcases expunge_processing_counters
      (apc_cache_wlocked_gc { c with header := { c.header with
        state := c.header.state ||| APC_CACHE_ST_BUSY } } now)
      (decide ((available : Int) < expunge_suitable c size)) t now avail_size with h | h
    · left
      obtain ⟨h1, h2, h3, h4⟩ := h
      rw [a2] at h1; rw [a3] at h2; rw [a4] at h3; rw [a5] at h4
      exact ⟨h1, h2, h3, h4⟩
    · right
      obtain ⟨h1, h2, h3, h4⟩ := h
      rw [a5] at h1
      exact ⟨h1, h2, h3, h4⟩

/-- C14 as stated fails: after a store of `"a"` and a `find` that hits it the counters
`ninserts` and `nhits` are 1; an expunge of a cache with no global ttl whose allocator
reports 400 of 1000 bytes free wipes the cache and resets both to 0. -/
theorem C14_counterexample :
    (run demo_cache [.store key_a (.long 1) 0 false 0 0 1 (some 10),
      .find key_a 1]).header.nhits = 1 ∧
    (run demo_cache [.store key_a (.long 1) 0 false 0 0 1 (some 10),
      .find key_a 1]).header.ninserts = 1 ∧
    (step (run demo_cache [.store key_a (.long 1) 0 false 0 0 1 (some 10), .find key_a 1])
      (.expunge 1 5 5 400 false)).header.nhits = 0 ∧
    (step (run demo_cache [.store key_a (.long 1) 0 false 0 0 1 (some 10), .find key_a 1])
      (.expunge 1 5 5 400 false)).header.ninserts = 0 ∧
    ¬counters_le
      (run demo_cache [.store key_a (.long 1) 0 false 0 0 1 (some 10), .find key_a 1])
      (step (run demo_cache [.store key_a (.long 1) 0 false 0 0 1 (some 10), .find key_a 1])
        (.expunge 1 5 5 400 false)) := by
  refine ⟨rfl, rfl, rfl, rfl, ?_⟩
  intro h
  exact absurd h.1 (by decide)

/-- C14, amended: across every public call other than a clear, `nexpunges` does not
decrease; across a store, find, fetch, exists, release, update or delete none of `nhits`,
`nmisses`, `ninserts` and `nexpunges` decreases; across an expunge either none of the four
decreases, or the expunge wiped the cache, which makes `nexpunges` one larger and resets
`nhits`, `nmisses` and `ninserts` to 0. -/
theorem C14_counters (c : apc_cache_t) (op : Op) (hop : op.is_clear = false) :
    c.header.nexpunges ≤ (step c op).header.nexpunges ∧
    (op.is_expunge = false → counters_le c (step c op)) ∧
    (op.is_expunge = true → counters_le c (step c op) ∨ counters_wiped c (step c op)) := by
  cases op with
  | store key val ttl exclusive t now owner grant =>
    have h := store_counters c key val ttl exclusive t now owner grant
    exact ⟨h.2.2.2, fun _ => h, fun _ => Or.inl h⟩
  | find key t =>
    have h := find_counters c key t
    exact ⟨h.2.2.2, fun _ => h, fun _ => Or.inl h⟩
  | fetch key t =>
    have h := fetch_counters c key t
    exact ⟨h.2.2.2, fun _ => h, fun _ => Or.inl h⟩
  | exists_ key t =>
    have h := counters_le_refl c
    exact ⟨h.2.2.2, fun _ => h, fun _ => Or.inl h⟩
  | release entry =>
    have h : counters_le c (apc_cache_entry_release c entry) :=
      counters_le_of_header rfl rfl rfl rfl
    exact ⟨h.2.2.2, fun _ => h, fun _ => Or.inl h⟩
  | update key updater ins ttl t now owner grant =>
    have h := update_counters c key updater ins ttl t now owner grant
    exact ⟨h.2.2.2, fun _ => h, fun _ => Or.inl h⟩
  | delete key now =>
    have h := delete_counters c key now
    exact ⟨h.2.2.2, fun _ => h, fun _ => Or.inl h⟩
  | clear t now => simp [Op.is_clear] at hop
  | expunge size t now available avail_size =>
    have h := expunge_counters c size t now available avail_size
    refine ⟨?_, fun h2 => by simp [Op.is_expunge] at h2, fun _ => h⟩
    rcases h with h | h
    · exact h.2.2.2
    · show c.header.nexpunges ≤ _
      have := h.1
      simp only [step]
      omega

/-- C14 (amended) run on the store of `"a"` into the empty cache: no counter decreases. -/
theorem C14_counters_witness :
    counters_le demo_cache
      (step demo_cache (.store key_a (.long 1) 0 false 0 0 1 (some 10))) :=
  (C14_counters demo_cache (.store key_a (.long 1) 0 false 0 0 1 (some 10)) rfl).2.1 rfl

/-! ## Slam defense in the caches a created cache reaches -/

/-- With `lastkey.hash` zero `apc_cache_defense` returns 0 and writes nothing. -/
theorem defense_inert (c : apc_cache_t) (key : zend_string) (t : Int) (owner : Nat)
    (h : c.header.lastkey.hash = 0) : apc_cache_defense c key t owner = (false, c) := by
  simp [apc_cache_defense, h]

theorem wlocked_insert_lastkey (c : apc_cache_t) (n : apc_cache_entry_t) (exclusive : Bool)
    (now : Int) :
    (apc_cache_wlocked_insert c n exclusive now).2.header.lastkey = c.header.lastkey := by
  have hfr := removal_frame_trans (gc_frame c now)
    (insert_walk_frame (ZSTR_HASH n.key) n.key n.ctime now exclusive
      (slot_chain c (apc_cache_hash_slot c n.key).2) (apc_cache_wlocked_gc c now))
  have a8 := hfr.2.2.2.2.2.2.2.1
  rw [wlocked_insert_eq]
  split
  · exact a8
  · exact a8

theorem store_lastkey (c : apc_cache_t) (key : zend_string) (val : zval) (ttl : Int)
    (exclusive : Bool) (t now : Int) (owner : Nat) (grant : Option Nat)
    (h : c.header.lastkey.hash = 0) :
    (apc_cache_store c key val ttl exclusive t now owner grant).2.header.lastkey =
      c.header.lastkey := by
  unfold apc_cache_store
  rw [defense_inert c key t owner h]
  dsimp only
  rw [if_neg (by simp)]
  split
  · rename_i c1 hctx
    rw [make_context_none _ _ _ hctx]
  · rename_i ctxt c1 hctx
    obtain ⟨_, _, _, _, _, h6⟩ := make_context_some _ _ _ _ hctx
    subst h6
    split
    · rfl
    · split
      · exact wlocked_insert_lastkey _ _ _ _
      · exact wlocked_insert_lastkey _ _ _ _

/-- On a cache whose `lastkey.hash` is zero a store does not look at the owner. -/
theorem store_owner_irrelevant (c : apc_cache_t) (key : zend_string) (val : zval) (ttl : Int)
    (exclusive : Bool) (t now : Int) (owner owner2 : Nat) (grant : Option Nat)
    (h : c.header.lastkey.hash = 0) :
    apc_cache_store c key val ttl exclusive t now owner grant =
      apc_cache_store c key val ttl exclusive t now owner2 grant := by
  unfold apc_cache_store
  rw [defense_inert c key t owner h, defense_inert c key t owner2 h]

theorem expunge_processing_lastkey (c2 : apc_cache_t) (needed : Bool) (t now : Int)
    (avail_size : Bool) :
    (expunge_processing c2 needed t now avail_size).header.lastkey = c2.header.lastkey ∨
    (expunge_processing c2 needed t now avail_size).header.lastkey = lastkey_zero := by
  unfold expunge_processing
  split
  · split
    · exact Or.inr (real_expunge_fields c2 t now).2.2.2.2.2.2.1
    · exact Or.inl rfl
  · split
    · dsimp only
      split
      · exact Or.inr rfl
      · exact Or.inr (real_expunge_fields _ t now).2.2.2.2.2.2.1
    · exact Or.inl rfl

theorem step_lastkey (c : apc_cache_t) (op : Op) (h : c.header.lastkey = lastkey_zero) :
    (step c op).header.lastkey = lastkey_zero := by
  have hh : c.header.lastkey.hash = 0 := by rw [h]; rfl
  cases op with
  | store key val ttl exclusive t now owner grant =>
    exact (store_lastkey c key val ttl exclusive t now owner grant hh).trans h
  | find key t =>
    show (apc_cache_find c key t).1.header.lastkey = _
    unfold apc_cache_find
    split
    · exact h
    · unfold apc_cache_rlocked_find_incref apc_cache_rlocked_find
      dsimp only
      split
      · rename_i hf
        split at hf
        · simp at hf
        · exact h
      · rename_i pre x suf hf
        split at hf
        · exact h
        · simp at hf
  | fetch key t =>
    show (apc_cache_fetch c key t).2.2.header.lastkey = _
    unfold apc_cache_fetch
    split
    · exact h
    · have hfi : (apc_cache_rlocked_find_incref c key t).1.header.lastkey = lastkey_zero := by
        unfold apc_cache_rlocked_find_incref apc_cache_rlocked_find
        dsimp only
        split
        · rename_i hf
          split at hf
          · simp at hf
          · exact h
        · rename_i pre x suf hf
          split at hf
          · exact h
          · simp at hf
      split
      · rename_i c1 hf
        rw [hf] at hfi
        exact hfi
      · rename_i c1 entry hf
        rw [hf] at hfi
        exact hfi
  | exists_ key t => exact h
  | release entry => exact h
  | update key updater ins ttl t now owner grant =>
    show (apc_cache_update c key updater ins ttl t now owner grant).cache.header.lastkey = _
    rcases update_header c key updater ins ttl t now owner grant with h2 | h2
    · rw [h2]; exact h
    · rw [h2]
      exact (store_lastkey c key _ _ true t now owner grant hh).trans h
  | delete key now =>
    show (apc_cache_delete c key now).2.header.lastkey = _
    rcases chain_split (fun x => key_match x.key (ZSTR_HASH key) key)
        (slot_chain c (apc_cache_hash_slot c key).2) with hno | ⟨pre, e, suf, hc, hpre, he⟩
    · rw [apc_cache_delete_miss c key now
        (fun x hx => (key_match_false_iff _ _).1 (hno x hx))]
      exact h
    · rw [apc_cache_delete_hit c key now pre suf e hc
        (fun x hx => (key_match_false_iff _ _).1 (hpre x hx)) ((key_match_self_iff _ _).1 he)]
      exact ((remove_entry_frame c e now).2.2.2.2.2.2.2.1).trans h
  | clear t now =>
    show (apc_cache_clear c t now).header.lastkey = _
    by_cases hb : apc_cache_busy c = true
    · unfold apc_cache_clear
      rw [if_pos hb]
      exact h
    · unfold apc_cache_clear
      rw [if_neg hb]
      exact (real_expunge_fields { c with header := { c.header with
        state := c.header.state ||| APC_CACHE_ST_BUSY } } t now).2.2.2.2.2.2.1
  | expunge size t now available avail_size =>
    show (apc_cache_default_expunge c size t now available avail_size).header.lastkey = _
    by_cases hb : apc_cache_busy c = true
    · unfold apc_cache_default_expunge
      rw [if_pos hb]
      exact h
    · have hb2 : apc_cache_busy c = false := by simpa using hb
      rw [expunge_not_busy c size t now available avail_size hb2]
      have a8 := (expunge_swept c now).1.2.2.2.2.2.2.2.1
      rcases expunge_processing_lastkey
        (apc_cache_wlocked_gc { c with header := { c.header with
          state := c.header.state ||| APC_CACHE_ST_BUSY } } now)
        (decide ((available : Int) < expunge_suitable c size)) t now avail_size with h2 | h2
      · exact h2.trans (a8.trans h)
      · exact h2

theorem run_lastkey : ∀ (ops : List Op) (c : apc_cache_t), c.header.lastkey = lastkey_zero →
    (run c ops).header.lastkey = lastkey_zero
  | [], _, h => h
  | op :: ops, c, h => by
    unfold run
    simp only [List.foldl_cons]
    exact run_lastkey ops (step c op) (step_lastkey c op h)

theorem reachable_lastkey (c : apc_cache_t) (h : Reachable c) :
    c.header.lastkey = lastkey_zero := by
  obtain ⟨sma, serializer, php, size_hint, gc_ttl, ttl, smart, defend, stime, ops, rfl⟩ := h
  exact run_lastkey ops _ rfl

/-- C15, what the code does: in every cache that a created cache reaches by public calls
`lastkey` is all zero, because `apc_cache_defense` returns at once when `lastkey.hash` is 0
and stamps `lastkey` only after it found it equal to the key in hash and length. So the
defense never reports a slam and never stamps, a store does not depend on the owner, and of
two stores of one key in the same second by two owners the second succeeds like the
first. -/
theorem C15_slam_defense_inert (c : apc_cache_t) (hr : Reachable c) :
    c.header.lastkey = lastkey_zero ∧
    (∀ (key : zend_string) (t : Int) (owner : Nat),
      apc_cache_defense c key t owner = (false, c)) ∧
    (∀ (key : zend_string) (val : zval) (ttl : Int) (exclusive : Bool) (t now : Int)
      (owner : Nat) (grant : Option Nat),
      (apc_cache_store c key val ttl exclusive t now owner grant).2.header.lastkey =
        lastkey_zero) ∧
    (∀ (key : zend_string) (val : zval) (ttl : Int) (exclusive : Bool) (t now : Int)
      (owner owner2 : Nat) (grant : Option Nat),
      apc_cache_store c key val ttl exclusive t now owner grant =
        apc_cache_store c key val ttl exclusive t now owner2 grant) ∧
    (∀ (key : zend_string) (val : zval) (ttl : Int) (exclusive : Bool) (t now now2 : Int)
      (owner owner2 : Nat) (grant grant2 : Option Nat),
      apc_cache_store (apc_cache_store c key val ttl exclusive t now owner grant).2 key val
          ttl exclusive t now2 owner2 grant2 =
        apc_cache_store (apc_cache_store c key val ttl exclusive t now owner grant).2 key val
          ttl exclusive t now2 owner grant2) := by
  have hz := reachable_lastkey c hr
  have hh : c.header.lastkey.hash = 0 := by rw [hz]; rfl
  refine ⟨hz, fun key t owner => defense_inert c key t owner hh, ?_, ?_, ?_⟩
  · intro key val ttl exclusive t now owner grant
    exact (store_lastkey c key val ttl exclusive t now owner grant hh).trans hz
  · intro key val ttl exclusive t now owner owner2 grant
    exact store_owner_irrelevant c key val ttl exclusive t now owner owner2 grant hh
  · intro key val ttl exclusive t now now2 owner owner2 grant grant2
    apply store_owner_irrelevant
    rw [store_lastkey c key val ttl exclusive t now owner grant hh, hz]
    rfl

theorem demo_defended_reachable : Reachable demo_defended_cache :=
  ⟨_, _, _, _, _, _, _, _, _, [], rfl⟩

set_option maxRecDepth 20000 in
/-- C15 run on the cache created with slam defense enabled: two stores of `"k"` at second 100,
by owner 1 and then by owner 2, both return true; `lastkey` is still all zero and
`ninserts` is 2. -/
theorem C15_slam_defense_inert_witness :
    demo_defended_cache.defend = true ∧
    (apc_cache_store demo_defended_cache key_k (.long 1) 0 false 100 100 1 (some 10)).1 =
      true ∧
    (apc_cache_store
      (apc_cache_store demo_defended_cache key_k (.long 1) 0 false 100 100 1 (some 10)).2
      key_k (.long 2) 0 false 100 100 2 (some 10)).1 = true ∧
    (apc_cache_store
      (apc_cache_store demo_defended_cache key_k (.long 1) 0 false 100 100 1 (some 10)).2
      key_k (.long 2) 0 false 100 100 2 (some 10)).2.header.ninserts = 2 ∧
    (apc_cache_store
      (apc_cache_store demo_defended_cache key_k (.long 1) 0 false 100 100 1 (some 10)).2
      key_k (.long 2) 0 false 100 100 2 (some 10)).2.header.lastkey = lastkey_zero ∧
    (slot_chain (apc_cache_store
      (apc_cache_store demo_defended_cache key_k (.long 1) 0 false 100 100 1 (some 10)).2
      key_k (.long 2) 0 false 100 100 2 (some 10)).2 0).map (fun e => e.val) = [.long 2] ∧
    demo_defended_cache.header.lastkey = lastkey_zero :=
  ⟨rfl, by rfl, by rfl, by rfl, by rfl, by rfl,
    (C15_slam_defense_inert demo_defended_cache demo_defended_reachable).1⟩

/-! ## A store that cannot build its entry -/

/-- The cache after `apc_cache_defense` is the cache before it with `lastkey` possibly
stamped. -/
theorem defense_header (c : apc_cache_t) (key : zend_string) (t : Int) (owner : Nat) :
    (apc_cache_defense c key t owner).2 =
      { c with header := { c.header with
        lastkey := (apc_cache_defense c key t owner).2.header.lastkey } } := by
  obtain ⟨lk, h⟩ := defense_cache c key t owner
  rw [h]

/-- The defense leaves `lastkey` alone unless it is enabled and finds `lastkey` equal to the
key in hash and length, with a hash that is not zero. -/
theorem defense_lastkey_kept (c : apc_cache_t) (key : zend_string) (t : Int) (owner : Nat)
    (h : c.defend = false ∨ c.header.lastkey.hash = 0 ∨
      ¬(c.header.lastkey.hash = ZSTR_HASH key ∧ c.header.lastkey.len = ZSTR_LEN key)) :
    (apc_cache_defense c key t owner).2 = c := by
  unfold apc_cache_defense
  dsimp only
  rcases h with h | h | h
  · simp [h]
  · simp [h]
  · split
    · split <;> rfl
    · rfl

/-- A store whose pool is refused or whose entry cannot be built returns false and leaves
the cache as the defense left it, the allocator apart. -/
theorem store_alloc_failure (c : apc_cache_t) (key : zend_string) (val : zval) (ttl : Int)
    (exclusive : Bool) (t now : Int) (owner : Nat) (grant : Option Nat)
    (hf : (apc_cache_make_copy_in_context (apc_cache_defense c key t owner).2 grant).1 = none ∨
      ∃ ctxt c1, apc_cache_make_copy_in_context (apc_cache_defense c key t owner).2 grant =
          (some ctxt, c1) ∧
        (apc_cache_make_entry ctxt key val ttl t).1 = none) :
    (apc_cache_store c key val ttl exclusive t now owner grant).1 = false ∧
    (apc_cache_store c key val ttl exclusive t now owner grant).2.slots = c.slots ∧
    (apc_cache_store c key val ttl exclusive t now owner grant).2.header =
      (apc_cache_defense c key t owner).2.header := by
  unfold apc_cache_store
  dsimp only
  split
  · exact ⟨rfl, by rw [defense_slam_cache c key t owner (by assumption)], rfl⟩
  · obtain ⟨lk, hd⟩ := defense_cache c key t owner
    rcases hf with hf | ⟨ctxt, c1, hctx, hme⟩
    · split
      · rename_i c1 hctx
        rw [make_context_none _ _ _ hctx, hd]
        exact ⟨rfl, rfl, rfl⟩
      · rename_i ctxt c1 hctx
        rw [hctx] at hf
        simp at hf
    · rw [hctx]
      dsimp only
      obtain ⟨_, _, _, _, _, h6⟩ := make_context_some _ _ _ _ hctx
      split
      · rw [h6, hd]
        exact ⟨rfl, rfl, rfl⟩
      · rename_i n ctxt1 hme2
        rw [hme2] at hme
        simp at hme

/-- C16, what the code does. When the pool of a store is refused, or
`apc_cache_make_entry` returns `NULL`, the store returns false and the slot chains, the GC
list and every field of the header other than `lastkey` are what they were; `lastkey` is what
`apc_cache_defense` left, which is the old `lastkey` unless the defense is enabled and found
`lastkey` equal to the key in hash and length with a hash that is not zero, and in a cache
that a created cache reaches by public calls the whole header is unchanged. But a copy of
the value that fails inside an array does not make `apc_cache_make_entry` return `NULL`: the
copy of `{"x": "s"}` asks for 6 allocations, and with a pool that serves only 4 the store
returns true, links an entry that holds an empty array and counts it in `ninserts` and
`nentries`. -/
theorem C16_alloc_failure (c : apc_cache_t) (key : zend_string) (val : zval) (ttl : Int)
    (exclusive : Bool) (t now : Int) (owner : Nat) (grant : Option Nat)
    (hf : (apc_cache_make_copy_in_context (apc_cache_defense c key t owner).2 grant).1 = none ∨
      ∃ ctxt c1, apc_cache_make_copy_in_context (apc_cache_defense c key t owner).2 grant =
          (some ctxt, c1) ∧
        (apc_cache_make_entry ctxt key val ttl t).1 = none) :
    (apc_cache_store c key val ttl exclusive t now owner grant).1 = false ∧
    (apc_cache_store c key val ttl exclusive t now owner grant).2.slots = c.slots ∧
    (apc_cache_store c key val ttl exclusive t now owner grant).2.header =
      { c.header with lastkey := (apc_cache_defense c key t owner).2.header.lastkey } ∧
    (apc_cache_store c key val ttl exclusive t now owner grant).2.header.gc = c.header.gc ∧
    (apc_cache_store c key val ttl exclusive t now owner grant).2.header.nhits =
      c.header.nhits ∧
    (apc_cache_store c key val ttl exclusive t now owner grant).2.header.nmisses =
      c.header.nmisses ∧
    (apc_cache_store c key val ttl exclusive t now owner grant).2.header.ninserts =
      c.header.ninserts ∧
    (apc_cache_store c key val ttl exclusive t now owner grant).2.header.nexpunges =
      c.header.nexpunges ∧
    (apc_cache_store c key val ttl exclusive t now owner grant).2.header.nentries =
      c.header.nentries ∧
    (apc_cache_store c key val ttl exclusive t now owner grant).2.header.mem_size =
      c.header.mem_size ∧
    ((c.defend = false ∨ c.header.lastkey.hash = 0 ∨
        ¬(c.header.lastkey.hash = ZSTR_HASH key ∧ c.header.lastkey.len = ZSTR_LEN key)) →
      (apc_cache_store c key val ttl exclusive t now owner grant).2.header = c.header) ∧
    (Reachable c →
      (apc_cache_store c key val ttl exclusive t now owner grant).2.header = c.header) ∧
    (2 + allocs demo_string_array = 6 ∧
      (apc_cache_store demo_cache key_a demo_string_array 0 false 100 100 1 (some 4)).1 =
        true ∧
      slot_chain demo_cache 1 = [] ∧
      slot_chain (apc_cache_store demo_cache key_a demo_string_array 0 false 100 100 1
        (some 4)).2 1 = [demo_truncated_entry] ∧
      demo_truncated_entry.val = .array (.mk false 8 4294967288 0 0 HT_INVALID_IDX .nil) ∧
      demo_cache.header.ninserts = 0 ∧ demo_cache.header.nentries = 0 ∧
      (apc_cache_store demo_cache key_a demo_string_array 0 false 100 100 1
        (some 4)).2.header.ninserts = 1 ∧
      (apc_cache_store demo_cache key_a demo_string_array 0 false 100 100 1
        (some 4)).2.header.nentries = 1) := by
  obtain ⟨h1, h2, h3⟩ := store_alloc_failure c key val ttl exclusive t now owner grant hf
  have hd := defense_header c key t owner
  have h4 : (apc_cache_store c key val ttl exclusive t now owner grant).2.header =
      { c.header with lastkey := (apc_cache_defense c key t owner).2.header.lastkey } := by
    rw [h3]
    conv_lhs => rw [hd]
  refine ⟨h1, h2, h4, by rw [h4], by rw [h4], by rw [h4], by rw [h4], by rw [h4], by rw [h4],
    by rw [h4], ?_, ?_, rfl, rfl, rfl, rfl, rfl, rfl, rfl, rfl, rfl⟩
  · intro hk
    rw [h3, defense_lastkey_kept c key t owner hk]
  · intro hr
    have hz := reachable_lastkey c hr
    rw [h3, defense_lastkey_kept c key t owner (Or.inr (Or.inl (by rw [hz]; rfl)))]

/-- C16 run on the empty three-slot cache with the pool refused: the store returns
false and the chains are untouched. -/
theorem C16_alloc_failure_witness :
    (apc_cache_store demo_cache key_a (.long 1) 0 false 7 7 1 none).1 = false ∧
    (apc_cache_store demo_cache key_a (.long 1) 0 false 7 7 1 none).2.slots =
      demo_cache.slots :=
  ⟨(C16_alloc_failure demo_cache key_a (.long 1) 0 false 7 7 1 none (Or.inl rfl)).1,
   (C16_alloc_failure demo_cache key_a (.long 1) 0 false 7 7 1 none (Or.inl rfl)).2.1⟩

/-! ## Failures of the serializer -/

/-- On copy-in, a value that goes through the serializer and that the serializer cannot
encode (no exception raised) is copied as the null value, and the copy reports success. -/
theorem store_zval_encode_failure (c : apc_cache_t) (val : zval) (ctxt : apc_context_t)
    (hk : goes_through_serializer c val)
    (henc : (cache_serializer c).serialize val = { buf := none, exception := false })
    (h1 : ctxt.copy = .APC_COPY_IN) (h2 : ctxt.serializer = c.serializer)
    (h3 : ctxt.php = c.php) (h4 : ctxt.exception = false) :
    apc_cache_store_zval val ctxt = (some .null, ctxt) := by
  have hser : my_serialize_object val ctxt = (.null, ctxt) := by
    obtain ⟨pool, copy, serializer, php, exception⟩ := ctxt
    simp only at h1 h2 h3 h4
    subst h1 h2 h3 h4
    unfold cache_serializer at henc
    unfold my_serialize_object
    cases hc : c.serializer with
    | none =>
      rw [hc] at henc
      dsimp only at henc
      simp [henc]
    | some s =>
      rw [hc] at henc
      dsimp only at henc
      simp [henc]
  cases val with
  | array ht =>
    have hs : ctxt.serializer.isNone = false := by
      rw [h2]
      have : c.serializer.isSome = true := hk
      cases hc : c.serializer with
      | none => rw [hc] at this; simp at this
      | some s => rfl
    simp only [apc_cache_store_zval, apc_copy_zval, my_copy_zval, hs, Bool.false_eq_true,
      if_false, copy_serialized, h1, hser, h4]
  | object o =>
    simp only [apc_cache_store_zval, apc_copy_zval, my_copy_zval, copy_serialized, h1, hser, h4]
    rfl
  | _ => exact absurd hk (by simp [goes_through_serializer])

/-- On copy-out, a serialized payload that the serializer cannot decode is handed out as the
null value, and the copy reports success. -/
theorem fetch_zval_decode_failure (c : apc_cache_t) (e : apc_cache_entry_t)
    (ty : zend_type) (s : List Nat) (hv : e.val = .serial ty s)
    (hk : stored_serialized c e.val) (hdec : (cache_serializer c).unserialize s = none) :
    apc_cache_entry_fetch_zval c e = some .null := by
  have hun : ∀ pool copy exception,
      my_unserialize_object (.serial ty s)
        { pool := pool, copy := copy, serializer := c.serializer, php := c.php,
          exception := exception } = .null := by
    intro pool copy exception
    unfold cache_serializer at hdec
    unfold my_unserialize_object
    cases hc : c.serializer with
    | none =>
      rw [hc] at hdec
      dsimp only at hdec
      simp [Z_STRVAL, hdec]
    | some s =>
      rw [hc] at hdec
      dsimp only at hdec
      simp [Z_STRVAL, hdec]
  rw [hv] at hk
  unfold apc_cache_entry_fetch_zval apc_copy_zval
  rw [hv]
  rcases hk with hty | ⟨hty, hs⟩
  · subst hty
    simp only [my_copy_zval, if_true, copy_serialized]
    rw [hun]
  · subst hty
    have hs2 : c.serializer.isNone = false := by
      cases hc : c.serializer with
      | none => rw [hc] at hs; simp at hs
      | some s => rfl
    simp only [my_copy_zval, hs2, Bool.false_eq_true, if_false, copy_serialized]
    simp only [if_true, reduceCtorEq, if_false]
    rw [hun]

/-- C17, what the code does: when the serializer cannot encode a value that goes through it
and raises no exception, `my_serialize_object` leaves the null value and `apc_cache_store_zval`
reports success, so a store that succeeds links an entry for the key whose value is null.
With a serializer that encodes nothing, the store of `{"x": 1}` under `"a"` returns true
and `exists` finds the key. -/
theorem C17_encode_failure_stored (c : apc_cache_t) (key : zend_string) (val : zval)
    (ttl : Int) (exclusive : Bool) (t now : Int) (owner : Nat) (grant : Option Nat)
    (hn : 0 < c.nslots) (hk : goes_through_serializer c val)
    (henc : (cache_serializer c).serialize val = { buf := none, exception := false }) :
    (∀ ctxt : apc_context_t, ctxt.copy = .APC_COPY_IN → ctxt.serializer = c.serializer →
      ctxt.php = c.php → ctxt.exception = false →
      apc_cache_store_zval val ctxt = (some .null, ctxt)) ∧
    ((apc_cache_store c key val ttl exclusive t now owner grant).1 = true →
      ∃ e pre suf,
        first_match (apc_cache_store c key val ttl exclusive t now owner grant).2 key
          pre e suf ∧ e.val = .null) ∧
    ((apc_cache_store demo_failing_cache key_a demo_array 0 false 100 100 1 (some 10)).1 =
        true ∧
     (slot_chain (apc_cache_store demo_failing_cache key_a demo_array 0 false 100 100 1
        (some 10)).2 1).map (fun e => (e.key, e.val)) = [(key_a, .null)] ∧
     apc_cache_exists (apc_cache_store demo_failing_cache key_a demo_array 0 false 100 100 1
        (some 10)).2 key_a 100 = true) := by
  refine ⟨fun ctxt h1 h2 h3 h4 => store_zval_encode_failure c val ctxt hk henc h1 h2 h3 h4,
    ?_, rfl, rfl, rfl⟩
  intro hs
  obtain ⟨e, pre, suf, hfm, _, _, _, _, _, _, _, ⟨ctxt, ctxt2, g1, g2, g3, g4, g5⟩, _⟩ :=
    store_ok_first_match c key val ttl exclusive t now owner grant hn hs
  rw [store_zval_encode_failure c val ctxt hk henc g1 g2 g3 g4] at g5
  simp only [Prod.mk.injEq, Option.some.injEq] at g5
  exact ⟨e, pre, suf, hfm, g5.1.symm⟩

/-- C17 run on the cache whose serializer encodes nothing: a successful store of `{"x": 1}`
leaves an entry for `"a"` holding null. -/
theorem C17_encode_failure_stored_witness :
    ∃ e pre suf,
      first_match (apc_cache_store demo_failing_cache key_a demo_array 0 false 100 100 1
        (some 10)).2 key_a pre e suf ∧ e.val = .null :=
  (C17_encode_failure_stored demo_failing_cache key_a demo_array 0 false 100 100 1 (some 10)
    (by decide) rfl rfl).2.1 rfl

/-- C18, what the code does: when the serializer cannot decode the payload of an entry,
`my_unserialize_object` leaves the null value and `apc_cache_entry_fetch_zval` reports
success, so on a cache that is not busy a fetch that reaches the entry writes the null value
and returns true. With a serializer that decodes nothing, the fetch of a stored `{"x": 1}`
returns true with null. -/
theorem C18_decode_failure_fetched (c : apc_cache_t) (key : zend_string) (t : Int)
    (pre suf : List apc_cache_entry_t) (e : apc_cache_entry_t) (ty : zend_type) (s : List Nat)
    (hv : e.val = .serial ty s) (hk : stored_serialized c e.val)
    (hdec : (cache_serializer c).unserialize s = none) :
    apc_cache_entry_fetch_zval c e = some .null ∧
    (first_match c key pre e suf → apc_cache_entry_hard_expired e t = false →
      apc_cache_busy c = false →
      (apc_cache_fetch c key t).1 = true ∧ (apc_cache_fetch c key t).2.1 = some .null) ∧
    ((slot_chain (apc_cache_store demo_undecodable_cache key_a demo_array 0 false 100 100 1
        (some 10)).2 1).map (fun e => (e.key, e.val)) = [(key_a, .serial .IS_ARRAY [97])] ∧
     (apc_cache_fetch (apc_cache_store demo_undecodable_cache key_a demo_array 0 false 100
        100 1 (some 10)).2 key_a 101).1 = true ∧
     (apc_cache_fetch (apc_cache_store demo_undecodable_cache key_a demo_array 0 false 100
        100 1 (some 10)).2 key_a 101).2.1 = some .null) := by
  have hf := fetch_zval_decode_failure c e ty s hv hk hdec
  refine ⟨hf, ?_, rfl, rfl, rfl⟩
  intro hfm hl hb
  rw [fetch_hit c key t pre suf e hfm.1 hfm.2.1 hfm.2.2 hl hb, hf]
  exact ⟨rfl, rfl⟩

/-- C18 run on an entry of `"a"` holding an array payload, in the cache whose serializer
decodes nothing: the copy-out gives null and reports success. -/
theorem C18_decode_failure_fetched_witness :
    apc_cache_entry_fetch_zval demo_undecodable_cache
      { demo_entry key_a 0 0 100 1 with val := .serial .IS_ARRAY [97] } = some .null :=
  (C18_decode_failure_fetched demo_undecodable_cache key_a 101 [] []
    { demo_entry key_a 0 0 100 1 with val := .serial .IS_ARRAY [97] } .IS_ARRAY [97] rfl
    (Or.inr ⟨rfl, rfl⟩) rfl).1

/-! ## The copier on shared and cyclic values -/

/-- C20, what the code does: on the cyclic array `$a = [&$a]` both copies return, and neither
keeps the cycle. On copy-in the table at address 1 is copied to address 3 and the reference
at address 2 to address 4, but the value of the copied reference is the `IS_PTR` entry that
`my_copy_hashtable` put into `copied` for the table under copy, taken over by `ZVAL_COPY`: a
`zval` of type `IS_PTR`, not an array. On copy-out of that stored value the reference (one
holder, value not of type `IS_ARRAY`) is taken for its value, which `my_copy_zval` copies
bit for bit: the bucket of the fetched table at address 5 points to the stored table at
address 3, not to the fetched table. A table shared by two buckets without a cycle is copied
once and shared by both buckets of the copy. -/
theorem C20_cyclic_array_copy :
    (Heap.apc_cache_store_zval 20 (.pointer .IS_ARRAY true 1) Heap.demo_cyclic_memory
        Heap.demo_copy_in).map (fun r => (r.1, r.2.1)) =
      some (some (.pointer .IS_ARRAY true 3), Heap.demo_cyclic_stored) ∧
    Heap.demo_cyclic_stored.read 3 =
      some (.array 1 true 8 4294967294 1 1 0
        [{ h := 0, key := none, val := .pointer .IS_REFERENCE true 4 }]) ∧
    Heap.demo_cyclic_stored.read 4 = some (.reference 1 (.pointer .IS_PTR false 3)) ∧
    (Heap.apc_cache_entry_fetch_zval 20 none Heap.demo_php (.pointer .IS_ARRAY true 3)
        Heap.demo_cyclic_stored).map (fun r => (r.1, r.2.read 5, r.2.next)) =
      some (some (.pointer .IS_ARRAY true 5),
        some (.array 1 true 8 4294967294 1 1 0
          [{ h := 0, key := none, val := .pointer .IS_PTR false 3 }]), 6) ∧
    (Heap.apc_cache_store_zval 20 (.pointer .IS_ARRAY true 1) Heap.demo_shared_memory
        Heap.demo_copy_in).map (fun r => (r.1, r.2.1.read 3, r.2.1.read 4)) =
      some (some (.pointer .IS_ARRAY true 3),
        some (.array 1 true 8 4294967294 2 2 0
          [{ h := 0, key := none, val := .pointer .IS_ARRAY true 4 },
           { h := 1, key := none, val := .pointer .IS_ARRAY true 4 }]),
        some (.array 2 true 8 4294967294 1 1 0 [{ h := 0, key := none, val := .long 1 }])) := by
  refine ⟨by rfl, by rfl, by rfl, by rfl, by rfl⟩

theorem used_zero (ctxt : apc_context_t) : used ctxt 0 = ctxt := by
  unfold used
  split <;> rfl

theorem used_used (ctxt : apc_context_t) (a b : Nat) :
    used (used ctxt a) b = used ctxt (a + b) := by
  unfold used
  cases h : ctxt.copy with
  | APC_COPY_IN => simp [h, Nat.add_assoc, Nat.sub_sub]
  | APC_COPY_OUT => simp [h]

theorem used_serializer (ctxt : apc_context_t) (n : Nat) :
    (used ctxt n).serializer = ctxt.serializer := by
  unfold used
  split <;> rfl

theorem used_copy (ctxt : apc_context_t) (n : Nat) : (used ctxt n).copy = ctxt.copy := by
  unfold used
  split <;> simp [*]

theorem room_left {ctxt : apc_context_t} {a b : Nat} (h : room ctxt (a + b)) : room ctxt a := by
  rcases h with h | h
  · exact Or.inl h
  · exact Or.inr (by omega)

theorem room_right {ctxt : apc_context_t} {a b : Nat} (h : room ctxt (a + b)) :
    room (used ctxt a) b := by
  rcases h with h | h
  · exact Or.inl (by rw [used_copy]; exact h)
  · cases hc : ctxt.copy with
    | APC_COPY_OUT => exact Or.inl (by rw [used_copy]; exact hc)
    | APC_COPY_IN =>
      right
      unfold used
      simp only [hc]
      omega

theorem ctxt_alloc_room (ctxt : apc_context_t) (h : room ctxt 1) :
    ctxt_alloc ctxt = some (used ctxt 1) := by
  unfold ctxt_alloc used apc_pool_alloc
  cases hc : ctxt.copy with
  | APC_COPY_OUT => rfl
  | APC_COPY_IN =>
    rcases h with h | h
    · rw [hc] at h; exact absurd h (by decide)
    · have : ¬ctxt.pool.avail = 0 := by omega
      simp [this]

theorem dup_bucket_key_room (key : Option (List Nat)) (ctxt : apc_context_t)
    (h : room ctxt (if key.isSome then 1 else 0)) :
    dup_bucket_key key ctxt = (key, used ctxt (if key.isSome then 1 else 0)) := by
  cases key with
  | none => simp [dup_bucket_key, used_zero]
  | some k =>
    simp only [Option.isSome_some, if_true] at h ⊢
    simp [dup_bucket_key, ctxt_alloc_room ctxt h]

mutual
theorem copy_plain : ∀ (v : zval) (ctxt : apc_context_t), plain v = true →
    ctxt.serializer = none → room ctxt (allocs v) →
    ∃ w, my_copy_zval v ctxt = (some w, used ctxt (allocs v)) ∧
      copy_equiv v w = true ∧ plain w = true
  | .null, ctxt, _, _, _ => ⟨.null, by simp [my_copy_zval, allocs, used_zero], rfl, rfl⟩
  | .false_, ctxt, _, _, _ => ⟨.false_, by simp [my_copy_zval, allocs, used_zero], rfl, rfl⟩
  | .true_, ctxt, _, _, _ => ⟨.true_, by simp [my_copy_zval, allocs, used_zero], rfl, rfl⟩
  | .long n, ctxt, _, _, _ =>
    ⟨.long n, by simp [my_copy_zval, allocs, used_zero], by simp [copy_equiv], rfl⟩
  | .double n, ctxt, _, _, _ =>
    ⟨.double n, by simp [my_copy_zval, allocs, used_zero], by simp [copy_equiv], rfl⟩
  | .string s, ctxt, _, _, hr =>
    ⟨.string s, by
      have hr1 : room ctxt 1 := hr
      simp [my_copy_zval, allocs, ctxt_alloc_room ctxt hr1], by simp [copy_equiv], rfl⟩
  | .array ht, ctxt, hp, hs, hr => by
    obtain ⟨t, h1, h2, h3⟩ := copy_plain_table ht ctxt (by simpa [plain] using hp) hs
      (by simpa [allocs] using hr)
    refine ⟨.array t, ?_, by simpa [copy_equiv] using h2, by simpa [plain] using h3⟩
    simp [my_copy_zval, hs, h1, allocs]
  | .undef, _, hp, _, _ => by simp [plain] at hp
  | .resource _, _, hp, _, _ => by simp [plain] at hp
  | .object _, _, hp, _, _ => by simp [plain] at hp
  | .reference _ _, _, hp, _, _ => by simp [plain] at hp
  | .serial _ _, _, hp, _, _ => by simp [plain] at hp
theorem copy_plain_table : ∀ (ht : HashTable) (ctxt : apc_context_t), plain_table ht = true →
    ctxt.serializer = none → room ctxt (allocs_table ht) →
    ∃ t, my_copy_hashtable ht ctxt = (some t, used ctxt (allocs_table ht)) ∧
      table_equiv ht t = true ∧ plain_table t = true
  | .mk packed a b c d e arData, ctxt, hp, hs, hr => by
    by_cases hlen : arData.length = 0
    · have hnil : arData = .nil := by
        cases arData with
        | nil => rfl
        | cons _ _ _ _ => simp [Buckets.length] at hlen
      subst hnil
      have hr1 : room ctxt 1 := by simpa [allocs_table, Buckets.length] using hr
      refine ⟨.mk false a HT_MIN_MASK 0 0 HT_INVALID_IDX .nil, ?_, by simp [table_equiv, buckets_equiv],
        by simp [plain_table, plain_buckets]⟩
      simp [my_copy_hashtable, ctxt_alloc_room ctxt hr1, Buckets.length, allocs_table]
    · have hr2 : room ctxt (1 + (1 + allocs_buckets packed arData)) := by
        have : allocs_table (.mk packed a b c d e arData) =
            1 + (1 + allocs_buckets packed arData) := by
          simp [allocs_table, hlen]; omega
        rw [this] at hr
        exact hr
      have h1 := ctxt_alloc_room ctxt (room_left hr2)
      have hr3 := room_right hr2
      have h2 := ctxt_alloc_room _ (room_left hr3)
      have hr4 := room_right hr3
      rw [used_used] at h2 hr4
      have hs4 : (used ctxt (1 + 1)).serializer = none := by rw [used_serializer]; exact hs
      have hal : allocs_table (.mk packed a b c d e arData) =
          1 + 1 + allocs_buckets packed arData := by
        simp [allocs_table, hlen]
      cases packed with
      | true =>
        obtain ⟨b2, g1, g2, g3⟩ := copy_plain_packed arData (arData.length != c)
          (used ctxt (1 + 1)) (by simpa [plain_table] using hp) hs4 hr4
        refine ⟨.mk true a b c d (if c > 0 then first_defined b2 else HT_INVALID_IDX) b2, ?_,
          by simpa [table_equiv] using g2, by simpa [plain_table] using g3⟩
        rw [hal, ← used_used]
        simp [my_copy_hashtable, h1, hlen, h2, g1]
      | false =>
        obtain ⟨b2, g1, g2, g3⟩ := copy_plain_elements arData (arData.length != c)
          (used ctxt (1 + 1)) (by simpa [plain_table] using hp) hs4 hr4
        refine ⟨.mk false a b b2.length d (if b2.length > 0 then 0 else HT_INVALID_IDX) b2, ?_,
          by simpa [table_equiv] using g2, by simpa [plain_table] using g3⟩
        rw [hal, ← used_used]
        simp [my_copy_hashtable, h1, hlen, h2, g1]
theorem copy_plain_packed : ∀ (bs : Buckets) (wh : Bool) (ctxt : apc_context_t),
    plain_buckets true bs = true → ctxt.serializer = none →
    room ctxt (allocs_buckets true bs) →
    ∃ b2, apc_array_dup_packed_elements bs wh ctxt = (b2, used ctxt (allocs_buckets true bs)) ∧
      buckets_equiv bs b2 = true ∧ plain_buckets true b2 = true
  | .nil, wh, ctxt, _, _, _ =>
    ⟨.nil, by simp [apc_array_dup_packed_elements, allocs_buckets, used_zero], rfl, rfl⟩
  | .cons h key v rest, wh, ctxt, hp, hs, hr => by
    simp only [plain_buckets, Bool.not_true, Bool.false_or, Bool.and_eq_true] at hp
    obtain ⟨⟨hk, hv⟩, hrest⟩ := hp
    have hkn : key = none := by
      cases key with
      | none => rfl
      | some k => simp at hk
    subst hkn
    have hr2 : room ctxt (allocs v + allocs_buckets true rest) := by
      simpa [allocs_buckets] using hr
    obtain ⟨w, g1, g2, g3⟩ := copy_plain v ctxt hv hs (room_left hr2)
    obtain ⟨b2, k1, k2, k3⟩ := copy_plain_packed rest wh (used ctxt (allocs v)) hrest
      (by rw [used_serializer]; exact hs) (room_right hr2)
    rw [used_used] at k1
    refine ⟨.cons h none w b2, ?_, by simp [buckets_equiv, g2, k2],
      by simp [plain_buckets, g3, k3]⟩
    have hal : allocs_buckets true (.cons h none v rest) =
        allocs v + allocs_buckets true rest := by simp [allocs_buckets]
    rw [hal]
    cases v with
    | undef => simp [plain] at hv
    | reference _ _ => simp [plain] at hv
    | resource _ => simp [plain] at hv
    | object _ => simp [plain] at hv
    | serial _ _ => simp [plain] at hv
    | _ => simp only [apc_array_dup_packed_elements, g1, k1]
theorem copy_plain_elements : ∀ (bs : Buckets) (wh : Bool) (ctxt : apc_context_t),
    plain_buckets false bs = true → ctxt.serializer = none →
    room ctxt (allocs_buckets false bs) →
    ∃ b2, apc_array_dup_elements bs wh ctxt = (b2, used ctxt (allocs_buckets false bs)) ∧
      buckets_equiv bs b2 = true ∧ plain_buckets false b2 = true
  | .nil, wh, ctxt, _, _, _ =>
    ⟨.nil, by simp [apc_array_dup_elements, allocs_buckets, used_zero], rfl, rfl⟩
  | .cons h key v rest, wh, ctxt, hp, hs, hr => by
    simp only [plain_buckets, Bool.not_false, Bool.true_or, Bool.true_and,
      Bool.and_eq_true] at hp
    obtain ⟨hv, hrest⟩ := hp
    have hr2 : room ctxt (allocs v + ((if key.isSome then 1 else 0) +
        allocs_buckets false rest)) := by
      have : allocs_buckets false (.cons h key v rest) =
          allocs v + ((if key.isSome then 1 else 0) + allocs_buckets false rest) := by
        simp [allocs_buckets]; omega
      rw [this] at hr
      exact hr
    obtain ⟨w, g1, g2, g3⟩ := copy_plain v ctxt hv hs (room_left hr2)
    have hr3 := room_right hr2
    have hkey := dup_bucket_key_room key (used ctxt (allocs v)) (room_left hr3)
    have hr4 := room_right hr3
    rw [used_used] at hkey hr4
    obtain ⟨b2, k1, k2, k3⟩ := copy_plain_elements rest wh _ hrest
      (by rw [used_serializer]; exact hs) hr4
    rw [used_used] at k1
    refine ⟨.cons h key w b2, ?_, by simp [buckets_equiv, g2, k2],
      by simp [plain_buckets, g3, k3]⟩
    have hal : allocs_buckets false (.cons h key v rest) =
        allocs v + (if key.isSome then 1 else 0) + allocs_buckets false rest := by
      simp [allocs_buckets]
    rw [hal]
    cases v with
    | undef => simp [plain] at hv
    | reference _ _ => simp [plain] at hv
    | resource _ => simp [plain] at hv
    | object _ => simp [plain] at hv
    | serial _ _ => simp [plain] at hv
    | _ => simp only [apc_array_dup_elements, g1, hkey, k1]
end

mutual
theorem copy_equiv_trans : ∀ (a b c : zval), copy_equiv a b = true → copy_equiv b c = true →
    copy_equiv a c = true
  | .null, b, c, h1, h2 => by
    cases b <;> simp [copy_equiv] at h1
    exact h2
  | .false_, b, c, h1, h2 => by
    cases b <;> simp [copy_equiv] at h1
    exact h2
  | .true_, b, c, h1, h2 => by
    cases b <;> simp [copy_equiv] at h1
    exact h2
  | .long n, b, c, h1, h2 => by
    cases b <;> simp [copy_equiv] at h1
    subst h1
    exact h2
  | .double n, b, c, h1, h2 => by
    cases b <;> simp [copy_equiv] at h1
    subst h1
    exact h2
  | .string n, b, c, h1, h2 => by
    cases b <;> simp [copy_equiv] at h1
    subst h1
    exact h2
  | .array x, b, c, h1, h2 => by
    cases b <;> simp [copy_equiv] at h1
    rename_i y
    cases c <;> simp [copy_equiv] at h2
    rename_i z
    simpa [copy_equiv] using table_equiv_trans x y z h1 h2
  | .undef, _, _, h1, _ => by simp [copy_equiv] at h1
  | .resource _, _, _, h1, _ => by simp [copy_equiv] at h1
  | .object _, _, _, h1, _ => by simp [copy_equiv] at h1
  | .reference _ _, _, _, h1, _ => by simp [copy_equiv] at h1
  | .serial _ _, _, _, h1, _ => by simp [copy_equiv] at h1
theorem table_equiv_trans : ∀ (a b c : HashTable), table_equiv a b = true →
    table_equiv b c = true → table_equiv a c = true
  | .mk _ _ _ _ _ _ x, .mk _ _ _ _ _ _ y, .mk _ _ _ _ _ _ z, h1, h2 => by
    simp only [table_equiv] at h1 h2 ⊢
    exact buckets_equiv_trans x y z h1 h2
theorem buckets_equiv_trans : ∀ (a b c : Buckets), buckets_equiv a b = true →
    buckets_equiv b c = true → buckets_equiv a c = true
  | .nil, b, c, h1, h2 => by
    cases b <;> simp [buckets_equiv] at h1
    exact h2
  | .cons h k v r, b, c, h1, h2 => by
    cases b with
    | nil => simp [buckets_equiv] at h1
    | cons h2' k2 v2 r2 =>
      cases c with
      | nil => simp [buckets_equiv] at h2
      | cons h3 k3 v3 r3 =>
        simp only [buckets_equiv, Bool.and_eq_true, beq_iff_eq] at h1 h2 ⊢
        obtain ⟨⟨⟨a1, a2⟩, a3⟩, a4⟩ := h1
        obtain ⟨⟨⟨b1, b2⟩, b3⟩, b4⟩ := h2
        exact ⟨⟨⟨a1.trans b1, a2.trans b2⟩, copy_equiv_trans v v2 v3 a3 b3⟩,
          buckets_equiv_trans r r2 r3 a4 b4⟩
end

/-- The cache on which a granted store runs its insert: `c` with `lastkey` as the defense
left it and the pool taken from the allocator. -/
theorem store_granted (c : apc_cache_t) (key : zend_string) (val : zval) (ttl : Int)
    (exclusive : Bool) (t now : Int) (owner : Nat) (n : Nat) :
    ∃ c1, c1.slots = c.slots ∧
      apc_cache_store c key val ttl exclusive t now owner (some n) =
        if (apc_cache_defense c key t owner).1 then
          (false, (apc_cache_defense c key t owner).2)
        else
          match apc_cache_make_entry
              { pool := { addr := c.sma.brk, size := 0, avail := n }, copy := .APC_COPY_IN,
                serializer := c.serializer, php := c.php, exception := false } key val ttl t with
          | (none, ctxt1) => (false, apc_cache_destroy_context c1 ctxt1)
          | (some entry, ctxt1) =>
            if (apc_cache_wlocked_insert c1 entry exclusive now).1
            then (true, (apc_cache_wlocked_insert c1 entry exclusive now).2)
            else (false, apc_cache_destroy_context
              (apc_cache_wlocked_insert c1 entry exclusive now).2 ctxt1) := by
  obtain ⟨lk, hd⟩ := defense_cache c key t owner
  refine ⟨{ c with header := { c.header with lastkey := lk }
                   sma := { c.sma with brk := c.sma.brk + 1 } }, rfl, ?_⟩
  unfold apc_cache_store
  dsimp only
  rw [hd]
  simp only [apc_cache_make_copy_in_context, apc_pool_create]
  try rfl

/-- The entry that a granted store builds and links, when the store returns success. -/
theorem store_ok_entry (c : apc_cache_t) (key : zend_string) (val : zval) (ttl : Int)
    (exclusive : Bool) (t now : Int) (owner : Nat) (n : Nat) (hn : 0 < c.nslots)
    (hs : (apc_cache_store c key val ttl exclusive t now owner (some n)).1 = true) :
    ∃ e pre suf n0 c3,
      first_match (apc_cache_store c key val ttl exclusive t now owner (some n)).2 key
        pre e suf ∧
      apc_cache_make_entry
        { pool := { addr := c.sma.brk, size := 0, avail := n }, copy := .APC_COPY_IN,
          serializer := c.serializer, php := c.php, exception := false } key val ttl t =
        (some n0, c3) ∧
      e = linked_entry n0 ∧
      (apc_cache_store c key val ttl exclusive t now owner (some n)).2.serializer =
        c.serializer ∧
      (apc_cache_store c key val ttl exclusive t now owner (some n)).2.php = c.php := by
  obtain ⟨_, hser, hphp, _⟩ := store_config c key val ttl exclusive t now owner (some n)
  obtain ⟨c1, hsl, hval⟩ := store_granted c key val ttl exclusive t now owner n
  have hcore : ∃ e pre suf n0 c3,
      first_match (apc_cache_store c key val ttl exclusive t now owner (some n)).2 key
        pre e suf ∧
      apc_cache_make_entry
        { pool := { addr := c.sma.brk, size := 0, avail := n }, copy := .APC_COPY_IN,
          serializer := c.serializer, php := c.php, exception := false } key val ttl t =
        (some n0, c3) ∧
      e = linked_entry n0 := by
    rw [hval] at hs ⊢
    split at hs
    · simp at hs
    · rename_i hdf
      rw [if_neg hdf]
      split at hs
      · simp at hs
      · rename_i n0 c3 hme
        rw [hme]
        split at hs
        · rename_i hok
          simp only [hok, if_true]
          have hn1 : 0 < c1.nslots := by
            unfold apc_cache_t.nslots at hn ⊢
            rw [hsl]; exact hn
          obtain ⟨pre, suf, hc, hpre, hlen⟩ := wlocked_insert_ok c1 n0 exclusive now hn1 hok
          obtain ⟨f1, _⟩ := make_entry_some _ _ _ _ _ _ _ hme
          have hlen2 : (apc_cache_wlocked_insert c1 n0 exclusive now).2.slots.length =
              c.slots.length := by rw [hlen, hsl]
          refine ⟨linked_entry n0, pre, suf, n0, c3, ⟨?_, ?_, f1⟩, rfl, rfl⟩
          · rw [hash_slot_congr c _ key hlen2]
            rw [f1, hash_slot_congr c c1 key (by rw [hsl])] at hc
            exact hc
          · rw [← f1]; exact hpre
        · simp at hs
  obtain ⟨e, pre, suf, n0, c3, h1, h2, h3⟩ := hcore
  exact ⟨e, pre, suf, n0, c3, h1, h2, h3, hser, hphp⟩

/-- The copy of a plain value that is not an array does not look at the serializer. -/
theorem copy_plain_flat (v : zval) (ctxt : apc_context_t) (hp : plain v = true)
    (hna : ∀ ht, v ≠ .array ht) (hr : room ctxt (allocs v)) :
    ∃ w, my_copy_zval v ctxt = (some w, used ctxt (allocs v)) ∧
      copy_equiv v w = true ∧ plain w = true := by
  cases v with
  | null => exact ⟨.null, by simp [my_copy_zval, allocs, used_zero], rfl, rfl⟩
  | false_ => exact ⟨.false_, by simp [my_copy_zval, allocs, used_zero], rfl, rfl⟩
  | true_ => exact ⟨.true_, by simp [my_copy_zval, allocs, used_zero], rfl, rfl⟩
  | long n =>
    exact ⟨.long n, by simp [my_copy_zval, allocs, used_zero], by simp [copy_equiv], rfl⟩
  | double n =>
    exact ⟨.double n, by simp [my_copy_zval, allocs, used_zero], by simp [copy_equiv], rfl⟩
  | string s =>
    have hr1 : room ctxt 1 := hr
    exact ⟨.string s, by simp [my_copy_zval, allocs, ctxt_alloc_room ctxt hr1],
      by simp [copy_equiv], rfl⟩
  | array ht => exact absurd rfl (hna ht)
  | undef => simp [plain] at hp
  | resource _ => simp [plain] at hp
  | object _ => simp [plain] at hp
  | reference _ _ => simp [plain] at hp
  | serial _ _ => simp [plain] at hp

/-- The copy of a plain value in a context with room for it: a copy-equivalent plain value.
An array is copied bucket by bucket when no serializer is configured. -/
theorem copy_plain_room (v : zval) (ctxt : apc_context_t) (hp : plain v = true)
    (hs : ctxt.serializer = none ∨ ∀ ht, v ≠ .array ht) (hr : room ctxt (allocs v)) :
    ∃ w, my_copy_zval v ctxt = (some w, used ctxt (allocs v)) ∧
      copy_equiv v w = true ∧ plain w = true := by
  rcases hs with hs | hs
  · exact copy_plain v ctxt hp hs hr
  · exact copy_plain_flat v ctxt hp hs hr

theorem used_exception (ctxt : apc_context_t) (n : Nat) :
    (used ctxt n).exception = ctxt.exception := by
  unfold used
  split <;> rfl

theorem plain_not_array {v w : zval} (h : copy_equiv v w = true) (hna : ∀ ht, v ≠ .array ht) :
    ∀ ht, w ≠ .array ht := by
  intro ht hw
  subst hw
  cases v <;> simp [copy_equiv] at h
  exact hna _ rfl

/-- The entry built for a plain value by a pool with room for the record, the key and the
value holds a copy-equivalent plain value. -/
theorem make_entry_plain (ctxt : apc_context_t) (key : zend_string) (val : zval) (ttl t : Int)
    (hp : plain val = true) (hs : ctxt.serializer = none ∨ ∀ ht, val ≠ .array ht)
    (hx : ctxt.exception = false) (hr : room ctxt (1 + (1 + allocs val)))
    (n0 : apc_cache_entry_t) (c3 : apc_context_t)
    (hme : apc_cache_make_entry ctxt key val ttl t = (some n0, c3)) :
    copy_equiv val n0.val = true ∧ plain n0.val = true ∧ n0.ttl = ttl ∧ n0.ctime = t := by
  have h1 := ctxt_alloc_room ctxt (room_left hr)
  have hr2 := room_right hr
  have h2 := ctxt_alloc_room _ (room_left hr2)
  have hr3 := room_right hr2
  obtain ⟨w, g1, g2, g3⟩ := copy_plain_room val (used (used ctxt 1) 1) hp
    (by rw [used_serializer, used_serializer]; exact hs) hr3
  unfold apc_cache_make_entry at hme
  rw [h1] at hme
  simp only [h2] at hme
  have hz : apc_cache_store_zval val (used (used ctxt 1) 1) =
      (some w, used (used (used ctxt 1) 1) (allocs val)) := by
    unfold apc_cache_store_zval apc_copy_zval
    simp only [g1, used_exception, hx]
    rfl
  rw [hz] at hme
  simp only [Prod.mk.injEq, Option.some.injEq] at hme
  obtain ⟨hme, _⟩ := hme
  subst hme
  exact ⟨g2, g3, rfl, rfl⟩

/-- The copy-out of a plain value: a copy-equivalent value. -/
theorem fetch_zval_plain (c : apc_cache_t) (e : apc_cache_entry_t) (hp : plain e.val = true)
    (hs : c.serializer = none ∨ ∀ ht, e.val ≠ .array ht) :
    ∃ w, apc_cache_entry_fetch_zval c e = some w ∧ copy_equiv e.val w = true := by
  obtain ⟨w, g1, g2, _⟩ := copy_plain_room e.val
    { pool := null_pool, copy := .APC_COPY_OUT, serializer := c.serializer, php := c.php,
      exception := false } hp hs (Or.inl rfl)
  refine ⟨w, ?_, g2⟩
  unfold apc_cache_entry_fetch_zval apc_copy_zval
  rw [g1]

/-- On copy-in with room in the pool, a value that goes through the serializer and that the
serializer encodes (no exception raised) is stored as the encoded bytes under the type tag
of the value. -/
theorem store_zval_encoded (c : apc_cache_t) (val : zval) (b : List Nat)
    (ctxt : apc_context_t) (hk : goes_through_serializer c val)
    (henc : (cache_serializer c).serialize val = { buf := some b, exception := false })
    (h1 : ctxt.copy = .APC_COPY_IN) (h2 : ctxt.serializer = c.serializer)
    (h3 : ctxt.php = c.php) (h4 : ctxt.exception = false) (h5 : 1 ≤ ctxt.pool.avail) :
    ∃ c2, apc_cache_store_zval val ctxt = (some (.serial (Z_TYPE val) b), c2) := by
  have hser : ∃ c2, my_serialize_object val ctxt = (.serial (Z_TYPE val) b, c2) ∧
      c2.exception = false := by
    obtain ⟨pool, copy, serializer, php, exception⟩ := ctxt
    simp only at h1 h2 h3 h4 h5
    subst h1 h2 h3 h4
    have hal : ∃ p, apc_pool_alloc pool = some p := by
      unfold apc_pool_alloc
      rw [if_neg (by omega)]
      exact ⟨_, rfl⟩
    obtain ⟨p, hp⟩ := hal
    unfold cache_serializer at henc
    unfold my_serialize_object
    cases hc : c.serializer with
    | none =>
      rw [hc] at henc
      dsimp only at henc
      simp [henc, hp]
    | some s =>
      rw [hc] at henc
      dsimp only at henc
      simp [henc, hp]
  obtain ⟨c2, hs1, hs2⟩ := hser
  refine ⟨c2, ?_⟩
  cases val with
  | array ht =>
    have hs : ctxt.serializer.isNone = false := by
      rw [h2]
      have : c.serializer.isSome = true := hk
      cases hc : c.serializer with
      | none => rw [hc] at this; simp at this
      | some s => rfl
    simp only [apc_cache_store_zval, apc_copy_zval, my_copy_zval, hs, Bool.false_eq_true,
      if_false, copy_serialized, h1, hs1, hs2]
  | object o =>
    simp only [apc_cache_store_zval, apc_copy_zval, my_copy_zval, copy_serialized, h1, hs1,
      hs2]
    rfl
  | _ => exact absurd hk (by simp [goes_through_serializer])

/-- On copy-out, a serialized payload that the serializer decodes is handed out decoded. -/
theorem fetch_zval_decoded (c : apc_cache_t) (e : apc_cache_entry_t)
    (ty : zend_type) (s : List Nat) (v : zval) (hv : e.val = .serial ty s)
    (hk : stored_serialized c e.val) (hdec : (cache_serializer c).unserialize s = some v) :
    apc_cache_entry_fetch_zval c e = some v := by
  have hun : ∀ pool copy exception,
      my_unserialize_object (.serial ty s)
        { pool := pool, copy := copy, serializer := c.serializer, php := c.php,
          exception := exception } = v := by
    intro pool copy exception
    unfold cache_serializer at hdec
    unfold my_unserialize_object
    cases hc : c.serializer with
    | none =>
      rw [hc] at hdec
      dsimp only at hdec
      simp [Z_STRVAL, hdec]
    | some s =>
      rw [hc] at hdec
      dsimp only at hdec
      simp [Z_STRVAL, hdec]
  rw [hv] at hk
  unfold apc_cache_entry_fetch_zval apc_copy_zval
  rw [hv]
  rcases hk with hty | ⟨hty, hs⟩
  · subst hty
    simp only [my_copy_zval, if_true, copy_serialized]
    rw [hun]
  · subst hty
    have hs2 : c.serializer.isNone = false := by
      cases hc : c.serializer with
      | none => rw [hc] at hs; simp at hs
      | some s => rfl
    simp only [my_copy_zval, hs2, Bool.false_eq_true, if_false, copy_serialized]
    simp only [if_true, reduceCtorEq, if_false]
    rw [hun]

theorem stored_of_goes_through (c : apc_cache_t) (val : zval) (b : List Nat)
    (hk : goes_through_serializer c val) : stored_serialized c (.serial (Z_TYPE val) b) := by
  cases val with
  | array ht => exact Or.inr ⟨rfl, hk⟩
  | object o => exact Or.inl rfl
  | _ => exact absurd hk (by simp [goes_through_serializer])

/-- The entry built for a value that the serializer encodes, by a pool with room for the
record, the key and the bytes. -/
theorem make_entry_encoded (c : apc_cache_t) (ctxt : apc_context_t) (key : zend_string)
    (val : zval) (b : List Nat) (ttl t : Int) (hk : goes_through_serializer c val)
    (henc : (cache_serializer c).serialize val = { buf := some b, exception := false })
    (h1 : ctxt.copy = .APC_COPY_IN) (h2 : ctxt.serializer = c.serializer)
    (h3 : ctxt.php = c.php) (h4 : ctxt.exception = false) (h5 : 3 ≤ ctxt.pool.avail)
    (n0 : apc_cache_entry_t) (c3 : apc_context_t)
    (hme : apc_cache_make_entry ctxt key val ttl t = (some n0, c3)) :
    n0.val = .serial (Z_TYPE val) b ∧ n0.ttl = ttl ∧ n0.ctime = t := by
  have hr : room ctxt (1 + 1) := Or.inr (by omega)
  have a1 := ctxt_alloc_room ctxt (room_left hr)
  have a2 := ctxt_alloc_room _ (room_right hr)
  have hav : 1 ≤ (used (used ctxt 1) 1).pool.avail := by
    unfold used
    simp only [h1]
    omega
  obtain ⟨c2, hz⟩ := store_zval_encoded c val b (used (used ctxt 1) 1) hk henc
    (by rw [used_copy, used_copy]; exact h1)
    (by rw [used_serializer, used_serializer]; exact h2)
    (by unfold used; simp only [h1]; exact h3)
    (by rw [used_exception, used_exception]; exact h4) hav
  unfold apc_cache_make_entry at hme
  rw [a1] at hme
  simp only [a2, hz] at hme
  simp only [Prod.mk.injEq, Option.some.injEq] at hme
  obtain ⟨hme, _⟩ := hme
  subst hme
  exact ⟨rfl, rfl, rfl⟩

theorem not_hard_expired_of_window (e : apc_cache_entry_t) (ttl t t2 : Int)
    (h1 : e.ttl = ttl) (h2 : e.ctime = t) (hw : ttl = 0 ∨ t2 ≤ t + ttl) :
    apc_cache_entry_hard_expired e t2 = false := by
  rw [hard_expired_false_iff, h1, h2]
  rcases hw with h | h
  · exact Or.inl h
  · exact Or.inr (by omega)

/-- A fetch on a cache that is not busy whose chain for the key holds one entry, of that
key and not hard-expired: what the copy-out of the entry gives. -/
theorem fetch_of_chain (c : apc_cache_t) (key : zend_string) (t : Int) (e : apc_cache_entry_t)
    (hc : slot_chain c (apc_cache_hash_slot c key).2 = [e]) (hk : e.key = key)
    (hl : apc_cache_entry_hard_expired e t = false) (hb : apc_cache_busy c = false) :
    (apc_cache_fetch c key t).1 = (apc_cache_entry_fetch_zval c e).isSome ∧
    (apc_cache_fetch c key t).2.1 = apc_cache_entry_fetch_zval c e := by
  rw [fetch_hit c key t [] [] e hc (by simp) hk hl hb]
  exact ⟨rfl, rfl⟩

/-- C19, what the code does. When the pool has room for every allocation of the copy, the
round trip holds: after a successful store of a plain value (null, booleans, integers,
floats, strings, and arrays of these when no serializer is configured) with a pool serving
`2 + allocs val` requests, a fetch at a time at which the entry is not hard-expired returns
true with a value copy-equivalent to the one stored; and for an object, or an array with a
serializer configured, that the serializer encodes and decodes back, the fetch returns the
value itself. But an allocation that fails inside an array is not reported: with a pool that
serves only 4 requests the store of `{"x": "s"}` returns true, the entry holds an empty
array, and the fetch returns true with an empty array. -/
theorem C19_round_trip (c : apc_cache_t) (key : zend_string) (val : zval) (ttl : Int)
    (exclusive : Bool) (t now : Int) (owner : Nat) (n : Nat) (t2 : Int)
    (hn : 0 < c.nslots)
    (hs : (apc_cache_store c key val ttl exclusive t now owner (some n)).1 = true)
    (hb : apc_cache_busy (apc_cache_store c key val ttl exclusive t now owner (some n)).2 =
      false)
    (hw : ttl = 0 ∨ t2 ≤ t + ttl) :
    (plain val = true → (c.serializer = none ∨ ∀ ht, val ≠ .array ht) →
      2 + allocs val ≤ n →
      ∃ w, (apc_cache_fetch (apc_cache_store c key val ttl exclusive t now owner
          (some n)).2 key t2).1 = true ∧
        (apc_cache_fetch (apc_cache_store c key val ttl exclusive t now owner
          (some n)).2 key t2).2.1 = some w ∧
        copy_equiv val w = true) ∧
    (goes_through_serializer c val → 3 ≤ n →
      ∀ b, (cache_serializer c).serialize val = { buf := some b, exception := false } →
        (cache_serializer c).unserialize b = some val →
        (apc_cache_fetch (apc_cache_store c key val ttl exclusive t now owner
          (some n)).2 key t2).1 = true ∧
        (apc_cache_fetch (apc_cache_store c key val ttl exclusive t now owner
          (some n)).2 key t2).2.1 = some val) ∧
    ((apc_cache_store demo_cache key_a demo_string_array 0 false 100 100 1 (some 4)).1 =
        true ∧
     slot_chain (apc_cache_store demo_cache key_a demo_string_array 0 false 100 100 1
        (some 4)).2 1 = [demo_truncated_entry] ∧
     demo_truncated_entry.val = .array (.mk false 8 4294967288 0 0 HT_INVALID_IDX .nil) ∧
     (apc_cache_fetch (apc_cache_store demo_cache key_a demo_string_array 0 false 100 100 1
        (some 4)).2 key_a 101).1 = true ∧
     (apc_cache_fetch (apc_cache_store demo_cache key_a demo_string_array 0 false 100 100 1
        (some 4)).2 key_a 101).2.1 =
       some (.array (.mk false 8 HT_MIN_MASK 0 0 HT_INVALID_IDX .nil)) ∧
     copy_equiv demo_string_array (.array (.mk false 8 HT_MIN_MASK 0 0 HT_INVALID_IDX .nil)) =
       false) := by
  have hev := fetch_of_chain (apc_cache_store demo_cache key_a demo_string_array 0 false 100
    100 1 (some 4)).2 key_a 101 demo_truncated_entry rfl rfl rfl rfl
  obtain ⟨e, pre, suf, n0, c3, hfm, hme, he, hser, hphp⟩ :=
    store_ok_entry c key val ttl exclusive t now owner n hn hs
  have hval : e.val = n0.val := by rw [he]; rfl
  have httl : e.ttl = n0.ttl := by rw [he]; rfl
  have hct : e.ctime = n0.ctime := by rw [he]; rfl
  refine ⟨?_, ?_, rfl, rfl, rfl, hev.1.trans rfl, hev.2.trans rfl, rfl⟩
  · intro hp hsel hroom
    obtain ⟨g1, g2, g3, g4⟩ := make_entry_plain _ key val ttl t hp hsel rfl
      (Or.inr (by show 1 + (1 + allocs val) ≤ n; omega)) n0 c3 hme
    have hl := not_hard_expired_of_window e ttl t t2 (httl.trans g3) (hct.trans g4) hw
    have hsel2 : (apc_cache_store c key val ttl exclusive t now owner (some n)).2.serializer
        = none ∨ ∀ ht, e.val ≠ .array ht := by
      rcases hsel with h | h
      · exact Or.inl (hser.trans h)
      · right
        rw [hval]
        exact plain_not_array g1 h
    obtain ⟨w, k1, k2⟩ := fetch_zval_plain
      (apc_cache_store c key val ttl exclusive t now owner (some n)).2 e
      (by rw [hval]; exact g2) hsel2
    rw [fetch_hit _ key t2 pre suf e hfm.1 hfm.2.1 hfm.2.2 hl hb, k1]
    refine ⟨w, rfl, rfl, ?_⟩
    rw [hval] at k2
    exact copy_equiv_trans val n0.val w g1 k2
  · intro hk hroom b henc hdec
    obtain ⟨g1, g3, g4⟩ := make_entry_encoded c _ key val b ttl t hk henc rfl rfl rfl rfl
      hroom n0 c3 hme
    have hl := not_hard_expired_of_window e ttl t t2 (httl.trans g3) (hct.trans g4) hw
    have hcs : cache_serializer
        (apc_cache_store c key val ttl exclusive t now owner (some n)).2 =
        cache_serializer c := by
      unfold cache_serializer
      rw [hser, hphp]
    have hst : stored_serialized
        (apc_cache_store c key val ttl exclusive t now owner (some n)).2 e.val := by
      rw [hval, g1]
      have := stored_of_goes_through c val b hk
      unfold stored_serialized at this ⊢
      rw [hser]
      exact this
    have hf := fetch_zval_decoded
      (apc_cache_store c key val ttl exclusive t now owner (some n)).2 e (Z_TYPE val) b val
      (hval.trans g1) hst (by rw [hcs]; exact hdec)
    rw [fetch_hit _ key t2 pre suf e hfm.1 hfm.2.1 hfm.2.2 hl hb, hf]
    exact ⟨rfl, rfl⟩

/-- C19 run on the store of `{"x": "s"}` into the empty cache with a pool serving six
requests: the fetch returns a copy-equivalent value. -/
theorem C19_round_trip_witness :
    ∃ w, (apc_cache_fetch (apc_cache_store demo_cache key_a demo_string_array 0 false 100
        100 1 (some 6)).2 key_a 101).1 = true ∧
      (apc_cache_fetch (apc_cache_store demo_cache key_a demo_string_array 0 false 100
        100 1 (some 6)).2 key_a 101).2.1 = some w ∧
      copy_equiv demo_string_array w = true :=
  (C19_round_trip demo_cache key_a demo_string_array 0 false 100 100 1 6 101 (by decide) rfl
    rfl (Or.inl rfl)).1 rfl (Or.inl rfl) (by decide)

theorem prime_table_eq : prime_table =
    [257, 521, 1031, 2053, 3079, 4099, 5147, 6151, 7177, 8209, 9221, 10243, 11273, 12289, 13313,
     14341, 15361, 16411, 17417, 18433, 19457, 20483, 30727, 40961, 61441, 81929, 122887, 163841,
     245771, 327689, 491527, 655373, 983063] := by
  decide

/-- The walk of `make_prime` over primes followed by the sentinel: the first prime above `n`,
else the last prime walked over. -/
theorem make_prime_walk_find (n : Int) : ∀ (ps : List Int) (tl : List Int) (prev : Int),
    (∀ k ∈ ps, k ≠ 0) →
    make_prime_walk n (ps ++ 0 :: tl) prev =
      match ps.find? (fun k => decide (k > n)) with
      | some k => k
      | none => (prev :: ps).getLast (List.cons_ne_nil _ _) := by
  intro ps
  induction ps with
  | nil => intro tl prev _; simp [make_prime_walk]
  | cons k rest ih =>
    intro tl prev hnz
    have hk : k ≠ 0 := hnz k (List.mem_cons_self _ _)
    have hrest : ∀ x ∈ rest, x ≠ 0 := fun x hx => hnz x (List.mem_cons_of_mem _ hx)
    rw [List.cons_append, make_prime_walk, if_neg hk]
    by_cases hgt : k > n
    · rw [if_pos hgt]; simp [List.find?, hgt]
    · rw [if_neg hgt, ih tl k hrest]
      simp only [List.find?, hgt, decide_False]
      cases rest.find? (fun k => decide (k > n)) with
      | some x => rfl
      | none => simp [List.getLast_cons]

theorem make_prime_find (n : Int) :
    make_prime n =
      match prime_table.find? (fun k => decide (k > n)) with
      | some k => k
      | none => 983063 := by
  have h := make_prime_walk_find n prime_table [] 0 (by rw [prime_table_eq]; decide)
  have hp : primes = prime_table ++ 0 :: [] := by rw [prime_table_eq]; rfl
  unfold make_prime
  rw [hp, h]
  cases prime_table.find? (fun k => decide (k > n)) with
  | some x => rfl
  | none => simp [prime_table_eq]

theorem prime_table_sorted : prime_table.Pairwise (· < ·) := by
  rw [prime_table_eq]; decide

/-- When the table holds a prime above `n`, `make_prime n` is the smallest such prime. -/
theorem make_prime_above (n : Int) (h : ∃ p ∈ prime_table, n < p) :
    smallest_above n (make_prime n) := by
  rw [make_prime_find]
  cases hf : prime_table.find? (fun k => decide (k > n)) with
  | none =>
    obtain ⟨p, hp, hlt⟩ := h
    have := List.find?_eq_none.mp hf p hp
    simp at this
    omega
  | some k =>
    obtain ⟨hk, as, bs, hsplit, has⟩ := List.find?_eq_some.mp hf
    have hk2 : n < k := by simpa using hk
    refine ⟨?_, hk2, ?_⟩
    · rw [hsplit]; simp
    · intro p hp hlt
      rw [hsplit] at hp
      rcases List.mem_append.mp hp with ha | hb
      · have := has p ha
        simp at this
        omega
      · rcases List.mem_cons.mp hb with rfl | hb2
        · exact le_refl _
        · have hs := prime_table_sorted
          rw [hsplit] at hs
          have hs2 := (List.pairwise_append.mp hs).2.1
          exact le_of_lt (List.rel_of_pairwise_cons hs2 hb2)

/-- When no prime of the table is above `n`, `make_prime n` is the last prime of the table. -/
theorem make_prime_top (n : Int) (h : ∀ p ∈ prime_table, p ≤ n) : make_prime n = 983063 := by
  rw [make_prime_find]
  cases hf : prime_table.find? (fun k => decide (k > n)) with
  | none => rfl
  | some k =>
    obtain ⟨hk, as, bs, hsplit, _⟩ := List.find?_eq_some.mp hf
    have hk2 : n < k := by simpa using hk
    have : k ∈ prime_table := by rw [hsplit]; simp
    have := h k this
    omega

theorem make_prime_pos (n : Int) : 0 < make_prime n := by
  rw [make_prime_find]
  cases hf : prime_table.find? (fun k => decide (k > n)) with
  | none => decide
  | some k =>
    obtain ⟨_, as, bs, hsplit, _⟩ := List.find?_eq_some.mp hf
    have hk : k ∈ prime_table := by rw [hsplit]; simp
    have hall : ∀ p ∈ prime_table, 0 < p := by rw [prime_table_eq]; decide
    exact hall k hk

/-- The slot count of a created cache, as an integer. -/
theorem create_nslots (sma : apc_sma_t) (serializer : Option apc_serializer_t)
    (php : apc_serializer_t) (size_hint gc_ttl ttl smart : Int) (defend : Bool) (stime : Int) :
    ((apc_cache_create sma serializer php size_hint gc_ttl ttl smart defend stime).nslots : Int)
      = make_prime (int32_t_cast (if size_hint > 0 then size_hint else 2000)) := by
  unfold apc_cache_create apc_cache_t.nslots
  simp only [List.length_replicate]
  exact Int.toNat_of_nonneg (le_of_lt (make_prime_pos _))

theorem exists_above_of_lt (h : Int) (hlt : h < 983063) : ∃ p ∈ prime_table, h < p :=
  ⟨983063, by rw [prime_table_eq]; decide, hlt⟩

theorem all_le_of_ge (h : Int) (hge : 983063 ≤ h) : ∀ p ∈ prime_table, p ≤ h := by
  intro p hp
  have hall : ∀ p ∈ prime_table, p ≤ 983063 := by rw [prime_table_eq]; decide
  have := hall p hp
  omega

theorem created_nslots_eq (h : Int) :
    created_nslots h = (make_prime (int32_t_cast (if h > 0 then h else 2000))).toNat := by
  unfold created_nslots apc_cache_create apc_cache_t.nslots
  simp only [List.length_replicate]

/-- C21, as the claim states it, fails: the hint 0 gives 2053 slots although 257 is the
smallest table entry above 0, and the hint 4294967301 gives 257 slots although no table
entry is above it. -/
theorem C21_counterexample :
    created_nslots 0 = 2053 ∧ smallest_above 0 257 ∧
    created_nslots 4294967301 = 257 ∧ (∀ p ∈ prime_table, p ≤ 4294967301) := by
  refine ⟨by rw [created_nslots_eq]; rfl, ⟨?_, by decide, ?_⟩,
    by rw [created_nslots_eq]; rfl, ?_⟩
  · rw [prime_table_eq]; decide
  · rw [prime_table_eq]; decide
  · rw [prime_table_eq]; decide

/-- C21, amended: for every size hint `h` below 2^31 passed to `apc_cache_create`, with `e`
the hint in force (`h` when positive, else 2000), the slot count is the smallest entry of the
prime table strictly greater than `e`, or the last entry 983063 when no entry is greater. -/
theorem C21_slot_count (sma : apc_sma_t) (serializer : Option apc_serializer_t)
    (php : apc_serializer_t) (h gc_ttl ttl smart : Int) (defend : Bool) (stime : Int)
    (hint : h < 2147483648) :
    ((∃ p ∈ prime_table, (if h > 0 then h else 2000) < p) →
      smallest_above (if h > 0 then h else 2000)
        (apc_cache_create sma serializer php h gc_ttl ttl smart defend stime).nslots) ∧
    ((∀ p ∈ prime_table, p ≤ (if h > 0 then h else 2000)) →
      ((apc_cache_create sma serializer php h gc_ttl ttl smart defend stime).nslots : Int)
        = 983063) := by
  have hc : int32_t_cast (if h > 0 then h else 2000) = (if h > 0 then h else 2000) := by
    apply int32_t_cast_id <;> split <;> omega
  rw [create_nslots, hc]
  exact ⟨make_prime_above _, make_prime_top _⟩

theorem C21_slot_count_witness :
    (300 : Int) < 2147483648 ∧ smallest_above 300 (created_nslots 300) ∧
      created_nslots 300 = 521 :=
  ⟨by decide,
    (C21_slot_count demo_sma none demo_serializer 300 3600 0 0 false 0 (by decide)).1
      ⟨521, by rw [prime_table_eq]; decide, by decide⟩,
    by rw [created_nslots_eq]; rfl⟩

/-- C22, as the claim states it, fails: the hint 257 is a prime of the table, and the cache
created for it has 521 slots. -/
theorem C22_counterexample :
    (0 : Int) < 257 ∧ (257 : Int) ≤ 983063 ∧ smallest_at_least 257 257 ∧
      created_nslots 257 = 521 := by
  refine ⟨by decide, by decide, ⟨?_, by decide, ?_⟩, by rw [created_nslots_eq]; rfl⟩
  · rw [prime_table_eq]; decide
  · rw [prime_table_eq]; decide

/-- C22, amended: for every size hint `0 < h ≤ 983063` the slot count chosen by
`apc_cache_create` is the smallest prime of the table strictly greater than `h` when `h` is
below 983063, and 983063 when `h` is 983063; so it is the smallest table prime `≥ h` exactly
when `h` is not a table prime below 983063. A hint that is not positive gives the slot count
of the hint 2000. -/
theorem C22_slot_count_at_least (sma : apc_sma_t) (serializer : Option apc_serializer_t)
    (php : apc_serializer_t) (h gc_ttl ttl smart : Int) (defend : Bool) (stime : Int)
    (hpos : 0 < h) (hmax : h ≤ 983063) :
    (h < 983063 → smallest_above h
      (apc_cache_create sma serializer php h gc_ttl ttl smart defend stime).nslots) ∧
    (h = 983063 → smallest_at_least h
      (apc_cache_create sma serializer php h gc_ttl ttl smart defend stime).nslots) ∧
    (h ∉ prime_table → smallest_at_least h
      (apc_cache_create sma serializer php h gc_ttl ttl smart defend stime).nslots) ∧
    (h ∈ prime_table → h < 983063 → ¬ smallest_at_least h
      (apc_cache_create sma serializer php h gc_ttl ttl smart defend stime).nslots) ∧
    (∀ d : Int, d ≤ 0 →
      (apc_cache_create sma serializer php d gc_ttl ttl smart defend stime).nslots =
        (apc_cache_create sma serializer php 2000 gc_ttl ttl smart defend stime).nslots) := by
  have hc : int32_t_cast (if h > 0 then h else 2000) = h := by
    rw [if_pos hpos]; exact int32_t_cast_id h (by omega) (by omega)
  have habove : h < 983063 → smallest_above h (make_prime h) := fun hlt =>
    make_prime_above h (exists_above_of_lt h hlt)
  rw [create_nslots, hc]
  refine ⟨habove, ?_, ?_, ?_, ?_⟩
  · intro he
    rw [make_prime_top h (all_le_of_ge h (by omega)), he]
    refine ⟨by rw [prime_table_eq]; decide, le_refl _, fun p _ hp => hp⟩
  · intro hnot
    have hlt : h < 983063 := by
      rcases lt_or_eq_of_le hmax with hl | he
      · exact hl
      · exfalso; apply hnot; rw [he, prime_table_eq]; decide
    obtain ⟨hm, hl, hmin⟩ := habove hlt
    refine ⟨hm, le_of_lt hl, fun p hp hle => hmin p hp ?_⟩
    rcases lt_or_eq_of_le hle with hl2 | he2
    · exact hl2
    · exfalso; apply hnot; rw [he2]; exact hp
  · intro hmem hlt hsm
    obtain ⟨_, hl, _⟩ := habove hlt
    have := hsm.2.2 h hmem (le_refl _)
    omega
  · intro d hd
    unfold apc_cache_create apc_cache_t.nslots
    simp only [List.length_replicate]
    rw [if_neg (by omega), if_pos (by decide)]

theorem C22_slot_count_at_least_witness :
    (0 : Int) < 300 ∧ (300 : Int) ≤ 983063 ∧ smallest_at_least 300 (created_nslots 300) :=
  ⟨by decide, by decide,
    (C22_slot_count_at_least demo_sma none demo_serializer 300 3600 0 0 false 0 (by decide)
      (by decide)).2.2.1 (by rw [prime_table_eq]; decide)⟩

theorem gc_walk_filter (gc_ttl now : Int) : ∀ (l : List apc_cache_entry_t) (sma : apc_sma_t),
    (gc_walk gc_ttl now l sma).1 = l.filter (fun e => !gc_frees gc_ttl now e) ∧
    (gc_walk gc_ttl now l sma).2.destroyed =
      ((l.filter (fun e => gc_frees gc_ttl now e)).map fun e => e.pool.addr).reverse
        ++ sma.destroyed ∧
    (gc_walk gc_ttl now l sma).2.brk = sma.brk ∧ (gc_walk gc_ttl now l sma).2.size = sma.size := by
  intro l
  induction l with
  | nil => intro sma; simp [gc_walk]
  | cons e rest ih =>
    intro sma
    have hiff : (e.ref_count = 0 ∨ (if gc_ttl ≠ 0 then now - e.dtime else 0) > gc_ttl) ↔
        gc_frees gc_ttl now e = true := by
      unfold gc_frees
      simp only [decide_eq_true_eq]
      by_cases hz : gc_ttl = 0
      · subst hz; simp
      · simp [hz]
    by_cases hf : gc_frees gc_ttl now e = true
    · have hc := hiff.mpr hf
      rw [gc_walk]
      simp only [hc, if_true]
      obtain ⟨h1, h2, h3, h4⟩ := ih (apc_pool_destroy e.pool sma)
      refine ⟨?_, ?_, ?_, ?_⟩
      · rw [h1]; simp [List.filter, hf]
      · rw [h2]; simp [List.filter, hf, apc_pool_destroy]
      · rw [h3]; rfl
      · rw [h4]; rfl
    · have hc : ¬(e.ref_count = 0 ∨ (if gc_ttl ≠ 0 then now - e.dtime else 0) > gc_ttl) :=
        fun h => hf (hiff.mp h)
      rw [gc_walk]
      simp only [hc, if_false]
      obtain ⟨h1, h2, h3, h4⟩ := ih sma
      have hf2 : gc_frees gc_ttl now e = false := by simpa using hf
      refine ⟨?_, ?_, h3, h4⟩
      · rw [h1]; simp [List.filter, hf2]
      · rw [h2]; simp [List.filter, hf2]

theorem gc_frees_cases (gc_ttl now : Int) (e : apc_cache_entry_t) :
    gc_frees gc_ttl now e =
      (gc_frees_positive gc_ttl now e ||
        (decide (gc_ttl < 0) && decide (now - e.dtime > gc_ttl))) := by
  unfold gc_frees gc_frees_positive
  rw [Bool.eq_iff_iff]
  simp only [Bool.or_eq_true, Bool.and_eq_true, decide_eq_true_eq]
  constructor
  · rintro (h | ⟨h1, h2⟩)
    · exact Or.inl (Or.inl h)
    · rcases lt_or_gt_of_ne h1 with hl | hg
      · exact Or.inr ⟨hl, h2⟩
      · exact Or.inl (Or.inr ⟨hg, h2⟩)
  · rintro ((h | ⟨h1, h2⟩) | ⟨h1, h2⟩)
    · exact Or.inl h
    · exact Or.inr ⟨by omega, h2⟩
    · exact Or.inr ⟨by omega, h2⟩

/-- C26, as the claim states it, fails: with `gc_ttl = -1` the sweep at second 100 frees an
entry put on the GC list at second 100 with one reference out, which the claimed test (no
reference out, or `gc_ttl > 0` and `now - dtime > gc_ttl`) keeps. -/
theorem C26_counterexample :
    (apc_cache_wlocked_gc demo_negative_gc_cache 100).header.gc = [] ∧
    (apc_cache_wlocked_gc demo_negative_gc_cache 100).sma.destroyed = [7] ∧
    demo_negative_gc_cache.header.gc.filter
      (fun e => !gc_frees_positive demo_negative_gc_cache.gc_ttl 100 e) =
        demo_negative_gc_cache.header.gc ∧
    (demo_negative_gc_cache.header.gc.map fun e => e.ref_count) = [1] := by
  refine ⟨by rfl, by rfl, by rfl, by rfl⟩

/-- C26, amended: for every GC list, `gc_ttl` and sweep time `now`, the sweep frees an entry
if and only if its `ref_count` is 0, or `gc_ttl` is not 0 and `now - dtime > gc_ttl`; the GC
list after the sweep is the sublist of the other entries in their order, the pools of the
freed entries are handed back, and nothing else of the cache changes. The test is the one
with `gc_ttl > 0` whenever `gc_ttl ≥ 0`; a negative `gc_ttl` frees every entry on the list
for more than `gc_ttl` seconds. An entry with `ref_count ≠ 0` is freed only by the timeout. -/
theorem C26_gc_sweep (c : apc_cache_t) (now : Int) :
    (apc_cache_wlocked_gc c now).header.gc =
      c.header.gc.filter (fun e => !gc_frees c.gc_ttl now e) ∧
    (apc_cache_wlocked_gc c now).sma.destroyed =
      ((c.header.gc.filter (fun e => gc_frees c.gc_ttl now e)).map fun e => e.pool.addr).reverse
        ++ c.sma.destroyed ∧
    (apc_cache_wlocked_gc c now).slots = c.slots ∧
    (apc_cache_wlocked_gc c now).header.mem_size = c.header.mem_size ∧
    (apc_cache_wlocked_gc c now).header.nentries = c.header.nentries ∧
    (∀ e, gc_frees c.gc_ttl now e =
      (gc_frees_positive c.gc_ttl now e ||
        (decide (c.gc_ttl < 0) && decide (now - e.dtime > c.gc_ttl)))) ∧
    (∀ e ∈ c.header.gc, e.ref_count ≠ 0 → ¬(c.gc_ttl ≠ 0 ∧ now - e.dtime > c.gc_ttl) →
      e ∈ (apc_cache_wlocked_gc c now).header.gc) := by
  have hgc : (apc_cache_wlocked_gc c now).header.gc =
      c.header.gc.filter (fun e => !gc_frees c.gc_ttl now e) := by
    unfold apc_cache_wlocked_gc
    cases hg : c.header.gc with
    | nil => simp [hg]
    | cons g rest => exact (gc_walk_filter c.gc_ttl now (g :: rest) c.sma).1
  refine ⟨hgc, ?_, ?_, ?_, ?_, fun e => gc_frees_cases c.gc_ttl now e, ?_⟩
  · unfold apc_cache_wlocked_gc
    cases hg : c.header.gc with
    | nil => simp
    | cons g rest => exact (gc_walk_filter c.gc_ttl now (g :: rest) c.sma).2.1
  · unfold apc_cache_wlocked_gc
    cases hg : c.header.gc <;> rfl
  · unfold apc_cache_wlocked_gc
    cases hg : c.header.gc <;> rfl
  · unfold apc_cache_wlocked_gc
    cases hg : c.header.gc <;> rfl
  · intro e he hr ht
    rw [hgc]
    refine List.mem_filter.mpr ⟨he, ?_⟩
    unfold gc_frees
    simp only [Bool.not_eq_true', decide_eq_false_iff_not]
    rintro (h | h)
    · exact hr h
    · exact ht h

theorem C26_gc_sweep_witness :
    (apc_cache_wlocked_gc demo_negative_gc_cache 98).header.gc =
      demo_negative_gc_cache.header.gc :=
  (C26_gc_sweep demo_negative_gc_cache 98).1.trans (by rfl)



/-- The walk of an insert over a chain with no entry of the key: the entries not expired
stay, the expired ones are removed, and the cursor ends behind the last entry. -/
theorem insert_walk_nomatch_eq (c0 : apc_cache_t) (h : Nat) (key : zend_string) (t now : Int)
    (exclusive : Bool) :
    ∀ (chain : List apc_cache_entry_t) (c : apc_cache_t), c.ttl = c0.ttl →
      (∀ x ∈ chain, key_match x.key h key = false) →
      insert_walk h key t now exclusive chain c =
        { ok := true
          before := chain.filter (fun x => !apc_cache_entry_expired c0 x t)
          after := []
          cache := remove_all now (chain.filter (fun x => apc_cache_entry_expired c0 x t)) c }
  | [], c, _, _ => rfl
  | a :: rest, c, httl, hno => by
    have ha := hno a (by simp)
    have hexp : apc_cache_entry_expired c a t = apc_cache_entry_expired c0 a t :=
      expired_congr c0 c a t httl
    by_cases hx : apc_cache_entry_expired c0 a t = true
    · rw [insert_walk]
      simp only [ha, hexp, hx, if_true, Bool.false_eq_true, if_false]
      rw [insert_walk_nomatch_eq c0 h key t now exclusive rest _
        ((remove_entry_frame c a now).2.2.2.2.2.2.2.2.2.2.2.1.trans httl)
        (fun x hx => hno x (by simp [hx]))]
      simp [List.filter, hx, remove_all]
    · have hx2 : apc_cache_entry_expired c0 a t = false := by simpa using hx
      rw [insert_walk]
      simp only [ha, hexp, hx2, Bool.false_eq_true, if_false]
      rw [insert_walk_nomatch_eq c0 h key t now exclusive rest c httl
        (fun x hx => hno x (by simp [hx]))]
      simp [List.filter, hx2]

/-- The walk of an insert that replaces the first entry of the key: the entries in front
that are not expired stay, the expired ones and the match are removed, and the cursor ends
at the successor of the match. -/
theorem insert_walk_match_eq (c0 : apc_cache_t) (h : Nat) (key : zend_string) (t now : Int)
    (exclusive : Bool) (e : apc_cache_entry_t) (suf : List apc_cache_entry_t)
    (he : key_match e.key h key = true)
    (hx : (exclusive && !apc_cache_entry_hard_expired e t) = false) :
    ∀ (pre : List apc_cache_entry_t) (c : apc_cache_t), c.ttl = c0.ttl →
      (∀ x ∈ pre, key_match x.key h key = false) →
      insert_walk h key t now exclusive (pre ++ e :: suf) c =
        { ok := true
          before := pre.filter (fun x => !apc_cache_entry_expired c0 x t)
          after := suf
          cache := remove_all now
            (pre.filter (fun x => apc_cache_entry_expired c0 x t) ++ [e]) c }
  | [], c, _, _ => by
    simp [insert_walk, he, hx, remove_all]
  | a :: pre, c, httl, hno => by
    have ha := hno a (by simp)
    have hexp : apc_cache_entry_expired c a t = apc_cache_entry_expired c0 a t :=
      expired_congr c0 c a t httl
    by_cases hxa : apc_cache_entry_expired c0 a t = true
    · rw [List.cons_append, insert_walk]
      simp only [ha, hexp, hxa, if_true, Bool.false_eq_true, if_false]
      rw [insert_walk_match_eq c0 h key t now exclusive e suf he hx pre _
        ((remove_entry_frame c a now).2.2.2.2.2.2.2.2.2.2.2.1.trans httl)
        (fun x hx => hno x (by simp [hx]))]
      simp [List.filter, hxa, remove_all]
    · have hx2 : apc_cache_entry_expired c0 a t = false := by simpa using hxa
      rw [List.cons_append, insert_walk]
      simp only [ha, hexp, hx2, Bool.false_eq_true, if_false]
      rw [insert_walk_match_eq c0 h key t now exclusive e suf he hx pre c httl
        (fun x hx => hno x (by simp [hx]))]
      simp [List.filter, hx2]

theorem gc_ttl_eq (c : apc_cache_t) (now : Int) : (apc_cache_wlocked_gc c now).ttl = c.ttl :=
  (gc_frame c now).2.2.2.2.2.2.2.2.2.2.2.1

theorem remove_all_slots (now : Int) (l : List apc_cache_entry_t) (c : apc_cache_t) :
    (remove_all now l c).slots = c.slots :=
  (remove_all_frame now l c).1

/-- An insert that meets an entry of the key and goes on: what it returns. -/
theorem wlocked_insert_match (c : apc_cache_t) (n : apc_cache_entry_t) (exclusive : Bool)
    (now : Int) (pre suf : List apc_cache_entry_t) (e : apc_cache_entry_t)
    (hfm : first_match c n.key pre e suf)
    (hx : (exclusive && !apc_cache_entry_hard_expired e n.ctime) = false) :
    apc_cache_wlocked_insert c n exclusive now =
      (true, link_cache
        { ok := true
          before := pre.filter (fun x => !apc_cache_entry_expired c x n.ctime)
          after := suf
          cache := remove_all now
            (pre.filter (fun x => apc_cache_entry_expired c x n.ctime) ++ [e])
            (apc_cache_wlocked_gc c now) }
        (apc_cache_hash_slot c n.key).2 n) := by
  obtain ⟨hc, hpre, he⟩ := hfm
  rw [wlocked_insert_eq, hc,
    insert_walk_match_eq c _ _ _ _ _ _ _ ((key_match_self_iff _ _).2 he) hx pre _
      (gc_ttl_eq c now) (fun x hx => (key_match_false_iff _ _).2 (hpre x hx))]
  rfl

/-- An insert into a chain with no entry of the key: what it returns. -/
theorem wlocked_insert_nomatch (c : apc_cache_t) (n : apc_cache_entry_t) (exclusive : Bool)
    (now : Int) (hno : no_match c n.key) :
    apc_cache_wlocked_insert c n exclusive now =
      (true, link_cache
        { ok := true
          before := (slot_chain c (apc_cache_hash_slot c n.key).2).filter
            (fun x => !apc_cache_entry_expired c x n.ctime)
          after := []
          cache := remove_all now
            ((slot_chain c (apc_cache_hash_slot c n.key).2).filter
              (fun x => apc_cache_entry_expired c x n.ctime))
            (apc_cache_wlocked_gc c now) }
        (apc_cache_hash_slot c n.key).2 n) := by
  rw [wlocked_insert_eq,
    insert_walk_nomatch_eq c _ _ _ _ _ _ _ (gc_ttl_eq c now)
      (fun x hx => (key_match_false_iff _ _).2 (hno x hx))]
  rfl

theorem link_cache_other (r : insert_cursor) (s i : Nat) (n : apc_cache_entry_t)
    (hi : i ≠ s) : slot_chain (link_cache r s n) i = slot_chain r.cache i := by
  unfold link_cache
  exact slot_chain_set_other _ _ _ _ (Ne.symm hi)

theorem wlocked_insert_other (c : apc_cache_t) (n : apc_cache_entry_t) (exclusive : Bool)
    (now : Int) (i : Nat) (hi : i ≠ (apc_cache_hash_slot c n.key).2) :
    slot_chain (apc_cache_wlocked_insert c n exclusive now).2 i = slot_chain c i := by
  have hsl : (insert_walk (ZSTR_HASH n.key) n.key n.ctime now exclusive
      (slot_chain c (apc_cache_hash_slot c n.key).2) (apc_cache_wlocked_gc c now)).cache.slots
        = c.slots := by
    rw [insert_walk_slots]; simp
  rw [wlocked_insert_eq]
  split
  · rw [link_cache_other _ _ _ _ hi]
    exact slot_chain_congr _ _ _ hsl
  · unfold unlink_cache
    rw [slot_chain_set_other _ _ _ _ (Ne.symm hi)]
    exact slot_chain_congr _ _ _ hsl

/-- C28: for every cache, new entry `n` and insert of it that succeeds, the chain of the slot
of `n.key` becomes: the entries in front of the first entry with the key that are not
expired (hard or soft) at `n.ctime`, in order, then `n` (with `mem_size` set), then the
entries behind that first match, untouched; when the chain holds no entry with the key it
becomes its entries that are not expired, in order, followed by `n`. The cache returned is
the one left by the GC sweep and by `apc_cache_wlocked_remove_entry` run on each expired
entry walked over and on the match, in chain order, with `n` linked and accounted for; the
other chains are unchanged. -/
theorem C28_insert_chain (c : apc_cache_t) (n : apc_cache_entry_t) (exclusive : Bool)
    (now : Int) (hn : 0 < c.nslots)
    (hok : (apc_cache_wlocked_insert c n exclusive now).1 = true) :
    (∀ pre e suf, first_match c n.key pre e suf →
      slot_chain (apc_cache_wlocked_insert c n exclusive now).2 (apc_cache_hash_slot c n.key).2
        = pre.filter (fun x => !apc_cache_entry_expired c x n.ctime)
            ++ linked_entry n :: suf ∧
      (apc_cache_wlocked_insert c n exclusive now).2 =
        link_cache
          { ok := true
            before := pre.filter (fun x => !apc_cache_entry_expired c x n.ctime)
            after := suf
            cache := remove_all now
              (pre.filter (fun x => apc_cache_entry_expired c x n.ctime) ++ [e])
              (apc_cache_wlocked_gc c now) }
          (apc_cache_hash_slot c n.key).2 n) ∧
    (no_match c n.key →
      slot_chain (apc_cache_wlocked_insert c n exclusive now).2 (apc_cache_hash_slot c n.key).2
        = (slot_chain c (apc_cache_hash_slot c n.key).2).filter
            (fun x => !apc_cache_entry_expired c x n.ctime) ++ [linked_entry n] ∧
      (apc_cache_wlocked_insert c n exclusive now).2 =
        link_cache
          { ok := true
            before := (slot_chain c (apc_cache_hash_slot c n.key).2).filter
              (fun x => !apc_cache_entry_expired c x n.ctime)
            after := []
            cache := remove_all now
              ((slot_chain c (apc_cache_hash_slot c n.key).2).filter
                (fun x => apc_cache_entry_expired c x n.ctime))
              (apc_cache_wlocked_gc c now) }
          (apc_cache_hash_slot c n.key).2 n) ∧
    (∀ i, i ≠ (apc_cache_hash_slot c n.key).2 →
      slot_chain (apc_cache_wlocked_insert c n exclusive now).2 i = slot_chain c i) := by
  have hlt : (apc_cache_hash_slot c n.key).2 < c.slots.length := slot_lt c n.key hn
  refine ⟨?_, ?_, fun i hi => wlocked_insert_other c n exclusive now i hi⟩
  · intro pre e suf hfm
    have hx : (exclusive && !apc_cache_entry_hard_expired e n.ctime) = false := by
      cases hex : exclusive with
      | false => rfl
      | true =>
        cases hl : apc_cache_entry_hard_expired e n.ctime with
        | true => rfl
        | false =>
          subst hex
          rw [wlocked_insert_conflict c n now pre suf e hfm hl] at hok
          simp at hok
    rw [wlocked_insert_match c n exclusive now pre suf e hfm hx]
    refine ⟨?_, rfl⟩
    exact link_cache_chain _ _ _ (by
      show _ < (remove_all now _ (apc_cache_wlocked_gc c now)).slots.length
      rw [remove_all_slots, gc_slots]; exact hlt)
  · intro hno
    rw [wlocked_insert_nomatch c n exclusive now hno]
    refine ⟨?_, rfl⟩
    exact link_cache_chain _ _ _ (by
      show _ < (remove_all now _ (apc_cache_wlocked_gc c now)).slots.length
      rw [remove_all_slots, gc_slots]; exact hlt)

theorem C28_insert_chain_witness :
    0 < demo_two_cache.nslots ∧
    (apc_cache_wlocked_insert demo_two_cache (demo_entry key_a 9 0 5 3) false 5).1 = true ∧
    slot_chain (apc_cache_wlocked_insert demo_two_cache (demo_entry key_a 9 0 5 3) false 5).2 1
      = [linked_entry (demo_entry key_a 9 0 5 3)] :=
  ⟨by decide, by rfl,
    ((C28_insert_chain demo_two_cache (demo_entry key_a 9 0 5 3) false 5 (by decide)
      (by rfl)).1 [demo_entry key_d 7 1 0 1] (demo_entry key_a 1 0 0 2) []
        ⟨rfl, by simp [demo_entry, key_d, key_a], rfl⟩).1.trans (by rfl)⟩

/-! ## Chain consistency -/

theorem store_other (c : apc_cache_t) (k2 : zend_string) (val : zval) (ttl : Int)
    (exclusive : Bool) (t now : Int) (owner : Nat) (grant : Option Nat) (i : Nat)
    (hi : i ≠ (apc_cache_hash_slot c k2).2) :
    slot_chain (apc_cache_store c k2 val ttl exclusive t now owner grant).2 i =
      slot_chain c i := by
  rcases store_cases c k2 val ttl exclusive t now owner grant with
    ⟨lk, sma2, h⟩ | ⟨lk, n, ctxt, c3, c1, hc1, hme, _, _, _, _, _, h⟩
  · rw [h]; rfl
  · obtain ⟨p1, _⟩ := store_prepared c c1 lk hc1
    clear hc1
    obtain ⟨f1, _⟩ := make_entry_some _ _ _ _ _ _ _ hme
    have hslot : apc_cache_hash_slot c1 n.key = apc_cache_hash_slot c k2 := by
      rw [f1]; exact hash_slot_congr c c1 k2 (by rw [p1])
    have ho := wlocked_insert_other c1 n exclusive now i (by rw [hslot]; exact hi)
    rw [slot_chain_congr c c1 i p1] at ho
    rw [h]
    split
    · exact ho
    · exact ho

theorem store_chain_mem (c : apc_cache_t) (k2 : zend_string) (val : zval) (ttl : Int)
    (exclusive : Bool) (t now : Int) (owner : Nat) (grant : Option Nat) (i : Nat) :
    ∀ x ∈ slot_chain (apc_cache_store c k2 val ttl exclusive t now owner grant).2 i,
      x ∈ slot_chain c i ∨ (x.key = k2 ∧ i = (apc_cache_hash_slot c k2).2) := by
  intro x hx
  by_cases hi : i = (apc_cache_hash_slot c k2).2
  · obtain ⟨l1, l2, hd, hcase⟩ := store_chains c k2 val ttl exclusive t now owner grant i
    have hsub := (dropped_sublist hd).subset
    rcases hcase with h1 | ⟨n, hk, h1, _⟩
    · rw [h1] at hx; exact Or.inl (hsub hx)
    · rw [h1] at hx
      rcases List.mem_append.1 hx with hx | hx
      · exact Or.inl (hsub (List.mem_append_left _ hx))
      · rcases List.mem_cons.1 hx with rfl | hx
        · exact Or.inr ⟨hk, hi⟩
        · exact Or.inl (hsub (List.mem_append_right _ hx))
  · rw [store_other c k2 val ttl exclusive t now owner grant i hi] at hx
    exact Or.inl hx

theorem consistent_of_keys (c c2 : apc_cache_t) (hcf : config_frame c c2)
    (h : ∀ i, ∀ x ∈ slot_chain c2 i, ∃ y ∈ slot_chain c i, y.key = x.key)
    (hc : chain_consistent c) : chain_consistent c2 := by
  intro s e he
  obtain ⟨y, hy, hk⟩ := h s e he
  rw [hash_slot_congr c c2 e.key hcf.1, ← hk]
  exact hc s y hy

theorem keys_of_rewritten {l l2 : List apc_cache_entry_t} (h : List.Forall₂ same_entry l l2) :
    ∀ x ∈ l2, ∃ y ∈ l, y.key = x.key := by
  induction h with
  | nil => simp
  | cons hab _ ih =>
    intro x hx
    rcases List.mem_cons.1 hx with rfl | hx
    · exact ⟨_, List.mem_cons_self _ _, hab.1.symm⟩
    · obtain ⟨y, hy, hk⟩ := ih x hx
      exact ⟨y, List.mem_cons_of_mem _ hy, hk⟩

theorem consistent_of_rewritten (c c2 : apc_cache_t) (hcf : config_frame c c2)
    (h : ∀ i, List.Forall₂ same_entry (slot_chain c i) (slot_chain c2 i))
    (hc : chain_consistent c) : chain_consistent c2 :=
  consistent_of_keys c c2 hcf (fun i => keys_of_rewritten (h i)) hc

theorem consistent_of_dropped (c c2 : apc_cache_t) {p : apc_cache_entry_t → Prop}
    (hcf : config_frame c c2) (h : ∀ i, dropped p (slot_chain c i) (slot_chain c2 i))
    (hc : chain_consistent c) : chain_consistent c2 :=
  consistent_of_keys c c2 hcf
    (fun i x hx => ⟨x, (dropped_sublist (h i)).subset hx, rfl⟩) hc

theorem store_consistent (c : apc_cache_t) (k2 : zend_string) (val : zval) (ttl : Int)
    (exclusive : Bool) (t now : Int) (owner : Nat) (grant : Option Nat)
    (hc : chain_consistent c) :
    chain_consistent (apc_cache_store c k2 val ttl exclusive t now owner grant).2 := by
  intro s e he
  rw [hash_slot_congr c _ e.key (store_config c k2 val ttl exclusive t now owner grant).1]
  rcases store_chain_mem c k2 val ttl exclusive t now owner grant s e he with h | ⟨hk, hs⟩
  · exact hc s e h
  · rw [hk, hs]

theorem step_consistent (c : apc_cache_t) (op : Op) (h : chain_consistent c) :
    chain_consistent (step c op) := by
  cases op with
  | store key val ttl exclusive t now owner grant =>
    exact store_consistent c key val ttl exclusive t now owner grant h
  | find key t => exact consistent_of_rewritten c _ (find_config c key t) (find_chains c key t) h
  | fetch key t =>
    exact consistent_of_rewritten c _ (fetch_config c key t) (fetch_chains c key t) h
  | exists_ key t => exact h
  | release entry =>
    exact consistent_of_rewritten c _ (release_config c entry) (release_chains c entry) h
  | update key updater ins ttl t now owner grant =>
    obtain ⟨cm, hcm, hcf, hrw⟩ := update_cache_cases c key updater ins ttl t now owner grant
    apply consistent_of_rewritten cm _ hcf hrw
    rcases hcm with rfl | ⟨_, _, rfl⟩
    · exact h
    · exact store_consistent c key _ _ true t now owner grant h
  | delete key now =>
    exact consistent_of_dropped c _ (delete_config c key now) (delete_chains c key now) h
  | clear t now =>
    exact consistent_of_dropped c _ (clear_config c t now) (clear_chains c t now) h
  | expunge size t now available avail_size =>
    exact consistent_of_dropped c _ (expunge_config c size t now available avail_size)
      (expunge_chains c size t now available avail_size) h

theorem run_consistent : ∀ (ops : List Op) (c : apc_cache_t), chain_consistent c →
    chain_consistent (run c ops)
  | [], _, h => h
  | op :: ops, c, h => by
    unfold run
    simp only [List.foldl_cons]
    exact run_consistent ops (step c op) (step_consistent c op h)

theorem run_config : ∀ (ops : List Op) (c : apc_cache_t), config_frame c (run c ops)
  | [], c => config_frame_refl c
  | op :: ops, c => by
    unfold run
    simp only [List.foldl_cons]
    exact config_frame_trans (step_config c op) (run_config ops (step c op))

theorem create_chain_nil (sma : apc_sma_t) (serializer : Option apc_serializer_t)
    (php : apc_serializer_t) (size_hint gc_ttl ttl smart : Int) (defend : Bool) (stime : Int)
    (i : Nat) :
    slot_chain (apc_cache_create sma serializer php size_hint gc_ttl ttl smart defend stime) i
      = [] := by
  have hrep : ∀ n : Nat, (List.replicate n ([] : List apc_cache_entry_t)).getD i [] = [] := by
    intro n
    rw [List.getD_eq_getElem?_getD, List.getElem?_replicate]
    split <;> rfl
  unfold slot_chain apc_cache_create
  exact hrep _

theorem create_consistent (sma : apc_sma_t) (serializer : Option apc_serializer_t)
    (php : apc_serializer_t) (size_hint gc_ttl ttl smart : Int) (defend : Bool) (stime : Int) :
    chain_consistent
      (apc_cache_create sma serializer php size_hint gc_ttl ttl smart defend stime) := by
  intro s e he
  rw [create_chain_nil] at he
  simp at he

theorem reachable_consistent (c : apc_cache_t) (h : Reachable c) : chain_consistent c := by
  obtain ⟨sma, serializer, php, size_hint, gc_ttl, ttl, smart, defend, stime, ops, rfl⟩ := h
  exact run_consistent ops _ (create_consistent sma serializer php size_hint gc_ttl ttl smart
    defend stime)

theorem demo_two_consistent : chain_consistent demo_two_cache := by
  intro s e he
  match s with
  | 0 => simp [demo_two_cache, slot_chain, set_slot_chain, demo_cache] at he
  | 1 =>
    have hc : slot_chain demo_two_cache 1 =
        [demo_entry key_d 7 1 0 1, demo_entry key_a 1 0 0 2] := rfl
    rw [hc] at he
    simp only [List.mem_cons, List.mem_singleton, List.not_mem_nil, or_false] at he
    rcases he with rfl | rfl <;> rfl
  | 2 => simp [demo_two_cache, slot_chain, set_slot_chain, demo_cache] at he
  | s + 3 => simp [demo_two_cache, slot_chain, set_slot_chain, demo_cache] at he

/-- C30: the cache that `apc_cache_create` builds is chain-consistent, every public
operation run on a chain-consistent cache leaves a chain-consistent cache with the same slot
count, and so in every cache reached from a created one every entry chained in slot `s` has
`hash(key) mod N = s`, with `N` the slot count fixed at creation. -/
theorem C30_chain_consistency (sma : apc_sma_t) (serializer : Option apc_serializer_t)
    (php : apc_serializer_t) (size_hint gc_ttl ttl smart : Int) (defend : Bool) (stime : Int)
    (ops : List Op) (c : apc_cache_t) (op : Op) (hc : chain_consistent c) :
    chain_consistent
      (apc_cache_create sma serializer php size_hint gc_ttl ttl smart defend stime) ∧
    (chain_consistent (step c op) ∧ (step c op).nslots = c.nslots) ∧
    ((run (apc_cache_create sma serializer php size_hint gc_ttl ttl smart defend stime)
        ops).nslots =
      (apc_cache_create sma serializer php size_hint gc_ttl ttl smart defend stime).nslots ∧
     ∀ s, ∀ e ∈ slot_chain
        (run (apc_cache_create sma serializer php size_hint gc_ttl ttl smart defend stime) ops)
        s,
      ZSTR_HASH e.key %
        (apc_cache_create sma serializer php size_hint gc_ttl ttl smart defend stime).nslots
        = s) := by
  have hrun := run_consistent ops _ (create_consistent sma serializer php size_hint gc_ttl ttl
    smart defend stime)
  have hlen := (run_config ops (apc_cache_create sma serializer php size_hint gc_ttl ttl smart
    defend stime)).1
  refine ⟨create_consistent sma serializer php size_hint gc_ttl ttl smart defend stime,
    ⟨step_consistent c op hc, (step_config c op).1⟩, hlen, ?_⟩
  intro s e he
  have := hrun s e he
  unfold apc_cache_hash_slot apc_cache_t.nslots at this
  unfold apc_cache_t.nslots
  rw [← hlen]
  exact this

theorem C30_chain_consistency_witness :
    chain_consistent demo_two_cache ∧
    chain_consistent (step demo_two_cache (.delete key_d 5)) ∧
    (step demo_two_cache (.delete key_d 5)).nslots = 3 :=
  ⟨demo_two_consistent,
    (C30_chain_consistency demo_sma none demo_serializer 1 3600 0 0 false 0 []
      demo_two_cache (.delete key_d 5) demo_two_consistent).2.1.1,
    (C30_chain_consistency demo_sma none demo_serializer 1 3600 0 0 false 0 []
      demo_two_cache (.delete key_d 5) demo_two_consistent).2.1.2.trans (by rfl)⟩

/-! ## At most one live entry per key -/

theorem filter_nodup_length (p : apc_cache_entry_t → Bool) (k : zend_string)
    (hp : ∀ e, p e = true → e.key = k) :
    ∀ l : List apc_cache_entry_t, (l.map (fun e => e.key)).Nodup → (l.filter p).length ≤ 1
  | [], _ => by simp
  | a :: rest, h => by
    simp only [List.map_cons, List.nodup_cons] at h
    have ih := filter_nodup_length p k hp rest h.2
    by_cases ha : p a = true
    · rw [List.filter_cons_of_pos ha]
      have hnil : rest.filter p = [] := by
        rw [List.filter_eq_nil_iff]
        intro x hx hpx
        apply h.1
        rw [hp a ha, ← hp x hpx]
        exact List.mem_map.2 ⟨x, hx, rfl⟩
      rw [hnil]; simp
    · rw [List.filter_cons_of_neg ha]
      exact ih

theorem live_unique_of_nodup (c : apc_cache_t)
    (h : ((chained c).map (fun e => e.key)).Nodup) : live_unique c := by
  intro key t
  unfold live_entries
  apply filter_nodup_length _ key _ _ h
  intro e he
  simp only [Bool.and_eq_true, decide_eq_true_eq] at he
  exact he.1

theorem not_hard_expired_early (e : apc_cache_entry_t) (t : Int) (h : t ≤ e.ctime + e.ttl) :
    apc_cache_entry_hard_expired e t = false := by
  unfold apc_cache_entry_hard_expired
  simp only [Bool.and_eq_false_imp, bne_iff_ne, ne_eq, decide_eq_false_iff_not, not_lt]
  intro _
  exact h

theorem nodup_of_filters (P : zend_string → Int → apc_cache_entry_t → Bool)
    (hP : ∀ e key t, e.key = key → t ≤ e.ctime + e.ttl → P key t e = true) :
    ∀ l : List apc_cache_entry_t, (∀ key t, (l.filter (P key t)).length ≤ 1) →
      (l.map (fun e => e.key)).Nodup
  | [], _ => List.nodup_nil
  | a :: rest, h => by
    simp only [List.map_cons, List.nodup_cons]
    constructor
    · intro hmem
      obtain ⟨x, hx, hxk⟩ := List.mem_map.1 hmem
      have hxk2 : x.key = a.key := hxk
      have h2 := h a.key (min (a.ctime + a.ttl) (x.ctime + x.ttl))
      rw [List.filter_cons_of_pos (hP a _ _ rfl (min_le_left _ _))] at h2
      have hxin : x ∈ rest.filter (P a.key (min (a.ctime + a.ttl) (x.ctime + x.ttl))) :=
        List.mem_filter.2 ⟨hx, hP x _ _ hxk2 (min_le_right _ _)⟩
      have hpos := List.length_pos_of_mem hxin
      simp only [List.length_cons] at h2
      omega
    · apply nodup_of_filters P hP rest
      intro key t
      exact le_trans ((List.sublist_cons_self a rest).filter (P key t)).length_le (h key t)

theorem nodup_of_live_unique (c : apc_cache_t) (h : live_unique c) :
    ((chained c).map (fun e => e.key)).Nodup := by
  apply nodup_of_filters
    (fun key t e => decide (e.key = key) && !apc_cache_entry_hard_expired e t) _ _ h
  intro e key t hk ht
  show (decide (e.key = key) && !apc_cache_entry_hard_expired e t) = true
  rw [not_hard_expired_early e t ht]
  simp [hk]

theorem slot_chain_getElem (c : apc_cache_t) (i : Nat) (hi : i < c.slots.length) :
    slot_chain c i = c.slots[i] := by
  unfold slot_chain
  exact List.getD_eq_getElem _ _ hi

theorem slot_chain_of_mem (c : apc_cache_t) (l : List apc_cache_entry_t) (hl : l ∈ c.slots) :
    ∃ i, slot_chain c i = l := by
  obtain ⟨i, hi, rfl⟩ := List.getElem_of_mem hl
  exact ⟨i, slot_chain_getElem c i hi⟩

theorem distinct_of_nodup (c : apc_cache_t) (h : ((chained c).map (fun e => e.key)).Nodup) :
    distinct_keys c := by
  intro i
  by_cases hi : i < c.slots.length
  · rw [slot_chain_getElem c i hi]
    have hsub : (c.slots[i]).Sublist (chained c) :=
      List.sublist_flatten_of_mem (List.getElem_mem hi)
    exact h.sublist (hsub.map _)
  · rw [slot_chain_nil_of_ge c i (by omega)]
    exact List.nodup_nil

theorem chained_keys_nodup (c : apc_cache_t) (hd : distinct_keys c)
    (hc : chain_consistent c) : ((chained c).map (fun e => e.key)).Nodup := by
  unfold chained
  rw [List.map_flatten, List.nodup_flatten]
  constructor
  · intro l hl
    obtain ⟨ch, hch, rfl⟩ := List.mem_map.1 hl
    obtain ⟨i, hi⟩ := slot_chain_of_mem c ch hch
    rw [← hi]
    exact hd i
  · rw [List.pairwise_map, List.pairwise_iff_getElem]
    intro i j hi hj hij k hk1 hk2
    obtain ⟨e1, he1, hk1⟩ := List.mem_map.1 hk1
    obtain ⟨e2, he2, hk2⟩ := List.mem_map.1 hk2
    rw [← slot_chain_getElem c i hi] at he1
    rw [← slot_chain_getElem c j hj] at he2
    have h1 := hc i e1 he1
    have h2 := hc j e2 he2
    have hk1b : e1.key = k := hk1
    have hk2b : e2.key = k := hk2
    rw [hk1b] at h1
    rw [hk2b] at h2
    omega

theorem step_live_unique (c : apc_cache_t) (op : Op) (hu : live_unique c)
    (hc : chain_consistent c) : live_unique (step c op) :=
  live_unique_of_nodup _ (chained_keys_nodup _
    (step_distinct c op (distinct_of_nodup c (nodup_of_live_unique c hu)))
    (step_consistent c op hc))

theorem reachable_live_unique (c : apc_cache_t) (h : Reachable c) : live_unique c :=
  live_unique_of_nodup c (chained_keys_nodup c (reachable_distinct c h)
    (reachable_consistent c h))

theorem create_chained (sma : apc_sma_t) (serializer : Option apc_serializer_t)
    (php : apc_serializer_t) (size_hint gc_ttl ttl smart : Int) (defend : Bool) (stime : Int) :
    chained (apc_cache_create sma serializer php size_hint gc_ttl ttl smart defend stime)
      = [] := by
  unfold chained apc_cache_create
  simp only [List.flatten_eq_nil_iff, List.mem_replicate]
  intro l hl
  exact hl.2

theorem create_live_unique (sma : apc_sma_t) (serializer : Option apc_serializer_t)
    (php : apc_serializer_t) (size_hint gc_ttl ttl smart : Int) (defend : Bool) (stime : Int) :
    live_unique
      (apc_cache_create sma serializer php size_hint gc_ttl ttl smart defend stime) := by
  apply live_unique_of_nodup
  rw [create_chained]
  exact List.nodup_nil

theorem demo_two_unique : live_unique demo_two_cache := by
  apply live_unique_of_nodup
  have : chained demo_two_cache = [demo_entry key_d 7 1 0 1, demo_entry key_a 1 0 0 2] := rfl
  rw [this]
  decide

/-- C24: the cache that `apc_cache_create` builds has, for every key and time, at most one
chained entry with the key that is not hard-expired; every public operation (store,
exclusive store, update, delete, clear, expunge, find, fetch, exists, release) run on a
cache with that property in which every chained entry stands in the slot of its key, as it
does in every cache reached from a created one, leaves such a cache; and so every cache
reached from a created one has the property. -/
theorem C24_uniqueness (sma : apc_sma_t) (serializer : Option apc_serializer_t)
    (php : apc_serializer_t) (size_hint gc_ttl ttl smart : Int) (defend : Bool) (stime : Int)
    (ops : List Op) (c : apc_cache_t) (op : Op) (hu : live_unique c)
    (hc : chain_consistent c) :
    live_unique
      (apc_cache_create sma serializer php size_hint gc_ttl ttl smart defend stime) ∧
    (live_unique (step c op) ∧ chain_consistent (step c op)) ∧
    live_unique
      (run (apc_cache_create sma serializer php size_hint gc_ttl ttl smart defend stime)
        ops) :=
  ⟨create_live_unique sma serializer php size_hint gc_ttl ttl smart defend stime,
    ⟨step_live_unique c op hu hc, step_consistent c op hc⟩,
    reachable_live_unique _ ⟨sma, serializer, php, size_hint, gc_ttl, ttl, smart, defend,
      stime, ops, rfl⟩⟩

/-- C24 on the three-slot cache that holds the entries of `"d"` and `"a"` in slot 1: after
an exclusive store of `"a"` there is still at most one live entry for each key. -/
theorem C24_uniqueness_witness :
    live_unique demo_two_cache ∧ chain_consistent demo_two_cache ∧
    live_unique (step demo_two_cache (.store key_a (.long 5) 0 true 0 0 1 (some 10))) :=
  ⟨demo_two_unique, demo_two_consistent,
    (C24_uniqueness demo_sma none demo_serializer 1 3600 0 0 false 0 [] demo_two_cache
      (.store key_a (.long 5) 0 true 0 0 1 (some 10)) demo_two_unique
      demo_two_consistent).2.1.1⟩

/-! ## Operations that rewrite entries in place -/

theorem same_cell_refl (e : apc_cache_entry_t) : same_cell e e := ⟨rfl, rfl⟩

theorem forall₂_cell_refl : ∀ l : List apc_cache_entry_t, List.Forall₂ same_cell l l
  | [] => List.Forall₂.nil
  | x :: l => List.Forall₂.cons (same_cell_refl x) (forall₂_cell_refl l)

theorem forall₂_cell_trans {a b c : List apc_cache_entry_t}
    (h1 : List.Forall₂ same_cell a b) (h2 : List.Forall₂ same_cell b c) :
    List.Forall₂ same_cell a c := by
  induction h1 generalizing c with
  | nil => cases h2; exact List.Forall₂.nil
  | cons hab _ ih =>
    cases h2 with
    | cons hbc h2 =>
      exact List.Forall₂.cons ⟨hbc.1.trans hab.1, hbc.2.trans hab.2⟩ (ih h2)

theorem forall₂_cell_middle (pre suf : List apc_cache_entry_t) (x y : apc_cache_entry_t)
    (h : same_cell x y) : List.Forall₂ same_cell (pre ++ x :: suf) (pre ++ y :: suf) := by
  induction pre with
  | nil => exact List.Forall₂.cons h (forall₂_cell_refl suf)
  | cons a pre ih => exact List.Forall₂.cons (same_cell_refl a) ih

theorem rewritten_refl (c : apc_cache_t) : rewritten_in_place c c :=
  ⟨rfl, fun _ => forall₂_cell_refl _, forall₂_cell_refl _, rfl, rfl⟩

theorem rewritten_trans {a b c : apc_cache_t} (h1 : rewritten_in_place a b)
    (h2 : rewritten_in_place b c) : rewritten_in_place a c :=
  ⟨h2.1.trans h1.1, fun i => forall₂_cell_trans (h1.2.1 i) (h2.2.1 i),
    forall₂_cell_trans h1.2.2.1 h2.2.2.1, h2.2.2.2.1.trans h1.2.2.2.1,
    h2.2.2.2.2.trans h1.2.2.2.2⟩

/-- A cache that differs from `c` in neither the chains, the GC list, `mem_size` nor
`nentries`. -/
theorem rewritten_of_eq (c c2 : apc_cache_t) (h1 : c2.slots = c.slots)
    (h2 : c2.header.gc = c.header.gc) (h3 : c2.header.mem_size = c.header.mem_size)
    (h4 : c2.header.nentries = c.header.nentries) :
    rewritten_in_place c c2 := by
  refine ⟨by rw [h1], fun i => ?_, ?_, h3, h4⟩
  · rw [slot_chain_congr c c2 i h1]; exact forall₂_cell_refl _
  · rw [h2]; exact forall₂_cell_refl _

theorem find_incref_rewritten (c : apc_cache_t) (k2 : zend_string) (t : Int) :
    rewritten_in_place c (apc_cache_rlocked_find_incref c k2 t).1 := by
  unfold apc_cache_rlocked_find_incref apc_cache_rlocked_find
  dsimp only
  cases hw : find_walk (apc_cache_hash_slot c k2).1 k2 t
      (slot_chain c (apc_cache_hash_slot c k2).2) with
  | none => exact rewritten_of_eq _ _ rfl rfl rfl rfl
  | some r =>
    obtain ⟨p, x, s⟩ := r
    obtain ⟨x0, h1, h2⟩ := find_walk_some _ _ _ _ _ _ _ hw
    dsimp only
    rw [set_slot_chain_twice]
    refine ⟨by simp [set_slot_chain], ?_, forall₂_cell_refl _, rfl, rfl⟩
    apply slot_rel_set (List.Forall₂ same_cell) forall₂_cell_refl c _ _ _ rfl
    rw [h1]
    apply forall₂_cell_middle
    rw [h2]
    exact ⟨rfl, rfl⟩

theorem find_rewritten (c : apc_cache_t) (k2 : zend_string) (t : Int) :
    rewritten_in_place c (apc_cache_find c k2 t).1 := by
  unfold apc_cache_find
  split
  · exact rewritten_refl c
  · exact find_incref_rewritten c k2 t

theorem release_in_cells (addr : Nat) :
    ∀ l : List apc_cache_entry_t, List.Forall₂ same_cell l (release_in addr l)
  | [] => List.Forall₂.nil
  | a :: l => by
    unfold release_in
    simp only [List.map_cons]
    refine List.Forall₂.cons ?_ (release_in_cells addr l)
    split
    · exact ⟨rfl, rfl⟩
    · exact same_cell_refl a

theorem release_rewritten (c : apc_cache_t) (x : apc_cache_entry_t) :
    rewritten_in_place c (apc_cache_entry_release c x) := by
  refine ⟨by simp [apc_cache_entry_release], fun i => ?_, ?_, rfl, rfl⟩
  · rw [slot_chain_release]
    exact release_in_cells _ _
  · exact release_in_cells _ _

theorem fetch_rewritten (c : apc_cache_t) (k2 : zend_string) (t : Int) :
    rewritten_in_place c (apc_cache_fetch c k2 t).2.2 := by
  unfold apc_cache_fetch
  split
  · exact rewritten_refl c
  · split
    · rename_i c1 h
      have := find_incref_rewritten c k2 t
      rw [h] at this
      exact this
    · rename_i c1 x h
      have := find_incref_rewritten c k2 t
      rw [h] at this
      exact rewritten_trans this (release_rewritten c1 x)

theorem update_entry_cell (serializer : Option apc_serializer_t)
    (updater : apc_cache_updater_t) (t : Int) (e : apc_cache_entry_t) :
    same_cell e (update_entry serializer updater t e).2.1 := by
  unfold update_entry
  split
  · split
    · exact same_cell_refl e
    · exact ⟨rfl, rfl⟩
  · split
    · exact same_cell_refl e
    · exact ⟨rfl, rfl⟩
  · exact ⟨rfl, rfl⟩

theorem update_walk_cells (serializer : Option apc_serializer_t)
    (updater : apc_cache_updater_t) (h : Nat) (key : zend_string) (t : Int) :
    ∀ (chain : List apc_cache_entry_t) (r : update_hit),
      update_walk serializer updater h key t chain = some r →
      List.Forall₂ same_cell chain r.chain
  | [], r, hr => by simp [update_walk] at hr
  | a :: rest, r, hr => by
    unfold update_walk at hr
    split at hr
    · simp only [Option.some.injEq] at hr
      subst hr
      exact List.Forall₂.cons (update_entry_cell serializer updater t a) (forall₂_cell_refl rest)
    · split at hr
      · simp at hr
      · rename_i r2 hr2
        simp only [Option.some.injEq] at hr
        subst hr
        exact List.Forall₂.cons (same_cell_refl a)
          (update_walk_cells serializer updater h key t rest r2 hr2)

theorem set_chain_rewritten (c : apc_cache_t) (s : Nat) (ch : List apc_cache_entry_t)
    (h : List.Forall₂ same_cell (slot_chain c s) ch) :
    rewritten_in_place c (set_slot_chain c s ch) :=
  ⟨by simp [set_slot_chain],
    slot_rel_set (List.Forall₂ same_cell) forall₂_cell_refl c c s ch rfl h,
    forall₂_cell_refl _, rfl, rfl⟩

/-- The cache after `apc_cache_update` is `c`, or the cache left by the store the update
made, with entries rewritten in place. -/
theorem update_rewritten (c : apc_cache_t) (key : zend_string)
    (updater : apc_cache_updater_t) (ins : Bool) (ttl t now : Int) (owner : Nat)
    (grant : Option Nat) :
    ∃ cm, (cm = c ∨
        cm = (apc_cache_store c key (.long 0) (int32_t_cast ttl) true t now owner grant).2) ∧
      rewritten_in_place cm (apc_cache_update c key updater ins ttl t now owner grant).cache ∧
      (apc_cache_update c key updater ins ttl t now owner grant).cache.sma = cm.sma := by
  have heq := update_eq c key updater ins ttl t now owner grant
  by_cases hb : apc_cache_busy c = true
  · simp only [apc_cache_update_fuel, hb, if_true, Option.some.injEq] at heq
    rw [heq]
    exact ⟨c, Or.inl rfl, rewritten_refl c, rfl⟩
  · have hb2 : apc_cache_busy c = false := by simpa using hb
    cases hw : update_walk c.serializer updater (ZSTR_HASH key) key t
        (slot_chain c (apc_cache_hash_slot c key).2) with
    | some r =>
      rw [update_not_busy_found c key updater ins ttl t now owner grant r hb2 hw 1] at heq
      simp only [Option.some.injEq] at heq
      rw [heq]
      exact ⟨c, Or.inl rfl, set_chain_rewritten c _ _ (update_walk_cells _ _ _ _ _ _ r hw),
        rfl⟩
    | none =>
      cases ins with
      | false =>
        rw [update_not_busy_missed c key updater ttl t now owner grant hb2 hw 1] at heq
        simp only [Option.some.injEq] at heq
        rw [heq]
        exact ⟨c, Or.inl rfl, rewritten_refl c, rfl⟩
      | true =>
        rw [show (2 : Nat) = 0 + 2 from rfl,
          update_not_busy_insert c key updater ttl t now owner grant hb2 hw 0] at heq
        refine ⟨(apc_cache_store c key (.long 0) (int32_t_cast ttl) true t now owner grant).2,
          Or.inr rfl, ?_⟩
        split at heq
        · rename_i r hr
          simp only [Option.some.injEq] at heq
          rw [heq]
          exact ⟨set_chain_rewritten _ _ _ (update_walk_cells _ _ _ _ _ _ r hr), rfl⟩
        · simp only [Option.some.injEq] at heq
          rw [heq]
          exact ⟨rewritten_refl _, rfl⟩

/-! ## The pool of a copy keeps its address -/

theorem ctxt_alloc_addr (ctxt c : apc_context_t) (h : ctxt_alloc ctxt = some c) :
    c.pool.addr = ctxt.pool.addr := by
  unfold ctxt_alloc apc_pool_alloc at h
  split at h
  · split at h
    · simp at h
    · rename_i p hp
      split at hp
      · simp at hp
      · simp only [Option.some.injEq] at hp h
        subst hp; subst h; rfl
  · simp only [Option.some.injEq] at h
    subst h; rfl

theorem serialize_object_addr (src : zval) (ctxt : apc_context_t) :
    (my_serialize_object src ctxt).2.pool.addr = ctxt.pool.addr := by
  unfold my_serialize_object apc_pool_alloc
  dsimp only
  split
  · rfl
  · split
    · rfl
    · rename_i p hp
      split at hp
      · simp at hp
      · simp only [Option.some.injEq] at hp
        subst hp; rfl

theorem copy_serialized_addr (src : zval) (ctxt : apc_context_t) :
    (copy_serialized src ctxt).2.pool.addr = ctxt.pool.addr := by
  unfold copy_serialized
  split
  · exact serialize_object_addr src ctxt
  · rfl

theorem dup_bucket_key_addr (key : Option (List Nat)) (ctxt : apc_context_t) :
    (dup_bucket_key key ctxt).2.pool.addr = ctxt.pool.addr := by
  unfold dup_bucket_key
  split
  · rfl
  · split
    · rfl
    · rename_i c hc
      exact ctxt_alloc_addr ctxt c hc

mutual
theorem copy_addr : ∀ (v : zval) (ctxt : apc_context_t),
    (my_copy_zval v ctxt).2.pool.addr = ctxt.pool.addr
  | .null, ctxt => by simp [my_copy_zval]
  | .false_, ctxt => by simp [my_copy_zval]
  | .true_, ctxt => by simp [my_copy_zval]
  | .undef, ctxt => by simp [my_copy_zval]
  | .long n, ctxt => by simp [my_copy_zval]
  | .double n, ctxt => by simp [my_copy_zval]
  | .resource n, ctxt => by simp [my_copy_zval]
  | .string s, ctxt => by
    unfold my_copy_zval
    split
    · rfl
    · rename_i c hc
      exact ctxt_alloc_addr ctxt c hc
  | .reference n v, ctxt => by
    unfold my_copy_zval
    split
    · rfl
    · rename_i c hc
      have h1 := ctxt_alloc_addr ctxt c hc
      have h2 := copy_addr v c
      split
      · rename_i c2 hc2
        rw [hc2] at h2
        exact h2.trans h1
      · rename_i w c2 hc2
        rw [hc2] at h2
        exact h2.trans h1
  | .array ht, ctxt => by
    unfold my_copy_zval
    split
    · have h2 := copy_addr_table ht ctxt
      split
      · rename_i c1 hc1
        rw [hc1] at h2; exact h2
      · rename_i t c1 hc1
        rw [hc1] at h2; exact h2
    · exact copy_serialized_addr _ ctxt
  | .object o, ctxt => by
    unfold my_copy_zval
    exact copy_serialized_addr _ ctxt
  | .serial ty s, ctxt => by
    unfold my_copy_zval
    split
    · exact copy_serialized_addr _ ctxt
    · split
      · split
        · rfl
        · exact copy_serialized_addr _ ctxt
      · rfl
theorem copy_addr_table : ∀ (ht : HashTable) (ctxt : apc_context_t),
    (my_copy_hashtable ht ctxt).2.pool.addr = ctxt.pool.addr
  | .mk packed a b c d e arData, ctxt => by
    unfold my_copy_hashtable
    split
    · rfl
    · rename_i c1 hc1
      have h1 := ctxt_alloc_addr ctxt c1 hc1
      split
      · exact h1
      · split
        · split
          · exact h1
          · rename_i c2 hc2
            have h2 := ctxt_alloc_addr c1 c2 hc2
            exact (copy_addr_packed arData _ c2).trans (h2.trans h1)
        · split
          · exact h1
          · rename_i c2 hc2
            have h2 := ctxt_alloc_addr c1 c2 hc2
            exact (copy_addr_elements arData _ c2).trans (h2.trans h1)
theorem copy_addr_packed : ∀ (bs : Buckets) (wh : Bool) (ctxt : apc_context_t),
    (apc_array_dup_packed_elements bs wh ctxt).2.pool.addr = ctxt.pool.addr
  | .nil, wh, ctxt => by simp [apc_array_dup_packed_elements]
  | .cons h key v rest, wh, ctxt => by
    have hv := copy_addr v
    have hrest := copy_addr_packed rest wh
    cases v with
    | undef =>
      unfold apc_array_dup_packed_elements
      split
      · split <;> exact hrest ctxt
      · rename_i heq; cases heq
      · rename_i hne _; exact absurd rfl hne
    | reference n w =>
      have hw := copy_addr w ctxt
      unfold apc_array_dup_packed_elements
      split
      · rename_i heq; cases heq
      · rename_i w2 heq
        cases heq
        split
        · rename_i c1 hc1
          rw [hc1] at hw
          exact (hrest c1).trans hw
        · rename_i x c1 hc1
          rw [hc1] at hw
          exact (hrest c1).trans hw
      · have hv2 := hv ctxt
        split
        · rename_i c1 hc1
          rw [hc1] at hv2
          exact (hrest c1).trans hv2
        · rename_i x c1 hc1
          rw [hc1] at hv2
          exact (hrest c1).trans hv2
    | _ =>
      have hv2 := hv ctxt
      unfold apc_array_dup_packed_elements
      split
      · rename_i heq; cases heq
      · rename_i heq; cases heq
      · split
        · rename_i c1 hc1
          rw [hc1] at hv2
          exact (hrest c1).trans hv2
        · rename_i x c1 hc1
          rw [hc1] at hv2
          exact (hrest c1).trans hv2
theorem copy_addr_elements : ∀ (bs : Buckets) (wh : Bool) (ctxt : apc_context_t),
    (apc_array_dup_elements bs wh ctxt).2.pool.addr = ctxt.pool.addr
  | .nil, wh, ctxt => by simp [apc_array_dup_elements]
  | .cons h key v rest, wh, ctxt => by
    have hv := copy_addr v
    have hrest := copy_addr_elements rest wh
    have hk := dup_bucket_key_addr key
    cases v with
    | undef =>
      unfold apc_array_dup_elements
      split
      · split
        · exact hrest ctxt
        · exact (hrest _).trans (hk ctxt)
      · rename_i heq; cases heq
      · rename_i hne _; exact absurd rfl hne
    | reference n w =>
      have hw := copy_addr w ctxt
      unfold apc_array_dup_elements
      split
      · rename_i heq; cases heq
      · rename_i w2 heq
        cases heq
        split
        · rename_i c1 hc1
          rw [hc1] at hw
          exact (hrest c1).trans hw
        · rename_i x c1 hc1
          rw [hc1] at hw
          exact ((hrest _).trans (hk c1)).trans hw
      · have hv2 := hv ctxt
        split
        · rename_i c1 hc1
          rw [hc1] at hv2
          exact (hrest c1).trans hv2
        · rename_i x c1 hc1
          rw [hc1] at hv2
          exact ((hrest _).trans (hk c1)).trans hv2
    | _ =>
      have hv2 := hv ctxt
      unfold apc_array_dup_elements
      split
      · rename_i heq; cases heq
      · rename_i heq; cases heq
      · split
        · rename_i c1 hc1
          rw [hc1] at hv2
          exact (hrest c1).trans hv2
        · rename_i x c1 hc1
          rw [hc1] at hv2
          exact ((hrest _).trans (hk c1)).trans hv2
end

theorem store_zval_addr (src : zval) (ctxt : apc_context_t) :
    (apc_cache_store_zval src ctxt).2.pool.addr = ctxt.pool.addr := by
  unfold apc_cache_store_zval apc_copy_zval
  dsimp only
  split
  · exact copy_addr src ctxt
  · split <;> exact copy_addr src ctxt

theorem make_entry_addr (ctxt : apc_context_t) (key : zend_string) (val : zval) (ttl t : Int)
    (e : apc_cache_entry_t) (c3 : apc_context_t)
    (h : apc_cache_make_entry ctxt key val ttl t = (some e, c3)) :
    e.pool.addr = ctxt.pool.addr := by
  unfold apc_cache_make_entry at h
  split at h
  · simp at h
  · rename_i c1 h1
    split at h
    · simp at h
    · rename_i c2 h2
      have hz := store_zval_addr val c2
      split at h
      · simp at h
      · rename_i v c4 h3
        rw [h3] at hz
        simp only [Prod.mk.injEq, Option.some.injEq] at h
        obtain ⟨he, _⟩ := h
        subst he
        exact hz.trans ((ctxt_alloc_addr c1 c2 h2).trans (ctxt_alloc_addr ctxt c1 h1))

/-! ## Every public operation is made of the elementary steps -/

theorem gc_brk (c : apc_cache_t) (now : Int) :
    (apc_cache_wlocked_gc c now).sma.brk = c.sma.brk := by
  unfold apc_cache_wlocked_gc
  cases hg : c.header.gc with
  | nil => rfl
  | cons g rest => exact (gc_walk_filter c.gc_ttl now (g :: rest) c.sma).2.2.1

theorem remove_all_brk (now : Int) (l : List apc_cache_entry_t) (c : apc_cache_t) :
    (remove_all now l c).sma.brk = c.sma.brk := by
  rw [remove_all_sma]

theorem filter_split_perm (p : apc_cache_entry_t → Bool) (l : List apc_cache_entry_t) :
    l.Perm (l.filter (fun x => !p x) ++ l.filter p) := by
  have h := List.filter_append_perm p l
  exact (h.symm.trans List.perm_append_comm)

theorem store_cases_brk (c : apc_cache_t) (key : zend_string) (val : zval) (ttl : Int)
    (exclusive : Bool) (t now : Int) (owner : Nat) (grant : Option Nat) :
    (∃ lk sma2, apc_cache_store c key val ttl exclusive t now owner grant =
        (false, { c with header := { c.header with lastkey := lk }, sma := sma2 }) ∧
        c.sma.brk ≤ sma2.brk) ∨
    (∃ lk n ctxt c3 c1,
      c1 = { c with header := { c.header with lastkey := lk }
                    sma := { c.sma with brk := c.sma.brk + 1 } } ∧
      apc_cache_make_entry ctxt key val ttl t = (some n, c3) ∧
      ctxt.pool.addr = c.sma.brk ∧
      apc_cache_store c key val ttl exclusive t now owner grant =
        if (apc_cache_wlocked_insert c1 n exclusive now).1 then
          (true, (apc_cache_wlocked_insert c1 n exclusive now).2)
        else
          (false, apc_cache_destroy_context
            (apc_cache_wlocked_insert c1 n exclusive now).2 c3)) := by
  obtain ⟨lk, hd⟩ := defense_cache c key t owner
  unfold apc_cache_store
  dsimp only
  split
  · rename_i hslam
    left
    rw [defense_slam_cache c key t owner hslam]
    exact ⟨c.header.lastkey, c.sma, rfl, le_refl _⟩
  · rw [hd]
    split
    · rename_i c1 hctx
      left
      have := make_context_none _ _ _ hctx
      subst this
      exact ⟨lk, c.sma, rfl, le_refl _⟩
    · rename_i ctxt c1 hctx
      obtain ⟨h1, h2, h3, h4, h5, h6⟩ := make_context_some _ _ _ _ hctx
      subst h6
      split
      · rename_i ctxt1 hme
        left
        exact ⟨lk, _, rfl, Nat.le_succ _⟩
      · rename_i n ctxt1 hme
        right
        exact ⟨lk, n, ctxt, ctxt1, _, rfl, hme, h5, rfl⟩

/-- An insert run on a cache whose entries are allocated below `a`, for an entry built in the
pool at `a`. -/
theorem insert_closed (I : Nat → apc_cache_t → Prop) (hI : closed_family I) (a : Nat)
    (c1 : apc_cache_t) (n : apc_cache_entry_t) (exclusive : Bool) (now : Int)
    (hn : 0 < c1.nslots) (ha : n.pool.addr = a) (h : I a c1) :
    I (a + 1) (apc_cache_wlocked_insert c1 n exclusive now).2 ∧
    (apc_cache_wlocked_insert c1 n exclusive now).2.sma.brk = c1.sma.brk := by
  have hlt : (apc_cache_hash_slot c1 n.key).2 < c1.slots.length := slot_lt c1 n.key hn
  have hg : I a (apc_cache_wlocked_gc c1 now) := hI.sweep a c1 now h
  have hglt : (apc_cache_hash_slot c1 n.key).2 < (apc_cache_wlocked_gc c1 now).slots.length := by
    rw [gc_slots]; exact hlt
  have hgch : slot_chain (apc_cache_wlocked_gc c1 now) (apc_cache_hash_slot c1 n.key).2 =
      slot_chain c1 (apc_cache_hash_slot c1 n.key).2 := slot_chain_congr _ _ _ (gc_slots c1 now)
  rcases chain_split (fun x => key_match x.key (ZSTR_HASH n.key) n.key)
    (slot_chain c1 (apc_cache_hash_slot c1 n.key).2) with hno | ⟨pre, e, suf, hc, hpre, he⟩
  · have hno2 : no_match c1 n.key := fun x hx => (key_match_false_iff _ _).1 (hno x hx)
    rw [wlocked_insert_nomatch c1 n exclusive now hno2]
    refine ⟨?_, ?_⟩
    · apply hI.link a _ _ n
      · show _ < (remove_all now _ (apc_cache_wlocked_gc c1 now)).slots.length
        rw [remove_all_slots]; exact hglt
      · exact ha
      · show I a (set_slot_chain (remove_all now _ (apc_cache_wlocked_gc c1 now)) _ (_ ++ []))
        apply hI.remove a _ _ _ _ now hglt _ hg
        rw [hgch, List.append_nil]
        exact filter_split_perm _ _
    · show (remove_all now _ (apc_cache_wlocked_gc c1 now)).sma.brk = _
      rw [remove_all_brk, gc_brk]
  · have hfm : first_match c1 n.key pre e suf :=
      ⟨hc, fun x hx => (key_match_false_iff _ _).1 (hpre x hx), (key_match_self_iff _ _).1 he⟩
    by_cases hx : (exclusive && !apc_cache_entry_hard_expired e n.ctime) = false
    · rw [wlocked_insert_match c1 n exclusive now pre suf e hfm hx]
      refine ⟨?_, ?_⟩
      · apply hI.link a _ _ n
        · show _ < (remove_all now _ (apc_cache_wlocked_gc c1 now)).slots.length
          rw [remove_all_slots]; exact hglt
        · exact ha
        · show I a (set_slot_chain (remove_all now _ (apc_cache_wlocked_gc c1 now)) _ (_ ++ suf))
          apply hI.remove a _ _ _ _ now hglt _ hg
          rw [hgch, hc]
          have hp := filter_split_perm (fun x => apc_cache_entry_expired c1 x n.ctime) pre
          have h1 : (pre ++ e :: suf).Perm
              ((pre.filter (fun x => !apc_cache_entry_expired c1 x n.ctime) ++
                pre.filter (fun x => apc_cache_entry_expired c1 x n.ctime)) ++ e :: suf) :=
            List.Perm.append_right _ hp
          refine h1.trans ?_
          simp only [List.append_assoc]
          apply List.Perm.append_left
          have h2 : (pre.filter (fun x => apc_cache_entry_expired c1 x n.ctime)
              ++ e :: suf).Perm (suf ++ (pre.filter
                (fun x => apc_cache_entry_expired c1 x n.ctime) ++ [e])) := by
            rw [show pre.filter (fun x => apc_cache_entry_expired c1 x n.ctime) ++ e :: suf =
              (pre.filter (fun x => apc_cache_entry_expired c1 x n.ctime) ++ [e]) ++ suf by simp]
            exact List.perm_append_comm
          exact h2
      · show (remove_all now _ (apc_cache_wlocked_gc c1 now)).sma.brk = _
        rw [remove_all_brk, gc_brk]
    · have hx2 : exclusive = true ∧ apc_cache_entry_hard_expired e n.ctime = false := by
        cases exclusive <;> cases hh : apc_cache_entry_hard_expired e n.ctime <;> simp_all
      obtain ⟨hex, hl⟩ := hx2
      subst hex
      rw [wlocked_insert_conflict c1 n now pre suf e hfm hl]
      refine ⟨?_, ?_⟩
      · apply hI.mono a (a + 1) _ (Nat.le_succ a)
        apply hI.remove a _ _ _ _ now hglt _ hg
        rw [hgch, hc]
        have hp := filter_split_perm (fun x => apc_cache_entry_expired c1 x n.ctime) pre
        have h1 : (pre ++ e :: suf).Perm
            ((pre.filter (fun x => !apc_cache_entry_expired c1 x n.ctime) ++
              pre.filter (fun x => apc_cache_entry_expired c1 x n.ctime)) ++ e :: suf) :=
          List.Perm.append_right _ hp
        refine h1.trans ?_
        simp only [List.append_assoc]
        apply List.Perm.append_left
        exact List.perm_append_comm
      · show (remove_all now _ (apc_cache_wlocked_gc c1 now)).sma.brk = _
        rw [remove_all_brk, gc_brk]

theorem store_closed (I : Nat → apc_cache_t → Prop) (hI : closed_family I) (c : apc_cache_t)
    (key : zend_string) (val : zval) (ttl : Int) (exclusive : Bool) (t now : Int) (owner : Nat)
    (grant : Option Nat) (hn : 0 < c.nslots) (h : I c.sma.brk c) :
    I (apc_cache_store c key val ttl exclusive t now owner grant).2.sma.brk
      (apc_cache_store c key val ttl exclusive t now owner grant).2 := by
  rcases store_cases_brk c key val ttl exclusive t now owner grant with
    ⟨lk, sma2, hs, hbrk⟩ | ⟨lk, n, ctxt, c3, c1, hc1, hme, haddr, hs⟩
  · rw [hs]
    apply hI.mono c.sma.brk _ _ hbrk
    exact hI.rewrite _ c _ (rewritten_of_eq _ _ rfl rfl rfl rfl) h
  · have h1 : I c.sma.brk c1 := by
      subst hc1
      exact hI.rewrite _ c _ (rewritten_of_eq _ _ rfl rfl rfl rfl) h
    have hn1 : 0 < c1.nslots := by subst hc1; exact hn
    have hb1 : c1.sma.brk = c.sma.brk + 1 := by subst hc1; rfl
    have hna : n.pool.addr = c.sma.brk := (make_entry_addr _ _ _ _ _ _ _ hme).trans haddr
    obtain ⟨hi, hbrk⟩ := insert_closed I hI c.sma.brk c1 n exclusive now hn1 hna h1
    rw [hs]
    split
    · show I (apc_cache_wlocked_insert c1 n exclusive now).2.sma.brk _
      rw [hbrk, hb1]; exact hi
    · show I (apc_cache_destroy_context (apc_cache_wlocked_insert c1 n exclusive now).2
        c3).sma.brk _
      have hb2 : (apc_cache_destroy_context (apc_cache_wlocked_insert c1 n exclusive now).2
          c3).sma.brk = c.sma.brk + 1 := by
        show (apc_cache_wlocked_insert c1 n exclusive now).2.sma.brk = _
        rw [hbrk, hb1]
      rw [hb2]
      exact hI.rewrite _ (apc_cache_wlocked_insert c1 n exclusive now).2
        (apc_cache_destroy_context (apc_cache_wlocked_insert c1 n exclusive now).2 c3)
        (rewritten_of_eq _ _ rfl rfl rfl rfl) hi

theorem closed_of_eq (I : Nat → apc_cache_t → Prop) (hI : closed_family I) (a : Nat)
    (c c2 : apc_cache_t) (h : I a c) (h1 : c2.slots = c.slots)
    (h2 : c2.header.gc = c.header.gc) (h3 : c2.header.mem_size = c.header.mem_size)
    (h4 : c2.header.nentries = c.header.nentries) :
    I a c2 :=
  hI.rewrite a c c2 (rewritten_of_eq c c2 h1 h2 h3 h4) h

theorem delete_closed (I : Nat → apc_cache_t → Prop) (hI : closed_family I) (c : apc_cache_t)
    (key : zend_string) (now : Int) (a : Nat) (h : I a c) :
    I a (apc_cache_delete c key now).2 ∧ (apc_cache_delete c key now).2.sma.brk = c.sma.brk := by
  rcases chain_split (fun x => key_match x.key (ZSTR_HASH key) key)
    (slot_chain c (apc_cache_hash_slot c key).2) with hno | ⟨pre, e, suf, hc, hpre, he⟩
  · rw [apc_cache_delete_miss c key now (fun x hx => (key_match_false_iff _ _).1 (hno x hx))]
    exact ⟨h, rfl⟩
  · rw [apc_cache_delete_hit c key now pre suf e hc
      (fun x hx => (key_match_false_iff _ _).1 (hpre x hx)) ((key_match_self_iff _ _).1 he)]
    have hlt : (apc_cache_hash_slot c key).2 < c.slots.length :=
      slot_lt_of_chain_ne_nil c _ (by rw [hc]; simp)
    refine ⟨?_, ?_⟩
    · show I a (set_slot_chain (remove_all now [e] c) _ (pre ++ suf))
      apply hI.remove a c _ _ _ now hlt _ h
      rw [hc]
      rw [show pre ++ e :: suf = pre ++ ([e] ++ suf) by simp, List.append_assoc]
      exact List.Perm.append_left _ List.perm_append_comm
    · show (remove_all now [e] c).sma.brk = _
      exact remove_all_brk now [e] c

theorem real_expunge_closed (I : Nat → apc_cache_t → Prop) (hI : closed_family I)
    (c : apc_cache_t) (t now : Int) (a : Nat) (h : I a c) :
    I a (apc_cache_wlocked_real_expunge c t now) ∧
    (apc_cache_wlocked_real_expunge c t now).sma.brk = c.sma.brk := by
  refine ⟨hI.wipe a c t now h, ?_⟩
  rw [(real_expunge_fields c t now).2.2.2.2.2.2.2.2.2.2]

theorem clear_closed (I : Nat → apc_cache_t → Prop) (hI : closed_family I) (c : apc_cache_t)
    (t now : Int) (a : Nat) (h : I a c) :
    I a (apc_cache_clear c t now) ∧ (apc_cache_clear c t now).sma.brk = c.sma.brk := by
  unfold apc_cache_clear
  split
  · exact ⟨h, rfl⟩
  · have h1 : I a { c with header := { c.header with
        state := c.header.state ||| APC_CACHE_ST_BUSY } } :=
      hI.rewrite a c _ (rewritten_of_eq _ _ rfl rfl rfl rfl) h
    obtain ⟨h2, hb⟩ := real_expunge_closed I hI _ t now a h1
    exact ⟨closed_of_eq I hI a _ _ h2 rfl rfl rfl rfl, hb⟩

theorem expunge_processing_closed (I : Nat → apc_cache_t → Prop) (hI : closed_family I)
    (c2 : apc_cache_t) (needed : Bool) (t now : Int) (avail_size : Bool) (a : Nat)
    (h : I a c2) :
    I a (expunge_processing c2 needed t now avail_size) ∧
    (expunge_processing c2 needed t now avail_size).sma.brk = c2.sma.brk := by
  unfold expunge_processing
  split
  · split
    · exact real_expunge_closed I hI c2 t now a h
    · exact ⟨h, rfl⟩
  · split
    · have h4 : I a { (expunge_slots t now c2.slots c2).2 with
          slots := (expunge_slots t now c2.slots c2).1 } := by
        rw [expunge_slots_eq c2 t now c2.slots c2 rfl]
        exact hI.remove_filtered a c2 (fun e => apc_cache_entry_expired c2 e t) now h
      have hb4 : ({ (expunge_slots t now c2.slots c2).2 with
          slots := (expunge_slots t now c2.slots c2).1 } : apc_cache_t).sma.brk = c2.sma.brk := by
        rw [expunge_slots_eq c2 t now c2.slots c2 rfl]
        exact remove_all_brk now _ c2
      dsimp only
      split
      · exact ⟨closed_of_eq I hI a _ _ h4 rfl rfl rfl rfl, hb4⟩
      · obtain ⟨h5, hb5⟩ := real_expunge_closed I hI _ t now a h4
        exact ⟨h5, hb5.trans hb4⟩
    · exact ⟨h, rfl⟩

theorem expunge_closed (I : Nat → apc_cache_t → Prop) (hI : closed_family I) (c : apc_cache_t)
    (size : Nat) (t now : Int) (available : Nat) (avail_size : Bool) (a : Nat) (h : I a c) :
    I a (apc_cache_default_expunge c size t now available avail_size) ∧
    (apc_cache_default_expunge c size t now available avail_size).sma.brk = c.sma.brk := by
  unfold apc_cache_default_expunge
  split
  · exact ⟨h, rfl⟩
  · have h1 : I a { c with header := { c.header with
        state := c.header.state ||| APC_CACHE_ST_BUSY } } :=
      hI.rewrite a c _ (rewritten_of_eq _ _ rfl rfl rfl rfl) h
    have h2 := hI.sweep a _ now h1
    obtain ⟨h3, hb3⟩ := expunge_processing_closed I hI _
      (decide ((available : Int) < (if c.smart > 0 then
        (c.smart * (size : Int)) % 18446744073709551616
        else ((c.sma.size / 2 : Nat) : Int)))) t now avail_size a h2
    refine ⟨closed_of_eq I hI a _ _ h3 rfl rfl rfl rfl, ?_⟩
    exact hb3.trans (gc_brk _ now)

theorem rewritten_closed (I : Nat → apc_cache_t → Prop) (hI : closed_family I)
    (c c2 : apc_cache_t) (hr : rewritten_in_place c c2) (hs : c2.sma = c.sma)
    (h : I c.sma.brk c) : I c2.sma.brk c2 := by
  rw [hs]
  exact hI.rewrite _ c c2 hr h

theorem find_incref_sma (c : apc_cache_t) (k2 : zend_string) (t : Int) :
    (apc_cache_rlocked_find_incref c k2 t).1.sma = c.sma := by
  unfold apc_cache_rlocked_find_incref apc_cache_rlocked_find
  dsimp only
  cases hw : find_walk (apc_cache_hash_slot c k2).1 k2 t
      (slot_chain c (apc_cache_hash_slot c k2).2) with
  | none => rfl
  | some r =>
    obtain ⟨p, x, s⟩ := r
    rfl

theorem find_sma (c : apc_cache_t) (k2 : zend_string) (t : Int) :
    (apc_cache_find c k2 t).1.sma = c.sma := by
  unfold apc_cache_find
  split
  · rfl
  · exact find_incref_sma c k2 t

theorem fetch_sma (c : apc_cache_t) (k2 : zend_string) (t : Int) :
    (apc_cache_fetch c k2 t).2.2.sma = c.sma := by
  unfold apc_cache_fetch
  split
  · rfl
  · split
    · rename_i c1 h
      have := find_incref_sma c k2 t
      rw [h] at this
      exact this
    · rename_i c1 x h
      have := find_incref_sma c k2 t
      rw [h] at this
      exact this

/-- Every public operation preserves every closed family, at the bound the allocator has
reached. -/
theorem step_closed (I : Nat → apc_cache_t → Prop) (hI : closed_family I) (c : apc_cache_t)
    (op : Op) (hn : 0 < c.nslots) (h : I c.sma.brk c) : I (step c op).sma.brk (step c op) := by
  cases op with
  | store key val ttl exclusive t now owner grant =>
    exact store_closed I hI c key val ttl exclusive t now owner grant hn h
  | find key t => exact rewritten_closed I hI c _ (find_rewritten c key t) (find_sma c key t) h
  | fetch key t =>
    exact rewritten_closed I hI c _ (fetch_rewritten c key t) (fetch_sma c key t) h
  | exists_ key t => exact h
  | release entry => exact rewritten_closed I hI c _ (release_rewritten c entry) rfl h
  | update key updater ins ttl t now owner grant =>
    obtain ⟨cm, hcm, hrw, hsma⟩ := update_rewritten c key updater ins ttl t now owner grant
    apply rewritten_closed I hI cm _ hrw hsma
    rcases hcm with rfl | rfl
    · exact h
    · exact store_closed I hI c key _ _ true t now owner grant hn h
  | delete key now =>
    obtain ⟨h1, hb⟩ := delete_closed I hI c key now c.sma.brk h
    show I (apc_cache_delete c key now).2.sma.brk _
    rw [hb]; exact h1
  | clear t now =>
    obtain ⟨h1, hb⟩ := clear_closed I hI c t now c.sma.brk h
    show I (apc_cache_clear c t now).sma.brk _
    rw [hb]; exact h1
  | expunge size t now available avail_size =>
    obtain ⟨h1, hb⟩ := expunge_closed I hI c size t now available avail_size c.sma.brk h
    show I (apc_cache_default_expunge c size t now available avail_size).sma.brk _
    rw [hb]; exact h1

theorem run_closed (I : Nat → apc_cache_t → Prop) (hI : closed_family I) :
    ∀ (ops : List Op) (c : apc_cache_t), 0 < c.nslots → I c.sma.brk c →
      I (run c ops).sma.brk (run c ops)
  | [], _, _, h => h
  | op :: ops, c, hn, h => by
    unfold run
    simp only [List.foldl_cons]
    have hn2 : 0 < (step c op).nslots := by
      unfold apc_cache_t.nslots
      rw [(step_config c op).1]
      exact hn
    exact run_closed I hI ops (step c op) hn2 (step_closed I hI c op hn h)

theorem create_nslots_pos (sma : apc_sma_t) (serializer : Option apc_serializer_t)
    (php : apc_serializer_t) (size_hint gc_ttl ttl smart : Int) (defend : Bool) (stime : Int) :
    0 < (apc_cache_create sma serializer php size_hint gc_ttl ttl smart defend stime).nslots := by
  have h := create_nslots sma serializer php size_hint gc_ttl ttl smart defend stime
  have hp := make_prime_pos (int32_t_cast (if size_hint > 0 then size_hint else 2000))
  omega

/-! ## The chained entries, chain by chain -/

theorem chained_split (c : apc_cache_t) (s : Nat) (hs : s < c.slots.length) :
    ∃ A B, chained c = A ++ slot_chain c s ++ B ∧
      ∀ (c2 : apc_cache_t) (ch : List apc_cache_entry_t), c2.slots = c.slots →
        chained (set_slot_chain c2 s ch) = A ++ ch ++ B := by
  refine ⟨(c.slots.take s).flatten, (c.slots.drop (s + 1)).flatten, ?_, ?_⟩
  · have h1 : c.slots = c.slots.take s ++ c.slots[s] :: c.slots.drop (s + 1) := by
      rw [← List.drop_eq_getElem_cons hs, List.take_append_drop]
    have h2 := congrArg List.flatten h1
    rw [List.flatten_append, List.flatten_cons] at h2
    unfold chained
    rw [slot_chain_getElem c s hs, List.append_assoc]
    exact h2
  · intro c2 ch h2
    unfold chained set_slot_chain
    simp only [h2]
    rw [List.set_eq_take_append_cons_drop, if_pos hs]
    simp [List.flatten_append]

theorem chained_set_perm (c c2 : apc_cache_t) (s : Nat) (ch L : List apc_cache_entry_t)
    (hs : s < c.slots.length) (h2 : c2.slots = c.slots)
    (hp : (slot_chain c s).Perm (ch ++ L)) :
    (chained c).Perm (chained (set_slot_chain c2 s ch) ++ L) := by
  obtain ⟨A, B, h1, hset⟩ := chained_split c s hs
  rw [h1, hset c2 ch h2]
  have h3 : (A ++ slot_chain c s ++ B).Perm (A ++ (ch ++ L) ++ B) :=
    List.Perm.append_right B (List.Perm.append_left A hp)
  refine h3.trans ?_
  simp only [List.append_assoc]
  apply List.Perm.append_left
  apply List.Perm.append_left
  exact List.perm_append_comm

theorem chained_filtered (c c2 : apc_cache_t) (p : apc_cache_entry_t → Bool)
    (h : c2.slots = c.slots.map fun ch => ch.filter p) :
    chained c2 = (chained c).filter p := by
  unfold chained
  rw [h, List.filter_flatten]

theorem forall₂_append {R : apc_cache_entry_t → apc_cache_entry_t → Prop}
    {a a2 b b2 : List apc_cache_entry_t} (h1 : List.Forall₂ R a a2)
    (h2 : List.Forall₂ R b b2) : List.Forall₂ R (a ++ b) (a2 ++ b2) := by
  induction h1 with
  | nil => exact h2
  | cons hab _ ih => exact List.Forall₂.cons hab ih

theorem forall₂_flatten {R : apc_cache_entry_t → apc_cache_entry_t → Prop} :
    ∀ (L L2 : List (List apc_cache_entry_t)), L2.length = L.length →
      (∀ i, List.Forall₂ R (L.getD i []) (L2.getD i [])) →
      List.Forall₂ R L.flatten L2.flatten
  | [], [], _, _ => List.Forall₂.nil
  | [], _ :: _, hl, _ => by simp at hl
  | _ :: _, [], hl, _ => by simp at hl
  | a :: L, b :: L2, hl, h => by
    simp only [List.flatten_cons]
    apply forall₂_append
    · simpa using h 0
    · apply forall₂_flatten L L2 (by simpa using hl)
      intro i
      simpa using h (i + 1)

theorem rewritten_chained (c c2 : apc_cache_t) (h : rewritten_in_place c c2) :
    List.Forall₂ same_cell (chained c) (chained c2) :=
  forall₂_flatten c.slots c2.slots h.1 h.2.1

theorem cells_sizes {l l2 : List apc_cache_entry_t} (h : List.Forall₂ same_cell l l2) :
    l2.map (fun e => e.mem_size) = l.map (fun e => e.mem_size) := by
  induction h with
  | nil => rfl
  | cons hab _ ih => simp [hab.2, ih]

theorem cells_addrs {l l2 : List apc_cache_entry_t} (h : List.Forall₂ same_cell l l2) :
    l2.map (fun e => e.pool.addr) = l.map (fun e => e.pool.addr) := by
  induction h with
  | nil => rfl
  | cons hab _ ih => simp [hab.1, ih]

/-! ## Memory accounting -/

theorem mem_sum_append (a b : List apc_cache_entry_t) :
    mem_sum (a ++ b) = mem_sum a + mem_sum b := by
  simp [mem_sum]

theorem mem_sum_perm {a b : List apc_cache_entry_t} (h : a.Perm b) : mem_sum a = mem_sum b := by
  unfold mem_sum
  exact (h.map _).sum_eq

theorem mem_sum_nonneg : ∀ l : List apc_cache_entry_t, (∀ e ∈ l, 0 ≤ e.mem_size) →
    0 ≤ mem_sum l
  | [], _ => by simp [mem_sum]
  | a :: l, h => by
    have h1 := h a (List.mem_cons_self _ _)
    have h2 := mem_sum_nonneg l (fun e he => h e (List.mem_cons_of_mem _ he))
    simp only [mem_sum, List.map_cons, List.sum_cons] at h2 ⊢
    omega

theorem remove_entry_mem_size (c : apc_cache_t) (e : apc_cache_entry_t) (now : Int) :
    (apc_cache_wlocked_remove_entry c e now).header.mem_size =
      (if c.header.mem_size ≠ 0 then c.header.mem_size - e.mem_size
        else c.header.mem_size) := by
  unfold apc_cache_wlocked_remove_entry free_entry
  by_cases h1 : c.header.mem_size = 0 <;> by_cases h2 : c.header.nentries = 0 <;>
    by_cases h3 : e.ref_count ≤ 0 <;> simp [h1, h2, h3]

/-- Removing entries of non-negative size that the header accounts for subtracts their
sizes. -/
theorem remove_all_mem_size (now : Int) :
    ∀ (l : List apc_cache_entry_t) (c : apc_cache_t), (∀ e ∈ l, 0 ≤ e.mem_size) →
      mem_sum l ≤ c.header.mem_size →
      (remove_all now l c).header.mem_size = c.header.mem_size - mem_sum l
  | [], c, _, _ => by simp [remove_all, mem_sum]
  | a :: l, c, hnn, hle => by
    have h1 := hnn a (List.mem_cons_self _ _)
    have hl : ∀ e ∈ l, 0 ≤ e.mem_size := fun e he => hnn e (List.mem_cons_of_mem _ he)
    have h2 := mem_sum_nonneg l hl
    have hs : mem_sum (a :: l) = a.mem_size + mem_sum l := by simp [mem_sum]
    rw [hs] at hle ⊢
    have hr := remove_entry_mem_size c a now
    rw [remove_all, remove_all_mem_size now l _ hl (by rw [hr]; split <;> omega), hr]
    split <;> omega

/-- The header and the chains after entries `L` were taken off the chains of an accounted
cache, `K` being the entries that stay. -/
theorem accounted_of_perm (c c2 : apc_cache_t) (L : List apc_cache_entry_t) (now : Int)
    (c0 : apc_cache_t) (h0 : c0.header.mem_size = c.header.mem_size)
    (hp : (chained c).Perm (chained c2 ++ L))
    (hh : c2.header.mem_size = (remove_all now L c0).header.mem_size)
    (h : accounted c ∧ sizes_nonneg c) : accounted c2 ∧ sizes_nonneg c2 := by
  obtain ⟨ha, hnn⟩ := h
  have hsub : ∀ e ∈ chained c2 ++ L, 0 ≤ e.mem_size := fun e he => hnn e (hp.symm.subset he)
  have hL : ∀ e ∈ L, 0 ≤ e.mem_size := fun e he => hsub e (List.mem_append_right _ he)
  have hK : ∀ e ∈ chained c2, 0 ≤ e.mem_size := fun e he => hsub e (List.mem_append_left _ he)
  have hsum : mem_sum (chained c) = mem_sum (chained c2) + mem_sum L := by
    rw [mem_sum_perm hp, mem_sum_append]
  have hKn := mem_sum_nonneg _ hK
  unfold accounted at ha ⊢
  refine ⟨?_, hK⟩
  rw [hh, remove_all_mem_size now L c0 hL (by rw [h0, ha, hsum]; omega), h0, ha, hsum]
  omega

theorem real_expunge_chained (c : apc_cache_t) (t now : Int) :
    chained (apc_cache_wlocked_real_expunge c t now) = [] := by
  unfold chained
  rw [(real_expunge_fields c t now).1]
  simp

theorem accounting_closed : closed_family (fun _ c => accounted c ∧ sizes_nonneg c) where
  mono := fun _ _ _ _ h => h
  rewrite := by
    intro _ c c2 hr h
    have hs := cells_sizes (rewritten_chained c c2 hr)
    obtain ⟨ha, hnn⟩ := h
    refine ⟨?_, ?_⟩
    · unfold accounted mem_sum at ha ⊢
      rw [hr.2.2.2.1, hs]; exact ha
    · intro e he
      have : e.mem_size ∈ (chained c2).map (fun e => e.mem_size) :=
        List.mem_map.2 ⟨e, he, rfl⟩
      rw [hs] at this
      obtain ⟨x, hx, hxe⟩ := List.mem_map.1 this
      rw [← hxe]
      exact hnn x hx
  sweep := by
    intro _ c now h
    have h1 : chained (apc_cache_wlocked_gc c now) = chained c := by
      unfold chained; rw [gc_slots]
    have h2 : (apc_cache_wlocked_gc c now).header.mem_size = c.header.mem_size := by
      unfold apc_cache_wlocked_gc
      cases hg : c.header.gc <;> rfl
    unfold accounted sizes_nonneg at h ⊢
    rw [h1, h2]; exact h
  remove := by
    intro _ c s ch L now hs hp h
    exact accounted_of_perm c _ L now c rfl
      (chained_set_perm c (remove_all now L c) s ch L hs (remove_all_slots now L c) hp) rfl h
  remove_filtered := by
    intro _ c p now h
    refine accounted_of_perm c _ ((chained c).filter p) now c rfl ?_ rfl h
    have hc := chained_filtered c
      { remove_all now ((chained c).filter p) c with
        slots := c.slots.map fun ch => ch.filter fun e => !p e } (fun e => !p e) rfl
    rw [hc]
    exact filter_split_perm p (chained c)
  wipe := by
    intro _ c t now h
    refine accounted_of_perm c _ (chained c) now
      { c with header := { c.header with nexpunges := c.header.nexpunges + 1 } } rfl ?_ ?_ h
    · rw [real_expunge_chained]
      simp
    · unfold apc_cache_wlocked_real_expunge
      dsimp only
      rw [foldl_remove_all]
      rfl
  link := by
    intro _ r s n hs _ h
    obtain ⟨A, B, _, hset⟩ := chained_split r.cache s hs
    have h1 : chained (unlink_cache r s) = A ++ (r.before ++ r.after) ++ B :=
      hset r.cache _ rfl
    have h2 : chained (link_cache r s n) = A ++ (r.before ++ linked_entry n :: r.after) ++ B :=
      hset _ _ rfl
    have hn : 0 ≤ (linked_entry n).mem_size := by
      unfold linked_entry
      exact Int.ofNat_nonneg _
    obtain ⟨ha, hnn⟩ := h
    refine ⟨?_, ?_⟩
    · unfold accounted at ha ⊢
      rw [h1] at ha
      rw [h2]
      have hh : (link_cache r s n).header.mem_size =
          (unlink_cache r s).header.mem_size + (linked_entry n).mem_size := rfl
      rw [hh, ha]
      simp only [mem_sum_append]
      simp only [mem_sum, List.map_cons, List.sum_cons]
      omega
    · intro e he
      rw [h2] at he
      unfold sizes_nonneg at hnn
      rw [h1] at hnn
      simp only [List.mem_append, List.mem_cons] at he hnn
      rcases he with (h | h | rfl | h) | h
      · exact hnn e (Or.inl (Or.inl h))
      · exact hnn e (Or.inl (Or.inr (Or.inl h)))
      · exact hn
      · exact hnn e (Or.inl (Or.inr (Or.inr h)))
      · exact hnn e (Or.inr h)

theorem step_accounted (c : apc_cache_t) (op : Op) (hn : 0 < c.nslots)
    (h : accounted c ∧ sizes_nonneg c) : accounted (step c op) ∧ sizes_nonneg (step c op) :=
  step_closed (fun _ c => accounted c ∧ sizes_nonneg c) accounting_closed c op hn h

theorem create_accounted (sma : apc_sma_t) (serializer : Option apc_serializer_t)
    (php : apc_serializer_t) (size_hint gc_ttl ttl smart : Int) (defend : Bool) (stime : Int) :
    accounted (apc_cache_create sma serializer php size_hint gc_ttl ttl smart defend stime) ∧
    sizes_nonneg
      (apc_cache_create sma serializer php size_hint gc_ttl ttl smart defend stime) := by
  unfold accounted sizes_nonneg
  rw [create_chained]
  exact ⟨rfl, by simp⟩

theorem run_accounted (sma : apc_sma_t) (serializer : Option apc_serializer_t)
    (php : apc_serializer_t) (size_hint gc_ttl ttl smart : Int) (defend : Bool) (stime : Int)
    (ops : List Op) :
    accounted
      (run (apc_cache_create sma serializer php size_hint gc_ttl ttl smart defend stime) ops) ∧
    sizes_nonneg
      (run (apc_cache_create sma serializer php size_hint gc_ttl ttl smart defend stime) ops) :=
  run_closed (fun _ c => accounted c ∧ sizes_nonneg c) accounting_closed ops _
    (create_nslots_pos sma serializer php size_hint gc_ttl ttl smart defend stime)
    (create_accounted sma serializer php size_hint gc_ttl ttl smart defend stime)

theorem demo_accounted : accounted demo_accounted_cache ∧ sizes_nonneg demo_accounted_cache := by
  have hc : chained demo_accounted_cache =
      [demo_entry key_d 7 1 0 1, demo_entry key_a 1 0 0 2] := rfl
  unfold accounted sizes_nonneg
  rw [hc]
  refine ⟨by rfl, ?_⟩
  intro e he
  simp only [List.mem_cons, List.mem_singleton, List.not_mem_nil, or_false] at he
  rcases he with rfl | rfl <;> decide

/-- C25: the header of a freshly created cache accounts for the memory of its chained
entries (`header.mem_size` is the sum of `mem_size` over the entries reachable from the slot
chains); every public operation, so every write operation (store with or without
replacement and inline cleanup, delete, update, expunge, clear), run on a cache with at
least one slot whose header accounts for its entries and whose entry sizes are not negative
leaves such a cache; and so the header accounts for the chained entries in every cache
reached from a created one. -/
theorem C25_memory_accounting (sma : apc_sma_t) (serializer : Option apc_serializer_t)
    (php : apc_serializer_t) (size_hint gc_ttl ttl smart : Int) (defend : Bool) (stime : Int)
    (ops : List Op) (c : apc_cache_t) (op : Op) (hn : 0 < c.nslots) (ha : accounted c)
    (hs : sizes_nonneg c) :
    accounted (apc_cache_create sma serializer php size_hint gc_ttl ttl smart defend stime) ∧
    (accounted (step c op) ∧ sizes_nonneg (step c op) ∧ 0 < (step c op).nslots) ∧
    (run (apc_cache_create sma serializer php size_hint gc_ttl ttl smart defend stime)
        ops).header.mem_size =
      mem_sum (chained
        (run (apc_cache_create sma serializer php size_hint gc_ttl ttl smart defend stime)
          ops)) := by
  have hstep := step_accounted c op hn ⟨ha, hs⟩
  refine ⟨(create_accounted sma serializer php size_hint gc_ttl ttl smart defend stime).1,
    ⟨hstep.1, hstep.2, ?_⟩,
    (run_accounted sma serializer php size_hint gc_ttl ttl smart defend stime ops).1⟩
  unfold apc_cache_t.nslots
  rw [(step_config c op).1]
  exact hn

theorem C25_memory_accounting_witness :
    0 < demo_accounted_cache.nslots ∧ accounted demo_accounted_cache ∧
    sizes_nonneg demo_accounted_cache ∧
    accounted (step demo_accounted_cache (.delete key_d 5)) ∧
    (step demo_accounted_cache (.delete key_d 5)).header.mem_size = 2 :=
  ⟨by decide, demo_accounted.1, demo_accounted.2,
    (C25_memory_accounting demo_sma none demo_serializer 1 3600 0 0 false 0 []
      demo_accounted_cache (.delete key_d 5) (by decide) demo_accounted.1
      demo_accounted.2).2.1.1,
    by rfl⟩

/-! ## The GC list and the chains hold different entries -/

theorem nodup_of_subperm {l1 l2 : List Nat} (h : l1.Subperm l2) (hn : l2.Nodup) :
    l1.Nodup := by
  obtain ⟨l, hp, hs⟩ := h
  exact hp.nodup_iff.mp (hn.sublist hs)

/-- A cache whose entries are among those of `c` is separated and allocated below `a` when
`c` is. -/
theorem separated_of_subperm (a : Nat) (c c2 : apc_cache_t)
    (hsp : (entry_addrs c2).Subperm (entry_addrs c))
    (h : separated c ∧ allocated_below a c) : separated c2 ∧ allocated_below a c2 :=
  ⟨nodup_of_subperm hsp h.1, fun x hx => h.2 x (hsp.subset hx)⟩

theorem gc_added_addrs (now : Int) (L : List apc_cache_entry_t) :
    ((gc_added now L).map fun e => e.pool.addr).Subperm (L.map fun e => e.pool.addr) := by
  unfold gc_added
  rw [List.map_reverse, List.map_map]
  refine (List.reverse_perm _).subperm.trans ?_
  exact ((List.filter_sublist L).map (fun e => e.pool.addr)).subperm

/-- Taking the entries `L` off the chains with `apc_cache_wlocked_remove_entry`: the entries
left on the chains and the GC list afterwards are among those held before. -/
theorem removal_addrs (c c2 : apc_cache_t) (L : List apc_cache_entry_t) (now : Int)
    (hp : (chained c).Perm (chained c2 ++ L))
    (hg : c2.header.gc = gc_added now L ++ c.header.gc) :
    (entry_addrs c2).Subperm (entry_addrs c) := by
  unfold entry_addrs
  rw [hg]
  simp only [List.map_append]
  have h1 : ((chained c).map fun e => e.pool.addr).Perm
      ((chained c2).map (fun e => e.pool.addr) ++ L.map (fun e => e.pool.addr)) := by
    have := hp.map (fun e => e.pool.addr)
    rwa [List.map_append] at this
  have h2 : ((chained c2).map (fun e => e.pool.addr) ++
      ((gc_added now L).map (fun e => e.pool.addr) ++
        c.header.gc.map (fun e => e.pool.addr))).Subperm
      ((chained c2).map (fun e => e.pool.addr) ++
        (L.map (fun e => e.pool.addr) ++ c.header.gc.map (fun e => e.pool.addr))) :=
    (List.subperm_append_left _).mpr ((List.subperm_append_right _).mpr (gc_added_addrs now L))
  refine h2.trans ?_
  rw [← List.append_assoc]
  exact ((List.Perm.append_right _ h1).symm).subperm

theorem separation_closed : closed_family (fun a c => separated c ∧ allocated_below a c) where
  mono := fun a b _ hab h => ⟨h.1, fun x hx => lt_of_lt_of_le (h.2 x hx) hab⟩
  rewrite := by
    intro a c c2 hr h
    have h1 := cells_addrs (rewritten_chained c c2 hr)
    have h2 := cells_addrs hr.2.2.1
    have he : entry_addrs c2 = entry_addrs c := by
      unfold entry_addrs
      rw [List.map_append, List.map_append, h1, h2]
    unfold separated allocated_below at h ⊢
    rw [he]; exact h
  sweep := by
    intro a c now h
    apply separated_of_subperm a c _ _ h
    unfold entry_addrs
    have h1 : chained (apc_cache_wlocked_gc c now) = chained c := by
      unfold chained; rw [gc_slots]
    have h2 : (apc_cache_wlocked_gc c now).header.gc.Sublist c.header.gc := by
      unfold apc_cache_wlocked_gc
      cases hg : c.header.gc with
      | nil => simp [hg]
      | cons g rest =>
        show (gc_walk c.gc_ttl now (g :: rest) c.sma).1.Sublist (g :: rest)
        rw [(gc_walk_filter c.gc_ttl now (g :: rest) c.sma).1]
        exact List.filter_sublist _
    rw [h1]
    exact (((List.Sublist.refl _).append h2).map _).subperm
  remove := by
    intro a c s ch L now hs hp h
    exact separated_of_subperm a c _
      (removal_addrs c _ L now
        (chained_set_perm c (remove_all now L c) s ch L hs (remove_all_slots now L c) hp)
        (remove_all_gc now L c)) h
  remove_filtered := by
    intro a c p now h
    refine separated_of_subperm a c _
      (removal_addrs c _ ((chained c).filter p) now ?_ (remove_all_gc now _ c)) h
    have hc := chained_filtered c
      { remove_all now ((chained c).filter p) c with
        slots := c.slots.map fun ch => ch.filter fun e => !p e } (fun e => !p e) rfl
    rw [hc]
    exact filter_split_perm p (chained c)
  wipe := by
    intro a c t now h
    refine separated_of_subperm a c _
      (removal_addrs c _ (chained c) now ?_ (real_expunge_fields c t now).2.2.2.2.2.2.2.2.2.1) h
    rw [real_expunge_chained]
    simp
  link := by
    intro a r s n hs hn h
    obtain ⟨A, B, _, hset⟩ := chained_split r.cache s hs
    have h1 : chained (unlink_cache r s) = A ++ (r.before ++ r.after) ++ B :=
      hset r.cache _ rfl
    have h2 : chained (link_cache r s n) = A ++ (r.before ++ linked_entry n :: r.after) ++ B :=
      hset _ _ rfl
    have hg : (link_cache r s n).header.gc = (unlink_cache r s).header.gc := rfl
    have hperm : (entry_addrs (link_cache r s n)).Perm (a :: entry_addrs (unlink_cache r s)) := by
      unfold entry_addrs
      rw [h1, h2, hg, ← hn]
      have : (A ++ (r.before ++ linked_entry n :: r.after) ++ B ++
          (unlink_cache r s).header.gc).Perm
          (linked_entry n :: (A ++ (r.before ++ r.after) ++ B ++
            (unlink_cache r s).header.gc)) := by
        have e1 : A ++ (r.before ++ linked_entry n :: r.after) ++ B ++
            (unlink_cache r s).header.gc =
          (A ++ r.before) ++ linked_entry n :: (r.after ++ (B ++
            (unlink_cache r s).header.gc)) := by simp
        have e2 : A ++ (r.before ++ r.after) ++ B ++ (unlink_cache r s).header.gc =
          (A ++ r.before) ++ (r.after ++ (B ++ (unlink_cache r s).header.gc)) := by simp
        rw [e1, e2]
        exact List.perm_middle
      exact this.map _
    obtain ⟨hsep, hbel⟩ := h
    refine ⟨?_, ?_⟩
    · unfold separated
      rw [hperm.nodup_iff, List.nodup_cons]
      exact ⟨fun hmem => lt_irrefl a (hbel a hmem), hsep⟩
    · intro x hx
      rcases List.mem_cons.1 (hperm.subset hx) with rfl | hx
      · exact Nat.lt_succ_self _
      · exact Nat.lt_succ_of_lt (hbel x hx)

theorem create_separated (sma : apc_sma_t) (serializer : Option apc_serializer_t)
    (php : apc_serializer_t) (size_hint gc_ttl ttl smart : Int) (defend : Bool) (stime : Int) :
    separated (apc_cache_create sma serializer php size_hint gc_ttl ttl smart defend stime) ∧
    allocated_below
      (apc_cache_create sma serializer php size_hint gc_ttl ttl smart defend stime).sma.brk
      (apc_cache_create sma serializer php size_hint gc_ttl ttl smart defend stime) := by
  have he : entry_addrs
      (apc_cache_create sma serializer php size_hint gc_ttl ttl smart defend stime) = [] := by
    unfold entry_addrs
    rw [create_chained]
    rfl
  unfold separated allocated_below
  rw [he]
  exact ⟨List.nodup_nil, by simp⟩

theorem run_separated (sma : apc_sma_t) (serializer : Option apc_serializer_t)
    (php : apc_serializer_t) (size_hint gc_ttl ttl smart : Int) (defend : Bool) (stime : Int)
    (ops : List Op) :
    separated
      (run (apc_cache_create sma serializer php size_hint gc_ttl ttl smart defend stime) ops) :=
  (run_closed (fun a c => separated c ∧ allocated_below a c) separation_closed ops _
    (create_nslots_pos sma serializer php size_hint gc_ttl ttl smart defend stime)
    (create_separated sma serializer php size_hint gc_ttl ttl smart defend stime)).1

/-- C29: in every cache reached from a freshly created one by public operations, with an
entry identified by the address of its pool, no entry occurs twice among the slot chains and
the GC list, and no entry of the GC list is reachable from a slot chain. -/
theorem C29_gc_separation (sma : apc_sma_t) (serializer : Option apc_serializer_t)
    (php : apc_serializer_t) (size_hint gc_ttl ttl smart : Int) (defend : Bool) (stime : Int)
    (ops : List Op) :
    separated
      (run (apc_cache_create sma serializer php size_hint gc_ttl ttl smart defend stime) ops) ∧
    ∀ g ∈ (run (apc_cache_create sma serializer php size_hint gc_ttl ttl smart defend stime)
        ops).header.gc,
      ∀ e ∈ chained
          (run (apc_cache_create sma serializer php size_hint gc_ttl ttl smart defend stime)
            ops),
        e.pool.addr ≠ g.pool.addr := by
  have h := run_separated sma serializer php size_hint gc_ttl ttl smart defend stime ops
  refine ⟨h, ?_⟩
  intro g hg e he heq
  unfold separated entry_addrs at h
  rw [List.map_append] at h
  have hd := (List.nodup_append.1 h).2.2
  exact hd (List.mem_map.2 ⟨e, he, rfl⟩) (List.mem_map.2 ⟨g, hg, heq.symm⟩)

/-! ## A hard-expired entry and the key-addressed operations -/

/-- What `apc_cache_store` returns, by the entry it has built when it reaches the insert. -/
theorem store_by_built (c : apc_cache_t) (key : zend_string) (val : zval) (ttl : Int)
    (exclusive : Bool) (t now : Int) (owner : Nat) (grant : Option Nat) :
    (store_builds c key val ttl t owner grant = none ∧
      (apc_cache_store c key val ttl exclusive t now owner grant).1 = false ∧
      (apc_cache_store c key val ttl exclusive t now owner grant).2.slots = c.slots) ∨
    (∃ n0 c1 c3 lk, store_builds c key val ttl t owner grant = some n0 ∧
      n0.key = key ∧ n0.ctime = t ∧ n0.ttl = ttl ∧
      c1 = { c with header := { c.header with lastkey := lk }
                    sma := { c.sma with brk := c.sma.brk + 1 } } ∧
      apc_cache_store c key val ttl exclusive t now owner grant =
        if (apc_cache_wlocked_insert c1 n0 exclusive now).1 then
          (true, (apc_cache_wlocked_insert c1 n0 exclusive now).2)
        else
          (false, apc_cache_destroy_context
            (apc_cache_wlocked_insert c1 n0 exclusive now).2 c3)) := by
  obtain ⟨lk, hd⟩ := defense_cache c key t owner
  unfold store_builds apc_cache_store
  dsimp only
  by_cases hslam : (apc_cache_defense c key t owner).1 = true
  · left
    rw [if_pos hslam, if_pos hslam, defense_slam_cache c key t owner hslam]
    exact ⟨rfl, rfl, rfl⟩
  · rw [if_neg hslam, if_neg hslam, hd]
    cases hctx : apc_cache_make_copy_in_context
        { c with header := { c.header with lastkey := lk } } grant with
    | mk o c1 =>
      cases o with
      | none =>
        left
        have := make_context_none _ _ _ hctx
        subst this
        exact ⟨rfl, rfl, rfl⟩
      | some ctxt =>
        obtain ⟨h1, h2, h3, h4, h5, h6⟩ := make_context_some _ _ _ _ hctx
        subst h6
        dsimp only
        cases hme : apc_cache_make_entry ctxt key val ttl t with
        | mk o2 ctxt1 =>
          cases o2 with
          | none =>
            left
            exact ⟨rfl, rfl, rfl⟩
          | some n =>
            right
            obtain ⟨f1, f2, f3, _⟩ := make_entry_some _ _ _ _ _ _ _ hme
            exact ⟨n, { c with header := { c.header with lastkey := lk }
                               sma := { c.sma with brk := c.sma.brk + 1 } },
              ctxt1, lk, rfl, f1, f3, f2, rfl, rfl⟩

theorem defense_set_chain (c : apc_cache_t) (s : Nat) (ch : List apc_cache_entry_t)
    (key : zend_string) (t : Int) (owner : Nat) :
    apc_cache_defense (set_slot_chain c s ch) key t owner =
      ((apc_cache_defense c key t owner).1,
        set_slot_chain (apc_cache_defense c key t owner).2 s ch) := by
  unfold apc_cache_defense set_slot_chain
  dsimp only
  split
  · split
    · rfl
    · split
      · split <;> rfl
      · rfl
  · rfl

theorem store_builds_set_chain (c : apc_cache_t) (s : Nat) (ch : List apc_cache_entry_t)
    (key : zend_string) (val : zval) (ttl t : Int) (owner : Nat) (grant : Option Nat) :
    store_builds (set_slot_chain c s ch) key val ttl t owner grant =
      store_builds c key val ttl t owner grant := by
  unfold store_builds
  rw [defense_set_chain]
  dsimp only
  split
  · rfl
  · cases grant with
    | none => rfl
    | some n => rfl

theorem filter_expired_congr (c c1 : apc_cache_t) (t : Int) (h : c1.ttl = c.ttl)
    (l : List apc_cache_entry_t) :
    l.filter (fun x => !apc_cache_entry_expired c1 x t) =
      l.filter (fun x => !apc_cache_entry_expired c x t) := by
  have : (fun x => !apc_cache_entry_expired c1 x t) =
      (fun x => !apc_cache_entry_expired c x t) := by
    funext x
    rw [expired_congr c c1 x t h]
  rw [this]

/-- A store of a key whose only chain entry is hard-expired at the time of the store: when it
has built its entry it succeeds, and the entry stands in place of the expired one. -/
theorem store_over_expired (c : apc_cache_t) (key : zend_string) (val : zval) (ttl : Int)
    (exclusive : Bool) (t now : Int) (owner : Nat) (grant : Option Nat)
    (pre suf : List apc_cache_entry_t) (e : apc_cache_entry_t) (n0 : apc_cache_entry_t)
    (hm : only_expired_match c key t pre e suf)
    (hb : store_builds c key val ttl t owner grant = some n0) :
    (apc_cache_store c key val ttl exclusive t now owner grant).1 = true ∧
    n0.key = key ∧ n0.ctime = t ∧ n0.ttl = ttl ∧
    slot_chain (apc_cache_store c key val ttl exclusive t now owner grant).2
      (apc_cache_hash_slot c key).2 =
        pre.filter (fun x => !apc_cache_entry_expired c x t) ++ linked_entry n0 :: suf := by
  obtain ⟨hfm, _, hx⟩ := hm
  have hlt : (apc_cache_hash_slot c key).2 < c.slots.length :=
    slot_lt_of_chain_ne_nil c _ (by rw [hfm.1]; simp)
  rcases store_by_built c key val ttl exclusive t now owner grant with
    ⟨hnone, _⟩ | ⟨n1, c1, c3, lk, hsome, f1, f2, f3, hc1, hs⟩
  · rw [hnone] at hb; simp at hb
  · obtain ⟨p1, _, _, p4, _⟩ := store_prepared c c1 lk hc1
    clear hc1
    rw [hsome] at hb
    simp only [Option.some.injEq] at hb
    subst hb
    have hslot : apc_cache_hash_slot c1 n1.key = apc_cache_hash_slot c key := by
      rw [f1]; exact hash_slot_congr c c1 key (by rw [p1])
    have hfm1 : first_match c1 n1.key pre e suf := by
      unfold first_match
      rw [hslot, slot_chain_congr c c1 _ p1, f1]
      exact hfm
    have hx1 : (exclusive && !apc_cache_entry_hard_expired e n1.ctime) = false := by
      rw [f2, hx]; simp
    have hw := wlocked_insert_match c1 n1 exclusive now pre suf e hfm1 hx1
    have h1 : apc_cache_store c key val ttl exclusive t now owner grant =
        (true, link_cache
          { ok := true
            before := pre.filter (fun x => !apc_cache_entry_expired c1 x n1.ctime)
            after := suf
            cache := remove_all now
              (pre.filter (fun x => apc_cache_entry_expired c1 x n1.ctime) ++ [e])
              (apc_cache_wlocked_gc c1 now) }
          (apc_cache_hash_slot c1 n1.key).2 n1) := by
      rw [hs, hw]; rfl
    rw [h1]
    refine ⟨rfl, f1, f2, f3, ?_⟩
    rw [filter_expired_congr c c1 n1.ctime p4 pre, hslot, f2]
    exact link_cache_chain _ _ _ (by
      show _ < (remove_all now _ (apc_cache_wlocked_gc c1 now)).slots.length
      rw [remove_all_slots, gc_slots, p1]; exact hlt)

/-- A store of a key that no chain entry has: when it has built its entry it succeeds, and
the entry stands at the end of the chain. -/
theorem store_over_absent (c : apc_cache_t) (key : zend_string) (val : zval) (ttl : Int)
    (exclusive : Bool) (t now : Int) (owner : Nat) (grant : Option Nat)
    (n0 : apc_cache_entry_t) (hn : (apc_cache_hash_slot c key).2 < c.slots.length)
    (hno : no_match c key)
    (hb : store_builds c key val ttl t owner grant = some n0) :
    (apc_cache_store c key val ttl exclusive t now owner grant).1 = true ∧
    slot_chain (apc_cache_store c key val ttl exclusive t now owner grant).2
      (apc_cache_hash_slot c key).2 =
        (slot_chain c (apc_cache_hash_slot c key).2).filter
          (fun x => !apc_cache_entry_expired c x t) ++ [linked_entry n0] := by
  rcases store_by_built c key val ttl exclusive t now owner grant with
    ⟨hnone, _⟩ | ⟨n1, c1, c3, lk, hsome, f1, f2, f3, hc1, hs⟩
  · rw [hnone] at hb; simp at hb
  · obtain ⟨p1, _, _, p4, _⟩ := store_prepared c c1 lk hc1
    clear hc1
    rw [hsome] at hb
    simp only [Option.some.injEq] at hb
    subst hb
    have hslot : apc_cache_hash_slot c1 n1.key = apc_cache_hash_slot c key := by
      rw [f1]; exact hash_slot_congr c c1 key (by rw [p1])
    have hno1 : no_match c1 n1.key := by
      unfold no_match
      rw [hslot, slot_chain_congr c c1 _ p1, f1]
      exact hno
    have hw := wlocked_insert_nomatch c1 n1 exclusive now hno1
    have hch : slot_chain c1 (apc_cache_hash_slot c1 n1.key).2 =
        slot_chain c (apc_cache_hash_slot c key).2 := by
      rw [hslot]; exact slot_chain_congr c c1 _ p1
    have h1 : apc_cache_store c key val ttl exclusive t now owner grant =
        (true, link_cache
          { ok := true
            before := (slot_chain c1 (apc_cache_hash_slot c1 n1.key).2).filter
              (fun x => !apc_cache_entry_expired c1 x n1.ctime)
            after := []
            cache := remove_all now
              ((slot_chain c1 (apc_cache_hash_slot c1 n1.key).2).filter
                (fun x => apc_cache_entry_expired c1 x n1.ctime))
              (apc_cache_wlocked_gc c1 now) }
          (apc_cache_hash_slot c1 n1.key).2 n1) := by
      rw [hs, hw]; rfl
    rw [h1]
    refine ⟨rfl, ?_⟩
    rw [filter_expired_congr c c1 n1.ctime p4 _, hch, hslot, f2]
    exact link_cache_chain _ _ _ (by
      show _ < (remove_all now _ (apc_cache_wlocked_gc c1 now)).slots.length
      rw [remove_all_slots, gc_slots, p1]; exact hn)

theorem store_not_built (c : apc_cache_t) (key : zend_string) (val : zval) (ttl : Int)
    (exclusive : Bool) (t now : Int) (owner : Nat) (grant : Option Nat)
    (hb : store_builds c key val ttl t owner grant = none) :
    (apc_cache_store c key val ttl exclusive t now owner grant).1 = false ∧
    (apc_cache_store c key val ttl exclusive t now owner grant).2.slots = c.slots := by
  rcases store_by_built c key val ttl exclusive t now owner grant with
    ⟨_, h1, h2⟩ | ⟨n1, c1, c3, lk, hsome, _⟩
  · exact ⟨h1, h2⟩
  · rw [hsome] at hb; simp at hb

/-- The walk of `apc_cache_update` over a chain in which `x` is the only entry with the key:
it runs off the chain when `x` is hard-expired, else it stops at `x`. -/
theorem update_walk_only (serializer : Option apc_serializer_t)
    (updater : apc_cache_updater_t) (key : zend_string) (t : Int)
    (A B : List apc_cache_entry_t) (x : apc_cache_entry_t)
    (hA : ∀ y ∈ A, y.key ≠ key) (hB : ∀ y ∈ B, y.key ≠ key) (hx : x.key = key) :
    (update_walk serializer updater (ZSTR_HASH key) key t (A ++ x :: B)).map
        (fun r => r.retval) =
      if apc_cache_entry_hard_expired x t then none
      else some (update_entry serializer updater t x).1 := by
  cases hl : apc_cache_entry_hard_expired x t with
  | false =>
    rw [update_walk_split serializer updater key t x B hx hl A
      (fun y hy hc => hA y hy hc.1)]
    simp
  | true =>
    rw [update_walk_none_of serializer updater key t (A ++ x :: B)]
    · simp
    · intro y hy hc
      rcases List.mem_append.1 hy with h | h
      · exact hA y h hc.1
      · rcases List.mem_cons.1 h with rfl | h
        · rw [hl] at hc; simp at hc
        · exact hB y h hc.1

theorem update_walk_absent (serializer : Option apc_serializer_t)
    (updater : apc_cache_updater_t) (key : zend_string) (t : Int)
    (l : List apc_cache_entry_t) (h : ∀ y ∈ l, y.key ≠ key) :
    update_walk serializer updater (ZSTR_HASH key) key t l = none :=
  update_walk_none_of serializer updater key t l (fun y hy hc => h y hy hc.1)

/-- What `apc_cache_update` returns when its first pass finds no live entry for the key. -/
theorem update_retval_missed (c : apc_cache_t) (key : zend_string)
    (updater : apc_cache_updater_t) (ins : Bool) (ttl t now : Int) (owner : Nat)
    (grant : Option Nat)
    (h : update_walk c.serializer updater (ZSTR_HASH key) key t
      (slot_chain c (apc_cache_hash_slot c key).2) = none) :
    (apc_cache_update c key updater ins ttl t now owner grant).retval =
      (!apc_cache_busy c && ins &&
        ((update_walk c.serializer updater (ZSTR_HASH key) key t
          (slot_chain (apc_cache_store c key (.long 0) (int32_t_cast ttl) true t now owner
            grant).2 (apc_cache_hash_slot c key).2)).map (fun r => r.retval)).getD false) := by
  have heq := update_eq c key updater ins ttl t now owner grant
  have hcf := store_config c key (.long 0) (int32_t_cast ttl) true t now owner grant
  by_cases hb : apc_cache_busy c = true
  · simp only [apc_cache_update_fuel, hb, if_true, Option.some.injEq] at heq
    rw [heq, hb]
    rfl
  · have hb2 : apc_cache_busy c = false := by simpa using hb
    rw [hb2]
    cases ins with
    | false =>
      rw [update_not_busy_missed c key updater ttl t now owner grant hb2 h 1] at heq
      simp only [Option.some.injEq] at heq
      rw [heq]
      rfl
    | true =>
      rw [show (2 : Nat) = 0 + 2 from rfl,
        update_not_busy_insert c key updater ttl t now owner grant hb2 h 0,
        hash_slot_congr c _ key hcf.1, hcf.2.1] at heq
      cases hw : update_walk c.serializer updater (ZSTR_HASH key) key t
          (slot_chain (apc_cache_store c key (.long 0) (int32_t_cast ttl) true t now owner
            grant).2 (apc_cache_hash_slot c key).2) with
      | none =>
        rw [hw] at heq
        simp only [Option.some.injEq] at heq
        rw [heq]
        rfl
      | some r =>
        rw [hw] at heq
        simp only [Option.some.injEq] at heq
        rw [heq]
        rfl

theorem without_match_slot (c : apc_cache_t) (key : zend_string)
    (pre suf : List apc_cache_entry_t) (k : zend_string) :
    apc_cache_hash_slot (without_match c key pre suf) k = apc_cache_hash_slot c k :=
  hash_slot_congr c _ k (by simp [without_match, set_slot_chain])

theorem without_match_chain (c : apc_cache_t) (key : zend_string) (t : Int)
    (pre suf : List apc_cache_entry_t) (e : apc_cache_entry_t)
    (hm : only_expired_match c key t pre e suf) :
    (apc_cache_hash_slot c key).2 < c.slots.length ∧
    slot_chain (without_match c key pre suf) (apc_cache_hash_slot c key).2 = pre ++ suf ∧
    no_match (without_match c key pre suf) key := by
  have hlt : (apc_cache_hash_slot c key).2 < c.slots.length :=
    slot_lt_of_chain_ne_nil c _ (by rw [hm.1.1]; simp)
  have hch : slot_chain (without_match c key pre suf) (apc_cache_hash_slot c key).2 =
      pre ++ suf := slot_chain_set_same c _ _ hlt
  refine ⟨hlt, hch, ?_⟩
  unfold no_match
  rw [without_match_slot, hch]
  intro x hx
  rcases List.mem_append.1 hx with h | h
  · exact hm.1.2.1 x h
  · exact hm.2.1 x h

/-- A store returns the same on a cache whose only entry for the key is hard-expired at the
time of the store and on that cache with the entry absent. -/
theorem store_expired_as_absent (c : apc_cache_t) (key : zend_string) (val : zval) (ttl : Int)
    (exclusive : Bool) (t now : Int) (owner : Nat) (grant : Option Nat)
    (pre suf : List apc_cache_entry_t) (e : apc_cache_entry_t)
    (hm : only_expired_match c key t pre e suf) :
    (apc_cache_store c key val ttl exclusive t now owner grant).1 =
      (apc_cache_store (without_match c key pre suf) key val ttl exclusive t now owner
        grant).1 := by
  obtain ⟨hlt, hch, hno⟩ := without_match_chain c key t pre suf e hm
  have hb2 : store_builds (without_match c key pre suf) key val ttl t owner grant =
      store_builds c key val ttl t owner grant := store_builds_set_chain c _ _ _ _ _ _ _ _
  cases hb : store_builds c key val ttl t owner grant with
  | none =>
    rw [(store_not_built c key val ttl exclusive t now owner grant hb).1,
      (store_not_built _ key val ttl exclusive t now owner grant (hb2.trans hb)).1]
  | some n0 =>
    rw [(store_over_expired c key val ttl exclusive t now owner grant pre suf e n0 hm hb).1,
      (store_over_absent _ key val ttl exclusive t now owner grant n0
        (by rw [without_match_slot]; simpa [without_match, set_slot_chain] using hlt)
        hno (hb2.trans hb)).1]

/-- An update returns the same on a cache whose only entry for the key is hard-expired at
the time of the update and on that cache with the entry absent. -/
theorem update_expired_as_absent (c : apc_cache_t) (key : zend_string)
    (updater : apc_cache_updater_t) (ins : Bool) (ttl t now : Int) (owner : Nat)
    (grant : Option Nat) (pre suf : List apc_cache_entry_t) (e : apc_cache_entry_t)
    (hm : only_expired_match c key t pre e suf) :
    (apc_cache_update c key updater ins ttl t now owner grant).retval =
      (apc_cache_update (without_match c key pre suf) key updater ins ttl t now owner
        grant).retval := by
  obtain ⟨hlt, hch, hno⟩ := without_match_chain c key t pre suf e hm
  have hlt2 : (apc_cache_hash_slot (without_match c key pre suf) key).2 <
      (without_match c key pre suf).slots.length := by
    rw [without_match_slot]; simpa [without_match, set_slot_chain] using hlt
  have hexp : ∀ y ∈ pre ++ e :: suf,
      ¬(y.key = key ∧ apc_cache_entry_hard_expired y t = false) := by
    intro y hy hc
    rcases List.mem_append.1 hy with h | h
    · exact hm.1.2.1 y h hc.1
    · rcases List.mem_cons.1 h with rfl | h
      · rw [hm.2.2] at hc; simp at hc
      · exact hm.2.1 y h hc.1
  have hw1 : update_walk c.serializer updater (ZSTR_HASH key) key t
      (slot_chain c (apc_cache_hash_slot c key).2) = none := by
    rw [hm.1.1]
    exact update_walk_none_of _ _ _ _ _ hexp
  have hw2 : update_walk (without_match c key pre suf).serializer updater (ZSTR_HASH key) key t
      (slot_chain (without_match c key pre suf)
        (apc_cache_hash_slot (without_match c key pre suf) key).2) = none :=
    update_walk_absent _ _ _ _ _ hno
  rw [update_retval_missed c key updater ins ttl t now owner grant hw1,
    update_retval_missed _ key updater ins ttl t now owner grant hw2]
  have hbusy : apc_cache_busy (without_match c key pre suf) = apc_cache_busy c := rfl
  have hser : (without_match c key pre suf).serializer = c.serializer := rfl
  rw [hbusy, hser, without_match_slot]
  congr 2
  have hb2 : store_builds (without_match c key pre suf) key (.long 0) (int32_t_cast ttl) t
      owner grant = store_builds c key (.long 0) (int32_t_cast ttl) t owner grant :=
    store_builds_set_chain c _ _ _ _ _ _ _ _
  cases hb : store_builds c key (.long 0) (int32_t_cast ttl) t owner grant with
  | none =>
    have h1 := (store_not_built c key (.long 0) (int32_t_cast ttl) true t now owner grant hb).2
    have h2 := (store_not_built _ key (.long 0) (int32_t_cast ttl) true t now owner grant
      (hb2.trans hb)).2
    rw [slot_chain_congr c _ _ h1, slot_chain_congr (without_match c key pre suf) _ _ h2,
      hm.1.1, hch, update_walk_none_of _ _ _ _ _ hexp,
      update_walk_absent _ _ _ _ _ (by
        intro y hy
        rcases List.mem_append.1 hy with h | h
        · exact hm.1.2.1 y h
        · exact hm.2.1 y h)]
  | some n0 =>
    obtain ⟨_, f1, _, _, hc1⟩ := store_over_expired c key (.long 0) (int32_t_cast ttl) true t
      now owner grant pre suf e n0 hm hb
    obtain ⟨_, hc2⟩ := store_over_absent _ key (.long 0) (int32_t_cast ttl) true t now owner
      grant n0 hlt2 hno (hb2.trans hb)
    rw [without_match_slot] at hc2
    have hk : (linked_entry n0).key = key := f1
    rw [hc1, hc2,
      update_walk_only c.serializer updater key t _ suf (linked_entry n0)
        (fun y hy => hm.1.2.1 y (List.mem_filter.1 hy).1) hm.2.1 hk,
      update_walk_only c.serializer updater key t _ [] (linked_entry n0)
        (fun y hy => hno y (by
          rw [without_match_slot]
          exact (List.mem_filter.1 hy).1)) (by simp) hk]

/-- C23: for every cache state, key and time `t` at which the only chain entry for the key
is hard-expired, `find_nostat`, `exists`, `find`, `fetch`, `update` and `store` (exclusive
or not) made at `t` return the same result as on the same cache with that entry absent: the
lookups miss, and `store` and `update` return what they return when the key is absent.
The function `apc_cache_delete` makes no expiry test: it returns true on the cache that
holds the hard-expired entry, where `exists` is false, and false on the cache without it. -/
theorem C23_hard_expired_as_absent (c : apc_cache_t) (key : zend_string) (t : Int)
    (pre suf : List apc_cache_entry_t) (e : apc_cache_entry_t)
    (hm : only_expired_match c key t pre e suf) :
    (apc_cache_rlocked_find_nostat c key t = none ∧
      apc_cache_rlocked_find_nostat (without_match c key pre suf) key t = none) ∧
    (apc_cache_exists c key t = false ∧
      apc_cache_exists (without_match c key pre suf) key t = false) ∧
    ((apc_cache_find c key t).2 = none ∧
      (apc_cache_find (without_match c key pre suf) key t).2 = none) ∧
    ((apc_cache_fetch c key t).1 = false ∧
      (apc_cache_fetch (without_match c key pre suf) key t).1 = false) ∧
    (∀ val ttl exclusive now owner grant,
      (apc_cache_store c key val ttl exclusive t now owner grant).1 =
        (apc_cache_store (without_match c key pre suf) key val ttl exclusive t now owner
          grant).1) ∧
    (∀ updater ins ttl now owner grant,
      (apc_cache_update c key updater ins ttl t now owner grant).retval =
        (apc_cache_update (without_match c key pre suf) key updater ins ttl t now owner
          grant).retval) ∧
    (∀ now, (apc_cache_delete c key now).1 = true ∧
      (apc_cache_delete (without_match c key pre suf) key now).1 = false) := by
  obtain ⟨hlt, hch, hno⟩ := without_match_chain c key t pre suf e hm
  have hn1 : apc_cache_rlocked_find_nostat c key t = none := by
    rw [find_nostat_hit c key t pre suf e hm.1.1 hm.1.2.1 hm.1.2.2, hm.2.2]; rfl
  have hn2 : apc_cache_rlocked_find_nostat (without_match c key pre suf) key t = none :=
    find_nostat_miss _ key t hno
  have hmiss1 : (∀ x ∈ slot_chain c (apc_cache_hash_slot c key).2, x.key ≠ key) ∨
      ∃ pre e suf, slot_chain c (apc_cache_hash_slot c key).2 = pre ++ e :: suf ∧
        (∀ x ∈ pre, x.key ≠ key) ∧ e.key = key ∧ apc_cache_entry_hard_expired e t = true :=
    Or.inr ⟨pre, e, suf, hm.1.1, hm.1.2.1, hm.1.2.2, hm.2.2⟩
  refine ⟨⟨hn1, hn2⟩, ⟨?_, ?_⟩, ⟨?_, ?_⟩, ⟨?_, ?_⟩,
    fun val ttl exclusive now owner grant =>
      store_expired_as_absent c key val ttl exclusive t now owner grant pre suf e hm,
    fun updater ins ttl now owner grant =>
      update_expired_as_absent c key updater ins ttl t now owner grant pre suf e hm,
    fun now => ⟨?_, ?_⟩⟩
  · unfold apc_cache_exists
    split
    · rfl
    · rw [hn1]; rfl
  · unfold apc_cache_exists
    split
    · rfl
    · rw [hn2]; rfl
  · unfold apc_cache_find
    split
    · rfl
    · rw [find_incref_miss c key t hmiss1]
  · unfold apc_cache_find
    split
    · rfl
    · rw [find_incref_miss _ key t (Or.inl hno)]
  · unfold apc_cache_fetch
    split
    · rfl
    · rw [find_incref_miss c key t hmiss1]
  · unfold apc_cache_fetch
    split
    · rfl
    · rw [find_incref_miss _ key t (Or.inl hno)]
  · rw [apc_cache_delete_hit c key now pre suf e hm.1.1 hm.1.2.1 hm.1.2.2]
  · rw [apc_cache_delete_miss _ key now hno]

theorem demo_expired_match :
    only_expired_match demo_expired_cache key_a 10 [] (demo_entry key_a 1 5 0 1) [] :=
  ⟨⟨rfl, by simp, rfl⟩, by simp, by rfl⟩

theorem C23_hard_expired_as_absent_witness :
    only_expired_match demo_expired_cache key_a 10 [] (demo_entry key_a 1 5 0 1) [] ∧
    apc_cache_exists demo_expired_cache key_a 10 = false ∧
    (apc_cache_delete demo_expired_cache key_a 10).1 = true ∧
    (apc_cache_delete (without_match demo_expired_cache key_a [] []) key_a 10).1 = false :=
  ⟨demo_expired_match,
    (C23_hard_expired_as_absent demo_expired_cache key_a 10 [] [] (demo_entry key_a 1 5 0 1)
      demo_expired_match).2.1.1,
    ((C23_hard_expired_as_absent demo_expired_cache key_a 10 [] [] (demo_entry key_a 1 5 0 1)
      demo_expired_match).2.2.2.2.2.2 10).1,
    ((C23_hard_expired_as_absent demo_expired_cache key_a 10 [] [] (demo_entry key_a 1 5 0 1)
      demo_expired_match).2.2.2.2.2.2 10).2⟩

/-! ## The header counts the chained entries -/

theorem remove_entry_nentries (c : apc_cache_t) (e : apc_cache_entry_t) (now : Int) :
    (apc_cache_wlocked_remove_entry c e now).header.nentries =
      (if c.header.nentries ≠ 0 then c.header.nentries - 1 else c.header.nentries) := by
  unfold apc_cache_wlocked_remove_entry free_entry
  by_cases h1 : c.header.mem_size = 0 <;> by_cases h2 : c.header.nentries = 0 <;>
    by_cases h3 : e.ref_count ≤ 0 <;> simp [h1, h2, h3]

/-- Removing entries that the header counts lowers `nentries` by their number. -/
theorem remove_all_nentries (now : Int) :
    ∀ (l : List apc_cache_entry_t) (c : apc_cache_t), (l.length : Int) ≤ c.header.nentries →
      (remove_all now l c).header.nentries = c.header.nentries - l.length
  | [], c, _ => by simp [remove_all]
  | a :: l, c, hle => by
    have hr := remove_entry_nentries c a now
    simp only [List.length_cons, Nat.cast_add, Nat.cast_one] at hle ⊢
    have hl : (0 : Int) ≤ l.length := Int.ofNat_nonneg _
    rw [remove_all, remove_all_nentries now l _ (by rw [hr]; split <;> omega), hr]
    split <;> omega

theorem gc_nentries (c : apc_cache_t) (now : Int) :
    (apc_cache_wlocked_gc c now).header.nentries = c.header.nentries := by
  unfold apc_cache_wlocked_gc
  cases hg : c.header.gc <;> rfl

theorem counted_of_perm (c c2 : apc_cache_t) (L : List apc_cache_entry_t) (now : Int)
    (c0 : apc_cache_t) (h0 : c0.header.nentries = c.header.nentries)
    (hp : (chained c).Perm (chained c2 ++ L))
    (hh : c2.header.nentries = (remove_all now L c0).header.nentries)
    (h : counted c) : counted c2 := by
  have hlen : (chained c).length = (chained c2).length + L.length := by
    rw [hp.length_eq, List.length_append]
  unfold counted at h ⊢
  rw [hh, remove_all_nentries now L c0 (by rw [h0, h, hlen]; push_cast; omega), h0, h, hlen]
  push_cast
  omega

theorem counting_closed : closed_family (fun _ c => counted c) where
  mono := fun _ _ _ _ h => h
  rewrite := by
    intro _ c c2 hr h
    unfold counted at h ⊢
    rw [hr.2.2.2.2, h, (rewritten_chained c c2 hr).length_eq]
  sweep := by
    intro _ c now h
    have h1 : chained (apc_cache_wlocked_gc c now) = chained c := by
      unfold chained; rw [gc_slots]
    unfold counted at h ⊢
    rw [h1, gc_nentries]; exact h
  remove := by
    intro _ c s ch L now hs hp h
    exact counted_of_perm c _ L now c rfl
      (chained_set_perm c (remove_all now L c) s ch L hs (remove_all_slots now L c) hp) rfl h
  remove_filtered := by
    intro _ c p now h
    refine counted_of_perm c _ ((chained c).filter p) now c rfl ?_ rfl h
    have hc := chained_filtered c
      { remove_all now ((chained c).filter p) c with
        slots := c.slots.map fun ch => ch.filter fun e => !p e } (fun e => !p e) rfl
    rw [hc]
    exact filter_split_perm p (chained c)
  wipe := by
    intro _ c t now _
    unfold counted
    rw [real_expunge_chained, (real_expunge_fields c t now).2.2.2.2.1]
    rfl
  link := by
    intro _ r s n hs _ h
    obtain ⟨A, B, _, hset⟩ := chained_split r.cache s hs
    have h1 : chained (unlink_cache r s) = A ++ (r.before ++ r.after) ++ B :=
      hset r.cache _ rfl
    have h2 : chained (link_cache r s n) = A ++ (r.before ++ linked_entry n :: r.after) ++ B :=
      hset _ _ rfl
    have hh : (link_cache r s n).header.nentries = (unlink_cache r s).header.nentries + 1 :=
      rfl
    unfold counted at h ⊢
    rw [hh, h, h1, h2]
    simp only [List.length_append, List.length_cons]
    push_cast
    omega

theorem create_counted (sma : apc_sma_t) (serializer : Option apc_serializer_t)
    (php : apc_serializer_t) (size_hint gc_ttl ttl smart : Int) (defend : Bool) (stime : Int) :
    counted (apc_cache_create sma serializer php size_hint gc_ttl ttl smart defend stime) := by
  unfold counted
  rw [create_chained]
  rfl

theorem chain_length_le (c : apc_cache_t) (s : Nat) :
    (slot_chain c s).length ≤ (chained c).length := by
  by_cases hs : s < c.slots.length
  · rw [slot_chain_getElem c s hs]
    exact (List.sublist_flatten_of_mem (List.getElem_mem hs)).length_le
  · rw [slot_chain_nil_of_ge c s (by omega)]
    simp

theorem filter_expired_pos_congr (c c1 : apc_cache_t) (t : Int) (h : c1.ttl = c.ttl)
    (l : List apc_cache_entry_t) :
    l.filter (fun x => apc_cache_entry_expired c1 x t) =
      l.filter (fun x => apc_cache_entry_expired c x t) := by
  have : (fun x => apc_cache_entry_expired c1 x t) =
      (fun x => apc_cache_entry_expired c x t) := by
    funext x
    rw [expired_congr c c1 x t h]
  rw [this]

/-- A successful store of a key that no chain entry has: `nentries` goes up by one and down
by the number of expired entries cleaned from the chain. -/
theorem store_new_nentries (c : apc_cache_t) (key : zend_string) (val : zval) (ttl : Int)
    (exclusive : Bool) (t now : Int) (owner : Nat) (grant : Option Nat)
    (hc : counted c) (hno : no_match c key)
    (hok : (apc_cache_store c key val ttl exclusive t now owner grant).1 = true) :
    (apc_cache_store c key val ttl exclusive t now owner grant).2.header.nentries =
      c.header.nentries + 1 -
        ((slot_chain c (apc_cache_hash_slot c key).2).filter
          (fun x => apc_cache_entry_expired c x t)).length := by
  rcases store_by_built c key val ttl exclusive t now owner grant with
    ⟨_, hf, _⟩ | ⟨n1, c1, c3, lk, hsome, f1, f2, f3, hc1, hs⟩
  · rw [hf] at hok; simp at hok
  · obtain ⟨p1, _, _, p4, _, _, _, p8, _⟩ := store_prepared c c1 lk hc1
    clear hc1
    have hslot : apc_cache_hash_slot c1 n1.key = apc_cache_hash_slot c key := by
      rw [f1]; exact hash_slot_congr c c1 key (by rw [p1])
    have hno1 : no_match c1 n1.key := by
      unfold no_match
      rw [hslot, slot_chain_congr c c1 _ p1, f1]
      exact hno
    have hch : slot_chain c1 (apc_cache_hash_slot c1 n1.key).2 =
        slot_chain c (apc_cache_hash_slot c key).2 := by
      rw [hslot]; exact slot_chain_congr c c1 _ p1
    have hw := wlocked_insert_nomatch c1 n1 exclusive now hno1
    rw [hs, hw]
    simp only [if_true]
    show (remove_all now _ (apc_cache_wlocked_gc c1 now)).header.nentries + 1 = _
    rw [hch, filter_expired_pos_congr c c1 n1.ctime p4, f2]
    have hle : (((slot_chain c (apc_cache_hash_slot c key).2).filter
        (fun x => apc_cache_entry_expired c x t)).length : Int) ≤ c.header.nentries := by
      rw [hc]
      have h1 := (List.filter_sublist (l := slot_chain c (apc_cache_hash_slot c key).2)
        (p := fun x => apc_cache_entry_expired c x t)).length_le
      have h2 := chain_length_le c (apc_cache_hash_slot c key).2
      exact_mod_cast le_trans h1 h2
    rw [remove_all_nentries now _ _ (by rw [gc_nentries, p8]; exact hle), gc_nentries, p8]
    omega

/-- A successful store of a key that a chain entry has: `nentries` goes down by the number of
expired entries cleaned in front of that entry. -/
theorem store_replace_nentries (c : apc_cache_t) (key : zend_string) (val : zval) (ttl : Int)
    (exclusive : Bool) (t now : Int) (owner : Nat) (grant : Option Nat)
    (pre suf : List apc_cache_entry_t) (e : apc_cache_entry_t)
    (hc : counted c) (hfm : first_match c key pre e suf)
    (hok : (apc_cache_store c key val ttl exclusive t now owner grant).1 = true) :
    (apc_cache_store c key val ttl exclusive t now owner grant).2.header.nentries =
      c.header.nentries -
        (pre.filter (fun x => apc_cache_entry_expired c x t)).length := by
  rcases store_by_built c key val ttl exclusive t now owner grant with
    ⟨_, hf, _⟩ | ⟨n1, c1, c3, lk, hsome, f1, f2, f3, hc1, hs⟩
  · rw [hf] at hok; simp at hok
  · obtain ⟨p1, _, _, p4, _, _, _, p8, _⟩ := store_prepared c c1 lk hc1
    clear hc1
    have hslot : apc_cache_hash_slot c1 n1.key = apc_cache_hash_slot c key := by
      rw [f1]; exact hash_slot_congr c c1 key (by rw [p1])
    have hfm1 : first_match c1 n1.key pre e suf := by
      unfold first_match
      rw [hslot, slot_chain_congr c c1 _ p1, f1]
      exact hfm
    have hx1 : (exclusive && !apc_cache_entry_hard_expired e n1.ctime) = false := by
      cases hex : exclusive with
      | false => rfl
      | true =>
        cases hl : apc_cache_entry_hard_expired e n1.ctime with
        | true => rfl
        | false =>
          subst hex
          rw [hs, wlocked_insert_conflict c1 n1 now pre suf e hfm1 hl] at hok
          simp at hok
    have hw := wlocked_insert_match c1 n1 exclusive now pre suf e hfm1 hx1
    rw [hs, hw]
    simp only [if_true]
    show (remove_all now _ (apc_cache_wlocked_gc c1 now)).header.nentries + 1 = _
    rw [filter_expired_pos_congr c c1 n1.ctime p4, f2]
    have hle : ((pre.filter (fun x => apc_cache_entry_expired c x t) ++ [e]).length : Int) ≤
        c.header.nentries := by
      rw [hc]
      have h1 := (List.filter_sublist (l := pre)
        (p := fun x => apc_cache_entry_expired c x t)).length_le
      have h2 := chain_length_le c (apc_cache_hash_slot c key).2
      rw [hfm.1] at h2
      simp only [List.length_append, List.length_cons, List.length_nil] at h2 ⊢
      push_cast
      omega
    rw [remove_all_nentries now _ _ (by rw [gc_nentries, p8]; exact hle), gc_nentries, p8]
    simp only [List.length_append, List.length_cons, List.length_nil]
    push_cast
    omega

theorem demo_counted : counted demo_accounted_cache := by
  have hc : chained demo_accounted_cache =
      [demo_entry key_d 7 1 0 1, demo_entry key_a 1 0 0 2] := rfl
  unfold counted
  rw [hc]
  rfl

theorem demo_counted_match :
    first_match demo_accounted_cache key_a [demo_entry key_d 7 1 0 1]
      (demo_entry key_a 1 0 0 2) [] :=
  ⟨rfl, by simp [demo_entry, key_d, key_a], rfl⟩

/-- C33, as the claim states it, fails: on the cache whose header counts its two entries, the
entry of `"d"` (expired at second 5) in front of the entry of `"a"`, a store of `"a"` at
second 5 succeeds, replaces the entry of `"a"` and leaves `nentries = 1`. -/
theorem C33_counterexample :
    counted demo_accounted_cache ∧ demo_accounted_cache.header.nentries = 2 ∧
    first_match demo_accounted_cache key_a [demo_entry key_d 7 1 0 1]
      (demo_entry key_a 1 0 0 2) [] ∧
    (apc_cache_store demo_accounted_cache key_a (.long 9) 0 false 5 5 1 (some 10)).1 = true ∧
    (apc_cache_store demo_accounted_cache key_a (.long 9) 0 false 5 5 1
      (some 10)).2.header.nentries = 1 :=
  ⟨demo_counted, rfl, demo_counted_match, by rfl, by rfl⟩

/-- C33, amended: `header.nentries` is the number of entries reachable from the slot chains in
a freshly created cache; every public operation (store of a new key, replacing store, inline
removal of expired entries, delete, update, expunge, clear) run on a cache with at least one
slot whose header counts its chained entries leaves such a cache; so the header counts the
chained entries in every cache reached from a created one. On such a cache a successful
store of a key that no chain entry has raises `nentries` by one minus the number of expired
entries it cleaned from the chain, and a successful store of a key that a chain entry has
lowers `nentries` by the number of expired entries it cleaned in front of that entry,
leaving it unchanged when there is none. -/
theorem C33_entry_count (sma : apc_sma_t) (serializer : Option apc_serializer_t)
    (php : apc_serializer_t) (size_hint gc_ttl ttl smart : Int) (defend : Bool) (stime : Int)
    (ops : List Op) (c : apc_cache_t) (op : Op) (hn : 0 < c.nslots) (hc : counted c) :
    counted (apc_cache_create sma serializer php size_hint gc_ttl ttl smart defend stime) ∧
    counted (step c op) ∧
    (run (apc_cache_create sma serializer php size_hint gc_ttl ttl smart defend stime)
        ops).header.nentries =
      ((chained
        (run (apc_cache_create sma serializer php size_hint gc_ttl ttl smart defend stime)
          ops)).length : Int) ∧
    (∀ key val ttl2 exclusive t now owner grant, no_match c key →
      (apc_cache_store c key val ttl2 exclusive t now owner grant).1 = true →
      (apc_cache_store c key val ttl2 exclusive t now owner grant).2.header.nentries =
        c.header.nentries + 1 -
          ((slot_chain c (apc_cache_hash_slot c key).2).filter
            (fun x => apc_cache_entry_expired c x t)).length) ∧
    (∀ key val ttl2 exclusive t now owner grant pre e suf, first_match c key pre e suf →
      (apc_cache_store c key val ttl2 exclusive t now owner grant).1 = true →
      (apc_cache_store c key val ttl2 exclusive t now owner grant).2.header.nentries =
        c.header.nentries - (pre.filter (fun x => apc_cache_entry_expired c x t)).length) :=
  ⟨create_counted sma serializer php size_hint gc_ttl ttl smart defend stime,
    step_closed (fun _ c => counted c) counting_closed c op hn hc,
    run_closed (fun _ c => counted c) counting_closed ops _
      (create_nslots_pos sma serializer php size_hint gc_ttl ttl smart defend stime)
      (create_counted sma serializer php size_hint gc_ttl ttl smart defend stime),
    fun key val ttl2 exclusive t now owner grant hno hok =>
      store_new_nentries c key val ttl2 exclusive t now owner grant hc hno hok,
    fun key val ttl2 exclusive t now owner grant pre e suf hfm hok =>
      store_replace_nentries c key val ttl2 exclusive t now owner grant pre suf e hc hfm hok⟩

theorem C33_entry_count_witness :
    0 < demo_accounted_cache.nslots ∧ counted demo_accounted_cache ∧
    counted (step demo_accounted_cache (.store key_a (.long 9) 0 false 5 5 1 (some 10))) ∧
    (apc_cache_store demo_accounted_cache key_a (.long 9) 0 false 0 0 1
      (some 10)).2.header.nentries = 2 :=
  ⟨by decide, demo_counted,
    (C33_entry_count demo_sma none demo_serializer 1 3600 0 0 false 0 []
      demo_accounted_cache (.store key_a (.long 9) 0 false 5 5 1 (some 10)) (by decide)
      demo_counted).2.1,
    ((C33_entry_count demo_sma none demo_serializer 1 3600 0 0 false 0 []
      demo_accounted_cache (.store key_a (.long 9) 0 false 5 5 1 (some 10)) (by decide)
      demo_counted).2.2.2.2 key_a (.long 9) 0 false 0 0 1 (some 10)
        [demo_entry key_d 7 1 0 1] (demo_entry key_a 1 0 0 2) [] demo_counted_match
        (by rfl)).trans (by rfl)⟩

/-! ## Which operations sweep the GC list -/

theorem gc_sweeps (c : apc_cache_t) (now : Int) : gc_swept (apc_cache_wlocked_gc c now) := by
  intro g hg
  have hgc : (apc_cache_wlocked_gc c now).header.gc =
      c.header.gc.filter (fun e => !gc_frees c.gc_ttl now e) := by
    unfold apc_cache_wlocked_gc
    cases hl : c.header.gc with
    | nil => simp [hl]
    | cons x rest => exact (gc_walk_filter c.gc_ttl now (x :: rest) c.sma).1
  rw [hgc] at hg
  have h2 := (List.mem_filter.1 hg).2
  unfold gc_frees at h2
  simp only [Bool.not_eq_true', decide_eq_false_iff_not, not_or] at h2
  exact h2.1

theorem remove_all_swept (now : Int) (l : List apc_cache_entry_t) (c : apc_cache_t)
    (h : gc_swept c) : gc_swept (remove_all now l c) := by
  intro g hg
  rw [remove_all_gc] at hg
  rcases List.mem_append.1 hg with h1 | h1
  · unfold gc_added at h1
    rw [List.mem_reverse, List.mem_map] at h1
    obtain ⟨x, hx, rfl⟩ := h1
    have := (List.mem_filter.1 hx).2
    simp only [decide_eq_true_eq] at this
    show x.ref_count ≠ 0
    omega
  · exact h g h1

theorem gc_swept_congr (c c2 : apc_cache_t) (h : c2.header.gc = c.header.gc)
    (hs : gc_swept c) : gc_swept c2 := by
  unfold gc_swept at hs ⊢
  rw [h]; exact hs

/-- An insert leaves a GC list with no entry at reference count 0. -/
theorem insert_swept (c1 : apc_cache_t) (n : apc_cache_entry_t) (exclusive : Bool)
    (now : Int) : gc_swept (apc_cache_wlocked_insert c1 n exclusive now).2 := by
  have hg := gc_sweeps c1 now
  rcases chain_split (fun x => key_match x.key (ZSTR_HASH n.key) n.key)
    (slot_chain c1 (apc_cache_hash_slot c1 n.key).2) with hno | ⟨pre, e, suf, hc, hpre, he⟩
  · have hno2 : no_match c1 n.key := fun x hx => (key_match_false_iff _ _).1 (hno x hx)
    rw [wlocked_insert_nomatch c1 n exclusive now hno2]
    exact gc_swept_congr _ _ rfl (remove_all_swept now _ _ hg)
  · have hfm : first_match c1 n.key pre e suf :=
      ⟨hc, fun x hx => (key_match_false_iff _ _).1 (hpre x hx), (key_match_self_iff _ _).1 he⟩
    by_cases hx : (exclusive && !apc_cache_entry_hard_expired e n.ctime) = false
    · rw [wlocked_insert_match c1 n exclusive now pre suf e hfm hx]
      exact gc_swept_congr _ _ rfl (remove_all_swept now _ _ hg)
    · have hx2 : exclusive = true ∧ apc_cache_entry_hard_expired e n.ctime = false := by
        cases exclusive <;> cases hh : apc_cache_entry_hard_expired e n.ctime <;> simp_all
      obtain ⟨hex, hl⟩ := hx2
      subst hex
      rw [wlocked_insert_conflict c1 n now pre suf e hfm hl]
      exact gc_swept_congr _ _ rfl (remove_all_swept now _ _ hg)

/-- A store that reaches the insert leaves a GC list with no entry at reference count 0. -/
theorem store_swept (c : apc_cache_t) (key : zend_string) (val : zval) (ttl : Int)
    (exclusive : Bool) (t now : Int) (owner : Nat) (grant : Option Nat)
    (n0 : apc_cache_entry_t) (hb : store_builds c key val ttl t owner grant = some n0) :
    gc_swept (apc_cache_store c key val ttl exclusive t now owner grant).2 := by
  rcases store_by_built c key val ttl exclusive t now owner grant with
    ⟨hnone, _⟩ | ⟨n1, c1, c3, lk, hsome, f1, f2, f3, hc1, hs⟩
  · rw [hnone] at hb; simp at hb
  · rw [hs]
    split
    · exact insert_swept c1 n1 exclusive now
    · exact gc_swept_congr _ _ rfl (insert_swept c1 n1 exclusive now)

/-- A store that gives up before the insert leaves the GC list as it was. -/
theorem store_unswept (c : apc_cache_t) (key : zend_string) (val : zval) (ttl : Int)
    (exclusive : Bool) (t now : Int) (owner : Nat) (grant : Option Nat)
    (hb : store_builds c key val ttl t owner grant = none) :
    (apc_cache_store c key val ttl exclusive t now owner grant).2.header.gc = c.header.gc := by
  obtain ⟨lk, hd⟩ := defense_cache c key t owner
  unfold store_builds at hb
  unfold apc_cache_store
  dsimp only
  by_cases hslam : (apc_cache_defense c key t owner).1 = true
  · rw [if_pos hslam, defense_slam_cache c key t owner hslam]
  · rw [if_neg hslam, hd] at hb
    rw [if_neg hslam, hd]
    cases hctx : apc_cache_make_copy_in_context
        { c with header := { c.header with lastkey := lk } } grant with
    | mk o c1 =>
      rw [hctx] at hb
      cases o with
      | none =>
        have := make_context_none _ _ _ hctx
        subst this
        rfl
      | some ctxt =>
        obtain ⟨h1, h2, h3, h4, h5, h6⟩ := make_context_some _ _ _ _ hctx
        subst h6
        dsimp only at hb ⊢
        cases hme : apc_cache_make_entry ctxt key val ttl t with
        | mk o2 ctxt1 =>
          rw [hme] at hb
          cases o2 with
          | none => rfl
          | some n => simp at hb

theorem swept_from_of_swept (c c2 : apc_cache_t) (h : gc_swept c2) : gc_swept_from c c2 :=
  fun g _ h0 hg => h g hg h0

theorem gc_added_counted (now : Int) (l : List apc_cache_entry_t) :
    ∀ g ∈ gc_added now l, g.ref_count ≠ 0 := by
  intro g h1
  unfold gc_added at h1
  rw [List.mem_reverse, List.mem_map] at h1
  obtain ⟨x, hx, rfl⟩ := h1
  have := (List.mem_filter.1 hx).2
  simp only [decide_eq_true_eq] at this
  show x.ref_count ≠ 0
  omega

theorem real_expunge_gc_swept (c : apc_cache_t) (t now : Int) (h : gc_swept c) :
    gc_swept (apc_cache_wlocked_real_expunge c t now) := by
  intro g hg
  rw [(real_expunge_fields c t now).2.2.2.2.2.2.2.2.2.1] at hg
  rcases List.mem_append.1 hg with h1 | h1
  · exact gc_added_counted now _ g h1
  · exact h g h1

theorem expunge_processing_swept (c2 : apc_cache_t) (needed : Bool) (t now : Int)
    (avail_size : Bool) (h : gc_swept c2) :
    gc_swept (expunge_processing c2 needed t now avail_size) := by
  unfold expunge_processing
  split
  · split
    · exact real_expunge_gc_swept c2 t now h
    · exact h
  · split
    · have h4 : gc_swept { (expunge_slots t now c2.slots c2).2 with
          slots := (expunge_slots t now c2.slots c2).1 } := by
        rw [expunge_slots_eq c2 t now c2.slots c2 rfl]
        exact gc_swept_congr _ _ rfl (remove_all_swept now _ c2 h)
      dsimp only
      split
      · exact gc_swept_congr _ _ rfl h4
      · exact real_expunge_gc_swept _ t now h4
    · exact h

/-- An expunge on a cache that is not busy leaves a GC list with no entry at reference
count 0. -/
theorem expunge_gc_swept (c : apc_cache_t) (size : Nat) (t now : Int) (available : Nat)
    (avail_size : Bool) (hb : apc_cache_busy c = false) :
    gc_swept (apc_cache_default_expunge c size t now available avail_size) := by
  unfold apc_cache_default_expunge
  rw [if_neg (by simp [hb])]
  dsimp only
  exact gc_swept_congr _ _ rfl (expunge_processing_swept _ _ t now avail_size (gc_sweeps _ now))

/-- A delete keeps every entry of the GC list. -/
theorem delete_keeps_gc (c : apc_cache_t) (key : zend_string) (now : Int) :
    ∀ g ∈ c.header.gc, g ∈ (apc_cache_delete c key now).2.header.gc := by
  intro g hg
  rcases chain_split (fun x => key_match x.key (ZSTR_HASH key) key)
    (slot_chain c (apc_cache_hash_slot c key).2) with hno | ⟨pre, e, suf, hc, hpre, he⟩
  · rw [apc_cache_delete_miss c key now (fun x hx => (key_match_false_iff _ _).1 (hno x hx))]
    exact hg
  · rw [apc_cache_delete_hit c key now pre suf e hc
      (fun x hx => (key_match_false_iff _ _).1 (hpre x hx)) ((key_match_self_iff _ _).1 he)]
    show g ∈ (remove_all now [e] c).header.gc
    rw [remove_all_gc]
    exact List.mem_append_right _ hg

/-- A clear keeps every entry of the GC list. -/
theorem clear_keeps_gc (c : apc_cache_t) (t now : Int) :
    ∀ g ∈ c.header.gc, g ∈ (apc_cache_clear c t now).header.gc := by
  intro g hg
  unfold apc_cache_clear
  split
  · exact hg
  · show g ∈ (apc_cache_wlocked_real_expunge _ t now).header.gc
    rw [(real_expunge_fields _ t now).2.2.2.2.2.2.2.2.2.1]
    exact List.mem_append_right _ hg

/-- An update that may not insert leaves the header as it was. -/
theorem update_only_header (c : apc_cache_t) (key : zend_string)
    (updater : apc_cache_updater_t) (ttl t now : Int) (owner : Nat) (grant : Option Nat) :
    (apc_cache_update c key updater false ttl t now owner grant).cache.header = c.header := by
  have heq := update_eq c key updater false ttl t now owner grant
  by_cases hb : apc_cache_busy c = true
  · simp only [apc_cache_update_fuel, hb, if_true, Option.some.injEq] at heq
    rw [heq]
  · have hb2 : apc_cache_busy c = false := by simpa using hb
    cases hw : update_walk c.serializer updater (ZSTR_HASH key) key t
        (slot_chain c (apc_cache_hash_slot c key).2) with
    | some r =>
      rw [update_not_busy_found c key updater false ttl t now owner grant r hb2 hw 1] at heq
      simp only [Option.some.injEq] at heq
      rw [heq]
      rfl
    | none =>
      rw [update_not_busy_missed c key updater ttl t now owner grant hb2 hw 1] at heq
      simp only [Option.some.injEq] at heq
      rw [heq]

theorem demo_released_gc :
    demo_released_cache.header.gc = [{ demo_entry key_a 1 0 0 1 with nhits := 1, dtime := 5 }] := by
  rfl

/-- C31, counterexample: the GC list of the demonstration cache holds the entry of `"a"`
with `ref_count = 0`, and it is still on the GC list after a delete of `"b"`, after a clear
and after an update of `"b"` that may not insert. -/
theorem C31_counterexample :
    ∃ g ∈ demo_released_cache.header.gc, g.ref_count = 0 ∧
      g ∈ (apc_cache_delete demo_released_cache key_b 6).2.header.gc ∧
      g ∈ (apc_cache_clear demo_released_cache 6 6).header.gc ∧
      g ∈ (apc_cache_update demo_released_cache key_b demo_inc false 0 6 6 1
        (some 10)).cache.header.gc := by
  refine ⟨{ demo_entry key_a 1 0 0 1 with nhits := 1, dtime := 5 }, ?_, rfl, ?_, ?_, ?_⟩
  · rw [demo_released_gc]; exact List.mem_singleton.2 rfl
  · exact delete_keeps_gc _ _ _ _ (by rw [demo_released_gc]; exact List.mem_singleton.2 rfl)
  · exact clear_keeps_gc _ _ _ _ (by rw [demo_released_gc]; exact List.mem_singleton.2 rfl)
  · rw [update_only_header, demo_released_gc]; exact List.mem_singleton.2 rfl

/-- C31, amended: the GC list is swept by a store that reaches the insert and by an expunge on
a cache that is not busy, and by nothing else. After such a store or expunge the GC list
contains no entry that was on it with `ref_count = 0` before the call. A store that gives up
before the insert leaves the GC list as it was, an expunge on a busy cache leaves the cache
as it was, a delete and a clear keep every entry of the GC list, an update that may not
insert leaves the GC list as it was, and any update leaves the GC list as it was or as the
exclusive store of 0 leaves it. -/
theorem C31_gc_sweep_points (c : apc_cache_t) (key : zend_string) (val : zval)
    (ttl : Int) (exclusive : Bool) (t now : Int) (owner : Nat) (grant : Option Nat)
    (updater : apc_cache_updater_t) (ins : Bool) (size available : Nat) (avail_size : Bool) :
    ((store_builds c key val ttl t owner grant).isSome = true →
      gc_swept_from c (apc_cache_store c key val ttl exclusive t now owner grant).2) ∧
    (store_builds c key val ttl t owner grant = none →
      (apc_cache_store c key val ttl exclusive t now owner grant).2.header.gc =
        c.header.gc) ∧
    (apc_cache_busy c = false →
      gc_swept_from c (apc_cache_default_expunge c size t now available avail_size)) ∧
    (apc_cache_busy c = true →
      apc_cache_default_expunge c size t now available avail_size = c) ∧
    (∀ g ∈ c.header.gc, g ∈ (apc_cache_delete c key now).2.header.gc) ∧
    (∀ g ∈ c.header.gc, g ∈ (apc_cache_clear c t now).header.gc) ∧
    (ins = false →
      (apc_cache_update c key updater ins ttl t now owner grant).cache.header.gc =
        c.header.gc) ∧
    ((apc_cache_update c key updater ins ttl t now owner grant).cache.header.gc =
        c.header.gc ∨
      (apc_cache_update c key updater ins ttl t now owner grant).cache.header.gc =
        (apc_cache_store c key (.long 0) (int32_t_cast ttl) true t now owner
          grant).2.header.gc) := by
  refine ⟨?_, store_unswept c key val ttl exclusive t now owner grant, ?_, ?_,
    delete_keeps_gc c key now, clear_keeps_gc c t now, ?_, ?_⟩
  · intro hb
    cases hsb : store_builds c key val ttl t owner grant with
    | none => rw [hsb] at hb; simp at hb
    | some n0 =>
      exact swept_from_of_swept _ _
        (store_swept c key val ttl exclusive t now owner grant n0 hsb)
  · intro hb
    exact swept_from_of_swept _ _ (expunge_gc_swept c size t now available avail_size hb)
  · intro hb
    unfold apc_cache_default_expunge
    rw [if_pos hb]
  · intro hi
    subst hi
    rw [update_only_header]
  · rcases update_header c key updater ins ttl t now owner grant with h | h
    · exact Or.inl (by rw [h])
    · exact Or.inr (by rw [h])

/-- C31 on the demonstration cache, whose GC list holds the entry of `"a"` with
`ref_count = 0`: a store of `"b"` at second 6 reaches the insert and the GC list is empty
after it. -/
theorem C31_gc_sweep_points_witness :
    demo_released_cache.header.gc = [{ demo_entry key_a 1 0 0 1 with nhits := 1, dtime := 5 }] ∧
    (store_builds demo_released_cache key_b (.long 1) 0 6 1 (some 10)).isSome = true ∧
    gc_swept_from demo_released_cache
      (apc_cache_store demo_released_cache key_b (.long 1) 0 false 6 6 1 (some 10)).2 ∧
    (apc_cache_store demo_released_cache key_b (.long 1) 0 false 6 6 1
      (some 10)).2.header.gc = [] :=
  ⟨demo_released_gc, by rfl,
    (C31_gc_sweep_points demo_released_cache key_b (.long 1) 0 false 6 6 1 (some 10)
      demo_inc false 0 0 false).1 (by rfl), rfl⟩

/-! ## The fingerprint of the slam defense -/

/-- The defense never changes the hash and the length of the fingerprint: it writes
`lastkey` only in the branch where both already equal those of the key. -/
theorem defense_fingerprint_kept (c : apc_cache_t) (key : zend_string) (t : Int)
    (owner : Nat) :
    (apc_cache_defense c key t owner).2.header.lastkey.hash = c.header.lastkey.hash ∧
    (apc_cache_defense c key t owner).2.header.lastkey.len = c.header.lastkey.len := by
  unfold apc_cache_defense
  dsimp only
  split
  · split
    · exact ⟨rfl, rfl⟩
    · split
      · rename_i hm
        split
        · exact ⟨rfl, rfl⟩
        · exact ⟨hm.1.symm, hm.2.symm⟩
      · exact ⟨rfl, rfl⟩
  · exact ⟨rfl, rfl⟩

/-- A store leaves `lastkey` as its call of the defense left it. -/
theorem store_lastkey_eq (c : apc_cache_t) (key : zend_string) (val : zval) (ttl : Int)
    (exclusive : Bool) (t now : Int) (owner : Nat) (grant : Option Nat) :
    (apc_cache_store c key val ttl exclusive t now owner grant).2.header.lastkey =
      (apc_cache_defense c key t owner).2.header.lastkey := by
  unfold apc_cache_store
  dsimp only
  split
  · rfl
  · split
    · rename_i c1 hctx
      rw [make_context_none _ _ _ hctx]
    · rename_i ctxt c1 hctx
      obtain ⟨_, _, _, _, _, h6⟩ := make_context_some _ _ _ _ hctx
      subst h6
      split
      · rfl
      · split
        · exact wlocked_insert_lastkey _ _ _ _
        · exact wlocked_insert_lastkey _ _ _ _

theorem find_incref_header_lastkey (c : apc_cache_t) (key : zend_string) (t : Int) :
    (apc_cache_rlocked_find_incref c key t).1.header.lastkey = c.header.lastkey := by
  unfold apc_cache_rlocked_find_incref apc_cache_rlocked_find
  dsimp only
  split
  · rename_i hf
    split at hf
    · simp at hf
    · rfl
  · rename_i pre x suf hf
    split at hf
    · rfl
    · simp at hf

/-- A public call keeps the hash of the fingerprint or leaves `lastkey` all zero. -/
theorem step_fingerprint (c : apc_cache_t) (op : Op) :
    (step c op).header.lastkey.hash = c.header.lastkey.hash ∨
    (step c op).header.lastkey = lastkey_zero := by
  cases op with
  | store key val ttl exclusive t now owner grant =>
    left
    show (apc_cache_store c key val ttl exclusive t now owner grant).2.header.lastkey.hash = _
    rw [store_lastkey_eq]
    exact (defense_fingerprint_kept c key t owner).1
  | find key t =>
    left
    show (apc_cache_find c key t).1.header.lastkey.hash = _
    unfold apc_cache_find
    split
    · rfl
    · rw [find_incref_header_lastkey]
  | fetch key t =>
    left
    show (apc_cache_fetch c key t).2.2.header.lastkey.hash = _
    unfold apc_cache_fetch
    split
    · rfl
    · have hfi := find_incref_header_lastkey c key t
      split
      · rename_i c1 hf
        rw [hf] at hfi
        exact congrArg _ hfi
      · rename_i c1 entry hf
        rw [hf] at hfi
        exact congrArg _ hfi
  | exists_ key t => exact Or.inl rfl
  | release entry => exact Or.inl rfl
  | update key updater ins ttl t now owner grant =>
    left
    show (apc_cache_update c key updater ins ttl t now owner grant).cache.header.lastkey.hash = _
    rcases update_header c key updater ins ttl t now owner grant with h2 | h2
    · rw [h2]
    · rw [h2, store_lastkey_eq]
      exact (defense_fingerprint_kept c key t owner).1
  | delete key now =>
    left
    show (apc_cache_delete c key now).2.header.lastkey.hash = _
    rcases chain_split (fun x => key_match x.key (ZSTR_HASH key) key)
        (slot_chain c (apc_cache_hash_slot c key).2) with hno | ⟨pre, e, suf, hc, hpre, he⟩
    · rw [apc_cache_delete_miss c key now
        (fun x hx => (key_match_false_iff _ _).1 (hno x hx))]
    · rw [apc_cache_delete_hit c key now pre suf e hc
        (fun x hx => (key_match_false_iff _ _).1 (hpre x hx)) ((key_match_self_iff _ _).1 he)]
      exact congrArg _ ((remove_entry_frame c e now).2.2.2.2.2.2.2.1)
  | clear t now =>
    show (apc_cache_clear c t now).header.lastkey.hash = _ ∨
      (apc_cache_clear c t now).header.lastkey = _
    by_cases hb : apc_cache_busy c = true
    · unfold apc_cache_clear
      rw [if_pos hb]
      exact Or.inl rfl
    · unfold apc_cache_clear
      rw [if_neg hb]
      exact Or.inr (real_expunge_fields { c with header := { c.header with
        state := c.header.state ||| APC_CACHE_ST_BUSY } } t now).2.2.2.2.2.2.1
  | expunge size t now available avail_size =>
    show (apc_cache_default_expunge c size t now available avail_size).header.lastkey.hash = _ ∨
      (apc_cache_default_expunge c size t now available avail_size).header.lastkey = _
    by_cases hb : apc_cache_busy c = true
    · unfold apc_cache_default_expunge
      rw [if_pos hb]
      exact Or.inl rfl
    · have hb2 : apc_cache_busy c = false := by simpa using hb
      rw [expunge_not_busy c size t now available avail_size hb2]
      have a8 := (expunge_swept c now).1.2.2.2.2.2.2.2.1
      rcases expunge_processing_lastkey
        (apc_cache_wlocked_gc { c with header := { c.header with
          state := c.header.state ||| APC_CACHE_ST_BUSY } } now)
        (decide ((available : Int) < expunge_suitable c size)) t now avail_size with h2 | h2
      · exact Or.inl (congrArg _ (h2.trans a8))
      · exact Or.inr h2

/-- C32: in every cache that a freshly created cache reaches by public calls, with slam
defense on or off, `lastkey` is all zero and so `lastkey.hash` is 0; `apc_cache_defense`
returns false for every key, time and owner and writes nothing; and a store builds its entry
whenever the allocator grants the pool and `apc_cache_make_entry` succeeds, so none is
suppressed as a slam. The reason, for any cache at all: the defense never changes the hash
and the length of the fingerprint, and a public call keeps the hash of the fingerprint or
leaves `lastkey` all zero. -/
theorem C32_lastkey_never_stamped (c : apc_cache_t) (hr : Reachable c) :
    c.header.lastkey = lastkey_zero ∧
    c.header.lastkey.hash = 0 ∧
    (∀ (key : zend_string) (t : Int) (owner : Nat),
      apc_cache_defense c key t owner = (false, c)) ∧
    (∀ (key : zend_string) (val : zval) (ttl t : Int) (owner : Nat) (grant : Option Nat),
      store_builds c key val ttl t owner grant =
        match apc_cache_make_copy_in_context c grant with
        | (none, _) => none
        | (some ctxt, _) => (apc_cache_make_entry ctxt key val ttl t).1) ∧
    (∀ (c0 : apc_cache_t) (key : zend_string) (t : Int) (owner : Nat),
      (apc_cache_defense c0 key t owner).2.header.lastkey.hash = c0.header.lastkey.hash ∧
      (apc_cache_defense c0 key t owner).2.header.lastkey.len = c0.header.lastkey.len) ∧
    (∀ (c0 : apc_cache_t) (op : Op),
      (step c0 op).header.lastkey.hash = c0.header.lastkey.hash ∨
      (step c0 op).header.lastkey = lastkey_zero) := by
  have h0 := reachable_lastkey c hr
  have hh : c.header.lastkey.hash = 0 := by rw [h0]; rfl
  refine ⟨h0, hh, fun key t owner => defense_inert c key t owner hh, ?_,
    defense_fingerprint_kept, step_fingerprint⟩
  intro key val ttl t owner grant
  unfold store_builds
  rw [defense_inert c key t owner hh]
  rfl

set_option maxRecDepth 20000 in
/-- C32 on the cache created with slam defense enabled, after two stores of `"k"` at second
100 by owner 1 and by owner 2: `lastkey` is all zero and the defense lets a third store by
owner 3 in the same second through. -/
theorem C32_lastkey_never_stamped_witness :
    (run demo_defended_cache
      [.store key_k (.long 1) 0 false 100 100 1 (some 10),
       .store key_k (.long 2) 0 false 100 100 2 (some 10)]).defend = true ∧
    (run demo_defended_cache
      [.store key_k (.long 1) 0 false 100 100 1 (some 10),
       .store key_k (.long 2) 0 false 100 100 2 (some 10)]).header.lastkey = lastkey_zero ∧
    (apc_cache_defense (run demo_defended_cache
      [.store key_k (.long 1) 0 false 100 100 1 (some 10),
       .store key_k (.long 2) 0 false 100 100 2 (some 10)]) key_k 100 3).1 = false :=
  ⟨rfl,
    (C32_lastkey_never_stamped _ ⟨_, _, _, _, _, _, _, _, _,
      [.store key_k (.long 1) 0 false 100 100 1 (some 10),
       .store key_k (.long 2) 0 false 100 100 2 (some 10)], rfl⟩).1,
    congrArg Prod.fst
      ((C32_lastkey_never_stamped _ ⟨_, _, _, _, _, _, _, _, _,
        [.store key_k (.long 1) 0 false 100 100 1 (some 10),
         .store key_k (.long 2) 0 false 100 100 2 (some 10)], rfl⟩).2.2.1 key_k 100 3)⟩

/-! ## The decrements of `apc_cache_wlocked_remove_entry` -/

theorem mem_size_le_sum : ∀ (l : List apc_cache_entry_t) (e : apc_cache_entry_t),
    (∀ x ∈ l, 0 ≤ x.mem_size) → e ∈ l → e.mem_size ≤ mem_sum l
  | a :: l, e, hnn, he => by
    have hs : mem_sum (a :: l) = a.mem_size + mem_sum l := by simp [mem_sum]
    have h2 := mem_sum_nonneg l (fun x hx => hnn x (List.mem_cons_of_mem _ hx))
    rw [hs]
    rcases List.mem_cons.1 he with h | h
    · subst h; omega
    · have := mem_size_le_sum l e (fun x hx => hnn x (List.mem_cons_of_mem _ hx)) h
      have := hnn a (List.mem_cons_self _ _)
      omega

/-- On a cache whose header counts and accounts for its chained entries, removing a chained
entry lowers `nentries` by exactly 1 and `mem_size` by exactly the size of the entry, and
neither goes below zero. -/
theorem remove_entry_exact (c : apc_cache_t) (dead : apc_cache_entry_t) (now : Int)
    (hd : dead ∈ chained c) (hc : counted c) (ha : accounted c) (hs : sizes_nonneg c) :
    (apc_cache_wlocked_remove_entry c dead now).header.nentries = c.header.nentries - 1 ∧
    (apc_cache_wlocked_remove_entry c dead now).header.mem_size =
      c.header.mem_size - dead.mem_size ∧
    0 ≤ (apc_cache_wlocked_remove_entry c dead now).header.nentries ∧
    0 ≤ (apc_cache_wlocked_remove_entry c dead now).header.mem_size := by
  have h1 : (1 : Int) ≤ c.header.nentries := by
    rw [hc]
    have := List.length_pos_of_mem hd
    omega
  have h2 : dead.mem_size ≤ c.header.mem_size := by
    rw [ha]; exact mem_size_le_sum _ _ hs hd
  have h3 := hs dead hd
  rw [remove_entry_nentries, remove_entry_mem_size]
  refine ⟨?_, ?_, ?_, ?_⟩
  · rw [if_pos (by omega)]
  · split <;> omega
  · split <;> omega
  · split <;> omega

/-- On such a cache a walk that removes the entries `l`, the chained entries being `l` and
the entries `k` it keeps, lowers `nentries` by the number of entries of `l` and `mem_size` by
the sum of their sizes, and neither goes below zero. -/
theorem remove_all_exact (c : apc_cache_t) (l k : List apc_cache_entry_t) (now : Int)
    (hp : (chained c).Perm (l ++ k)) (hc : counted c) (ha : accounted c)
    (hs : sizes_nonneg c) :
    (remove_all now l c).header.nentries = c.header.nentries - l.length ∧
    (remove_all now l c).header.mem_size = c.header.mem_size - mem_sum l ∧
    0 ≤ (remove_all now l c).header.nentries ∧
    0 ≤ (remove_all now l c).header.mem_size := by
  have hl : ∀ e ∈ l, 0 ≤ e.mem_size := fun e he =>
    hs e (hp.mem_iff.2 (List.mem_append_left _ he))
  have hk : 0 ≤ mem_sum k := mem_sum_nonneg k fun e he =>
    hs e (hp.mem_iff.2 (List.mem_append_right _ he))
  have hsum : c.header.mem_size = mem_sum l + mem_sum k := by
    rw [ha, mem_sum_perm hp, mem_sum_append]
  have hlen : c.header.nentries = (l.length : Int) + k.length := by
    rw [hc, hp.length_eq, List.length_append]; simp
  have hkl : (0 : Int) ≤ k.length := Int.ofNat_nonneg _
  rw [remove_all_nentries now l c (by omega), remove_all_mem_size now l c hl (by omega)]
  refine ⟨rfl, rfl, by omega, by omega⟩

/-- In every cache that a created cache reaches by public calls the header counts and
accounts for the chained entries, and no chained entry has a negative size. -/
theorem reachable_counted (c : apc_cache_t) (hr : Reachable c) :
    counted c ∧ accounted c ∧ sizes_nonneg c := by
  obtain ⟨sma, serializer, php, size_hint, gc_ttl, ttl, smart, defend, stime, ops, rfl⟩ := hr
  have h1 := run_closed (fun _ c => counted c) counting_closed ops _
      (create_nslots_pos sma serializer php size_hint gc_ttl ttl smart defend stime)
      (create_counted sma serializer php size_hint gc_ttl ttl smart defend stime)
  have h2 := run_accounted sma serializer php size_hint gc_ttl ttl smart defend stime ops
  exact ⟨h1, h2.1, h2.2⟩

set_option maxRecDepth 20000 in
theorem demo_created_chained : demo_entry key_k 1 0 0 1 ∈ chained demo_created_cache :=
  (mem_chained _ _).2 ⟨0, by
    have h : slot_chain demo_created_cache 0 = [demo_entry key_k 1 0 0 1] := rfl
    rw [h]
    exact List.mem_singleton.2 rfl⟩

/-- C27: for every cache state and chain cursor at an entry `dead`, each walk that calls
`apc_cache_wlocked_remove_entry` at the cursor drops `dead` from the chain and goes on at its
successor. The call decrements `header.nentries` by 1 and `header.mem_size` by
`dead.mem_size`, each behind the test that the field is not 0. In every cache that a created
cache reaches by public calls, and in every cache whose header counts and accounts for its
chained entries of non-negative size, the entry under the cursor is chained, so `nentries`
goes down by exactly 1 and `mem_size` by exactly `dead.mem_size` and neither goes below
zero; the same holds of a whole walk that removes several chained entries one after the
other. If `dead.ref_count ≤ 0` the pool of `dead` is handed back and the GC list is
unchanged, otherwise `dead` with `dtime = now` is the new head of the GC list, the previous
list is its tail and nothing is handed back. -/
theorem C27_remove_entry (c : apc_cache_t) (dead : apc_cache_entry_t) (now : Int)
    (rest : List apc_cache_entry_t) (h : Nat) (key : zend_string) (t : Int)
    (exclusive : Bool) :
    (key_match dead.key h key = true →
      delete_walk h key now c (dead :: rest) =
        (true, rest, apc_cache_wlocked_remove_entry c dead now)) ∧
    (key_match dead.key h key = true →
      (exclusive && !apc_cache_entry_hard_expired dead t) = false →
      insert_walk h key t now exclusive (dead :: rest) c =
        { ok := true, before := [], after := rest,
          cache := apc_cache_wlocked_remove_entry c dead now }) ∧
    (key_match dead.key h key = false → apc_cache_entry_expired c dead t = true →
      insert_walk h key t now exclusive (dead :: rest) c =
        insert_walk h key t now exclusive rest (apc_cache_wlocked_remove_entry c dead now)) ∧
    (apc_cache_entry_expired c dead t = true →
      expunge_walk t now (dead :: rest) c =
        expunge_walk t now rest (apc_cache_wlocked_remove_entry c dead now)) ∧
    remove_all now (dead :: rest) c =
      remove_all now rest (apc_cache_wlocked_remove_entry c dead now) ∧
    (apc_cache_wlocked_remove_entry c dead now).slots = c.slots ∧
    (apc_cache_wlocked_remove_entry c dead now).header.nentries =
      (if c.header.nentries ≠ 0 then c.header.nentries - 1 else c.header.nentries) ∧
    (apc_cache_wlocked_remove_entry c dead now).header.mem_size =
      (if c.header.mem_size ≠ 0 then c.header.mem_size - dead.mem_size
        else c.header.mem_size) ∧
    (0 ≤ c.header.nentries → 0 ≤ (apc_cache_wlocked_remove_entry c dead now).header.nentries) ∧
    (0 ≤ dead.mem_size → dead.mem_size ≤ c.header.mem_size →
      0 ≤ (apc_cache_wlocked_remove_entry c dead now).header.mem_size) ∧
    (dead.ref_count ≤ 0 →
      (apc_cache_wlocked_remove_entry c dead now).header.gc = c.header.gc ∧
      (apc_cache_wlocked_remove_entry c dead now).sma.destroyed =
        dead.pool.addr :: c.sma.destroyed) ∧
    (0 < dead.ref_count →
      (apc_cache_wlocked_remove_entry c dead now).header.gc =
        { dead with dtime := now } :: c.header.gc ∧
      (apc_cache_wlocked_remove_entry c dead now).sma = c.sma) ∧
    (dead ∈ chained c → counted c → accounted c → sizes_nonneg c →
      (apc_cache_wlocked_remove_entry c dead now).header.nentries = c.header.nentries - 1 ∧
      (apc_cache_wlocked_remove_entry c dead now).header.mem_size =
        c.header.mem_size - dead.mem_size ∧
      0 ≤ (apc_cache_wlocked_remove_entry c dead now).header.nentries ∧
      0 ≤ (apc_cache_wlocked_remove_entry c dead now).header.mem_size) ∧
    (∀ l k : List apc_cache_entry_t, (chained c).Perm (l ++ k) →
      counted c → accounted c → sizes_nonneg c →
      (remove_all now l c).header.nentries = c.header.nentries - l.length ∧
      (remove_all now l c).header.mem_size = c.header.mem_size - mem_sum l ∧
      0 ≤ (remove_all now l c).header.nentries ∧
      0 ≤ (remove_all now l c).header.mem_size) ∧
    (Reachable c → counted c ∧ accounted c ∧ sizes_nonneg c) ∧
    (Reachable c → dead ∈ chained c →
      (apc_cache_wlocked_remove_entry c dead now).header.nentries = c.header.nentries - 1 ∧
      (apc_cache_wlocked_remove_entry c dead now).header.mem_size =
        c.header.mem_size - dead.mem_size ∧
      0 ≤ (apc_cache_wlocked_remove_entry c dead now).header.nentries ∧
      0 ≤ (apc_cache_wlocked_remove_entry c dead now).header.mem_size) := by
  have hn : (apc_cache_wlocked_remove_entry c dead now).header.nentries =
      (if c.header.nentries ≠ 0 then c.header.nentries - 1 else c.header.nentries) := by
    unfold apc_cache_wlocked_remove_entry free_entry
    by_cases h1 : c.header.mem_size = 0 <;> by_cases h2 : c.header.nentries = 0 <;>
      by_cases h3 : dead.ref_count ≤ 0 <;> simp [h1, h2, h3]
  have hm : (apc_cache_wlocked_remove_entry c dead now).header.mem_size =
      (if c.header.mem_size ≠ 0 then c.header.mem_size - dead.mem_size
        else c.header.mem_size) := by
    unfold apc_cache_wlocked_remove_entry free_entry
    by_cases h1 : c.header.mem_size = 0 <;> by_cases h2 : c.header.nentries = 0 <;>
      by_cases h3 : dead.ref_count ≤ 0 <;> simp [h1, h2, h3]
  refine ⟨?_, ?_, ?_, ?_, rfl, ?_, hn, hm, ?_, ?_, ?_, ?_,
    remove_entry_exact c dead now,
    fun l k hp hc ha hs => remove_all_exact c l k now hp hc ha hs,
    reachable_counted c,
    fun hr hd => remove_entry_exact c dead now hd (reachable_counted c hr).1
      (reachable_counted c hr).2.1 (reachable_counted c hr).2.2⟩
  · intro hk
    rw [delete_walk, if_pos hk]
  · intro hk hex
    rw [insert_walk, if_pos hk]
    simp only [hex]
    rfl
  · intro hk hex
    rw [insert_walk]
    simp only [hk, hex, if_true]
    rfl
  · intro hex
    rw [expunge_walk, if_pos hex]
  · unfold apc_cache_wlocked_remove_entry free_entry
    by_cases h3 : dead.ref_count ≤ 0 <;> simp [h3]
  · intro h0
    rw [hn]
    split <;> omega
  · intro h0 h1
    rw [hm]
    split <;> omega
  · intro hr
    unfold apc_cache_wlocked_remove_entry free_entry apc_pool_destroy
    by_cases h1 : c.header.mem_size = 0 <;> by_cases h2 : c.header.nentries = 0 <;>
      simp [h1, h2, hr]
  · intro hr
    have hr2 : ¬ dead.ref_count ≤ 0 := by omega
    unfold apc_cache_wlocked_remove_entry free_entry
    by_cases h1 : c.header.mem_size = 0 <;> by_cases h2 : c.header.nentries = 0 <;>
      simp [h1, h2, hr2]

set_option maxRecDepth 20000 in
/-- C27 on the cache created with 257 slots after a store of `("k", 1)`: removing the entry
of `"k"` takes `nentries` from 1 to 0 and `mem_size` from the size of the entry to 0. -/
theorem C27_remove_entry_witness :
    Reachable demo_created_cache ∧
    demo_entry key_k 1 0 0 1 ∈ chained demo_created_cache ∧
    demo_created_cache.header.nentries = 1 ∧
    demo_created_cache.header.mem_size = (demo_entry key_k 1 0 0 1).mem_size ∧
    (apc_cache_wlocked_remove_entry demo_created_cache (demo_entry key_k 1 0 0 1)
      5).header.nentries = demo_created_cache.header.nentries - 1 ∧
    (apc_cache_wlocked_remove_entry demo_created_cache (demo_entry key_k 1 0 0 1)
      5).header.mem_size =
        demo_created_cache.header.mem_size - (demo_entry key_k 1 0 0 1).mem_size :=
  ⟨demo_created_reachable, demo_created_chained, rfl, rfl,
    ((C27_remove_entry demo_created_cache (demo_entry key_k 1 0 0 1) 5 [] 514 key_k 0
      false).2.2.2.2.2.2.2.2.2.2.2.2.2.2.2 demo_created_reachable demo_created_chained).1,
    ((C27_remove_entry demo_created_cache (demo_entry key_k 1 0 0 1) 5 [] 514 key_k 0
      false).2.2.2.2.2.2.2.2.2.2.2.2.2.2.2 demo_created_reachable demo_created_chained).2.1⟩

end Apcu
